import Mathlib

/-!
# Free-list land of the MPS (`code/freelist.c`)

A shallow embedding of the address-ordered free list.

* Addresses, sizes and counts are natural numbers.  Every address that occurs
  is a bound of a range handed to the land, and the stored blocks are disjoint
  ranges of one address space, so no sum computed below can wrap around the
  machine word.
* The in-place singly linked list is a `List FreelistBlock` in list order.  A
  pointer into the list is the list of blocks in front of it, nearest block
  first (so `prev` is the head of `prevs`), together with the list that starts
  at the pointer; `freelistEND` is the empty list.
* A block keeps the two things its memory holds besides the link: the tag bit
  of its first word (`small`) and the limit word of the large shape.
* `w` is `sizeof(struct FreelistBlockSmall)`, one pointer; the large shape is a
  pointer and an address, `2 * w` bytes.
* `AVER`/`AVERT` assertions are preconditions; they appear as hypotheses of the
  theorems, not in the definitions.
-/

namespace MPS

/-- An address range `[base, limit)` (`RangeStruct`). -/
structure Range where
  base : Nat
  limit : Nat
deriving DecidableEq, Repr

/-- Size of a range, `RangeSize`: `AddrOffset(base, limit)`. -/
def RangeSize (range : Range) : Nat := range.limit - range.base

/-- Result codes returned by the land methods modelled here. -/
inductive Res where
  | OK
  | FAIL
deriving DecidableEq, Repr

/-- The post-find action chosen by the caller of a find method. -/
inductive FindDelete where
  | NONE
  | LOW
  | HIGH
  | ENTIRE
deriving DecidableEq, Repr

/-- One block of the list.  `base` is the address of the block itself
(`freelistBlockBase`), `small` is the tag in the low bit of its `next` word and
`limit` is the `large.limit` word, which only a large block owns. -/
structure FreelistBlock where
  base : Nat
  small : Bool
  limit : Nat
deriving DecidableEq, Repr

/-- The land: `FreelistStruct` together with the alignment of its land. -/
structure Freelist where
  alignment : Nat
  list : List FreelistBlock
  listSize : Nat
  size : Nat
deriving DecidableEq, Repr

/-- The macro `freelistAlignment`: the alignment of the land. -/
def freelistAlignment (fl : Freelist) : Nat := fl.alignment

/-- Value of `sizeof(struct FreelistBlockLarge)` on a platform whose pointers
are `w` bytes. -/
def sizeofLarge (w : Nat) : Nat := 2 * w

/-- Source function `freelistBlockLimit`: a small block ends one alignment
above its base, a large block at its stored limit. -/
def freelistBlockLimit (fl : Freelist) (block : FreelistBlock) : Nat :=
  if block.small then block.base + freelistAlignment fl else block.limit

/-- The macro `freelistBlockSize`: `AddrOffset` from base to limit. -/
def freelistBlockSize (fl : Freelist) (block : FreelistBlock) : Nat :=
  freelistBlockLimit fl block - block.base

/-- Source function `freelistBlockSetLimit`: a block of at least `sizeof(large)` bytes gets the
tag cleared and the limit stored, a smaller one gets the tag set and nothing
stored. -/
def freelistBlockSetLimit (w : Nat) (_fl : Freelist) (block : FreelistBlock)
    (limit : Nat) : FreelistBlock :=
  let size := limit - block.base
  if size ≥ sizeofLarge w then
    { block with small := false, limit := limit }
  else
    { block with small := true }

/-- Source function `freelistBlockInit`: the block is the memory at `base`; its `next` word is
set to the tagged end marker and then the limit is set.  The limit word of the
fresh block is whatever the memory held; it is read only after
`freelistBlockSetLimit` has stored it, and is modelled as 0. -/
def freelistBlockInit (w : Nat) (fl : Freelist) (base limit : Nat) : FreelistBlock :=
  freelistBlockSetLimit w fl { base := base, small := true, limit := 0 } limit

/-- Source function `freelistInit`: the empty list. -/
def freelistInit (alignment : Nat) : Freelist :=
  { alignment := alignment, list := [], listSize := 0, size := 0 }

/-- Source function `freelistSize`. -/
def freelistSize (fl : Freelist) : Nat := fl.size

/-- Source function `freelistBlockSetPrevNext`: make the list starting at `next` follow `prev`
(or become the whole list when `prev` is `freelistEND`) and add `delta` to the
block count. -/
def freelistBlockSetPrevNext (fl : Freelist) (prevs : List FreelistBlock)
    (next : List FreelistBlock) (delta : Int) : Freelist :=
  let list :=
    match prevs with
    | [] => next
    | prev :: before => (prev :: before).reverse ++ next
  let listSize :=
    if delta < 0 then fl.listSize - (-delta).toNat else fl.listSize + delta.toNat
  { fl with list := list, listSize := listSize }

/-- The scanning loop of `freelistInsert`.  `none` is the early `return ResFAIL`;
otherwise the value is the pair `(prev, cur)` at loop exit. -/
def freelistInsertScan (fl : Freelist) (base limit : Nat) :
    List FreelistBlock → List FreelistBlock →
    Option (List FreelistBlock × List FreelistBlock)
  | prevs, [] => some (prevs, [])
  | prevs, cur :: next =>
    if base < freelistBlockLimit fl cur ∧ cur.base < limit then
      none
    else if limit ≤ cur.base then
      some (prevs, cur :: next)
    else
      freelistInsertScan fl base limit (cur :: prevs) next

/-- Source function `freelistInsert`.  The result is the result code, the land afterwards and
what was written to `rangeReturn` (`none` when nothing was written). -/
def freelistInsert (w : Nat) (fl : Freelist) (range : Range) :
    Res × Freelist × Option Range :=
  let base := range.base
  let limit := range.limit
  match freelistInsertScan fl base limit [] fl.list with
  | none => (Res.FAIL, fl, none)
  | some (prevs, curs) =>
    let coalesceLeft : Bool :=
      match prevs with
      | [] => false
      | prev :: _ => decide (base = freelistBlockLimit fl prev)
    let coalesceRight : Bool :=
      match curs with
      | [] => false
      | cur :: _ => decide (limit = cur.base)
    let out : Freelist × Nat × Nat :=
      match coalesceLeft, coalesceRight, prevs, curs with
      | true, true, prev :: before, cur :: next =>
        let base1 := prev.base
        let limit1 := freelistBlockLimit fl cur
        let prev1 := freelistBlockSetLimit w fl prev limit1
        (freelistBlockSetPrevNext fl (prev1 :: before) next (-1), base1, limit1)
      | true, false, prev :: before, curs =>
        let base1 := prev.base
        let prev1 := freelistBlockSetLimit w fl prev limit
        ({ fl with list := (prev1 :: before).reverse ++ curs }, base1, limit)
      | false, true, prevs, cur :: next =>
        let limit1 := freelistBlockLimit fl cur
        let cur1 := freelistBlockInit w fl base limit1
        (freelistBlockSetPrevNext fl prevs (cur1 :: next) 0, base, limit1)
      | _, _, prevs, curs =>
        let new := freelistBlockInit w fl base limit
        (freelistBlockSetPrevNext fl prevs (new :: curs) 1, base, limit)
    let fl1 := out.1
    (Res.OK, { fl1 with size := fl1.size + RangeSize range }, some ⟨out.2.1, out.2.2⟩)

/-- Source function `freelistDeleteFromBlock`: `block` is on the list between `prevs` and
`next`.  Returns the land afterwards and the value written to `rangeReturn`. -/
def freelistDeleteFromBlock (w : Nat) (fl : Freelist) (range : Range)
    (prevs : List FreelistBlock) (block : FreelistBlock) (next : List FreelistBlock) :
    Freelist × Range :=
  let base := range.base
  let limit := range.limit
  let blockBase := block.base
  let blockLimit := freelistBlockLimit fl block
  let fl1 : Freelist :=
    if base = blockBase ∧ limit = blockLimit then
      freelistBlockSetPrevNext fl prevs next (-1)
    else if base = blockBase then
      let block1 := freelistBlockInit w fl limit blockLimit
      freelistBlockSetPrevNext fl prevs (block1 :: next) 0
    else if limit = blockLimit then
      let block1 := freelistBlockSetLimit w fl block base
      { fl with list := (block1 :: prevs).reverse ++ next }
    else
      let block1 := freelistBlockSetLimit w fl block base
      let new := freelistBlockInit w fl limit blockLimit
      freelistBlockSetPrevNext fl (block1 :: prevs) (new :: next) 1
  ({ fl1 with size := fl1.size - RangeSize range }, ⟨blockBase, blockLimit⟩)

/-- The loop of `freelistDelete`, entered with `prev` and `cur`. -/
def freelistDeleteScan (w : Nat) (fl : Freelist) (range : Range) :
    List FreelistBlock → List FreelistBlock → Res × Freelist × Option Range
  | _, [] => (Res.FAIL, fl, none)
  | prevs, cur :: next =>
    let blockBase := cur.base
    let blockLimit := freelistBlockLimit fl cur
    if range.limit ≤ blockBase then
      (Res.FAIL, fl, none)
    else if range.base ≤ blockLimit then
      if range.base < blockBase ∨ blockLimit < range.limit then
        (Res.FAIL, fl, none)
      else
        let r := freelistDeleteFromBlock w fl range prevs cur next
        (Res.OK, r.1, some r.2)
    else
      freelistDeleteScan w fl range (cur :: prevs) next

/-- Source function `freelistDelete`. -/
def freelistDelete (w : Nat) (fl : Freelist) (range : Range) :
    Res × Freelist × Option Range :=
  freelistDeleteScan w fl range [] fl.list

/-- The loop of `freelistIterateAndDelete`.  The visitor gets its closure and
the range of the block and answers `(delete, cont, closure)`. -/
def freelistIterateAndDeleteLoop {σ : Type} (visitor : σ → Range → Bool × Bool × σ) :
    Freelist → σ → List FreelistBlock → List FreelistBlock → Bool × Freelist × σ
  | fl, closure, _, [] => (true, fl, closure)
  | fl, closure, prevs, cur :: next =>
    let size := freelistBlockSize fl cur
    let range : Range := ⟨cur.base, freelistBlockLimit fl cur⟩
    let v := visitor closure range
    let fl1 : Freelist :=
      if v.1 then
        let fl2 := freelistBlockSetPrevNext fl prevs next (-1)
        { fl2 with size := fl2.size - size }
      else fl
    let prevs1 := if v.1 then prevs else cur :: prevs
    if v.2.1 = false then
      (false, fl1, v.2.2)
    else
      freelistIterateAndDeleteLoop visitor fl1 v.2.2 prevs1 next

/-- Source function `freelistIterateAndDelete`. -/
def freelistIterateAndDelete {σ : Type} (visitor : σ → Range → Bool × Bool × σ)
    (fl : Freelist) (closure : σ) : Bool × Freelist × σ :=
  freelistIterateAndDeleteLoop visitor fl closure [] fl.list

/-- What a find method hands back: the land afterwards and the values written
to `rangeReturn` and `oldRangeReturn` (`none` when nothing was written). -/
structure FindResult where
  found : Bool
  fl : Freelist
  rangeReturn : Option Range
  oldRangeReturn : Option Range
deriving DecidableEq, Repr

/-- Source function `freelistFindDeleteFromBlock`: `sel` is `(callDelete, base,
limit)` after the `switch`. -/
def freelistFindDeleteFromBlock (w : Nat) (fl : Freelist) (size : Nat)
    (findDelete : FindDelete) (prevs : List FreelistBlock) (block : FreelistBlock)
    (next : List FreelistBlock) : Freelist × Range × Range :=
  let base := block.base
  let limit := freelistBlockLimit fl block
  let sel : Bool × Nat × Nat :=
    match findDelete with
    | FindDelete.NONE => (false, base, limit)
    | FindDelete.LOW => (true, base, base + size)
    | FindDelete.HIGH => (true, limit - size, limit)
    | FindDelete.ENTIRE => (true, base, limit)
  let rangeReturn : Range := ⟨sel.2.1, sel.2.2⟩
  if sel.1 then
    let r := freelistDeleteFromBlock w fl rangeReturn prevs block next
    (r.1, rangeReturn, r.2)
  else
    (fl, rangeReturn, ⟨sel.2.1, sel.2.2⟩)

/-- The loop of `freelistFindFirst`. -/
def freelistFindFirstLoop (w : Nat) (fl : Freelist) (size : Nat) (findDelete : FindDelete) :
    List FreelistBlock → List FreelistBlock → FindResult
  | _, [] => ⟨false, fl, none, none⟩
  | prevs, cur :: next =>
    if freelistBlockSize fl cur ≥ size then
      let r := freelistFindDeleteFromBlock w fl size findDelete prevs cur next
      ⟨true, r.1, some r.2.1, some r.2.2⟩
    else
      freelistFindFirstLoop w fl size findDelete (cur :: prevs) next

/-- Source function `freelistFindFirst`. -/
def freelistFindFirst (w : Nat) (fl : Freelist) (size : Nat) (findDelete : FindDelete) :
    FindResult :=
  freelistFindFirstLoop w fl size findDelete [] fl.list

/-- The loop of `freelistFindLast`; `found` is `none` while nothing was found
and otherwise holds `foundPrev`, `foundCur` and the list after `foundCur`. -/
def freelistFindLastLoop (fl : Freelist) (size : Nat) :
    Option (List FreelistBlock × FreelistBlock × List FreelistBlock) →
    List FreelistBlock → List FreelistBlock →
    Option (List FreelistBlock × FreelistBlock × List FreelistBlock)
  | found, _, [] => found
  | found, prevs, cur :: next =>
    let found1 :=
      if freelistBlockSize fl cur ≥ size then some (prevs, cur, next) else found
    freelistFindLastLoop fl size found1 (cur :: prevs) next

/-- Source function `freelistFindLast`. -/
def freelistFindLast (w : Nat) (fl : Freelist) (size : Nat) (findDelete : FindDelete) :
    FindResult :=
  match freelistFindLastLoop fl size none [] fl.list with
  | none => ⟨false, fl, none, none⟩
  | some (foundPrev, foundCur, next) =>
    let r := freelistFindDeleteFromBlock w fl size findDelete foundPrev foundCur next
    ⟨true, r.1, some r.2.1, some r.2.2⟩

/-- The loop of `freelistFindLargest`; the state is the running `size` and the
best block so far (`bestPrev`, `bestCur` and the list after it). -/
def freelistFindLargestLoop (fl : Freelist) :
    Nat → Option (List FreelistBlock × FreelistBlock × List FreelistBlock) →
    List FreelistBlock → List FreelistBlock →
    Nat × Option (List FreelistBlock × FreelistBlock × List FreelistBlock)
  | size, best, _, [] => (size, best)
  | size, best, prevs, cur :: next =>
    if freelistBlockSize fl cur ≥ size then
      freelistFindLargestLoop fl (freelistBlockSize fl cur) (some (prevs, cur, next))
        (cur :: prevs) next
    else
      freelistFindLargestLoop fl size best (cur :: prevs) next

/-- Source function `freelistFindLargest`; the size handed on is the running
`size`, which by then is the length of the best block. -/
def freelistFindLargest (w : Nat) (fl : Freelist) (size : Nat) (findDelete : FindDelete) :
    FindResult :=
  match freelistFindLargestLoop fl size none [] fl.list with
  | (_, none) => ⟨false, fl, none, none⟩
  | (size1, some (bestPrev, bestCur, next)) =>
    let r := freelistFindDeleteFromBlock w fl size1 findDelete bestPrev bestCur next
    ⟨true, r.1, some r.2.1, some r.2.2⟩

/-! ## The view of a land as a list of ranges, and validity -/

/-- The range a block stands for. -/
def blockRange (fl : Freelist) (block : FreelistBlock) : Range :=
  ⟨block.base, freelistBlockLimit fl block⟩

/-- The ranges of the stored blocks, in list order. -/
def ranges (fl : Freelist) : List Range := fl.list.map (blockRange fl)

/-- Sum of the lengths of a list of ranges. -/
def totalSize (rs : List Range) : Nat := (rs.map RangeSize).sum

/-- A range the land accepts: non-null base, non-empty, both ends aligned. -/
def RangeOK (a : Nat) (r : Range) : Prop :=
  r.base ≠ 0 ∧ r.base < r.limit ∧ a ∣ r.base ∧ a ∣ r.limit

/-- Isolated-range invariant: each range ends strictly below every later one. -/
def Isolated (rs : List Range) : Prop :=
  rs.Pairwise (fun r s => r.limit < s.base)

/-- Consistency of a land on a platform with `w`-byte pointers: the alignment
can host a small block, every block stands for an acceptable range, the ranges
are isolated, and the two running totals are exact. -/
def Valid (w : Nat) (fl : Freelist) : Prop :=
  0 < fl.alignment ∧ w ≤ fl.alignment ∧
  (∀ r ∈ ranges fl, RangeOK fl.alignment r) ∧
  Isolated (ranges fl) ∧
  fl.listSize = fl.list.length ∧
  fl.size = totalSize (ranges fl)

/-- Two ranges share an address. -/
def Overlaps (r s : Range) : Prop :=
  ∃ x, r.base ≤ x ∧ x < r.limit ∧ s.base ≤ x ∧ x < s.limit

/-- Address `x` lies in one of the ranges. -/
def Covered (rs : List Range) (x : Nat) : Prop :=
  ∃ r ∈ rs, r.base ≤ x ∧ x < r.limit


/-! ## Auxiliary definitions used in the proofs -/

/-- Limit of a block on a land of alignment `a`. -/
def blockLim (a : Nat) (b : FreelistBlock) : Nat :=
  if b.small then b.base + a else b.limit

/-- Range of a block on a land of alignment `a`. -/
def rangeOf (a : Nat) (b : FreelistBlock) : Range := ⟨b.base, blockLim a b⟩

/-- Everything `freelistInsert` promises when the range fits between `xs` (with
optional left neighbour `lo`) and `ys` (with optional right neighbour `hi`). -/
def InsertPost (w : Nat) (fl : Freelist) (R : Range) (xs ys : List Range)
    (lo hi : Option Range) : Prop :=
  ranges fl = xs ++ lo.toList ++ hi.toList ++ ys ∧
  (∀ l ∈ lo, l.limit = R.base) ∧ (∀ h ∈ hi, h.base = R.limit) ∧
  (∀ x ∈ xs, x.limit < R.base) ∧ (∀ y ∈ ys, R.limit < y.base) ∧
  (freelistInsert w fl R).1 = Res.OK ∧
  (freelistInsert w fl R).2.2 =
    some ⟨lo.elim R.base Range.base, hi.elim R.limit Range.limit⟩ ∧
  ranges (freelistInsert w fl R).2.1 =
    xs ++ [⟨lo.elim R.base Range.base, hi.elim R.limit Range.limit⟩] ++ ys ∧
  (freelistInsert w fl R).2.1.alignment = fl.alignment ∧
  (freelistInsert w fl R).2.1.list.length + lo.toList.length + hi.toList.length
    = fl.list.length + 1 ∧
  (freelistInsert w fl R).2.1.listSize + lo.toList.length + hi.toList.length
    = fl.listSize + 1 ∧
  (freelistInsert w fl R).2.1.size = fl.size + RangeSize R

/-- What is left of block `B` below the deleted range `R`. -/
def leftFrag (B R : Range) : List Range :=
  if B.base < R.base then [⟨B.base, R.base⟩] else []

/-- What is left of block `B` above the deleted range `R`. -/
def rightFrag (B R : Range) : List Range :=
  if R.limit < B.limit then [⟨R.limit, B.limit⟩] else []

/-- Everything `freelistDelete` promises when `R` lies inside the stored range
`B`, which sits between `xs` and `ys`. -/
def DeletePost (w : Nat) (fl : Freelist) (R : Range) (xs ys : List Range) (B : Range) :
    Prop :=
  (freelistDelete w fl R).1 = Res.OK ∧
  (freelistDelete w fl R).2.2 = some B ∧
  ranges (freelistDelete w fl R).2.1 = xs ++ leftFrag B R ++ rightFrag B R ++ ys ∧
  (freelistDelete w fl R).2.1.alignment = fl.alignment ∧
  (freelistDelete w fl R).2.1.list.length + 1 =
    fl.list.length + (leftFrag B R).length + (rightFrag B R).length ∧
  (freelistDelete w fl R).2.1.listSize + 1 =
    fl.listSize + (leftFrag B R).length + (rightFrag B R).length ∧
  (freelistDelete w fl R).2.1.size = fl.size - RangeSize R

/-- The range a find method reports for block `B`, request `size` and policy
`findDelete`. -/
def findRange (findDelete : FindDelete) (B : Range) (size : Nat) : Range :=
  match findDelete with
  | FindDelete.NONE => B
  | FindDelete.LOW => ⟨B.base, B.base + size⟩
  | FindDelete.HIGH => ⟨B.limit - size, B.limit⟩
  | FindDelete.ENTIRE => B

/-- Lands reached from a freshly initialised land of alignment `a` by `Insert`
and `Delete` calls, successful or failing, on acceptable ranges. -/
inductive Reachable (w a : Nat) : Freelist → Prop where
  | init : Reachable w a (freelistInit a)
  | insert {fl : Freelist} {R : Range} :
      Reachable w a fl → RangeOK a R → Reachable w a (freelistInsert w fl R).2.1
  | delete {fl : Freelist} {R : Range} :
      Reachable w a fl → RangeOK a R → Reachable w a (freelistDelete w fl R).2.1

/-- One call of a land method that can change the land, with arguments that
pass the method's argument checks. -/
inductive Step (w : Nat) : Freelist → Freelist → Prop where
  | insert (fl : Freelist) (R : Range) :
      RangeOK fl.alignment R → Step w fl (freelistInsert w fl R).2.1
  | delete (fl : Freelist) (R : Range) :
      RangeOK fl.alignment R → Step w fl (freelistDelete w fl R).2.1
  | findFirst (fl : Freelist) (size : Nat) (fd : FindDelete) :
      fl.alignment ∣ size → Step w fl (freelistFindFirst w fl size fd).fl
  | findLast (fl : Freelist) (size : Nat) (fd : FindDelete) :
      fl.alignment ∣ size → Step w fl (freelistFindLast w fl size fd).fl
  | findLargest (fl : Freelist) (size : Nat) (fd : FindDelete) :
      Step w fl (freelistFindLargest w fl size fd).fl
  | iterateAndDelete {σ : Type} (visitor : σ → Range → Bool × Bool × σ) (fl : Freelist)
      (closure : σ) : Step w fl (freelistIterateAndDelete visitor fl closure).2.1

/-- Lands reached from a freshly initialised land of alignment `a` by any
sequence of method calls. -/
inductive ReachableOps (w a : Nat) : Freelist → Prop where
  | init : ReachableOps w a (freelistInit a)
  | step {fl fl1 : Freelist} : ReachableOps w a fl → Step w fl fl1 → ReachableOps w a fl1

/-- What a find with policy `fd` and request `size` must have done when it
selected the block `B` standing between `xs` and `ys`. -/
def PolicyPost (fd : FindDelete) (size : Nat) (fl : Freelist) (r : FindResult)
    (xs : List Range) (B : Range) (ys : List Range) : Prop :=
  r.oldRangeReturn = some B ∧
  (fd = FindDelete.NONE → r.rangeReturn = some B ∧ r.fl = fl) ∧
  (fd = FindDelete.LOW →
    r.rangeReturn = some ⟨B.base, B.base + size⟩ ∧
    ranges r.fl =
      xs ++ (if B.base + size < B.limit then [⟨B.base + size, B.limit⟩] else []) ++ ys ∧
    r.fl.size + size = fl.size) ∧
  (fd = FindDelete.HIGH →
    r.rangeReturn = some ⟨B.limit - size, B.limit⟩ ∧
    ranges r.fl =
      xs ++ (if B.base < B.limit - size then [⟨B.base, B.limit - size⟩] else []) ++ ys ∧
    r.fl.size + size = fl.size) ∧
  (fd = FindDelete.ENTIRE →
    r.rangeReturn = some B ∧ ranges r.fl = xs ++ ys ∧
    r.fl.size + RangeSize B = fl.size)

/-- A sample land on a 64-bit platform: alignment 16, blocks `[16,32)` and
`[64,96)`. -/
def sampleLand : Freelist :=
  (freelistInsert 8 (freelistInsert 8 (freelistInit 16) ⟨16, 32⟩).2.1 ⟨64, 96⟩).2.1

/-! ## Area scanning (`code/scan.c`)

A word array `[base, limit)` is the list of its words, lowest address first.
Words and references are natural numbers below the word modulus; the bitwise
operations used never leave that range.  `MPS_FIX1` and `MPS_FIX2` are macros
of the public interface that are not part of the sources: they are the
parameters `fix1` and `fix2`, both of which may update the scan state.  The
zone summaries that `MPS_SCAN_BEGIN` loads and `MPS_SCAN_END` stores belong to
that scan state. -/

/-- Result codes as the scanners and the pool see them: `OK`, or a failure
code, kept as its number. -/
inductive ResCode where
  | OK
  | failure (code : Nat)
deriving DecidableEq, Repr

/-- The tag descriptor `mps_scan_tag_s` handed to the scanners as closure. -/
structure ScanTag where
  mask : Nat
  pattern : Nat
deriving DecidableEq, Repr

/-- The loop of the macro `MPS_SCAN_AREA(test)`, where `test` is a condition on
`tag_bits`.  The result is the result code, the scan state and the contents of
the area afterwards; on a failing `MPS_FIX2` the macro returns at once, so the
word is not written. -/
def MPS_SCAN_AREA {S : Type} (fix1 : S → Nat → Bool × S) (fix2 : S → Nat → ResCode × Nat × S)
    (test : Nat → Bool) (mask : Nat) : S → List Nat → ResCode × S × List Nat
  | ss, [] => (ResCode.OK, ss, [])
  | ss, word :: rest =>
    let tag_bits := word &&& mask
    if test tag_bits then
      let ref := word ^^^ tag_bits
      let f1 := fix1 ss ref
      if f1.1 then
        let f2 := fix2 f1.2 ref
        if f2.1 = ResCode.OK then
          let r := MPS_SCAN_AREA fix1 fix2 test mask f2.2.2 rest
          (r.1, r.2.1, (f2.2.1 ||| tag_bits) :: r.2.2)
        else
          (f2.1, f2.2.2, word :: rest)
      else
        let r := MPS_SCAN_AREA fix1 fix2 test mask f1.2 rest
        (r.1, r.2.1, word :: r.2.2)
    else
      let r := MPS_SCAN_AREA fix1 fix2 test mask ss rest
      (r.1, r.2.1, word :: r.2.2)

/-- Source function `mps_scan_area`: mask 0, every word passes the test. -/
def mps_scan_area {S : Type} (fix1 : S → Nat → Bool × S) (fix2 : S → Nat → ResCode × Nat × S)
    (ss : S) (area : List Nat) : ResCode × S × List Nat :=
  MPS_SCAN_AREA fix1 fix2 (fun _ => true) 0 ss area

/-- Source function `mps_scan_area_masked`: every word passes the test. -/
def mps_scan_area_masked {S : Type} (fix1 : S → Nat → Bool × S)
    (fix2 : S → Nat → ResCode × Nat × S) (ss : S) (area : List Nat) (tag : ScanTag) :
    ResCode × S × List Nat :=
  MPS_SCAN_AREA fix1 fix2 (fun _ => true) tag.mask ss area

/-- Source function `mps_scan_area_tagged`: the test is `tag_bits == pattern`. -/
def mps_scan_area_tagged {S : Type} (fix1 : S → Nat → Bool × S)
    (fix2 : S → Nat → ResCode × Nat × S) (ss : S) (area : List Nat) (tag : ScanTag) :
    ResCode × S × List Nat :=
  MPS_SCAN_AREA fix1 fix2 (fun tag_bits => tag_bits == tag.pattern) tag.mask ss area

/-- Source function `mps_scan_area_tagged_or_zero`: the test is
`tag_bits == 0 || tag_bits == pattern`. -/
def mps_scan_area_tagged_or_zero {S : Type} (fix1 : S → Nat → Bool × S)
    (fix2 : S → Nat → ResCode × Nat × S) (ss : S) (area : List Nat) (tag : ScanTag) :
    ResCode × S × List Nat :=
  MPS_SCAN_AREA fix1 fix2 (fun tag_bits => tag_bits == 0 || tag_bits == tag.pattern)
    tag.mask ss area

/-- Offering a list of references to the fix step, one after the other: each
is tested with `fix1` and, if that says so, fixed with `fix2`; the first
failing fix ends the sequence.  The result is the result code and the scan
state. -/
def offerAll {S : Type} (fix1 : S → Nat → Bool × S) (fix2 : S → Nat → ResCode × Nat × S) :
    S → List Nat → ResCode × S
  | ss, [] => (ResCode.OK, ss)
  | ss, ref :: refs =>
    let f1 := fix1 ss ref
    if f1.1 then
      let f2 := fix2 f1.2 ref
      if f2.1 = ResCode.OK then offerAll fix1 fix2 f2.2.2 refs else (f2.1, f2.2.2)
    else
      offerAll fix1 fix2 f1.2 refs

/-! ## The MVT pool (`code/poolmv2.c`)

* `Size` and `Count` values are machine words: they are natural numbers below
  the word modulus `wordMod` of the platform and every sum, difference and
  product of such values is taken modulo `wordMod`.  Addresses are natural
  numbers; `AddrOffset` and `RangeSize` are only applied to `base ≤ limit`.
* The arena with its segments, the fail-over land with its CBS and free list,
  and the available block queue are not part of the sources.  They are the
  state `E`, and the functions of theirs that poolmv2.c calls are the fields of
  `World E`.
* Functions that can recurse without a bound of their own (`MVTReserve`,
  `MVTReturnSegs`, `MVTDelete` call each other; `LandIterate` loops) take fuel
  as their first argument after the world; `none` means that the fuel ran out
  or that a call whose result is needed (`SURELY (SegOfAddr ...)`,
  `SURELY (ABQPeek ...)`) found nothing.
* Of the meters only those on the control path of `MVTBufferFill` are kept;
  a meter is the list of the amounts accumulated, latest first.  Other
  `AVER`s are preconditions and appear as hypotheses of theorems. -/

/-- Sum of two machine words. -/
def wadd (M a b : Nat) : Nat := (a + b) % M

/-- Difference of two machine words. -/
def wsub (M a b : Nat) : Nat := (a + (M - b % M)) % M

/-- Product of two machine words. -/
def wmul (M a b : Nat) : Nat := (a * b) % M

/-- Modelled from the spec: the macro `SizeAlignUp` is not part of the sources.
It rounds `size` up to a multiple of `align` in machine words: the sum
`size + align - 1` is taken modulo the word modulus and then rounded down to a
multiple of `align` (for a power of two `align` this is the mask with
`~(align - 1)`). -/
def SizeAlignUp (M size align : Nat) : Nat :=
  (wsub M (wadd M size align) 1) / align * align

/-- A segment of the arena: the address range `[base, limit)`. -/
structure Seg where
  base : Nat
  limit : Nat
deriving DecidableEq, Repr

/-- Size of a segment, `SegSize`. -/
def SegSize (seg : Seg) : Nat := seg.limit - seg.base

/-- The parts of the MPS that poolmv2.c calls and that are not part of the
sources, acting on their own state `E`.  `landInit` and `landFinish` take the
number of the land (0 the CBS, 1 the free list, 2 the fail-over land);
`landIterBegin` and `landIterNext` are the steps of `LandIterate`, whose
position in the land belongs to `E`; `abqIterate` takes a visitor that answers
`(delete, continue)`. -/
structure World (E : Type) where
  wordMod : Nat
  grainSize : Nat
  resIsAllocFailure : Nat → Bool
  poolInit : E → ResCode × E
  poolFinish : E → E
  landInit : E → Nat → Nat → ResCode × E
  landFinish : E → Nat → E
  abqInit : E → Nat → ResCode × E
  segAlloc : E → Nat → ResCode × Seg × E
  segFree : E → Seg → E
  segOfAddr : E → Nat → Option Seg
  landInsert : E → Range → ResCode × Range × E
  landDelete : E → Range → ResCode × Range × E
  landIterBegin : E → E
  landIterNext : E → Option Range × E
  abqPush : E → Range → Bool × E
  abqPeek : E → Option Range
  abqIsEmpty : E → Bool
  abqIterate : E → (Range → Bool × Bool) → E

/-- The meters on the control path of `MVTBufferFill`. -/
structure Meters where
  underflows : List Nat
  fragLimitContingencies : List Nat
  emergencyContingencies : List Nat
  failures : List Nat
deriving DecidableEq, Repr

/-- The pool: the fields of `MVTStruct` that the code reads or writes, the
alignment of the pool, and the state `env` of the world around it. -/
structure MVT (E : Type) where
  alignment : Nat
  minSize : Nat
  meanSize : Nat
  maxSize : Nat
  fragLimit : Nat
  reuseSize : Nat
  fillSize : Nat
  availLimit : Nat
  abqOverflow : Bool
  splinter : Bool
  splinterBase : Nat
  splinterLimit : Nat
  size : Nat
  allocated : Nat
  available : Nat
  unavailable : Nat
  meters : Meters
  env : E

/-- The macro `SizeArenaGrains`: round up to whole arena grains. -/
def SizeArenaGrains {E : Type} (W : World E) (size : Nat) : Nat :=
  SizeAlignUp W.wordMod size W.grainSize

/-- The derived parameters of `MVTInit`: `(fillSize, reuseSize, abqDepth)`;
`none` when the division by `reuseSize` is a division by zero. -/
def MVTInitDerived (M grainSize maxSize meanSize reserveDepth : Nat) :
    Option (Nat × Nat × Nat) :=
  let fillSize := SizeAlignUp M maxSize grainSize
  let reuseSize := wmul M 2 fillSize
  if reuseSize = 0 then none
  else
    let abqDepth := wsub M (wadd M (wmul M reserveDepth meanSize) reuseSize) 1 / reuseSize
    some (fillSize, reuseSize, if abqDepth < 3 then 3 else abqDepth)

/-- The arguments of `MVTInit` after `ArgPick`; `fragLimit` is the percentage
`(Count)(d * 100)`. -/
structure MVTArgs where
  align : Nat
  minSize : Nat
  meanSize : Nat
  maxSize : Nat
  reserveDepth : Nat
  fragLimit : Nat
deriving DecidableEq, Repr

/-- Source function `MVTInit`.  The result is `none` on a division by zero;
otherwise it is the pool, or, when one of the initialisations fails, the
failing result code and the state of the world after the clean-up. -/
def MVTInit {E : Type} (W : World E) (env : E) (args : MVTArgs) :
    Option (Except (ResCode × E) (MVT E)) :=
  match MVTInitDerived W.wordMod W.grainSize args.maxSize args.meanSize args.reserveDepth with
  | none => none
  | some (fillSize, reuseSize, abqDepth) =>
    let r0 := W.poolInit env
    if r0.1 ≠ ResCode.OK then some (Except.error (r0.1, r0.2))
    else
      let r1 := W.landInit r0.2 0 args.align
      if r1.1 ≠ ResCode.OK then some (Except.error (r1.1, W.poolFinish r1.2))
      else
        let r2 := W.landInit r1.2 1 args.align
        if r2.1 ≠ ResCode.OK then
          some (Except.error (r2.1, W.poolFinish (W.landFinish r2.2 0)))
        else
          let r3 := W.landInit r2.2 2 args.align
          if r3.1 ≠ ResCode.OK then
            some (Except.error
              (r3.1, W.poolFinish (W.landFinish (W.landFinish r3.2 1) 0)))
          else
            let r4 := W.abqInit r3.2 abqDepth
            if r4.1 ≠ ResCode.OK then
              some (Except.error (r4.1,
                W.poolFinish (W.landFinish (W.landFinish (W.landFinish r4.2 2) 1) 0)))
            else
              some (Except.ok
                { alignment := args.align, minSize := args.minSize,
                  meanSize := args.meanSize, maxSize := args.maxSize,
                  fragLimit := args.fragLimit, reuseSize := reuseSize,
                  fillSize := fillSize, availLimit := 0, abqOverflow := false,
                  splinter := false, splinterBase := 0, splinterLimit := 0,
                  size := 0, allocated := 0, available := 0, unavailable := 0,
                  meters := ⟨[], [], [], []⟩, env := r4.2 })

/-- Source function `MVTNoteFill`. -/
def MVTNoteFill {E : Type} (W : World E) (mvt : MVT E) (base limit : Nat) : MVT E :=
  { mvt with
    available := wsub W.wordMod mvt.available (limit - base),
    allocated := wadd W.wordMod mvt.allocated (limit - base) }

/-- Source function `MVTSegAlloc`: the result code, the segment and the pool
afterwards. -/
def MVTSegAlloc {E : Type} (W : World E) (mvt : MVT E) (size : Nat) :
    ResCode × Seg × MVT E :=
  let r := W.segAlloc mvt.env size
  if r.1 = ResCode.OK then
    let segSize := SegSize r.2.1
    let size1 := wadd W.wordMod mvt.size segSize
    (r.1, r.2.1,
      { mvt with
        size := size1,
        available := wadd W.wordMod mvt.available segSize,
        availLimit := wmul W.wordMod size1 mvt.fragLimit / 100,
        env := r.2.2 })
  else
    (r.1, r.2.1, { mvt with env := r.2.2 })

/-- Source function `MVTSegFree`. -/
def MVTSegFree {E : Type} (W : World E) (mvt : MVT E) (seg : Seg) : MVT E :=
  let size := SegSize seg
  let size1 := wsub W.wordMod mvt.size size
  { mvt with
    available := wsub W.wordMod mvt.available size,
    size := size1,
    availLimit := wmul W.wordMod size1 mvt.fragLimit / 100,
    env := W.segFree mvt.env seg }

/-- Modelled from the spec: `RangesOverlap` is not part of the sources; two
ranges overlap when each starts below the limit of the other. -/
def RangesOverlap (r s : Range) : Bool :=
  decide (r.base < s.limit) && decide (s.base < r.limit)

/-- Source function `MVTDeleteOverlapping`, with the closure as first
argument: the answer is `(delete, continue)`. -/
def MVTDeleteOverlapping (newRange oldRange : Range) : Bool × Bool :=
  (RangesOverlap oldRange newRange, true)

mutual

/-- Source function `MVTReserve`: whether the range went onto the queue, and
the pool afterwards. -/
def MVTReserve {E : Type} (W : World E) : Nat → MVT E → Range → Option (Bool × MVT E)
  | 0, _, _ => none
  | fuel + 1, mvt, range =>
    let p := W.abqPush mvt.env range
    if p.1 then
      some (true, { mvt with env := p.2 })
    else
      match W.abqPeek p.2 with
      | none => none
      | some oldRange =>
        match MVTReturnSegs W fuel { mvt with env := p.2 } oldRange.base oldRange.limit false with
        | none => none
        | some (success, mvt1) =>
          if success then
            let q := W.abqPush mvt1.env range
            if q.1 then
              some (true, { mvt1 with env := q.2 })
            else
              some (false, { mvt1 with env := q.2, abqOverflow := true })
          else
            some (false, { mvt1 with abqOverflow := true })

/-- The loop of `MVTReturnSegs`, entered with `base`, `limit` and `success`. -/
def MVTReturnSegs {E : Type} (W : World E) :
    Nat → MVT E → Nat → Nat → Bool → Option (Bool × MVT E)
  | 0, _, _, _, _ => none
  | fuel + 1, mvt, base, limit, success =>
    if base < limit then
      match W.segOfAddr mvt.env base with
      | none => none
      | some seg =>
        if base ≤ seg.base ∧ limit ≥ seg.limit then
          match MVTDelete W fuel mvt seg.base seg.limit with
          | none => none
          | some (_, mvt1) =>
            MVTReturnSegs W fuel (MVTSegFree W mvt1 seg) seg.limit limit true
        else
          MVTReturnSegs W fuel mvt seg.limit limit success
    else
      some (success, mvt)

/-- Source function `MVTDelete`. -/
def MVTDelete {E : Type} (W : World E) : Nat → MVT E → Nat → Nat → Option (ResCode × MVT E)
  | 0, _, _, _ => none
  | fuel + 1, mvt, base, limit =>
    let d := W.landDelete mvt.env ⟨base, limit⟩
    if d.1 ≠ ResCode.OK then
      some (d.1, { mvt with env := d.2.2 })
    else
      let rangeOld := d.2.1
      let env1 :=
        if RangeSize rangeOld ≥ mvt.reuseSize then
          W.abqIterate d.2.2 (MVTDeleteOverlapping rangeOld)
        else d.2.2
      let mvt1 := { mvt with env := env1 }
      let rangeLeft : Range := ⟨rangeOld.base, base⟩
      let left : Option (MVT E) :=
        if RangeSize rangeLeft ≥ mvt.reuseSize then
          (MVTReserve W fuel mvt1 rangeLeft).map Prod.snd
        else some mvt1
      match left with
      | none => none
      | some mvt2 =>
        let rangeRight : Range := ⟨limit, rangeOld.limit⟩
        let right : Option (MVT E) :=
          if RangeSize rangeRight ≥ mvt2.reuseSize then
            (MVTReserve W fuel mvt2 rangeRight).map Prod.snd
          else some mvt2
        right.map (fun mvt3 => (ResCode.OK, mvt3))

end

/-- Source function `MVTInsert`. -/
def MVTInsert {E : Type} (W : World E) (fuel : Nat) (mvt : MVT E) (base limit : Nat) :
    Option (ResCode × MVT E) :=
  let r := W.landInsert mvt.env ⟨base, limit⟩
  if r.1 ≠ ResCode.OK then
    some (r.1, { mvt with env := r.2.2 })
  else
    let newRange := r.2.1
    if RangeSize newRange ≥ mvt.reuseSize then
      let env1 := W.abqIterate r.2.2 (MVTDeleteOverlapping newRange)
      (MVTReserve W fuel { mvt with env := env1 } newRange).map
        (fun p => (ResCode.OK, p.2))
    else
      some (ResCode.OK, { mvt with env := r.2.2 })

/-- The loop of `LandIterate` on the free land of the pool: the visitor gets
the pool, its closure and the range, and answers whether to go on.  The result
is `TRUE` when the land was exhausted and `FALSE` when the visitor stopped the
iteration. -/
def LandIterateLoop {E σ : Type} (W : World E)
    (visitor : MVT E → σ → Range → Option (Bool × MVT E × σ)) :
    Nat → MVT E → σ → Option (Bool × MVT E × σ)
  | 0, _, _ => none
  | fuel + 1, mvt, closure =>
    let n := W.landIterNext mvt.env
    match n.1 with
    | none => some (true, { mvt with env := n.2 }, closure)
    | some range =>
      match visitor { mvt with env := n.2 } closure range with
      | none => none
      | some (cont, mvt1, closure1) =>
        if cont then LandIterateLoop W visitor fuel mvt1 closure1
        else some (false, mvt1, closure1)

/-- The call `LandIterate (MVTFreeLand (mvt), visitor, closure)`. -/
def LandIterate {E σ : Type} (W : World E)
    (visitor : MVT E → σ → Range → Option (Bool × MVT E × σ))
    (fuel : Nat) (mvt : MVT E) (closure : σ) : Option (Bool × MVT E × σ) :=
  LandIterateLoop W visitor fuel { mvt with env := W.landIterBegin mvt.env } closure

/-- Source function `MVTRefillVisitor`; its closure is the pool itself. -/
def MVTRefillVisitor {E : Type} (W : World E) (fuel : Nat) (mvt : MVT E) (_closure : Unit)
    (range : Range) : Option (Bool × MVT E × Unit) :=
  if RangeSize range < mvt.reuseSize then
    some (true, mvt, ())
  else
    (MVTReserve W fuel mvt range).map (fun p => (p.1, p.2, ()))

/-- Source function `MVTRefillABQIfEmpty`. -/
def MVTRefillABQIfEmpty {E : Type} (W : World E) (fuel : Nat) (mvt : MVT E) :
    Option (MVT E) :=
  if mvt.abqOverflow ∧ W.abqIsEmpty mvt.env = true then
    (LandIterate W (MVTRefillVisitor W fuel) fuel { mvt with abqOverflow := false } ()).map
      (fun r => r.2.1)
  else
    some mvt

/-- Source function `MVTOneSegOnly`: the clipped `(base, limit)`. -/
def MVTOneSegOnly {E : Type} (W : World E) (mvt : MVT E) (base limit minSize : Nat) :
    Option (Nat × Nat) :=
  match W.segOfAddr mvt.env base with
  | none => none
  | some seg =>
    let segLimit := seg.limit
    if limit ≤ segLimit then
      some (base, limit)
    else if segLimit - base ≥ minSize then
      some (base, segLimit)
    else
      match W.segOfAddr mvt.env segLimit with
      | none => none
      | some seg2 =>
        some (segLimit, if limit > seg2.limit then seg2.limit else limit)

/-- Source function `MVTCheckFit`. -/
def MVTCheckFit {E : Type} (W : World E) (env : E) (base limit min : Nat) : Option Bool :=
  match W.segOfAddr env base with
  | none => none
  | some seg =>
    let segLimit := seg.limit
    if limit ≤ segLimit ∧ limit - base ≥ min then
      some true
    else if segLimit - base ≥ min then
      some true
    else
      match W.segOfAddr env segLimit with
      | none => none
      | some seg2 =>
        some (decide ((if limit < seg2.limit then limit else seg2.limit) - segLimit ≥ min))

/-- The closure `MVTContigencyClosureStruct` without its meters: the range
found, if any. -/
structure MVTContigencyClosure where
  min : Nat
  range : Option Range
deriving DecidableEq, Repr

/-- Source function `MVTContingencyVisitor`. -/
def MVTContingencyVisitor {E : Type} (W : World E) (mvt : MVT E) (cl : MVTContigencyClosure)
    (range : Range) : Option (Bool × MVT E × MVTContigencyClosure) :=
  let size := RangeSize range
  if size < cl.min then
    some (true, mvt, cl)
  else if size ≥ wmul W.wordMod 2 cl.min then
    some (false, mvt, { cl with range := some range })
  else
    match MVTCheckFit W mvt.env range.base range.limit cl.min with
    | none => none
    | some true => some (false, mvt, { cl with range := some range })
    | some false => some (true, mvt, cl)

/-- Source function `MVTContingencySearch`: the range found, if any, and the
pool afterwards. -/
def MVTContingencySearch {E : Type} (W : World E) (fuel : Nat) (mvt : MVT E) (min : Nat) :
    Option (Option Range × MVT E) :=
  match LandIterate W (MVTContingencyVisitor W) fuel mvt ⟨min, none⟩ with
  | none => none
  | some (true, mvt1, _) => some (none, mvt1)
  | some (false, mvt1, cl) => some (cl.range, mvt1)

/-- Source function `MVTOversizeFill`: the result code, the range returned
through `baseReturn` and `limitReturn` (if any), and the pool afterwards. -/
def MVTOversizeFill {E : Type} (W : World E) (mvt : MVT E) (minSize : Nat) :
    ResCode × Option Range × MVT E :=
  let alignedSize := SizeArenaGrains W minSize
  let a := MVTSegAlloc W mvt alignedSize
  if a.1 ≠ ResCode.OK then
    (a.1, none, a.2.2)
  else
    let base := a.2.1.base
    let limit := base + minSize
    let mvt1 : MVT E :=
      { a.2.2 with
        available := wsub W.wordMod a.2.2.available (wsub W.wordMod alignedSize minSize),
        unavailable := wadd W.wordMod a.2.2.unavailable (wsub W.wordMod alignedSize minSize) }
    (ResCode.OK, some ⟨base, limit⟩, MVTNoteFill W mvt1 base limit)

/-- Source function `MVTSplinterFill`: `none` is `FALSE`. -/
def MVTSplinterFill {E : Type} (W : World E) (mvt : MVT E) (minSize : Nat) :
    Option (Range × MVT E) :=
  if mvt.splinter = false ∨ mvt.splinterLimit - mvt.splinterBase < minSize then
    none
  else
    let base := mvt.splinterBase
    let limit := mvt.splinterLimit
    some (⟨base, limit⟩, MVTNoteFill W { mvt with splinter := false } base limit)

/-- Source function `MVTABQFill`: the range, if the fill succeeded, and the
pool afterwards. -/
def MVTABQFill {E : Type} (W : World E) (fuel : Nat) (mvt : MVT E) (minSize : Nat) :
    Option (Option Range × MVT E) :=
  match MVTRefillABQIfEmpty W fuel mvt with
  | none => none
  | some mvt1 =>
    match W.abqPeek mvt1.env with
    | none => some (none, mvt1)
    | some range =>
      match MVTOneSegOnly W mvt1 range.base range.limit minSize with
      | none => none
      | some (base, limit) =>
        match MVTDelete W fuel mvt1 base limit with
        | none => none
        | some (res, mvt2) =>
          if res ≠ ResCode.OK then some (none, mvt2)
          else some (some ⟨base, limit⟩, MVTNoteFill W mvt2 base limit)

/-- Source function `MVTContingencyFill`: the range, if the fill succeeded,
and the pool afterwards. -/
def MVTContingencyFill {E : Type} (W : World E) (fuel : Nat) (mvt : MVT E) (minSize : Nat) :
    Option (Option Range × MVT E) :=
  match MVTContingencySearch W fuel mvt minSize with
  | none => none
  | some (none, mvt1) => some (none, mvt1)
  | some (some range, mvt1) =>
    match MVTOneSegOnly W mvt1 range.base range.limit minSize with
    | none => none
    | some (base, limit) =>
      match MVTDelete W fuel mvt1 base limit with
      | none => none
      | some (res, mvt2) =>
        if res ≠ ResCode.OK then some (none, mvt2)
        else some (some ⟨base, limit⟩, MVTNoteFill W mvt2 base limit)

/-- Source function `MVTSegFill`. -/
def MVTSegFill {E : Type} (W : World E) (mvt : MVT E) (fillSize : Nat) :
    ResCode × Option Range × MVT E :=
  let a := MVTSegAlloc W mvt fillSize
  if a.1 ≠ ResCode.OK then
    (a.1, none, a.2.2)
  else
    let base := a.2.1.base
    let limit := a.2.1.limit
    (ResCode.OK, some ⟨base, limit⟩, MVTNoteFill W a.2.2 base limit)

/-- Accumulate `amount` on a meter (`METER_ACC`). -/
def meterAcc (meter : List Nat) (amount : Nat) : List Nat := amount :: meter

/-- Source function `MVTBufferFill`: the result code, the range returned
through `baseReturn` and `limitReturn` (if any), and the pool afterwards. -/
def MVTBufferFill {E : Type} (W : World E) (fuel : Nat) (mvt : MVT E) (minSize : Nat) :
    Option (ResCode × Option Range × MVT E) :=
  if minSize > mvt.fillSize then
    some (MVTOversizeFill W mvt minSize)
  else
    match MVTSplinterFill W mvt minSize with
    | some (range, mvt1) => some (ResCode.OK, some range, mvt1)
    | none =>
      match MVTABQFill W fuel mvt minSize with
      | none => none
      | some (some range, mvt1) => some (ResCode.OK, some range, mvt1)
      | some (none, mvt1) =>
        let m2 : Meters :=
          { mvt1.meters with underflows := meterAcc mvt1.meters.underflows minSize }
        let mvt2 : MVT E := { mvt1 with meters := m2 }
        let m3 : Meters :=
          { m2 with fragLimitContingencies := meterAcc m2.fragLimitContingencies minSize }
        let first : Option (Option Range × MVT E) :=
          if mvt2.available ≥ mvt2.availLimit then
            MVTContingencyFill W fuel { mvt2 with meters := m3 } minSize
          else some (none, mvt2)
        match first with
        | none => none
        | some (some range, mvt3) => some (ResCode.OK, some range, mvt3)
        | some (none, mvt3) =>
          let s := MVTSegFill W mvt3 mvt3.fillSize
          if s.1 = ResCode.OK then some s
          else
            let m5 : Meters :=
              { s.2.2.meters with
                emergencyContingencies := meterAcc s.2.2.meters.emergencyContingencies minSize }
            let second : Option (Option Range × MVT E) :=
              match s.1 with
              | ResCode.OK => some (none, s.2.2)
              | ResCode.failure code =>
                if W.resIsAllocFailure code then
                  MVTContingencyFill W fuel { s.2.2 with meters := m5 } minSize
                else some (none, s.2.2)
            match second with
            | none => none
            | some (some range, mvt4) => some (ResCode.OK, some range, mvt4)
            | some (none, mvt4) =>
              let m6 : Meters :=
                { mvt4.meters with failures := meterAcc mvt4.meters.failures minSize }
              some (s.1, none, { mvt4 with meters := m6 })

/-- Source function `MVTBufferEmpty`; `base` is the init pointer of the buffer
and `limit` its limit. -/
def MVTBufferEmpty {E : Type} (W : World E) (fuel : Nat) (mvt : MVT E) (base limit : Nat) :
    Option (MVT E) :=
  let size := limit - base
  if size = 0 then some mvt
  else
    let mvt1 : MVT E :=
      { mvt with
        available := wadd W.wordMod mvt.available size,
        allocated := wsub W.wordMod mvt.allocated size }
    if size < mvt1.minSize then
      (MVTInsert W fuel mvt1 base limit).map Prod.snd
    else if mvt1.splinter then
      let oldSize := mvt1.splinterLimit - mvt1.splinterBase
      if size < oldSize then
        (MVTInsert W fuel mvt1 base limit).map Prod.snd
      else
        (MVTInsert W fuel mvt1 mvt1.splinterBase mvt1.splinterLimit).map
          (fun r => { r.2 with splinter := true, splinterBase := base, splinterLimit := limit })
    else
      some { mvt1 with splinter := true, splinterBase := base, splinterLimit := limit }

/-- Source function `MVTFree`. -/
def MVTFree {E : Type} (W : World E) (fuel : Nat) (mvt : MVT E) (base size : Nat) :
    Option (MVT E) :=
  let size1 := SizeAlignUp W.wordMod size mvt.alignment
  let limit := base + size1
  let mvt1 : MVT E :=
    { mvt with
      available := wadd W.wordMod mvt.available size1,
      allocated := wsub W.wordMod mvt.allocated size1 }
  if size1 > mvt1.fillSize then
    match W.segOfAddr mvt1.env base with
    | none => none
    | some seg =>
      let mvt2 : MVT E :=
        { mvt1 with
          available := wadd W.wordMod mvt1.available (wsub W.wordMod (SegSize seg) size1),
          unavailable := wsub W.wordMod mvt1.unavailable (wsub W.wordMod (SegSize seg) size1) }
      some (MVTSegFree W mvt2 seg)
  else
    (MVTInsert W fuel mvt1 base limit).map Prod.snd

/-! ## Auxiliary definitions for the MVT pool -/

/-- The accounting fields are machine words. -/
def WordsOK {E : Type} (W : World E) (mvt : MVT E) : Prop :=
  mvt.size < W.wordMod ∧ mvt.allocated < W.wordMod ∧ mvt.available < W.wordMod ∧
  mvt.unavailable < W.wordMod

/-- The clause of `MVTCheck` on `availLimit`. -/
def AvailLimitOK {E : Type} (W : World E) (mvt : MVT E) : Prop :=
  mvt.availLimit = wmul W.wordMod mvt.size mvt.fragLimit / 100

/-- The accounting clause of `MVTCheck`, `size == allocated + available +
unavailable`, as an equation between residues. -/
def AcctOK {E : Type} (W : World E) (mvt : MVT E) : Prop :=
  (mvt.size : ZMod W.wordMod) = mvt.allocated + mvt.available + mvt.unavailable

/-- The fields that the maintenance of the free space never writes: the
parameters, the splinter, `allocated`, `unavailable` and the meters. -/
def core {E : Type} (mvt : MVT E) :
    (Nat × Nat × Nat × Nat × Nat × Nat × Nat) × (Bool × Nat × Nat) × (Nat × Nat) × Meters :=
  ((mvt.alignment, mvt.minSize, mvt.meanSize, mvt.maxSize, mvt.fragLimit, mvt.reuseSize,
      mvt.fillSize),
    (mvt.splinter, mvt.splinterBase, mvt.splinterLimit),
    (mvt.allocated, mvt.unavailable), mvt.meters)

/-- What maintenance of the free space (insert, delete, reserve, return of
segments, refill, search) may do to the pool: it leaves the core alone, takes
the same amount off `size` and `available`, and keeps the fields words and
`availLimit` in step with `size`. -/
structure Maint {E : Type} (W : World E) (mvt mvt1 : MVT E) : Prop where
  core_eq : core mvt1 = core mvt
  diff_eq : (mvt1.size : ZMod W.wordMod) - mvt1.available = mvt.size - mvt.available
  words : WordsOK W mvt → WordsOK W mvt1
  avail : AvailLimitOK W mvt → AvailLimitOK W mvt1

/-- The clause of `MVTCheck` on the splinter: a retained splinter is at least
`minSize` long. -/
def SplinterOK {E : Type} (mvt : MVT E) : Prop :=
  mvt.splinter = true → mvt.minSize ≤ mvt.splinterLimit - mvt.splinterBase

/-- The invariant of the accounting: the clause of `MVTCheck` holds and the
four counters are machine words. -/
def AcctInv {E : Type} (W : World E) (mvt : MVT E) : Prop :=
  AcctOK W mvt ∧ WordsOK W mvt

/-- One operation of the pool on its accounting: a segment allocation or
free, a buffer fill (whole, or one of its five paths), a buffer empty, or a
free; each with any arguments and any fuel with which it returns. -/
inductive MVTStep {E : Type} (W : World E) : MVT E → MVT E → Prop where
  | segAlloc (mvt : MVT E) (size : Nat) : MVTStep W mvt (MVTSegAlloc W mvt size).2.2
  | segFree (mvt : MVT E) (seg : Seg) : MVTStep W mvt (MVTSegFree W mvt seg)
  | bufferFill (fuel : Nat) (mvt : MVT E) (minSize : Nat) (r : ResCode × Option Range × MVT E) :
      MVTBufferFill W fuel mvt minSize = some r → MVTStep W mvt r.2.2
  | oversizeFill (mvt : MVT E) (minSize : Nat) :
      MVTStep W mvt (MVTOversizeFill W mvt minSize).2.2
  | splinterFill (mvt : MVT E) (minSize : Nat) (r : Range × MVT E) :
      MVTSplinterFill W mvt minSize = some r → MVTStep W mvt r.2
  | abqFill (fuel : Nat) (mvt : MVT E) (minSize : Nat) (r : Option Range × MVT E) :
      MVTABQFill W fuel mvt minSize = some r → MVTStep W mvt r.2
  | contingencyFill (fuel : Nat) (mvt : MVT E) (minSize : Nat) (r : Option Range × MVT E) :
      MVTContingencyFill W fuel mvt minSize = some r → MVTStep W mvt r.2
  | segFill (mvt : MVT E) (fillSize : Nat) : MVTStep W mvt (MVTSegFill W mvt fillSize).2.2
  | bufferEmpty (fuel : Nat) (mvt : MVT E) (base limit : Nat) (mvt1 : MVT E) :
      MVTBufferEmpty W fuel mvt base limit = some mvt1 → MVTStep W mvt mvt1
  | free (fuel : Nat) (mvt : MVT E) (base size : Nat) (mvt1 : MVT E) :
      MVTFree W fuel mvt base size = some mvt1 → MVTStep W mvt mvt1

/-- The pools that arise from a successful `MVTInit` by operations of the
pool. -/
inductive MVTReachable {E : Type} (W : World E) : MVT E → Prop where
  | init (env : E) (args : MVTArgs) (mvt : MVT E) :
      MVTInit W env args = some (Except.ok mvt) → MVTReachable W mvt
  | step {mvt mvt1 : MVT E} : MVTReachable W mvt → MVTStep W mvt mvt1 → MVTReachable W mvt1

/-- The retained splinter: the flag and the range. -/
def splinterOf {E : Type} (mvt : MVT E) : Bool × Nat × Nat :=
  (mvt.splinter, mvt.splinterBase, mvt.splinterLimit)

/-- What a fill or a free may do to the splinter of `mvt0`: `minSize` stays,
and a splinter that is retained afterwards is the one retained before. -/
def Keeps {E : Type} (mvt0 mvt1 : MVT E) : Prop :=
  mvt1.minSize = mvt0.minSize ∧ (mvt1.splinter = true → splinterOf mvt1 = splinterOf mvt0)

/-- A property of the pool that the building blocks of the fill paths
preserve: maintenance of the free space, `MVTNoteFill`, `MVTSegAlloc`, the
charge of the excess of an oversize segment to `unavailable`, the release of
the splinter, and the meters. -/
structure FillStable {E : Type} (W : World E) (P : MVT E → Prop) : Prop where
  maint : ∀ {a b : MVT E}, Maint W a b → P a → P b
  noteFill : ∀ {mvt : MVT E} (base limit : Nat), P mvt → P (MVTNoteFill W mvt base limit)
  segAlloc : ∀ {mvt : MVT E} (size : Nat), P mvt → P (MVTSegAlloc W mvt size).2.2
  charge : ∀ {mvt : MVT E} (excess : Nat), P mvt →
    P { mvt with
        available := wsub W.wordMod mvt.available excess,
        unavailable := wadd W.wordMod mvt.unavailable excess }
  release : ∀ {mvt : MVT E}, P mvt → P { mvt with splinter := false }
  meters : ∀ {mvt : MVT E} (m : Meters), P mvt → P { mvt with meters := m }

/-- The accounting at the start of `MVTBufferEmpty` and `MVTFree`: `size`
bytes go from `allocated` to `available`. -/
def moveToAvailable {E : Type} (W : World E) (mvt : MVT E) (size : Nat) : MVT E :=
  { mvt with
    available := wadd W.wordMod mvt.available size,
    allocated := wsub W.wordMod mvt.allocated size }

/-- The insertion of `range` by `MVTInsert` ends without any return of
segments to the arena: the land rejects the range, or the range after
coalescing is shorter than `reuseSize`, or the queue takes it. -/
def InsertShallow {E : Type} (W : World E) (mvt : MVT E) (range : Range) : Prop :=
  (W.landInsert mvt.env range).1 ≠ ResCode.OK ∨
  RangeSize (W.landInsert mvt.env range).2.1 < mvt.reuseSize ∨
  (W.abqPush
    (W.abqIterate (W.landInsert mvt.env range).2.2
      (MVTDeleteOverlapping (W.landInsert mvt.env range).2.1))
    (W.landInsert mvt.env range).2.1).1 = true

/-- The pool after `METER_ACC (mvt->underflows, minSize)`. -/
def noteUnderflow {E : Type} (mvt : MVT E) (minSize : Nat) : MVT E :=
  { mvt with meters := { mvt.meters with underflows := meterAcc mvt.meters.underflows minSize } }

/-- The pool after `METER_ACC (mvt->fragLimitContingencies, minSize)`. -/
def noteFragLimitContingency {E : Type} (mvt : MVT E) (minSize : Nat) : MVT E :=
  { mvt with
    meters :=
      { mvt.meters with
        fragLimitContingencies := meterAcc mvt.meters.fragLimitContingencies minSize } }

/-- The pool after `METER_ACC (mvt->emergencyContingencies, minSize)`. -/
def noteEmergencyContingency {E : Type} (mvt : MVT E) (minSize : Nat) : MVT E :=
  { mvt with
    meters :=
      { mvt.meters with
        emergencyContingencies := meterAcc mvt.meters.emergencyContingencies minSize } }

/-- The pool after `METER_ACC (mvt->failures, minSize)`. -/
def noteFailure {E : Type} (mvt : MVT E) (minSize : Nat) : MVT E :=
  { mvt with meters := { mvt.meters with failures := meterAcc mvt.meters.failures minSize } }

/-- The request `minSize` is not oversize, neither the splinter nor the ABQ
satisfies it, and `MVTBufferFill` comes to the allocation of a new segment with
the pool `mvt3`: below the limit (`available < availLimit`) straight after the
underflow was metered, without a contingency search; otherwise after a
contingency search that found no fit. -/
def ReachesSegFill {E : Type} (W : World E) (fuel : Nat) (mvt : MVT E) (minSize : Nat)
    (mvt3 : MVT E) : Prop :=
  minSize ≤ mvt.fillSize ∧ MVTSplinterFill W mvt minSize = none ∧
  ∃ mvt1 : MVT E, MVTABQFill W fuel mvt minSize = some (none, mvt1) ∧
    ((mvt1.available < mvt1.availLimit ∧ mvt3 = noteUnderflow mvt1 minSize) ∨
      (mvt1.availLimit ≤ mvt1.available ∧
        MVTContingencyFill W fuel (noteFragLimitContingency (noteUnderflow mvt1 minSize) minSize)
          minSize = some (none, mvt3)))

/-! ## A sample world

A small instance of `World` for the examples: a 64-bit platform with arena
grains of 4096 bytes, a bump arena of one megabyte starting at address 65536,
the free list of `code/freelist.c` as the land, and a bounded first-in
first-out queue as the ABQ. -/

/-- State of the sample world. -/
structure SampleEnv where
  next : Nat
  segs : List Seg
  land : Freelist
  abq : List Range
  abqElements : Nat
  iter : List Range

/-- The visit of the queue by `ABQIterate` in the sample world: the elements
for which the visitor answers `delete` are dropped, until it answers not to
continue. -/
def sampleAbqIterate (visitor : Range → Bool × Bool) : List Range → List Range
  | [] => []
  | r :: rs =>
    let v := visitor r
    let rest := if v.2 then sampleAbqIterate visitor rs else rs
    if v.1 then rest else r :: rest

/-- Result of a land operation of the sample world from that of the free
list. -/
def sampleLandResult (e : SampleEnv) (range : Range) (r : Res × Freelist × Option Range) :
    ResCode × Range × SampleEnv :=
  match r with
  | (Res.OK, fl, some rangeReturn) => (ResCode.OK, rangeReturn, { e with land := fl })
  | _ => (ResCode.failure 1, range, e)

/-- The sample world. -/
def sampleWorld : World SampleEnv where
  wordMod := 2 ^ 64
  grainSize := 4096
  resIsAllocFailure := fun code => code == 2 || code == 3 || code == 7
  poolInit := fun e => (ResCode.OK, e)
  poolFinish := fun e => e
  landInit := fun e n align =>
    (ResCode.OK, if n = 1 then { e with land := freelistInit align } else e)
  landFinish := fun e _ => e
  abqInit := fun e depth => (ResCode.OK, { e with abq := [], abqElements := depth })
  segAlloc := fun e size =>
    if size = 0 ∨ e.next + size > 65536 + 1048576 then
      (ResCode.failure 3, ⟨0, 0⟩, e)
    else
      (ResCode.OK, ⟨e.next, e.next + size⟩,
        { e with next := e.next + size, segs := ⟨e.next, e.next + size⟩ :: e.segs })
  segFree := fun e seg => { e with segs := e.segs.filter (fun s => s ≠ seg) }
  segOfAddr := fun e addr => e.segs.find? (fun s => s.base ≤ addr ∧ addr < s.limit)
  landInsert := fun e range => sampleLandResult e range (freelistInsert 8 e.land range)
  landDelete := fun e range => sampleLandResult e range (freelistDelete 8 e.land range)
  landIterBegin := fun e => { e with iter := ranges e.land }
  landIterNext := fun e =>
    match e.iter with
    | [] => (none, e)
    | r :: rs => (some r, { e with iter := rs })
  abqPush := fun e range =>
    if e.abq.length < e.abqElements then (true, { e with abq := e.abq ++ [range] })
    else (false, e)
  abqPeek := fun e => e.abq.head?
  abqIsEmpty := fun e => e.abq.isEmpty
  abqIterate := fun e visitor => { e with abq := sampleAbqIterate visitor e.abq }

/-- The sample world before `MVTInit`. -/
def sampleEnv : SampleEnv :=
  { next := 65536, segs := [], land := freelistInit 16, abq := [], abqElements := 0,
    iter := [] }

/-- Arguments of `MVTInit` for the sample pool: alignment 16, sizes 32, 64 and
128, reserve depth 4 and fragmentation limit 30 per cent. -/
def sampleArgs : MVTArgs :=
  { align := 16, minSize := 32, meanSize := 64, maxSize := 128, reserveDepth := 4,
    fragLimit := 30 }

/-- The sample pool, as `MVTInit` leaves it. -/
def samplePool : MVT SampleEnv :=
  { alignment := 16, minSize := 32, meanSize := 64, maxSize := 128, fragLimit := 30,
    reuseSize := 8192, fillSize := 4096, availLimit := 0, abqOverflow := false,
    splinter := false, splinterBase := 0, splinterLimit := 0, size := 0, allocated := 0,
    available := 0, unavailable := 0, meters := ⟨[], [], [], []⟩,
    env := { sampleEnv with abqElements := 3 } }

/-- A sample `MPS_FIX1`: every reference is of interest; the scan state is the
list of the references offered, latest first. -/
def sampleFix1 (ss : List Nat) (ref : Nat) : Bool × List Nat := (true, ref :: ss)

/-- A sample `MPS_FIX2`: the object moves up by 16 bytes. -/
def sampleFix2 (ss : List Nat) (ref : Nat) : ResCode × Nat × List Nat :=
  (ResCode.OK, ref + 16, ss)

/-- The sample pool after a buffer fill of 100 bytes: one segment of 4096
bytes at 65536, all of it in the buffer. -/
def samplePoolFilled : MVT SampleEnv :=
  { samplePool with
    size := 4096, allocated := 4096, availLimit := 1228,
    meters := ⟨[100], [100], [], []⟩,
    env :=
      { next := 69632, segs := [⟨65536, 69632⟩], land := freelistInit 16, abq := [],
        abqElements := 3, iter := [] } }

/-- The sample pool after the buffer, of which 112 bytes were used, was
emptied: the tail `[65648, 69632)` is the splinter. -/
def samplePoolEmptied : MVT SampleEnv :=
  { samplePoolFilled with
    allocated := 112, available := 3984, splinter := true, splinterBase := 65648,
    splinterLimit := 69632 }

/-- The sample pool after the block of 112 bytes at 65536 was freed. -/
def samplePoolFreed : MVT SampleEnv :=
  { samplePoolEmptied with
    allocated := 0, available := 4096,
    env :=
      { samplePoolEmptied.env with
        land := (freelistInsert 8 (freelistInit 16) ⟨65536, 65648⟩).2.1 } }

/-- The parameter checks at the head of `MVTInit` (its `AVER`s), for
arguments that are machine words. -/
def MVTArgsOK {E : Type} (W : World E) (args : MVTArgs) : Prop :=
  0 < args.align ∧ args.align ≤ W.grainSize ∧
  0 < args.minSize ∧ args.minSize ≤ args.meanSize ∧ args.meanSize ≤ args.maxSize ∧
  0 < args.reserveDepth ∧ args.fragLimit ≤ 100 ∧
  args.maxSize < W.wordMod ∧ args.reserveDepth < W.wordMod

/-- The fill size as the specification words it: `maxSize` rounded up to a
whole number of arena grains. -/
def specFillSize (grainSize maxSize : Nat) : Nat := (maxSize ⌈/⌉ grainSize) * grainSize

/-- The reuse size as the specification words it: twice the fill size. -/
def specReuseSize (grainSize maxSize : Nat) : Nat := 2 * specFillSize grainSize maxSize

/-- The depth of the ABQ as the specification words it: the quotient of
`reserveDepth × meanSize` by `reuseSize`, rounded up, and at least 3. -/
def specAbqDepth (grainSize maxSize meanSize reserveDepth : Nat) : Nat :=
  max 3 ((reserveDepth * meanSize) ⌈/⌉ specReuseSize grainSize maxSize)

/-- Arguments that pass the checks of `MVTInit` and whose product
`reserveDepth × meanSize` is `2 ^ 64`. -/
def overflowArgs : MVTArgs :=
  { align := 16, minSize := 4096, meanSize := 4096, maxSize := 4096,
    reserveDepth := 2 ^ 52, fragLimit := 30 }

/-- Arguments that pass the checks of `MVTInit` and whose `maxSize` is
`2 ^ 63`. -/
def zeroReuseArgs : MVTArgs :=
  { align := 16, minSize := 1, meanSize := 1, maxSize := 2 ^ 63, reserveDepth := 1,
    fragLimit := 30 }

/-- The sample pool when the arena is exhausted. -/
def samplePoolFull : MVT SampleEnv :=
  { samplePool with env := { samplePool.env with next := 65536 + 1048576 } }

/-- The result of a fill of 100 bytes from the sample pool when the arena is
exhausted. -/
def sampleFailedFill : ResCode × Option Range × MVT SampleEnv :=
  (ResCode.failure 3, none, { samplePoolFull with meters := ⟨[100], [100], [100], [100]⟩ })

/-! ## Roots (`code/root.c`)

* Sets of traces, of access kinds and of root modes are bit sets in machine
  words: natural numbers with the bitwise operations.  Function pointers,
  threads and closures are numbers that the world interprets.
* The control pool, the protection interface (`ProtSet`), `TraceScanArea`,
  `ThreadScan` and the scanners of the client are not part of `root.c`: they
  are the fields of `RootWorld E`, acting on their own state `E`.
* The root ring of the arena is the list of its roots, first appended first.
  A root is known by the position of its node in the ring, which is what
  equality of pointers (`trial != root`) compares. -/

/-- Modelled from the spec: the result code `ResFAIL`; its definition is not
part of the sources. -/
def ResFAIL : ResCode := ResCode.failure 1

/-- Modelled from the spec: the result code `ResMEMORY`; its definition is not
part of the sources. -/
def ResMEMORY : ResCode := ResCode.failure 3

/-- Modelled from the spec: the empty set of access kinds; the definitions of
the access sets are not part of the sources. -/
def AccessSetEMPTY : Nat := 0

/-- Modelled from the spec: the access kind "read", bit 0 of an access set. -/
def AccessREAD : Nat := 1

/-- Modelled from the spec: the access kind "write", bit 1 of an access set. -/
def AccessWRITE : Nat := 2

/-- Modelled from the spec: the empty set of traces. -/
def TraceSetEMPTY : Nat := 0

/-- The C expression `x & ~c` on machine words that hold `x` and `c`: the bits
of `x` that are not bits of `c`. -/
def andNot (x c : Nat) : Nat := x ^^^ (x &&& c)

/-- Modelled from the spec: intersection of two sets of traces; the macro is
not part of the sources. -/
def TraceSetInter (a b : Nat) : Nat := a &&& b

/-- Modelled from the spec: the traces of `a` that are not in `b`; the macro
is not part of the sources. -/
def TraceSetDiff (a b : Nat) : Nat := andNot a b

/-- Modelled from the spec: the root mode "constant", bit 0. -/
def RootModeCONSTANT : Nat := 1

/-- Modelled from the spec: the root mode "protectable", bit 1. -/
def RootModePROTECTABLE : Nat := 2

/-- Modelled from the spec: the root mode "protectable inner", bit 2. -/
def RootModePROTECTABLE_INNER : Nat := 4

/-- Modelled from the spec: `AddrAlignDown`, a macro that is not part of the
sources: the address rounded down to a multiple of `align`. -/
def AddrAlignDown (addr align : Nat) : Nat := addr / align * align

/-- Modelled from the spec: `AddrAlignUp`, a macro that is not part of the
sources: the address rounded up to a multiple of `align` in machine words,
like `SizeAlignUp`. -/
def AddrAlignUp (M addr align : Nat) : Nat := SizeAlignUp M addr align

/-- The discriminator of the union of a root. -/
inductive RootVar where
  | AREA
  | AREA_TAGGED
  | FUN
  | FMT
  | THREAD
  | THREAD_TAGGED
deriving DecidableEq, Repr

/-- The union `AreaScanUnion`: a closure or a tag. -/
inductive AreaScanUnion where
  | closure (p : Nat)
  | tag (mask pattern : Nat)
deriving DecidableEq, Repr

/-- The union `RootUnion`. -/
inductive RootUnion where
  | func (scan p s : Nat)
  | area (base limit scan_area : Nat) (the : AreaScanUnion)
  | thread (thread scan_area : Nat) (the : AreaScanUnion) (stackCold : Nat)
  | fmt (scan base limit : Nat)
deriving DecidableEq, Repr

/-- The fields of `RootStruct` but for the signature, the arena and the ring
node. -/
structure Root where
  serial : Nat
  rank : Nat
  grey : Nat
  summary : Nat
  mode : Nat
  protectable : Bool
  protBase : Nat
  protLimit : Nat
  pm : Nat
  var : RootVar
  the : RootUnion
deriving DecidableEq, Repr

/-- The fields of the scan state that `RootScan` uses; `summary` is the value
of `ScanStateSummary (ss)`, which is not part of the sources. -/
structure ScanState where
  rank : Nat
  traces : Nat
  scannedSize : Nat
  summary : Nat
deriving DecidableEq, Repr

/-- The fields of the globals of the arena that `root.c` uses. -/
structure Globals where
  rootSerial : Nat
  rootRing : List Root
deriving DecidableEq, Repr

/-- The parts of the MPS that `root.c` calls and that are not part of it,
acting on their own state `E`: the constants `RefSetUNIV` and
`ArenaGrainSize (arena)`, the control pool, `ProtSet (base, limit, mode)`,
`TraceScanArea (ss, base, limit, scan_area, closure)`,
`ThreadScan (ss, thread, stackCold, scan_area, closure)`, and the calls of the
scanners of function roots `scan (ss, p, s)` and of format roots
`scan (ss, base, limit)`. -/
structure RootWorld (E : Type) where
  wordMod : Nat
  refSetUNIV : Nat
  grainSize : Nat
  controlAlloc : E → ResCode × E
  controlFree : E → E
  protSet : E → Nat → Nat → Nat → E
  traceScanArea : E → ScanState → Nat → Nat → Nat → AreaScanUnion → ResCode × ScanState × E
  threadScan : E → ScanState → Nat → Nat → Nat → AreaScanUnion → ResCode × ScanState × E
  funScan : E → ScanState → Nat → Nat → Nat → ResCode × ScanState × E
  fmtScan : E → ScanState → Nat → Nat → Nat → ResCode × ScanState × E

/-- The macro `AddrArenaGrainUp`. -/
def AddrArenaGrainUp {E : Type} (W : RootWorld E) (addr : Nat) : Nat :=
  AddrAlignUp W.wordMod addr W.grainSize

/-- The macro `AddrArenaGrainDown`. -/
def AddrArenaGrainDown {E : Type} (W : RootWorld E) (addr : Nat) : Nat :=
  AddrAlignDown addr W.grainSize

/-- Source function `rootCreate`: the result code, the root created, the
globals and the world afterwards. -/
def rootCreate {E : Type} (W : RootWorld E) (env : E) (globals : Globals) (rank mode : Nat)
    (type : RootVar) (theUnion : RootUnion) : ResCode × Option Root × Globals × E :=
  let a := W.controlAlloc env
  if a.1 ≠ ResCode.OK then
    (a.1, none, globals, a.2)
  else
    let root : Root :=
      { serial := globals.rootSerial, rank := rank, grey := TraceSetEMPTY,
        summary := W.refSetUNIV, mode := mode, protectable := false, protBase := 0,
        protLimit := 0, pm := AccessSetEMPTY, var := type, the := theUnion }
    (ResCode.OK, some root,
      { rootSerial := wadd W.wordMod globals.rootSerial 1,
        rootRing := globals.rootRing ++ [root] },
      a.2)

/-- The block of `rootCreateProtectable` that computes the protected range of
the root just created. -/
def rootProtect {E : Type} (W : RootWorld E) (root : Root) (mode base limit : Nat) : Root :=
  if mode &&& RootModePROTECTABLE ≠ 0 then
    if mode &&& RootModePROTECTABLE_INNER ≠ 0 then
      let root1 : Root :=
        { root with
          protectable := true,
          protBase := AddrArenaGrainUp W base,
          protLimit := AddrArenaGrainDown W limit }
      if ¬ (root1.protBase < root1.protLimit) then
        { root1 with
          protectable := false,
          mode := andNot root1.mode (RootModePROTECTABLE ||| RootModePROTECTABLE_INNER) }
      else root1
    else
      { root with
        protectable := true,
        protBase := AddrArenaGrainDown W base,
        protLimit := AddrArenaGrainUp W limit }
  else root

/-- The test of `rootCreateProtectable` on two roots: their protected ranges
intersect. -/
def rootsIntersect (root trial : Root) : Bool :=
  decide (root.protBase < trial.protLimit) && decide (trial.protBase < root.protLimit)

/-- The loop `RING_FOR` of `rootCreateProtectable` from the node at position
`i` on: whether a root other than `root`, whose node is at position `self`,
intersects it. -/
def rootRingLoop (root : Root) (self : Nat) : Nat → List Root → Bool
  | _, [] => false
  | i, trial :: rest =>
    if i ≠ self ∧ rootsIntersect root trial = true then true
    else rootRingLoop root self (i + 1) rest

/-- Source function `RootDestroy` of the root whose node is at position `i`
of the ring. -/
def RootDestroy {E : Type} (W : RootWorld E) (env : E) (globals : Globals) (i : Nat) :
    Globals × E :=
  ({ globals with rootRing := globals.rootRing.eraseIdx i }, W.controlFree env)

/-- Source function `rootCreateProtectable`: the result code, what was written
to `rootReturn`, the globals and the world afterwards.  `NOTREACHED` does not
end the program. -/
def rootCreateProtectable {E : Type} (W : RootWorld E) (env : E) (globals : Globals)
    (rank mode : Nat) (var : RootVar) (base limit : Nat) (theUnion : RootUnion) :
    ResCode × Option Root × Globals × E :=
  let c := rootCreate W env globals rank mode var theUnion
  match c.2.1 with
  | none => (c.1, none, c.2.2.1, c.2.2.2)
  | some root0 =>
    let root := rootProtect W root0 mode base limit
    let self := c.2.2.1.rootRing.length - 1
    let globals1 : Globals := { c.2.2.1 with rootRing := c.2.2.1.rootRing.set self root }
    if rootRingLoop root self 0 globals1.rootRing then
      let d := RootDestroy W c.2.2.2 globals1 self
      (ResFAIL, none, d.1, d.2)
    else
      (ResCode.OK, some root, globals1, c.2.2.2)

/-- Source function `RootCreateArea`. -/
def RootCreateArea {E : Type} (W : RootWorld E) (env : E) (globals : Globals)
    (rank mode base limit scan_area closure : Nat) : ResCode × Option Root × Globals × E :=
  rootCreateProtectable W env globals rank mode RootVar.AREA base limit
    (RootUnion.area base limit scan_area (AreaScanUnion.closure closure))

/-- Source function `RootCreateAreaTagged`. -/
def RootCreateAreaTagged {E : Type} (W : RootWorld E) (env : E) (globals : Globals)
    (rank mode base limit scan_area mask pattern : Nat) :
    ResCode × Option Root × Globals × E :=
  rootCreateProtectable W env globals rank mode RootVar.AREA_TAGGED base limit
    (RootUnion.area base limit scan_area (AreaScanUnion.tag mask pattern))

/-- Source function `RootCreateThread`. -/
def RootCreateThread {E : Type} (W : RootWorld E) (env : E) (globals : Globals)
    (rank thread scan_area closure stackCold : Nat) : ResCode × Option Root × Globals × E :=
  rootCreate W env globals rank 0 RootVar.THREAD
    (RootUnion.thread thread scan_area (AreaScanUnion.closure closure) stackCold)

/-- Source function `RootCreateThreadTagged`. -/
def RootCreateThreadTagged {E : Type} (W : RootWorld E) (env : E) (globals : Globals)
    (rank thread scan_area mask pattern stackCold : Nat) :
    ResCode × Option Root × Globals × E :=
  rootCreate W env globals rank 0 RootVar.THREAD_TAGGED
    (RootUnion.thread thread scan_area (AreaScanUnion.tag mask pattern) stackCold)

/-- Source function `RootCreateFmt`. -/
def RootCreateFmt {E : Type} (W : RootWorld E) (env : E) (globals : Globals)
    (rank mode scan base limit : Nat) : ResCode × Option Root × Globals × E :=
  rootCreateProtectable W env globals rank mode RootVar.FMT base limit
    (RootUnion.fmt scan base limit)

/-- Source function `RootCreateFun`. -/
def RootCreateFun {E : Type} (W : RootWorld E) (env : E) (globals : Globals)
    (rank scan p s : Nat) : ResCode × Option Root × Globals × E :=
  rootCreate W env globals rank 0 RootVar.FUN (RootUnion.func scan p s)

/-- Source function `rootSetSummary`. -/
def rootSetSummary {E : Type} (W : RootWorld E) (root : Root) (summary : Nat) : Root :=
  if root.protectable then
    if summary = W.refSetUNIV then
      { root with summary := summary, pm := andNot root.pm AccessWRITE }
    else
      { root with pm := root.pm ||| AccessWRITE, summary := summary }
  else root

/-- The `switch` of `RootScan`: the scan of the root by its variant.  A union
that does not go with the discriminator does not pass `RootCheck`; the scan is
then the `default` case, `ResUNIMPL`. -/
def rootScanVar {E : Type} (W : RootWorld E) (env : E) (ss : ScanState) (root : Root) :
    ResCode × ScanState × E :=
  match root.var, root.the with
  | RootVar.AREA, RootUnion.area base limit scan_area the =>
    W.traceScanArea env ss base limit scan_area the
  | RootVar.AREA_TAGGED, RootUnion.area base limit scan_area the =>
    W.traceScanArea env ss base limit scan_area the
  | RootVar.FUN, RootUnion.func scan p s => W.funScan env ss scan p s
  | RootVar.THREAD, RootUnion.thread thread scan_area the stackCold =>
    W.threadScan env ss thread stackCold scan_area the
  | RootVar.THREAD_TAGGED, RootUnion.thread thread scan_area the stackCold =>
    W.threadScan env ss thread stackCold scan_area the
  | RootVar.FMT, RootUnion.fmt scan base limit =>
    let r := W.fmtScan env ss scan base limit
    (r.1, { r.2.1 with scannedSize := wadd W.wordMod r.2.1.scannedSize (limit - base) }, r.2.2)
  | _, _ => (ResCode.failure 5, ss, env)

/-- The world in which `RootScan` runs the scan of the root: the protection of
the root, if any, is lifted. -/
def rootScanLift {E : Type} (W : RootWorld E) (env : E) (root : Root) : E :=
  if root.pm ≠ AccessSetEMPTY then W.protSet env root.protBase root.protLimit AccessSetEMPTY
  else env

/-- Source function `RootScan`: the result code, the scan state, the root and
the world afterwards. -/
def RootScan {E : Type} (W : RootWorld E) (env : E) (ss : ScanState) (root : Root) :
    ResCode × ScanState × Root × E :=
  if TraceSetInter root.grey ss.traces = TraceSetEMPTY then
    (ResCode.OK, ss, root, env)
  else
    let r := rootScanVar W (rootScanLift W env root) ss root
    if r.1 ≠ ResCode.OK then
      (r.1, r.2.1, root,
        if root.pm ≠ AccessSetEMPTY then W.protSet r.2.2 root.protBase root.protLimit root.pm
        else r.2.2)
    else
      let root1 : Root := { root with grey := TraceSetDiff root.grey r.2.1.traces }
      let root2 := rootSetSummary W root1 r.2.1.summary
      (r.1, r.2.1, root2,
        if root2.pm ≠ AccessSetEMPTY then W.protSet r.2.2 root2.protBase root2.protLimit root2.pm
        else r.2.2)

/-- Source function `RootAccess`: the root and the world afterwards. -/
def RootAccess {E : Type} (W : RootWorld E) (env : E) (root : Root) (_mode : Nat) : Root × E :=
  let root1 := rootSetSummary W root W.refSetUNIV
  (root1, W.protSet env root1.protBase root1.protLimit root1.pm)

/-! ## Auxiliary definitions for roots -/

/-- The protected range that `rootCreateProtectable` computes for a root of
mode `mode` over `[base, limit)`. -/
def protRange {E : Type} (W : RootWorld E) (mode base limit : Nat) : Nat × Nat :=
  if mode &&& RootModePROTECTABLE ≠ 0 then
    if mode &&& RootModePROTECTABLE_INNER ≠ 0 then
      (AddrArenaGrainUp W base, AddrArenaGrainDown W limit)
    else (AddrArenaGrainDown W base, AddrArenaGrainUp W limit)
  else (0, 0)

/-- No two roots of the ring have intersecting protected ranges. -/
def RingDisjoint (ring : List Root) : Prop :=
  ring.Pairwise (fun a b => rootsIntersect a b = false)

/-- One operation on the roots of an arena: the creation of a root of one of
the six kinds, whatever its result, the destruction of a root, or a scan of or
a barrier hit on a root of the ring. -/
inductive RingStep {E : Type} (W : RootWorld E) : Globals × E → Globals × E → Prop where
  | createArea (g : Globals) (env : E) (rank mode base limit scan_area closure : Nat) :
      RingStep W (g, env)
        ((RootCreateArea W env g rank mode base limit scan_area closure).2.2)
  | createAreaTagged (g : Globals) (env : E)
      (rank mode base limit scan_area mask pattern : Nat) :
      RingStep W (g, env)
        ((RootCreateAreaTagged W env g rank mode base limit scan_area mask pattern).2.2)
  | createFmt (g : Globals) (env : E) (rank mode scan base limit : Nat) :
      RingStep W (g, env) ((RootCreateFmt W env g rank mode scan base limit).2.2)
  | createThread (g : Globals) (env : E) (rank thread scan_area closure stackCold : Nat) :
      RingStep W (g, env)
        ((RootCreateThread W env g rank thread scan_area closure stackCold).2.2)
  | createThreadTagged (g : Globals) (env : E)
      (rank thread scan_area mask pattern stackCold : Nat) :
      RingStep W (g, env)
        ((RootCreateThreadTagged W env g rank thread scan_area mask pattern stackCold).2.2)
  | createFun (g : Globals) (env : E) (rank scan p s : Nat) :
      RingStep W (g, env) ((RootCreateFun W env g rank scan p s).2.2)
  | destroy (g : Globals) (env : E) (i : Nat) :
      RingStep W (g, env) (RootDestroy W env g i)
  | scan (g : Globals) (env : E) (i : Nat) (root : Root) (ss : ScanState) :
      g.rootRing[i]? = some root →
      RingStep W (g, env)
        ({ g with rootRing := g.rootRing.set i (RootScan W env ss root).2.2.1 },
          (RootScan W env ss root).2.2.2)
  | access (g : Globals) (env : E) (i : Nat) (root : Root) (mode : Nat) :
      g.rootRing[i]? = some root →
      RingStep W (g, env)
        ({ g with rootRing := g.rootRing.set i (RootAccess W env root mode).1 },
          (RootAccess W env root mode).2)

/-- The arenas that arise from one without roots by operations on roots. -/
inductive RingReachable {E : Type} (W : RootWorld E) : Globals × E → Prop where
  | init (rootSerial : Nat) (env : E) : RingReachable W (⟨rootSerial, []⟩, env)
  | step {s t : Globals × E} : RingReachable W s → RingStep W s t → RingReachable W t

/-- A sample world for roots: 64-bit words, arena grains of 4096 bytes; its
state is the list of the calls of `ProtSet`, latest first.  The control pool
never fails.  The scanner number 0 fails with `ResFAIL`; any other scanner
succeeds and leaves its number as the summary of the scan state. -/
def sampleRootWorld : RootWorld (List (Nat × Nat × Nat)) where
  wordMod := 2 ^ 64
  refSetUNIV := 2 ^ 64 - 1
  grainSize := 4096
  controlAlloc := fun e => (ResCode.OK, e)
  controlFree := fun e => e
  protSet := fun e base limit mode => (base, limit, mode) :: e
  traceScanArea := fun e ss _ _ scan_area _ =>
    if scan_area = 0 then (ResFAIL, ss, e) else (ResCode.OK, { ss with summary := scan_area }, e)
  threadScan := fun e ss _ _ scan_area _ =>
    if scan_area = 0 then (ResFAIL, ss, e) else (ResCode.OK, { ss with summary := scan_area }, e)
  funScan := fun e ss scan _ _ =>
    if scan = 0 then (ResFAIL, ss, e) else (ResCode.OK, { ss with summary := scan }, e)
  fmtScan := fun e ss scan _ _ =>
    if scan = 0 then (ResFAIL, ss, e) else (ResCode.OK, { ss with summary := scan }, e)

/-- A sample root: a protectable area root over `[8192, 8200)`, grey for
trace 0, with scanner `scan_area`. -/
def sampleRoot (scan_area pm : Nat) : Root :=
  { serial := 0, rank := 0, grey := 1, summary := 2 ^ 64 - 1, mode := RootModePROTECTABLE,
    protectable := true, protBase := 8192, protLimit := 12288, pm := pm, var := RootVar.AREA,
    the := RootUnion.area 8192 8200 scan_area (AreaScanUnion.closure 0) }

/-- A sample scan state for trace 0. -/
def sampleScanState : ScanState := { rank := 0, traces := 1, scannedSize := 0, summary := 0 }

/-- Sample globals: the ring holds one protectable area root with the
protected range `[8192, 12288)`. -/
def sampleGlobals : Globals := { rootSerial := 1, rootRing := [sampleRoot 5 0] }

/-- A root as `rootCreate` makes it. -/
def freshRoot {E : Type} (W : RootWorld E) (globals : Globals) (rank mode : Nat)
    (type : RootVar) (theUnion : RootUnion) : Root :=
  { serial := globals.rootSerial, rank := rank, grey := TraceSetEMPTY,
    summary := W.refSetUNIV, mode := mode, protectable := false, protBase := 0,
    protLimit := 0, pm := AccessSetEMPTY, var := type, the := theUnion }

/-! ## The client arena (`code/arenacl.c`)

* Sizes, counts and addresses are machine words; sums, differences, products
  and shifts are taken modulo the word modulus.  Indices of pages are not
  reduced: the code asserts that they do not exceed the number of pages of the
  chunk.
* The constants of the platform and of the configuration, the generic arena
  (`ArenaInit`, the next method of `finish`), the boot block and `ChunkInit`
  are not part of the sources: they are the fields of `ArenaWorld E`, acting
  on their own state `E`.
* Of a chunk the model keeps the fields that `arenacl.c` reads or writes, the
  allocation table as a list of bits, and, for each page, the pool of its
  tract, if it has one. -/

/-- The fields of `ChunkStruct` and of `ClientChunkStruct` that the client
arena uses.  `allocTable` has a bit and `pageTract` an entry for each page. -/
structure Chunk where
  base : Nat
  pages : Nat
  allocBase : Nat
  pageShift : Nat
  pageSize : Nat
  pageTablePages : Nat
  pageTable : Nat
  freePages : Nat
  allocTable : List Bool
  pageTract : List (Option Nat)
deriving DecidableEq, Repr

/-- The fields of the arena that the client arena uses. -/
structure ClientArena where
  grainSize : Nat
  committed : Nat
  zoneShift : Nat
  primary : Option Chunk
deriving DecidableEq, Repr

/-- The parts of the MPS that `arenacl.c` calls and that are not part of the
sources: the word modulus, `MPS_WORD_WIDTH`, `MPS_WORD_SHIFT`, `MPS_PF_ALIGN`,
`ARENA_CLIENT_GRAIN_SIZE`, `ProtGranularity ()`, `sizeof (ClientArenaStruct)`,
`sizeof (ClientChunkStruct)`, the next methods `init` (which answers the
number of committed bytes of the new arena) and `finish`, `BootBlockInit`,
`BootAlloc`, `ChunkInit` and `BootBlockFinish`. -/
structure ArenaWorld (E : Type) where
  wordMod : Nat
  wordWidth : Nat
  wordShift : Nat
  pfAlign : Nat
  clientGrainSize : Nat
  protGranularity : Nat
  sizeofClientArenaStruct : Nat
  sizeofClientChunkStruct : Nat
  superInit : E → Nat → ResCode × Nat × E
  superFinish : E → E
  bootBlockInit : E → Nat → Nat → ResCode × E
  bootAlloc : E → Nat → Nat → ResCode × Nat × E
  chunkInit : E → Nat → Nat → Nat → ResCode × Chunk × E
  bootBlockFinish : E → E

/-- Modelled from the spec: the macro `ChunkPagesToSize`, not part of the
sources: `pages << pageShift` in machine words. -/
def ChunkPagesToSize (M : Nat) (chunk : Chunk) (pages : Nat) : Nat :=
  (pages <<< chunk.pageShift) % M

/-- Modelled from the spec: the macro `ChunkSizeToPages`, not part of the
sources: `size >> pageShift`. -/
def ChunkSizeToPages (chunk : Chunk) (size : Nat) : Nat := size >>> chunk.pageShift

/-- Modelled from the spec: the macro `INDEX_OF_ADDR`, not part of the
sources: the number of the page of `chunk` that holds `addr`. -/
def INDEX_OF_ADDR (chunk : Chunk) (addr : Nat) : Nat := (addr - chunk.base) >>> chunk.pageShift

/-- Modelled from the spec: `PageAlloc`, not part of the sources: the bit of
the page in the allocation table is set and its tract is initialised for
`pool`. -/
def PageAlloc (chunk : Chunk) (pi pool : Nat) : Chunk :=
  { chunk with
    allocTable := chunk.allocTable.set pi true,
    pageTract := chunk.pageTract.set pi (some pool) }

/-- Modelled from the spec: `TractFinish` of the tract of page `pi`, not part
of the sources: the page has no tract any more. -/
def TractFinish (chunk : Chunk) (pi : Nat) : Chunk :=
  { chunk with pageTract := chunk.pageTract.set pi none }

/-- Modelled from the spec: `BTResRange`, not part of the sources: the bits
from `base` up to `limit` are reset. -/
def BTResRange (bt : List Bool) (base limit : Nat) : List Bool :=
  (List.range bt.length).map (fun i => if base ≤ i ∧ i < limit then false else bt.getD i false)

/-- The grain size that `ClientArenaCreate` computes from the argument
`MPS_KEY_ARENA_GRAIN_SIZE`, if given. -/
def clientArenaGrainSize {E : Type} (W : ArenaWorld E) (grainArg : Option Nat) : Nat :=
  SizeAlignUp W.wordMod
    (SizeAlignUp W.wordMod (match grainArg with | some g => g | none => 1) W.clientGrainSize)
    W.protGranularity

/-- The aligned size of the arena structure, `clArenaSize` in
`ClientArenaCreate`. -/
def clArenaSize {E : Type} (W : ArenaWorld E) : Nat :=
  SizeAlignUp W.wordMod W.sizeofClientArenaStruct W.pfAlign

/-- The base of the first chunk, `chunkBase` in `ClientArenaCreate`. -/
def clientArenaChunkBase {E : Type} (W : ArenaWorld E) (base : Nat) : Nat :=
  AddrAlignUp W.wordMod (wadd W.wordMod (AddrAlignUp W.wordMod base W.pfAlign) (clArenaSize W))
    W.pfAlign

/-- Source function `ClientChunkInit`. -/
def ClientChunkInit {E : Type} (W : ArenaWorld E) (env : E) (chunk : Chunk) :
    ResCode × Chunk × E :=
  let chunk1 : Chunk := { chunk with freePages := chunk.pages }
  let r := W.bootAlloc env ((chunk1.pageTablePages <<< chunk1.pageShift) % W.wordMod)
    chunk1.pageSize
  if r.1 ≠ ResCode.OK then (r.1, chunk1, r.2.2)
  else (ResCode.OK, { chunk1 with pageTable := r.2.1 }, r.2.2)

/-- Source function `clientChunkCreate`: the result code, the chunk, the
number of committed bytes of the arena and the world afterwards.  `ChunkInit`
calls `ClientChunkInit` as the method of the class. -/
def clientChunkCreate {E : Type} (W : ArenaWorld E) (env : E) (grainSize committed : Nat)
    (base limit : Nat) : ResCode × Option Chunk × Nat × E :=
  let alignedBase := AddrAlignUp W.wordMod base grainSize
  let b := W.bootBlockInit env alignedBase limit
  if b.1 ≠ ResCode.OK then (b.1, none, committed, b.2)
  else
    let a := W.bootAlloc b.2 W.sizeofClientChunkStruct W.pfAlign
    if a.1 ≠ ResCode.OK then (a.1, none, committed, a.2.2)
    else
      let c := W.chunkInit a.2.2 alignedBase (AddrAlignDown limit grainSize) (limit - base)
      if c.1 ≠ ResCode.OK then (c.1, none, committed, c.2.2)
      else
        let i := ClientChunkInit W c.2.2 c.2.1
        if i.1 ≠ ResCode.OK then (i.1, none, committed, i.2.2)
        else
          (ResCode.OK, some i.2.1,
            wadd W.wordMod committed (ChunkPagesToSize W.wordMod i.2.1 i.2.1.allocBase),
            W.bootBlockFinish i.2.2)

/-- Modelled from the spec: `SizeFloorLog2`, not part of the sources. -/
def SizeFloorLog2 (size : Nat) : Nat := Nat.log2 size

/-- Source function `ClientArenaCreate` with the arguments `size`, `base` and
the grain size, if given: the result code, what was written to `arenaReturn`,
and the world afterwards. -/
def ClientArenaCreate {E : Type} (W : ArenaWorld E) (env : E) (size base : Nat)
    (grainArg : Option Nat) : ResCode × Option ClientArena × E :=
  let grainSize := clientArenaGrainSize W grainArg
  if size < wmul W.wordMod grainSize W.wordWidth then
    (ResMEMORY, none, env)
  else if size < clArenaSize W then
    (ResMEMORY, none, env)
  else
    let limit := wadd W.wordMod base size
    let chunkBase := clientArenaChunkBase W base
    if chunkBase > limit then
      (ResMEMORY, none, env)
    else
      let s := W.superInit env grainSize
      if s.1 ≠ ResCode.OK then (s.1, none, s.2.2)
      else
        let c := clientChunkCreate W s.2.2 grainSize s.2.1 chunkBase limit
        match c.2.1 with
        | none => (c.1, none, W.superFinish c.2.2.2)
        | some chunk =>
          (ResCode.OK,
            some { grainSize := grainSize, committed := c.2.2.1,
                   zoneShift := SizeFloorLog2 (size >>> W.wordShift), primary := some chunk },
            c.2.2.2)

/-- The loop of `ClientArenaPagesMarkAllocated`: `PageAlloc` for the pages
`baseIndex + i`, for `i` from `i` up to `pages`. -/
def markAllocatedLoop (baseIndex pages pool : Nat) : Nat → Nat → Chunk → Chunk
  | 0, _, chunk => chunk
  | fuel + 1, i, chunk =>
    if i < pages then markAllocatedLoop baseIndex pages pool fuel (i + 1)
      (PageAlloc chunk (baseIndex + i) pool)
    else chunk

/-- Source function `ClientArenaPagesMarkAllocated`: the result code, the
number of committed bytes of the arena and the chunk afterwards. -/
def ClientArenaPagesMarkAllocated (M : Nat) (committed : Nat) (chunk : Chunk)
    (baseIndex pages pool : Nat) : ResCode × Nat × Chunk :=
  let chunk1 := markAllocatedLoop baseIndex pages pool pages 0 chunk
  (ResCode.OK, wadd M committed (ChunkPagesToSize M chunk1 pages),
    { chunk1 with freePages := wsub M chunk1.freePages pages })

/-- The loop of `ClientArenaFree`: `TractFinish` for the pages from `pi` up to
`limitIndex`. -/
def freeLoop (limitIndex : Nat) : Nat → Nat → Chunk → Chunk
  | 0, _, chunk => chunk
  | fuel + 1, pi, chunk =>
    if pi < limitIndex then freeLoop limitIndex fuel (pi + 1) (TractFinish chunk pi)
    else chunk

/-- Source function `ClientArenaFree`, for the chunk that `ChunkOfAddr` finds
for `base`: the number of committed bytes of the arena and the chunk
afterwards. -/
def ClientArenaFree (M : Nat) (committed : Nat) (chunk : Chunk) (base size : Nat) :
    Nat × Chunk :=
  let pages := ChunkSizeToPages chunk size
  let baseIndex := INDEX_OF_ADDR chunk base
  let limitIndex := baseIndex + pages
  let chunk1 := freeLoop limitIndex (limitIndex - baseIndex) baseIndex chunk
  let chunk2 : Chunk :=
    { chunk1 with allocTable := BTResRange chunk1.allocTable baseIndex limitIndex }
  (wsub M committed size, { chunk2 with freePages := wadd M chunk2.freePages pages })

/-! ## Protection on Windows (`code/protw3.c`) -/

/-- Modelled from the spec: the constant `PAGE_NOACCESS` of the Windows
interface, not part of the sources. -/
def PAGE_NOACCESS : Nat := 0x01

/-- Modelled from the spec: the constant `PAGE_EXECUTE_READ` of the Windows
interface, not part of the sources. -/
def PAGE_EXECUTE_READ : Nat := 0x20

/-- Modelled from the spec: the constant `PAGE_EXECUTE_READWRITE` of the
Windows interface, not part of the sources. -/
def PAGE_EXECUTE_READWRITE : Nat := 0x40

/-- The value of `newProtect` in `ProtSet`. -/
def protSetNewProtect (mode : Nat) : Nat :=
  let newProtect0 := PAGE_EXECUTE_READWRITE
  let newProtect1 := if mode &&& AccessWRITE ≠ 0 then PAGE_EXECUTE_READ else newProtect0
  if mode &&& AccessREAD ≠ 0 then PAGE_NOACCESS else newProtect1

/-- Source function `ProtSet` of `protw3.c`; `virtualProtect` is the call of
the Windows interface with the address, the size and the new protection, on the
state `E` of the address space.  `NOTREACHED` does not end the program. -/
def ProtSet {E : Type} (virtualProtect : E → Nat → Nat → Nat → Bool × E) (env : E)
    (base limit mode : Nat) : E :=
  (virtualProtect env base (limit - base) (protSetNewProtect mode)).2

/-- Modelled from the spec: the access kinds that a protection level of
Windows forbids: no-access forbids reads and writes, execute and read-only
forbids writes, full access forbids nothing. -/
def pageForbids (protect : Nat) : Nat :=
  if protect = PAGE_NOACCESS then AccessREAD ||| AccessWRITE
  else if protect = PAGE_EXECUTE_READ then AccessWRITE
  else AccessSetEMPTY

/-! ## Auxiliary definitions for the client arena -/

/-- The number of pages of the chunk that have a tract. -/
def usedPages (chunk : Chunk) : Nat := chunk.pageTract.countP (fun t => t.isSome)

/-- The preconditions that `ClientArenaPagesMarkAllocated` asserts. -/
def MarkPre (chunk : Chunk) (baseIndex pages : Nat) : Prop :=
  chunk.allocBase ≤ baseIndex ∧ 0 < pages ∧ baseIndex + pages ≤ chunk.pages ∧
  pages ≤ chunk.freePages

/-- The preconditions that `ClientArenaFree` asserts, for a region of `pool`:
the size is a whole number of pages, the pages lie in the chunk, every page
has a tract of `pool`, the bits of the pages are set in the allocation table,
and the region is not larger than what is committed. -/
def FreePre (committed : Nat) (chunk : Chunk) (base size pool : Nat) : Prop :=
  0 < size ∧
  (ChunkSizeToPages chunk size) <<< chunk.pageShift = size ∧
  INDEX_OF_ADDR chunk base < INDEX_OF_ADDR chunk base + ChunkSizeToPages chunk size ∧
  INDEX_OF_ADDR chunk base + ChunkSizeToPages chunk size ≤ chunk.pages ∧
  (∀ pi : Nat, INDEX_OF_ADDR chunk base ≤ pi →
    pi < INDEX_OF_ADDR chunk base + ChunkSizeToPages chunk size →
    chunk.pageTract[pi]? = some (some pool) ∧ chunk.allocTable[pi]? = some true) ∧
  size ≤ committed

/-- The clause of `ClientChunkCheck` on `freePages`, with what makes it last:
the tables have an entry for each page, and the free pages and the pages with
a tract together are not more than the pages of the chunk. -/
def ChunkOK (chunk : Chunk) : Prop :=
  chunk.pageTract.length = chunk.pages ∧ chunk.allocTable.length = chunk.pages ∧
  chunk.freePages + usedPages chunk ≤ chunk.pages

/-- One operation of the arena on the pages of a chunk, under the
preconditions that the code asserts. -/
inductive ChunkStep (M : Nat) : Nat × Chunk → Nat × Chunk → Prop where
  | mark (committed : Nat) (chunk : Chunk) (baseIndex pages pool : Nat) :
      MarkPre chunk baseIndex pages →
      ChunkStep M (committed, chunk)
        (ClientArenaPagesMarkAllocated M committed chunk baseIndex pages pool).2
  | free (committed : Nat) (chunk : Chunk) (base size pool : Nat) :
      FreePre committed chunk base size pool →
      ChunkStep M (committed, chunk) (ClientArenaFree M committed chunk base size)

/-- The states of a chunk that arise, by operations on its pages, from a chunk
as `ClientChunkInit` leaves it, in which no page has a tract yet. -/
inductive ChunkReachable {E : Type} (W : ArenaWorld E) : Nat × Chunk → Prop where
  | init (env : E) (committed : Nat) (chunk0 : Chunk) :
      chunk0.pageTract = List.replicate chunk0.pages none →
      chunk0.allocTable.length = chunk0.pages →
      ChunkReachable W (committed, (ClientChunkInit W env chunk0).2.1)
  | step {s t : Nat × Chunk} :
      ChunkReachable W s → ChunkStep W.wordMod s t → ChunkReachable W t

/-- A sample world for the client arena: 64-bit words, a minimum grain size of
8192 bytes, pages of 4096 bytes for protection, an arena structure of 1000
bytes; its state counts the calls of the generic arena, the boot block and
`ChunkInit`, which all succeed. -/
def sampleArenaWorld : ArenaWorld Nat where
  wordMod := 2 ^ 64
  wordWidth := 64
  wordShift := 6
  pfAlign := 8
  clientGrainSize := 8192
  protGranularity := 4096
  sizeofClientArenaStruct := 1000
  sizeofClientChunkStruct := 200
  superInit := fun e _ => (ResCode.OK, 0, e + 1)
  superFinish := fun e => e + 1
  bootBlockInit := fun e _ _ => (ResCode.OK, e + 1)
  bootAlloc := fun e _ _ => (ResCode.OK, 0, e + 1)
  chunkInit := fun e base limit _ =>
    (ResCode.OK,
      { base := base, pages := (limit - base) / 8192, allocBase := 1, pageShift := 13,
        pageSize := 8192, pageTablePages := 1, pageTable := 0, freePages := 0,
        allocTable := List.replicate ((limit - base) / 8192) false,
        pageTract := List.replicate ((limit - base) / 8192) none },
      e + 1)
  bootBlockFinish := fun e => e + 1

/-- A sample chunk of eight pages of 8192 bytes at address 65536, of which the
first holds the tables; no page has a tract. -/
def sampleChunk : Chunk :=
  { base := 65536, pages := 8, allocBase := 1, pageShift := 13, pageSize := 8192,
    pageTablePages := 1, pageTable := 65536, freePages := 8,
    allocTable := [true, false, false, false, false, false, false, false],
    pageTract := [none, none, none, none, none, none, none, none] }

/-! ## The visits of `freelistIterateAndDelete` as a trace -/

/-- The calls of a deleting visitor on a list of ranges, as the description of
`IterateAndDelete` has them: the visitor is called on the ranges in list order,
each call with the closure that the previous call left, until a call asks to
stop or the list ends.  An entry of the trace is the range of the call, the
delete flag and the answer `cont` of the visitor. -/
def visits {σ : Type} (visitor : σ → Range → Bool × Bool × σ) :
    σ → List Range → List (Range × Bool × Bool)
  | _, [] => []
  | closure, r :: rs =>
    (r, (visitor closure r).1, (visitor closure r).2.1) ::
      (if (visitor closure r).2.1 then visits visitor (visitor closure r).2.2 rs else [])

/-- The closure after the calls of `visits`. -/
def visitsClosure {σ : Type} (visitor : σ → Range → Bool × Bool × σ) : σ → List Range → σ
  | closure, [] => closure
  | closure, r :: rs =>
    if (visitor closure r).2.1 then visitsClosure visitor (visitor closure r).2.2 rs
    else (visitor closure r).2.2

/-- The ranges of the calls of a trace on which the visitor set the delete
flag. -/
def visitsDeleted (t : List (Range × Bool × Bool)) : List Range :=
  (t.filter (fun e => e.2.1)).map (fun e => e.1)

/-- The ranges of the calls of a trace on which the visitor did not set the
delete flag. -/
def visitsKept (t : List (Range × Bool × Bool)) : List Range :=
  (t.filter (fun e => !e.2.1)).map (fun e => e.1)

/-- A visitor that deletes the ranges from address 64 on, stops at the first
range that reaches 96, and counts its calls in the closure. -/
def sampleVisitor (calls : Nat) (r : Range) : Bool × Bool × Nat :=
  (decide (64 ≤ r.base), decide (r.limit < 96), calls + 1)

/-! ## The words of a block in memory (`FreelistBlockUnion`)

The list model above keeps of a block its tag and its limit word.  Here a
block is the memory it occupies: the word `next` that both shapes of the union
share, tagged in its low bit, and the word `limit` behind it, which belongs to
the block only in the large shape.  Words are natural numbers with the bitwise
operations.  A function with assertions returns, next to its result, whether
every assertion on its path held. -/

/-- Modelled from the spec: `AlignCheck` is not part of the sources; an
alignment is a positive power of two. -/
def AlignCheck (align : Nat) : Bool :=
  decide (0 < align) && decide (align &&& (align - 1) = 0)

/-- Modelled from the spec: `FreelistMinimumAlignment`, declared in
`freelist.h`, which is not part of the sources: the size of a native word,
`w` bytes. -/
def FreelistMinimumAlignment (w : Nat) : Nat := w

/-- Source function `FreelistCheck` on a platform with `w`-byte pointers, but for the
signature and the check of the land it is part of. -/
def FreelistCheck (w : Nat) (fl : Freelist) : Bool :=
  AlignCheck (FreelistMinimumAlignment w) &&
  decide (w < sizeofLarge w) &&
  decide (w ≤ freelistAlignment fl) &&
  decide (freelistAlignment fl % FreelistMinimumAlignment w = 0) &&
  (decide (fl.list = []) == decide (fl.listSize = 0)) &&
  (decide (fl.list = []) == decide (fl.size = 0)) &&
  decide (fl.size % freelistAlignment fl = 0)

/-- The memory of a block: its address, the word `small.next` (which is also
`large.next`) and the word `large.limit`. -/
structure FreelistBlockUnion where
  addr : Nat
  next : Nat
  limit : Nat
deriving DecidableEq, Repr

/-- The macro `freelistEND`. -/
def freelistEND : Nat := 0

/-- The macro `freelistTag`. -/
def freelistTag (word : Nat) : Nat := word &&& 1

/-- The macro `freelistTagSet`. -/
def freelistTagSet (word : Nat) : Nat := word ||| 1

/-- The macro `freelistTagReset`: `word & ~(Word)1`. -/
def freelistTagReset (word : Nat) : Nat := andNot word 1

/-- The macro `freelistTagCopy`. -/
def freelistTagCopy (to_ from_ : Nat) : Nat := to_ ||| freelistTag from_

/-- The macro `freelistBlockIsSmall`; the block is small when the value is not
zero. -/
def freelistBlockIsSmall (block : FreelistBlockUnion) : Nat := freelistTag block.next

/-- The macro `freelistBlockBase`. -/
def freelistBlockBase (block : FreelistBlockUnion) : Nat := block.addr

/-- The macro `freelistBlockNext`. -/
def freelistBlockNext (block : FreelistBlockUnion) : Nat := freelistTagReset block.next

namespace InPlace

/-- Source function `freelistBlockLimit` on the memory of the block. -/
def freelistBlockLimit (fl : Freelist) (block : FreelistBlockUnion) : Nat :=
  if freelistBlockIsSmall block ≠ 0 then freelistBlockBase block + freelistAlignment fl
  else block.limit

/-- Source function `FreelistBlockCheck`. -/
def FreelistBlockCheck (block : FreelistBlockUnion) : Bool :=
  decide (block.addr ≠ 0) &&
  (decide (freelistBlockNext block = freelistEND) ||
    decide (block.addr < freelistBlockNext block)) &&
  (decide (freelistBlockIsSmall block ≠ 0) || decide (block.addr < block.limit))

/-- The macro `freelistBlockSize` on the memory of the block. -/
def freelistBlockSize (fl : Freelist) (block : FreelistBlockUnion) : Nat :=
  freelistBlockLimit fl block - freelistBlockBase block

/-- Source function `freelistBlockSetNext`: whether its assertion held, and the
block afterwards. -/
def freelistBlockSetNext (block : FreelistBlockUnion) (next : Nat) :
    Bool × FreelistBlockUnion :=
  (FreelistBlockCheck block, { block with next := freelistTagCopy next block.next })

/-- Source function `freelistBlockSetLimit` on a platform with `w`-byte pointers: whether
all the assertions on its path held, and the block afterwards. -/
def freelistBlockSetLimit (w : Nat) (fl : Freelist) (block : FreelistBlockUnion)
    (limit : Nat) : Bool × FreelistBlockUnion :=
  let pre : Bool :=
    FreelistCheck w fl && FreelistBlockCheck block &&
    decide (limit % freelistAlignment fl = 0) && decide (freelistBlockBase block < limit)
  let size := limit - block.addr
  if size ≥ sizeofLarge w then
    let block1 : FreelistBlockUnion :=
      { block with next := freelistTagReset block.next, limit := limit }
    (pre && decide (freelistBlockLimit fl block1 = limit), block1)
  else
    let block1 : FreelistBlockUnion := { block with next := freelistTagSet block.next }
    (pre && decide (size ≥ w) &&
      decide (freelistBlockSize fl block1 = freelistAlignment fl) &&
      decide (freelistBlockLimit fl block1 = limit), block1)

/-- Source function `freelistBlockInit`: whether all the assertions on its path held, and
the block.  The block is the memory at `base`, whose second word holds `old`
when the function is entered. -/
def freelistBlockInit (w : Nat) (fl : Freelist) (base limit old : Nat) :
    Bool × FreelistBlockUnion :=
  let pre : Bool :=
    FreelistCheck w fl && decide (base ≠ 0) && decide (base % freelistAlignment fl = 0) &&
    decide (base < limit) && decide (limit % freelistAlignment fl = 0)
  let block : FreelistBlockUnion :=
    { addr := base, next := freelistTagSet freelistEND, limit := old }
  let s := freelistBlockSetLimit w fl block limit
  (pre && s.1 && FreelistBlockCheck s.2, s.2)

end InPlace

/-- What the list model keeps of the memory of a block. -/
def blockOfMemory (block : FreelistBlockUnion) : FreelistBlock :=
  { base := block.addr, small := decide (freelistBlockIsSmall block ≠ 0), limit := block.limit }

/-! ## The segments under a free range -/

/-- What the fills assume of the segments of the pool under the free range
`[base, limit)`: `SegOfAddr` finds a segment for every address of the range
(the segments that cover the range leave no gap), the segment found for an
address contains it, two segments found are the same or disjoint, and every
segment found has at least `fillSize` bytes. -/
structure SegLayout {E : Type} (W : World E) (env : E) (fillSize base limit : Nat) : Prop where
  cover : ∀ addr, base ≤ addr → addr < limit → ∃ seg, W.segOfAddr env addr = some seg
  inside : ∀ addr seg, W.segOfAddr env addr = some seg → seg.base ≤ addr ∧ addr < seg.limit
  disjoint : ∀ a b s t, W.segOfAddr env a = some s → W.segOfAddr env b = some t →
    s = t ∨ s.limit ≤ t.base ∨ t.limit ≤ s.base
  big : ∀ addr seg, W.segOfAddr env addr = some seg → fillSize ≤ SegSize seg

/-- The assertion `AddrOffset (base, limit) >= minSize` at the end of
`MVTNoteFill`. -/
def MVTNoteFillCheck (base limit minSize : Nat) : Bool := decide (limit - base ≥ minSize)

/-- The sample pool with two adjacent segments of 4096 bytes and no free
range. -/
def samplePoolTwoSegs : MVT SampleEnv :=
  { samplePool with
    size := 8192, allocated := 8192, availLimit := 2457,
    env :=
      { next := 73728, segs := [⟨69632, 73728⟩, ⟨65536, 69632⟩], land := freelistInit 16,
        abq := [], abqElements := 3, iter := [] } }

/-! ## The first failing fix of an area scan -/

/-- The fix step fails on `word` when the scan reaches it in the scan state
`ss`: the word passes the test of the scanner on its tag bits, `MPS_FIX1` takes
the reference, and `MPS_FIX2` returns a result other than `ResOK`. -/
def FixFailsAt {S : Type} (fix1 : S → Nat → Bool × S) (fix2 : S → Nat → ResCode × Nat × S)
    (test : Nat → Bool) (mask : Nat) (ss : S) (word : Nat) : Prop :=
  test (word &&& mask) = true ∧
  (fix1 ss (word ^^^ (word &&& mask))).1 = true ∧
  (fix2 (fix1 ss (word ^^^ (word &&& mask))).2 (word ^^^ (word &&& mask))).1 ≠ ResCode.OK

/-- What it is for a scanner `scan` with the test `test` and the mask `mask`
to stop at the first fix error.  When the words `pre` are scanned without
error and the fix step fails on the next word, the scan of any area that
starts with `pre` and that word returns the result and the scan state of the
failing fix, leaves `pre` as its own scan leaves it, and leaves the failing
word and all the words behind it as they were.  A scan that returns a result
other than `ResOK` has met such a word.  The area keeps its length. -/
def StopsAtFirstError {S : Type} (fix1 : S → Nat → Bool × S)
    (fix2 : S → Nat → ResCode × Nat × S) (test : Nat → Bool) (mask : Nat)
    (scan : S → List Nat → ResCode × S × List Nat) : Prop :=
  (∀ (ss : S) (pre : List Nat) (word : Nat) (post : List Nat),
    (scan ss pre).1 = ResCode.OK →
    FixFailsAt fix1 fix2 test mask (scan ss pre).2.1 word →
    scan ss (pre ++ word :: post) =
      ((fix2 (fix1 (scan ss pre).2.1 (word ^^^ (word &&& mask))).2
          (word ^^^ (word &&& mask))).1,
        (fix2 (fix1 (scan ss pre).2.1 (word ^^^ (word &&& mask))).2
          (word ^^^ (word &&& mask))).2.2,
        (scan ss pre).2.2 ++ word :: post)) ∧
  (∀ (ss : S) (area : List Nat), (scan ss area).1 ≠ ResCode.OK →
    ∃ (pre : List Nat) (word : Nat) (post : List Nat),
      area = pre ++ word :: post ∧ (scan ss pre).1 = ResCode.OK ∧
      FixFailsAt fix1 fix2 test mask (scan ss pre).2.1 word) ∧
  (∀ (ss : S) (area : List Nat), (scan ss area).2.2.length = area.length)

/-- A sample `MPS_FIX2` that fails on the reference 48 with the result code 3
and moves every other object up by 16 bytes. -/
def sampleFix2Failing (ss : List Nat) (ref : Nat) : ResCode × Nat × List Nat :=
  if ref = 48 then (ResCode.failure 3, ref, ss) else (ResCode.OK, ref + 16, ss)

/-! ## The stress pool (`code/segsmss.c`) -/

/-- Source function `AMSTSegSizePolicy`: the result code and what was written to
`sizeReturn` (`none` when nothing was written).  The pool and the rank set are
only checked. -/
def AMSTSegSizePolicy {E : Type} (W : World E) (size : Nat) : ResCode × Option Nat :=
  let basic := SizeArenaGrains W size
  if basic = 0 then
    (ResMEMORY, none)
  else
    let want := wadd W.wordMod basic basic
    if want ≤ basic then
      (ResMEMORY, none)
    else
      (ResCode.OK, some want)

/-! ## Checks on roots -/

/-- Modelled from the spec: `AccessSetCheck` is not part of the sources; an
access set holds no other kinds than read and write. -/
def AccessSetCheck (pm : Nat) : Bool := decide (pm < 4)

/-- The clauses of `RootCheck` on the protection of the root: its last
`if`. -/
def RootCheckProtection (root : Root) : Bool :=
  if root.protectable then
    decide (root.protBase ≠ 0) && decide (root.protLimit ≠ 0) &&
      decide (root.protBase < root.protLimit) && AccessSetCheck root.pm
  else
    decide (root.protBase = 0) && decide (root.protLimit = 0) &&
      decide (root.pm = AccessSetEMPTY)

/-- An assertion that failed: the file and the condition that the assertion
handler is given. -/
structure AssertionFailure where
  file : String
  condition : String
deriving DecidableEq, Repr

/-- Modelled from the spec: the interface function `mps_root_create_thread` of
`mpsi.c`, which is not part of the sources (its test `argerr/142.c` and its
callee `RootCreateThread` are).  It validates its argument `cold`, the cold end
of the stack, with the assertion `cold != NULL` and then creates the thread
root with `RootCreateThread`.  The rank, the scanner and the closure that the
interface passes on are parameters.  The result is the failed assertion, or
what `RootCreateThread` returns. -/
def mps_root_create_thread {E : Type} (W : RootWorld E) (env : E) (globals : Globals)
    (rank scan_area closure thread cold : Nat) :
    Except AssertionFailure (ResCode × Option Root × Globals × E) :=
  if cold = 0 then
    Except.error { file := "mpsi.c", condition := "cold != NULL" }
  else
    Except.ok (RootCreateThread W env globals rank thread scan_area closure cold)

/-! ## The free space of the MVT pool: the land and the ABQ

The land and the queue are not part of the sources.  What the pool needs of
them is stated on three views of the state of the world: the ranges that the
land stores, the ranges on the queue, oldest first, and the ranges that an
iteration over the land has still to visit. -/

/-- The views of the state of the world that the consistency of the queue is
about. -/
structure FreeSpaceView (E : Type) where
  land : E → List Range
  abq : E → List Range
  pending : E → List Range

/-- The ranges of a land are not empty and no two of them overlap. -/
def LandOK (L : List Range) : Prop :=
  (∀ x ∈ L, x.base < x.limit) ∧ (∀ x ∈ L, ∀ y ∈ L, x = y ∨ RangesOverlap x y = false)

/-- Modelled from the spec: the behaviour of the land, of the queue and of
`SegOfAddr`, none of which is part of the sources, seen through the views.
`SegOfAddr` finds a segment that contains the address.  `SegFree` leaves the
land and the queue alone.  `ABQPush` appends the range when it succeeds and
does nothing when it fails; `ABQPeek` returns a range of the queue;
`ABQIsEmpty` is true only of the empty queue; `ABQIterate` with a visitor that
always continues removes the ranges that the visitor marks.  `LandInsert` and
`LandDelete` do nothing when they fail.  A successful `LandInsert` of a range
that is not empty returns a range that contains it and contains every stored
range it overlaps, and then the land stores that range and the ranges that do
not overlap it.  A successful `LandDelete` of a range that is not empty returns a
stored range that contains it, and then the land stores the other ranges and
what is left of that one on either side.  An iteration visits ranges that the
land stored when it began, none twice, and nothing but its own steps changes
what it has still to visit. -/
structure FreeSpaceContract {E : Type} (W : World E) (V : FreeSpaceView E) : Prop where
  segInside : ∀ e a s, W.segOfAddr e a = some s → s.base ≤ a ∧ a < s.limit
  segFree : ∀ e s, V.land (W.segFree e s) = V.land e ∧ V.abq (W.segFree e s) = V.abq e ∧
    V.pending (W.segFree e s) = V.pending e
  pushOK : ∀ e r, (W.abqPush e r).1 = true → V.abq (W.abqPush e r).2 = V.abq e ++ [r]
  pushFull : ∀ e r, (W.abqPush e r).1 = false → V.abq (W.abqPush e r).2 = V.abq e
  pushFrame : ∀ e r, V.land (W.abqPush e r).2 = V.land e ∧
    V.pending (W.abqPush e r).2 = V.pending e
  peek : ∀ e r, W.abqPeek e = some r → r ∈ V.abq e
  isEmpty : ∀ e, W.abqIsEmpty e = true → V.abq e = []
  iterate : ∀ e (v : Range → Bool × Bool), (∀ r, (v r).2 = true) →
    V.abq (W.abqIterate e v) = (V.abq e).filter (fun q => !(v q).1) ∧
    V.land (W.abqIterate e v) = V.land e ∧ V.pending (W.abqIterate e v) = V.pending e
  insertFail : ∀ e r, (W.landInsert e r).1 ≠ ResCode.OK →
    V.land (W.landInsert e r).2.2 = V.land e ∧ V.abq (W.landInsert e r).2.2 = V.abq e
  insertOK : ∀ e r, LandOK (V.land e) → r.base < r.limit →
    (W.landInsert e r).1 = ResCode.OK →
    (W.landInsert e r).2.1.base ≤ r.base ∧ r.limit ≤ (W.landInsert e r).2.1.limit ∧
    (∀ x ∈ V.land e, RangesOverlap x (W.landInsert e r).2.1 = true →
      (W.landInsert e r).2.1.base ≤ x.base ∧ x.limit ≤ (W.landInsert e r).2.1.limit) ∧
    (∀ x, x ∈ V.land (W.landInsert e r).2.2 ↔
      x = (W.landInsert e r).2.1 ∨
        (x ∈ V.land e ∧ RangesOverlap x (W.landInsert e r).2.1 = false)) ∧
    V.abq (W.landInsert e r).2.2 = V.abq e
  deleteFail : ∀ e r, (W.landDelete e r).1 ≠ ResCode.OK →
    V.land (W.landDelete e r).2.2 = V.land e ∧ V.abq (W.landDelete e r).2.2 = V.abq e ∧
    V.pending (W.landDelete e r).2.2 = V.pending e
  deleteOK : ∀ e r, LandOK (V.land e) → r.base < r.limit →
    (W.landDelete e r).1 = ResCode.OK →
    (W.landDelete e r).2.1 ∈ V.land e ∧
    (W.landDelete e r).2.1.base ≤ r.base ∧ r.limit ≤ (W.landDelete e r).2.1.limit ∧
    (∀ x, x ∈ V.land (W.landDelete e r).2.2 ↔
      (x ∈ V.land e ∧ x ≠ (W.landDelete e r).2.1) ∨
      (x = ⟨(W.landDelete e r).2.1.base, r.base⟩ ∧ (W.landDelete e r).2.1.base < r.base) ∨
      (x = ⟨r.limit, (W.landDelete e r).2.1.limit⟩ ∧
        r.limit < (W.landDelete e r).2.1.limit)) ∧
    V.abq (W.landDelete e r).2.2 = V.abq e ∧
    V.pending (W.landDelete e r).2.2 = V.pending e
  iterBegin : ∀ e, V.land (W.landIterBegin e) = V.land e ∧
    V.abq (W.landIterBegin e) = V.abq e ∧ (V.pending (W.landIterBegin e)).Nodup ∧
    ∀ p ∈ V.pending (W.landIterBegin e), p ∈ V.land e
  iterNext : ∀ e, V.land (W.landIterNext e).2 = V.land e ∧
    V.abq (W.landIterNext e).2 = V.abq e ∧
    ∀ r, (W.landIterNext e).1 = some r → V.pending e = r :: V.pending (W.landIterNext e).2

/-- The consistency of the queue with the land in the state `e` of the world,
for a pool with the reuse size `reuse`: the land is well formed, no two ranges
of the queue overlap, and every range of the queue is a range that the land
stores and has at least `reuse` bytes. -/
def ABQConsistent {E : Type} (V : FreeSpaceView E) (reuse : Nat) (e : E) : Prop :=
  LandOK (V.land e) ∧
  (V.abq e).Pairwise (fun a b => RangesOverlap a b = false) ∧
  ∀ q ∈ V.abq e, q ∈ V.land e ∧ reuse ≤ RangeSize q

/-- The ranges of `P` are stored in the land and are not on the queue. -/
def Protected {E : Type} (V : FreeSpaceView E) (P : List Range) (e : E) : Prop :=
  ∀ p ∈ P, p ∈ V.land e ∧ p ∉ V.abq e

/-- One update of the free space of the pool: `MVTInsert` or `MVTDelete` of a
range that is not empty, `MVTReserve` of a range of at least `reuseSize` bytes
that the land stores and that is not on the queue, or `MVTRefillABQIfEmpty`;
each with any fuel with which it returns. -/
inductive FreeSpaceStep {E : Type} (W : World E) (V : FreeSpaceView E) : MVT E → MVT E → Prop where
  | insert (fuel : Nat) (mvt : MVT E) (base limit : Nat) (r : ResCode × MVT E) :
      base < limit → MVTInsert W fuel mvt base limit = some r → FreeSpaceStep W V mvt r.2
  | delete (fuel : Nat) (mvt : MVT E) (base limit : Nat) (r : ResCode × MVT E) :
      base < limit → MVTDelete W fuel mvt base limit = some r → FreeSpaceStep W V mvt r.2
  | reserve (fuel : Nat) (mvt : MVT E) (range : Range) (r : Bool × MVT E) :
      range ∈ V.land mvt.env → range ∉ V.abq mvt.env → mvt.reuseSize ≤ RangeSize range →
      MVTReserve W fuel mvt range = some r → FreeSpaceStep W V mvt r.2
  | refill (fuel : Nat) (mvt mvt1 : MVT E) :
      MVTRefillABQIfEmpty W fuel mvt = some mvt1 → FreeSpaceStep W V mvt mvt1

/-- The pools that arise by updates of the free space from a pool whose land
and queue are empty and whose reuse size is not zero, as `MVTInit` leaves
it. -/
inductive FreeSpaceReachable {E : Type} (W : World E) (V : FreeSpaceView E) : MVT E → Prop where
  | init (mvt : MVT E) : 0 < mvt.reuseSize → V.land mvt.env = [] → V.abq mvt.env = [] →
      FreeSpaceReachable W V mvt
  | step {mvt mvt1 : MVT E} : FreeSpaceReachable W V mvt → FreeSpaceStep W V mvt mvt1 →
      FreeSpaceReachable W V mvt1

/-- What an update of the free space that starts in the state `e` of the world
with the reuse size `reuse` leaves behind in the pool `mvt1`: the queue is
consistent with the land, the ranges of `P` are still stored and not on the
queue, the iteration has the same ranges still to visit, and the reuse size is
the same. -/
def FreeSpaceKept {E : Type} (V : FreeSpaceView E) (reuse : Nat) (P : List Range) (e : E)
    (mvt1 : MVT E) : Prop :=
  ABQConsistent V reuse mvt1.env ∧ Protected V P mvt1.env ∧
  V.pending mvt1.env = V.pending e ∧ mvt1.reuseSize = reuse

/-! ## A world whose land is a list of ranges -/

/-- State of the list world: the bump pointer of the arena and its segments,
the ranges of the land, the queue with its depth, and the ranges that an
iteration has still to visit. -/
structure ListEnv where
  next : Nat
  segs : List Seg
  land : List Range
  abq : List Range
  depth : Nat
  iter : List Range
deriving DecidableEq, Repr

/-- Modelled from the spec: the insertion into a land, seen as the list of its
ranges: it fails when the range overlaps a stored range, and otherwise stores
the range joined with the stored ranges that end at its base or begin at its
limit. -/
def listLandInsert (land : List Range) (r : Range) : ResCode × Range × List Range :=
  if land.any (fun x => RangesOverlap x r) then
    (ResCode.failure 1, r, land)
  else
    let lo := land.find? (fun x => decide (x.limit = r.base))
    let hi := land.find? (fun x => decide (x.base = r.limit))
    let new : Range := ⟨(lo.map Range.base).getD r.base, (hi.map Range.limit).getD r.limit⟩
    (ResCode.OK, new, new :: land.filter (fun x => !RangesOverlap x new))

/-- Modelled from the spec: the deletion from a land, seen as the list of its
ranges: it fails when no stored range contains the range, and otherwise
replaces the stored range by what is left of it on either side. -/
def listLandDelete (land : List Range) (r : Range) : ResCode × Range × List Range :=
  match land.find? (fun x => decide (x.base ≤ r.base) && decide (r.limit ≤ x.limit)) with
  | none => (ResCode.failure 1, r, land)
  | some old =>
    (ResCode.OK, old, land.filter (fun x => decide (x ≠ old)) ++ leftFrag old r ++ rightFrag old r)

/-- The list world: a 64-bit platform with arena grains of 4096 bytes, a bump
arena of one megabyte starting at address 65536, a land that is the list of
its ranges, and a bounded first-in first-out queue as the ABQ. -/
def listWorld : World ListEnv where
  wordMod := 2 ^ 64
  grainSize := 4096
  resIsAllocFailure := fun code => code == 2 || code == 3 || code == 7
  poolInit := fun e => (ResCode.OK, e)
  poolFinish := fun e => e
  landInit := fun e n _ => (ResCode.OK, if n = 2 then { e with land := [] } else e)
  landFinish := fun e _ => e
  abqInit := fun e depth => (ResCode.OK, { e with abq := [], depth := depth })
  segAlloc := fun e size =>
    if size = 0 ∨ e.next + size > 65536 + 1048576 then
      (ResCode.failure 3, ⟨0, 0⟩, e)
    else
      (ResCode.OK, ⟨e.next, e.next + size⟩,
        { e with next := e.next + size, segs := ⟨e.next, e.next + size⟩ :: e.segs })
  segFree := fun e seg => { e with segs := e.segs.filter (fun s => s ≠ seg) }
  segOfAddr := fun e addr => e.segs.find? (fun s => s.base ≤ addr ∧ addr < s.limit)
  landInsert := fun e range =>
    ((listLandInsert e.land range).1, (listLandInsert e.land range).2.1,
      { e with land := (listLandInsert e.land range).2.2 })
  landDelete := fun e range =>
    ((listLandDelete e.land range).1, (listLandDelete e.land range).2.1,
      { e with land := (listLandDelete e.land range).2.2 })
  landIterBegin := fun e => { e with iter := e.land.dedup }
  landIterNext := fun e =>
    match e.iter with
    | [] => (none, e)
    | r :: rs => (some r, { e with iter := rs })
  abqPush := fun e range =>
    if e.abq.length < e.depth then (true, { e with abq := e.abq ++ [range] })
    else (false, e)
  abqPeek := fun e => e.abq.head?
  abqIsEmpty := fun e => e.abq.isEmpty
  abqIterate := fun e visitor => { e with abq := sampleAbqIterate visitor e.abq }

/-- The views of the list world. -/
def listView : FreeSpaceView ListEnv where
  land := fun e => e.land
  abq := fun e => e.abq
  pending := fun e => e.iter

/-- The twelve segments of 4096 bytes from 65536 to 114688, as the bump arena
of the list world hands them out. -/
def listSegs : List Seg :=
  [⟨110592, 114688⟩, ⟨106496, 110592⟩, ⟨102400, 106496⟩, ⟨98304, 102400⟩, ⟨94208, 98304⟩,
    ⟨90112, 94208⟩, ⟨86016, 90112⟩, ⟨81920, 86016⟩, ⟨77824, 81920⟩, ⟨73728, 77824⟩,
    ⟨69632, 73728⟩, ⟨65536, 69632⟩]

/-- A pool in the list world with the parameters of the sample pool and a queue
of depth 3. -/
def listPoolWith (size available availLimit : Nat) (segs : List Seg) (land abq : List Range) :
    MVT ListEnv :=
  { alignment := 16, minSize := 32, meanSize := 64, maxSize := 128, fragLimit := 30,
    reuseSize := 8192, fillSize := 4096, availLimit := availLimit, abqOverflow := false,
    splinter := false, splinterBase := 0, splinterLimit := 0, size := size,
    allocated := 12288, available := available, unavailable := 0,
    meters := ⟨[], [], [], []⟩,
    env := { next := 114688, segs := segs, land := land, abq := abq, depth := 3, iter := [] } }

/-- The pool of the list world with its twelve segments, an empty land and an
empty queue; 36864 of its bytes are free and accounted as available, and are
about to be inserted into the land. -/
def listPool : MVT ListEnv := listPoolWith 49152 36864 14745 listSegs [] []

/-- The pool of the list world after the free ranges `[65536, 73728)`,
`[77824, 86016)` and `[90112, 98304)` were inserted: the queue is full. -/
def listPoolFull : MVT ListEnv :=
  listPoolWith 49152 36864 14745 listSegs
    [⟨90112, 98304⟩, ⟨77824, 86016⟩, ⟨65536, 73728⟩]
    [⟨65536, 73728⟩, ⟨77824, 86016⟩, ⟨90112, 98304⟩]

/-- The pool of the list world after `[102400, 110592)` was inserted into the
full queue: the two segments of the oldest range of the queue went back to the
arena. -/
def listPoolReturned : MVT ListEnv :=
  listPoolWith 40960 28672 12288
    [⟨110592, 114688⟩, ⟨106496, 110592⟩, ⟨102400, 106496⟩, ⟨98304, 102400⟩, ⟨94208, 98304⟩,
      ⟨90112, 94208⟩, ⟨86016, 90112⟩, ⟨81920, 86016⟩, ⟨77824, 81920⟩, ⟨73728, 77824⟩]
    [⟨102400, 110592⟩, ⟨90112, 98304⟩, ⟨77824, 86016⟩]
    [⟨77824, 86016⟩, ⟨90112, 98304⟩, ⟨102400, 110592⟩]

/-- The pool of the list world after `[73728, 77824)` was inserted as well: it
was joined with `[77824, 86016)`. -/
def listPoolJoined : MVT ListEnv :=
  listPoolWith 40960 28672 12288
    [⟨110592, 114688⟩, ⟨106496, 110592⟩, ⟨102400, 106496⟩, ⟨98304, 102400⟩, ⟨94208, 98304⟩,
      ⟨90112, 94208⟩, ⟨86016, 90112⟩, ⟨81920, 86016⟩, ⟨77824, 81920⟩, ⟨73728, 77824⟩]
    [⟨73728, 86016⟩, ⟨102400, 110592⟩, ⟨90112, 98304⟩]
    [⟨90112, 98304⟩, ⟨102400, 110592⟩, ⟨73728, 86016⟩]

/-! ## Blocks and the insertion scan -/

theorem freelistBlockLimit_congr {fl fl1 : Freelist} (h : fl1.alignment = fl.alignment)
    (b : FreelistBlock) : freelistBlockLimit fl1 b = freelistBlockLimit fl b := by
  simp [freelistBlockLimit, freelistAlignment, h]

theorem blockRange_congr {fl fl1 : Freelist} (h : fl1.alignment = fl.alignment) :
    blockRange fl1 = blockRange fl := by
  funext b
  simp [blockRange, freelistBlockLimit_congr h]

theorem aligned_gap {a w x y : Nat} (hw : w ≤ a) (hx : a ∣ x) (hy : a ∣ y)
    (hxy : x < y) (hs : y - x < 2 * w) : x + a = y := by
  obtain ⟨j, rfl⟩ := hx
  obtain ⟨k, rfl⟩ := hy
  have hjk : j < k := Nat.lt_of_mul_lt_mul_left hxy
  have hk : k < j + 2 := by
    by_contra h
    push_neg at h
    have h2 := Nat.mul_le_mul_left a h
    rw [Nat.mul_add] at h2
    omega
  have : k = j + 1 := by omega
  subst this
  rw [Nat.mul_add]; omega

theorem setLimit_base (w : Nat) (fl : Freelist) (b : FreelistBlock) (l : Nat) :
    (freelistBlockSetLimit w fl b l).base = b.base := by
  unfold freelistBlockSetLimit
  simp only
  split <;> rfl

theorem setLimit_limit {w : Nat} {fl : Freelist} {b : FreelistBlock} {l : Nat}
    (hw : w ≤ fl.alignment) (hb : fl.alignment ∣ b.base) (hl : fl.alignment ∣ l)
    (hlt : b.base < l) :
    freelistBlockLimit fl (freelistBlockSetLimit w fl b l) = l := by
  unfold freelistBlockSetLimit
  simp only
  split
  · simp [freelistBlockLimit]
  · rename_i h
    simp only [freelistBlockLimit, freelistAlignment, if_true]
    apply aligned_gap hw hb hl hlt
    simpa [sizeofLarge] using h

theorem blockRange_setLimit {w : Nat} {fl : Freelist} {b : FreelistBlock} {l : Nat}
    (hw : w ≤ fl.alignment) (hb : fl.alignment ∣ b.base) (hl : fl.alignment ∣ l)
    (hlt : b.base < l) :
    blockRange fl (freelistBlockSetLimit w fl b l) = ⟨b.base, l⟩ := by
  simp [blockRange, setLimit_base, setLimit_limit hw hb hl hlt]

theorem blockRange_init {w : Nat} {fl : Freelist} {base l : Nat}
    (hw : w ≤ fl.alignment) (hb : fl.alignment ∣ base) (hl : fl.alignment ∣ l)
    (hlt : base < l) :
    blockRange fl (freelistBlockInit w fl base l) = ⟨base, l⟩ := by
  unfold freelistBlockInit
  exact blockRange_setLimit (b := ⟨base, true, 0⟩) hw hb hl hlt

theorem insertScan_some (fl : Freelist) (base limit : Nat) :
    ∀ (curs prevs p c : List FreelistBlock),
      freelistInsertScan fl base limit prevs curs = some (p, c) →
      ∃ mid, p = mid.reverse ++ prevs ∧ curs = mid ++ c ∧
        (∀ b ∈ mid, freelistBlockLimit fl b ≤ base) ∧
        (∀ cur ∈ c.head?, limit ≤ cur.base) := by
  intro curs
  induction curs with
  | nil =>
    intro prevs p c h
    simp [freelistInsertScan] at h
    obtain ⟨rfl, rfl⟩ := h
    exact ⟨[], by simp⟩
  | cons cur next ih =>
    intro prevs p c h
    unfold freelistInsertScan at h
    split at h
    · simp at h
    · rename_i hov
      split at h
      · rename_i hle
        simp at h
        obtain ⟨rfl, rfl⟩ := h
        exact ⟨[], by simpa using hle⟩
      · rename_i hle
        obtain ⟨mid, hp, hc, hm, hh⟩ := ih _ _ _ h
        refine ⟨cur :: mid, by simp [hp], by simp [hc], ?_, hh⟩
        intro b hb
        rcases List.mem_cons.1 hb with rfl | hb
        · omega
        · exact hm b hb

theorem insertScan_none (fl : Freelist) (base limit : Nat) :
    ∀ (curs prevs : List FreelistBlock),
      freelistInsertScan fl base limit prevs curs = none →
      ∃ b ∈ curs, base < freelistBlockLimit fl b ∧ b.base < limit := by
  intro curs
  induction curs with
  | nil => intro prevs h; simp [freelistInsertScan] at h
  | cons cur next ih =>
    intro prevs h
    unfold freelistInsertScan at h
    split at h
    · rename_i hov
      exact ⟨cur, by simp, hov⟩
    · split at h
      · simp at h
      · obtain ⟨b, hb, hov⟩ := ih _ h
        exact ⟨b, by simp [hb], hov⟩

theorem freelistBlockLimit_eq (fl : Freelist) (b : FreelistBlock) :
    freelistBlockLimit fl b = blockLim fl.alignment b := rfl

theorem blockRange_eq (fl : Freelist) : blockRange fl = rangeOf fl.alignment := rfl

theorem ranges_eq (fl : Freelist) : ranges fl = fl.list.map (rangeOf fl.alignment) := rfl

theorem rangeOf_setLimit {w : Nat} {fl : Freelist} {b : FreelistBlock} {l : Nat}
    (hw : w ≤ fl.alignment) (hb : fl.alignment ∣ b.base) (hl : fl.alignment ∣ l)
    (hlt : b.base < l) :
    rangeOf fl.alignment (freelistBlockSetLimit w fl b l) = ⟨b.base, l⟩ :=
  blockRange_setLimit hw hb hl hlt

theorem rangeOf_init (w : Nat) (fl : Freelist) {base l : Nat}
    (hw : w ≤ fl.alignment) (hb : fl.alignment ∣ base) (hl : fl.alignment ∣ l)
    (hlt : base < l) :
    rangeOf fl.alignment (freelistBlockInit w fl base l) = ⟨base, l⟩ :=
  blockRange_init hw hb hl hlt

theorem overlaps_of_lt {r s : Range} (hr : r.base < r.limit) (hs : s.base < s.limit)
    (h1 : r.base < s.limit) (h2 : s.base < r.limit) : Overlaps r s := by
  refine ⟨max r.base s.base, ?_, ?_, ?_, ?_⟩ <;> omega

theorem setPrevNext_list (fl : Freelist) (prevs next : List FreelistBlock) (d : Int) :
    (freelistBlockSetPrevNext fl prevs next d).list = prevs.reverse ++ next := by
  cases prevs <;> simp [freelistBlockSetPrevNext]

theorem setPrevNext_alignment (fl : Freelist) (prevs next : List FreelistBlock) (d : Int) :
    (freelistBlockSetPrevNext fl prevs next d).alignment = fl.alignment := rfl

theorem setPrevNext_size (fl : Freelist) (prevs next : List FreelistBlock) (d : Int) :
    (freelistBlockSetPrevNext fl prevs next d).size = fl.size := rfl

theorem setPrevNext_listSize_neg (fl : Freelist) (prevs next : List FreelistBlock) :
    (freelistBlockSetPrevNext fl prevs next (-1)).listSize = fl.listSize - 1 := by
  simp [freelistBlockSetPrevNext]

theorem setPrevNext_listSize_zero (fl : Freelist) (prevs next : List FreelistBlock) :
    (freelistBlockSetPrevNext fl prevs next 0).listSize = fl.listSize := by
  simp [freelistBlockSetPrevNext]

theorem setPrevNext_listSize_one (fl : Freelist) (prevs next : List FreelistBlock) :
    (freelistBlockSetPrevNext fl prevs next 1).listSize = fl.listSize + 1 := by
  simp [freelistBlockSetPrevNext]

theorem insert_eq_both {w : Nat} {fl : Freelist} {R : Range}
    {prev cur : FreelistBlock} {before next : List FreelistBlock}
    (hscan : freelistInsertScan fl R.base R.limit [] fl.list
      = some (prev :: before, cur :: next))
    (h1 : R.base = freelistBlockLimit fl prev) (h2 : R.limit = cur.base) :
    freelistInsert w fl R =
      (Res.OK,
       { fl with
         list := before.reverse ++
           freelistBlockSetLimit w fl prev (freelistBlockLimit fl cur) :: next,
         listSize := fl.listSize - 1,
         size := fl.size + RangeSize R },
       some ⟨prev.base, freelistBlockLimit fl cur⟩) := by
  unfold freelistInsert
  simp only [hscan, decide_eq_true h1, decide_eq_true h2]
  simp [freelistBlockSetPrevNext]

theorem insert_eq_left {w : Nat} {fl : Freelist} {R : Range}
    {prev : FreelistBlock} {before curs : List FreelistBlock}
    (hscan : freelistInsertScan fl R.base R.limit [] fl.list = some (prev :: before, curs))
    (h1 : R.base = freelistBlockLimit fl prev)
    (h2 : ∀ cur ∈ curs.head?, R.limit ≠ cur.base) :
    freelistInsert w fl R =
      (Res.OK,
       { fl with
         list := before.reverse ++ freelistBlockSetLimit w fl prev R.limit :: curs,
         size := fl.size + RangeSize R },
       some ⟨prev.base, R.limit⟩) := by
  unfold freelistInsert
  simp only [hscan, decide_eq_true h1]
  cases curs with
  | nil => simp
  | cons cur next =>
    have : R.limit ≠ cur.base := h2 cur (by simp)
    simp [this]

theorem insert_eq_right {w : Nat} {fl : Freelist} {R : Range}
    {cur : FreelistBlock} {prevs next : List FreelistBlock}
    (hscan : freelistInsertScan fl R.base R.limit [] fl.list = some (prevs, cur :: next))
    (h1 : ∀ prev ∈ prevs.head?, R.base ≠ freelistBlockLimit fl prev)
    (h2 : R.limit = cur.base) :
    freelistInsert w fl R =
      (Res.OK,
       { fl with
         list := prevs.reverse ++
           freelistBlockInit w fl R.base (freelistBlockLimit fl cur) :: next,
         size := fl.size + RangeSize R },
       some ⟨R.base, freelistBlockLimit fl cur⟩) := by
  unfold freelistInsert
  simp only [hscan, decide_eq_true h2]
  cases prevs with
  | nil => simp [freelistBlockSetPrevNext]
  | cons prev before =>
    have : R.base ≠ freelistBlockLimit fl prev := h1 prev (by simp)
    simp [this, freelistBlockSetPrevNext]

theorem insert_eq_none {w : Nat} {fl : Freelist} {R : Range}
    {prevs curs : List FreelistBlock}
    (hscan : freelistInsertScan fl R.base R.limit [] fl.list = some (prevs, curs))
    (h1 : ∀ prev ∈ prevs.head?, R.base ≠ freelistBlockLimit fl prev)
    (h2 : ∀ cur ∈ curs.head?, R.limit ≠ cur.base) :
    freelistInsert w fl R =
      (Res.OK,
       { fl with
         list := prevs.reverse ++ freelistBlockInit w fl R.base R.limit :: curs,
         listSize := fl.listSize + 1,
         size := fl.size + RangeSize R },
       some ⟨R.base, R.limit⟩) := by
  unfold freelistInsert
  simp only [hscan]
  cases prevs with
  | nil =>
    cases curs with
    | nil => simp [freelistBlockSetPrevNext]
    | cons cur next =>
      have : R.limit ≠ cur.base := h2 cur (by simp)
      simp [this, freelistBlockSetPrevNext]
  | cons prev before =>
    have h1' : R.base ≠ freelistBlockLimit fl prev := h1 prev (by simp)
    cases curs with
    | nil => simp [h1', freelistBlockSetPrevNext]
    | cons cur next =>
      have : R.limit ≠ cur.base := h2 cur (by simp)
      simp [this, h1', freelistBlockSetPrevNext]

theorem valid_blocks {w : Nat} {fl : Freelist} (hv : Valid w fl) :
    (∀ b ∈ fl.list, b.base ≠ 0 ∧ b.base < blockLim fl.alignment b ∧
      fl.alignment ∣ b.base ∧ fl.alignment ∣ blockLim fl.alignment b) ∧
    fl.list.Pairwise (fun x y => blockLim fl.alignment x < y.base) := by
  obtain ⟨_, _, hok, hiso, _, _⟩ := hv
  constructor
  · intro b hb
    exact hok (rangeOf fl.alignment b) (List.mem_map_of_mem _ hb)
  · unfold Isolated at hiso
    rw [ranges_eq, List.pairwise_map] at hiso
    exact hiso

@[simp]
theorem rangeOf_base (a : Nat) (b : FreelistBlock) : (rangeOf a b).base = b.base := rfl

@[simp]
theorem rangeOf_limit (a : Nat) (b : FreelistBlock) :
    (rangeOf a b).limit = blockLim a b := rfl

theorem eq_nil_or_snoc {α : Type} (l : List α) : l = [] ∨ ∃ L z, l = L ++ [z] := by
  rcases List.eq_nil_or_concat l with h | ⟨L, z, h⟩
  · exact Or.inl h
  · exact Or.inr ⟨L, z, by simpa using h⟩

theorem insert_spec {w : Nat} {fl : Freelist} {R : Range} (hv : Valid w fl)
    (hR : RangeOK fl.alignment R) (hno : ∀ r ∈ ranges fl, ¬ Overlaps R r) :
    ∃ (xs ys : List Range) (lo hi : Option Range), InsertPost w fl R xs ys lo hi := by
  obtain ⟨hokb, hisob⟩ := valid_blocks hv
  obtain ⟨ha, hw, hok, hiso, hcnt, hsz⟩ := hv
  obtain ⟨hR0, hRlt, hRb, hRl⟩ := hR
  cases hscan : freelistInsertScan fl R.base R.limit [] fl.list with
  | none =>
    exfalso
    obtain ⟨b, hb, h1, h2⟩ := insertScan_none fl _ _ _ _ hscan
    have hmem : blockRange fl b ∈ ranges fl := List.mem_map_of_mem _ hb
    exact hno _ hmem (overlaps_of_lt hRlt (hok _ hmem).2.1 h1 h2)
  | some pc =>
    obtain ⟨p, c⟩ := pc
    obtain ⟨mid, hp, hl, hmid, hhead⟩ := insertScan_some fl _ _ _ _ _ _ hscan
    simp only [List.append_nil] at hp
    simp only [freelistBlockLimit_eq] at hmid
    have hlen : fl.list.length = mid.length + c.length := by rw [hl]; simp
    rw [hl] at hokb hisob
    rw [List.pairwise_append] at hisob
    obtain ⟨hisoM, hisoC, hisoMC⟩ := hisob
    -- every block from `cur` on starts at or above the range
    have hc : ∀ b ∈ c, R.limit ≤ b.base := by
      intro b hb
      cases c with
      | nil => simp at hb
      | cons cur next =>
        have h0 : R.limit ≤ cur.base := hhead cur (by simp)
        rcases List.mem_cons.1 hb with rfl | hb
        · exact h0
        · have h3 := (List.pairwise_cons.1 hisoC).1 b hb
          have h4 := (hokb cur (by simp)).2.1
          omega
    by_cases hL : ∃ prev before, p = prev :: before ∧ R.base = freelistBlockLimit fl prev
    · obtain ⟨prev, before, hpe, h1⟩ := hL
      have hmid_eq : mid = before.reverse ++ [prev] := by
        have := congrArg List.reverse (hp.symm.trans hpe)
        simpa using this
      subst hmid_eq
      rw [hpe] at hscan
      have hprev := hokb prev (by simp)
      have hbefore : ∀ x ∈ before, blockLim fl.alignment x < R.base := by
        intro x hx
        have := (List.pairwise_append.1 hisoM).2.2 x (by simpa using hx) prev (by simp)
        rw [freelistBlockLimit_eq] at h1
        omega
      by_cases hH : ∃ cur next, c = cur :: next ∧ R.limit = cur.base
      · obtain ⟨cur, next, hce, h2⟩ := hH
        subst hce
        have hcur := hokb cur (by simp)
        have hres := insert_eq_both (w := w) hscan h1 h2
        refine ⟨before.reverse.map (rangeOf fl.alignment), next.map (rangeOf fl.alignment),
          some (rangeOf fl.alignment prev), some (rangeOf fl.alignment cur), ?_⟩
        unfold InsertPost
        rw [hres]
        rw [freelistBlockLimit_eq] at h1
        have hset := rangeOf_setLimit (w := w) (b := prev) hw hprev.2.2.1 hcur.2.2.2
          (by omega)
        refine ⟨by simp [ranges_eq, hl], by simp [h1], by simp [h2], by simpa using hbefore,
          ?_, rfl, by simp [freelistBlockLimit_eq], ?_, rfl, ?_, ?_, rfl⟩
        · intro y hy
          obtain ⟨b, hb, rfl⟩ := List.mem_map.1 hy
          have h3 := (List.pairwise_cons.1 hisoC).1 b hb
          simp only [rangeOf_base]
          omega
        · simp [ranges_eq, freelistBlockLimit_eq, hset]
        · simp [hlen]; omega
        · simp [hcnt, hlen]; try omega
      · have h2 : ∀ cur ∈ c.head?, R.limit ≠ cur.base := by
          intro cur hcur heq
          cases c with
          | nil => simp at hcur
          | cons cur' next =>
            simp at hcur
            subst hcur
            exact hH ⟨_, _, rfl, heq⟩
        have hres := insert_eq_left (w := w) hscan h1 h2
        refine ⟨before.reverse.map (rangeOf fl.alignment), c.map (rangeOf fl.alignment),
          some (rangeOf fl.alignment prev), none, ?_⟩
        unfold InsertPost
        rw [hres]
        rw [freelistBlockLimit_eq] at h1
        have hset := rangeOf_setLimit (w := w) (b := prev) hw hprev.2.2.1 hRl
          (by omega)
        refine ⟨by simp [ranges_eq, hl], by simp [h1], by simp, by simpa using hbefore,
          ?_, rfl, by simp, ?_, rfl, ?_, ?_, rfl⟩
        · intro y hy
          obtain ⟨b, hb, rfl⟩ := List.mem_map.1 hy
          have h3 := hc b hb
          have h4 : R.limit ≠ b.base := by
            cases c with
            | nil => simp at hb
            | cons cur next =>
              rcases List.mem_cons.1 hb with rfl | hb
              · exact h2 _ (by simp)
              · have h5 := (List.pairwise_cons.1 hisoC).1 b hb
                have h6 := (hokb cur (by simp)).2.1
                have h7 := hc cur (by simp)
                omega
          simp only [rangeOf_base]
          omega
        · simp [ranges_eq, hset]
        · simp [hlen]; omega
        · simp
    · have h1 : ∀ prev ∈ p.head?, R.base ≠ freelistBlockLimit fl prev := by
        intro prev hprev heq
        cases p with
        | nil => simp at hprev
        | cons prev' before =>
          simp at hprev
          subst hprev
          exact hL ⟨_, _, rfl, heq⟩
      have hmidlt : ∀ b ∈ mid, blockLim fl.alignment b < R.base := by
        intro b hb
        rcases eq_nil_or_snoc mid with rfl | ⟨L, z, rfl⟩
        · simp at hb
        · have hz : R.base ≠ freelistBlockLimit fl z := h1 z (by simp [hp])
          rw [freelistBlockLimit_eq] at hz
          have hz2 := hmid z (by simp)
          rcases List.mem_append.1 hb with hb | hb
          · have h3 := (List.pairwise_append.1 hisoM).2.2 b hb z (by simp)
            have h4 := (hokb z (by simp)).2.1
            omega
          · simp at hb
            subst hb
            omega
      by_cases hH : ∃ cur next, c = cur :: next ∧ R.limit = cur.base
      · obtain ⟨cur, next, hce, h2⟩ := hH
        subst hce
        have hcur := hokb cur (by simp)
        have hres := insert_eq_right (w := w) hscan h1 h2
        refine ⟨mid.map (rangeOf fl.alignment), next.map (rangeOf fl.alignment),
          none, some (rangeOf fl.alignment cur), ?_⟩
        unfold InsertPost
        rw [hres]
        have hset := rangeOf_init w fl hw hRb hcur.2.2.2
          (by omega)
        refine ⟨by simp [ranges_eq, hl], by simp, by simp [h2], ?_,
          ?_, rfl, by simp [freelistBlockLimit_eq], ?_, rfl, ?_, ?_, rfl⟩
        · intro x hx
          obtain ⟨b, hb, rfl⟩ := List.mem_map.1 hx
          exact hmidlt b hb
        · intro y hy
          obtain ⟨b, hb, rfl⟩ := List.mem_map.1 hy
          have h3 := (List.pairwise_cons.1 hisoC).1 b hb
          simp only [rangeOf_base]
          omega
        · simp [ranges_eq, freelistBlockLimit_eq, hset, hp]
        · simp [hlen, hp]; try omega
        · simp
      · have h2 : ∀ cur ∈ c.head?, R.limit ≠ cur.base := by
          intro cur hcur heq
          cases c with
          | nil => simp at hcur
          | cons cur' next =>
            simp at hcur
            subst hcur
            exact hH ⟨_, _, rfl, heq⟩
        have hres := insert_eq_none (w := w) hscan h1 h2
        refine ⟨mid.map (rangeOf fl.alignment), c.map (rangeOf fl.alignment),
          none, none, ?_⟩
        unfold InsertPost
        rw [hres]
        have hset := rangeOf_init w fl hw hRb hRl hRlt
        refine ⟨by simp [ranges_eq, hl], by simp, by simp, ?_,
          ?_, rfl, by simp, ?_, rfl, ?_, ?_, rfl⟩
        · intro x hx
          obtain ⟨b, hb, rfl⟩ := List.mem_map.1 hx
          exact hmidlt b hb
        · intro y hy
          obtain ⟨b, hb, rfl⟩ := List.mem_map.1 hy
          have h3 := hc b hb
          have h4 : R.limit ≠ b.base := by
            cases c with
            | nil => simp at hb
            | cons cur next =>
              rcases List.mem_cons.1 hb with rfl | hb
              · exact h2 _ (by simp)
              · have h5 := (List.pairwise_cons.1 hisoC).1 b hb
                have h6 := (hokb cur (by simp)).2.1
                have h7 := hc cur (by simp)
                omega
          simp only [rangeOf_base]
          omega
        · simp [ranges_eq, hset, hp]
        · simp [hlen, hp]; try omega
        · simp

/-! ## Insertion keeps the land valid; overlapping insertions fail -/

theorem totalSize_append (xs ys : List Range) :
    totalSize (xs ++ ys) = totalSize xs + totalSize ys := by
  simp [totalSize]

theorem totalSize_cons (x : Range) (xs : List Range) :
    totalSize (x :: xs) = RangeSize x + totalSize xs := by
  simp [totalSize]

theorem totalSize_nil : totalSize [] = 0 := rfl

theorem overlaps_lt {r s : Range} (h : Overlaps r s) : r.base < s.limit ∧ s.base < r.limit := by
  obtain ⟨x, h1, h2, h3, h4⟩ := h
  omega

theorem insertScan_overlap (fl : Freelist) (base limit : Nat) :
    ∀ (curs prevs : List FreelistBlock),
      (∀ b ∈ curs, b.base < blockLim fl.alignment b) →
      curs.Pairwise (fun x y => blockLim fl.alignment x < y.base) →
      (∃ b ∈ curs, base < blockLim fl.alignment b ∧ b.base < limit) →
      freelistInsertScan fl base limit prevs curs = none := by
  intro curs
  induction curs with
  | nil => intro prevs _ _ h; simp at h
  | cons cur next ih =>
    intro prevs hne hiso hex
    unfold freelistInsertScan
    rw [freelistBlockLimit_eq]
    by_cases hov : base < blockLim fl.alignment cur ∧ cur.base < limit
    · simp [hov]
    · obtain ⟨b, hb, hb1, hb2⟩ := hex
      have hbn : b ∈ next := by
        rcases List.mem_cons.1 hb with rfl | hb
        · exact absurd ⟨hb1, hb2⟩ hov
        · exact hb
      have h3 := (List.pairwise_cons.1 hiso).1 b hbn
      have h4 := hne cur (by simp)
      have h5 : ¬ limit ≤ cur.base := by omega
      rw [if_neg hov, if_neg h5]
      exact ih _ (fun x hx => hne x (by simp [hx])) (List.pairwise_cons.1 hiso).2
        ⟨b, hbn, hb1, hb2⟩

theorem insert_overlap_fails {w : Nat} {fl : Freelist} {R : Range} (hv : Valid w fl)
    (hex : ∃ r ∈ ranges fl, Overlaps R r) :
    freelistInsert w fl R = (Res.FAIL, fl, none) := by
  obtain ⟨hokb, hisob⟩ := valid_blocks hv
  obtain ⟨r, hr, hov⟩ := hex
  rw [ranges_eq] at hr
  obtain ⟨b, hb, rfl⟩ := List.mem_map.1 hr
  have h := overlaps_lt hov
  have hscan := insertScan_overlap fl R.base R.limit fl.list []
    (fun x hx => (hokb x hx).2.1) hisob ⟨b, hb, h.1, h.2⟩
  simp [freelistInsert, hscan]

theorem isolated_append {xs ys : List Range} :
    Isolated (xs ++ ys) ↔
      Isolated xs ∧ Isolated ys ∧ ∀ x ∈ xs, ∀ y ∈ ys, x.limit < y.base := by
  unfold Isolated
  exact List.pairwise_append

theorem valid_of_ranges {w : Nat} {fl fl1 : Freelist} (hv : Valid w fl)
    (ha : fl1.alignment = fl.alignment)
    (hok : ∀ r ∈ ranges fl1, RangeOK fl.alignment r)
    (hiso : Isolated (ranges fl1))
    (hcnt : fl1.listSize = fl1.list.length)
    (hsz : fl1.size = totalSize (ranges fl1)) : Valid w fl1 := by
  refine ⟨by rw [ha]; exact hv.1, by rw [ha]; exact hv.2.1, ?_, hiso, hcnt, hsz⟩
  rw [ha]
  exact hok

theorem insertPost_valid {w : Nat} {fl : Freelist} {R : Range} {xs ys : List Range}
    {lo hi : Option Range} (hv : Valid w fl) (hR : RangeOK fl.alignment R)
    (hp : InsertPost w fl R xs ys lo hi) : Valid w (freelistInsert w fl R).2.1 := by
  obtain ⟨hdec, hlo, hhi, hxs, hys, _, _, hrs, hal, hlen, hcnt, hsz⟩ := hp
  obtain ⟨hR0, hRlt, hRb, hRl⟩ := hR
  have hv' := hv
  obtain ⟨ha, hw, hok, hiso, hcnt0, hsz0⟩ := hv'
  rw [hdec] at hok hiso hsz0
  apply valid_of_ranges hv hal
  · rw [hrs]
    intro r hr
    simp only [List.mem_append, List.mem_singleton] at hr
    rcases hr with (hr | rfl) | hr
    · exact hok r (by simp [hr])
    · cases lo with
      | none =>
        cases hi with
        | none => exact ⟨hR0, hRlt, hRb, hRl⟩
        | some h =>
          obtain ⟨_, h1, _, h4⟩ := hok h (by simp)
          have h2 := hhi h rfl
          exact ⟨hR0, by simp only [Option.elim]; omega, hRb, h4⟩
      | some l =>
        obtain ⟨l0, l1, l2, _⟩ := hok l (by simp)
        have h3 := hlo l rfl
        cases hi with
        | none => exact ⟨l0, by simp only [Option.elim]; omega, l2, hRl⟩
        | some h =>
          obtain ⟨_, h1, _, h4⟩ := hok h (by simp)
          have h2 := hhi h rfl
          exact ⟨l0, by simp only [Option.elim]; omega, l2, h4⟩
    · exact hok r (by simp [hr])
  · rw [hrs]
    simp only [isolated_append] at hiso ⊢
    obtain ⟨⟨⟨hx, hl, hxl⟩, hh, hxlh⟩, hy, hxlhy⟩ := hiso
    refine ⟨⟨hx, by simp [Isolated], ?_⟩, hy, ?_⟩
    · intro x hx' y hy'
      simp only [List.mem_singleton] at hy'
      subst hy'
      have := hxs x hx'
      cases lo with
      | none => simpa using this
      | some l => exact hxl x hx' l (by simp)
    · intro x hx' y hy'
      have h5 := hys y hy'
      simp only [List.mem_append, List.mem_singleton] at hx'
      rcases hx' with hx' | rfl
      · exact hxlhy x (by simp [hx']) y hy'
      · cases hi with
        | none => simpa using h5
        | some h => exact hxlhy h (by simp) y hy'
  · omega
  · rw [hsz, hrs, hsz0]
    cases lo with
    | none =>
      cases hi with
      | none =>
        simp only [totalSize_append, totalSize_cons, totalSize_nil, RangeSize,
          Option.toList, Option.elim]
        omega
      | some h =>
        obtain ⟨_, h1, _, _⟩ := hok h (by simp)
        have h2 := hhi h rfl
        simp only [totalSize_append, totalSize_cons, totalSize_nil, RangeSize,
          Option.toList, Option.elim]
        omega
    | some l =>
      obtain ⟨_, l1, _, _⟩ := hok l (by simp)
      have h3 := hlo l rfl
      cases hi with
      | none =>
        simp only [totalSize_append, totalSize_cons, totalSize_nil, RangeSize,
          Option.toList, Option.elim]
        omega
      | some h =>
        obtain ⟨_, h1, _, _⟩ := hok h (by simp)
        have h2 := hhi h rfl
        simp only [totalSize_append, totalSize_cons, totalSize_nil, RangeSize,
          Option.toList, Option.elim]
        omega

theorem insert_valid {w : Nat} {fl : Freelist} {R : Range} (hv : Valid w fl)
    (hR : RangeOK fl.alignment R) : Valid w (freelistInsert w fl R).2.1 := by
  by_cases hex : ∃ r ∈ ranges fl, Overlaps R r
  · rw [insert_overlap_fails hv hex]
    exact hv
  · push_neg at hex
    obtain ⟨xs, ys, lo, hi, hp⟩ := insert_spec hv hR hex
    exact insertPost_valid hv hR hp

/-! ## Deletion -/

theorem deleteFromBlock_spec {w : Nat} {fl : Freelist} {R : Range}
    (prevs : List FreelistBlock) (B : FreelistBlock) (next : List FreelistBlock)
    (hw : w ≤ fl.alignment)
    (hBb : fl.alignment ∣ B.base) (hBl : fl.alignment ∣ blockLim fl.alignment B)
    (hRb : fl.alignment ∣ R.base) (hRl : fl.alignment ∣ R.limit)
    (h1 : B.base ≤ R.base) (h2 : R.limit ≤ blockLim fl.alignment B)
    (hpos : 0 < fl.listSize) :
    (freelistDeleteFromBlock w fl R prevs B next).2 = rangeOf fl.alignment B ∧
    (freelistDeleteFromBlock w fl R prevs B next).1.list.map (rangeOf fl.alignment) =
      prevs.reverse.map (rangeOf fl.alignment) ++ leftFrag (rangeOf fl.alignment B) R ++
        rightFrag (rangeOf fl.alignment B) R ++ next.map (rangeOf fl.alignment) ∧
    (freelistDeleteFromBlock w fl R prevs B next).1.alignment = fl.alignment ∧
    (freelistDeleteFromBlock w fl R prevs B next).1.listSize + 1 =
      fl.listSize + (leftFrag (rangeOf fl.alignment B) R).length +
        (rightFrag (rangeOf fl.alignment B) R).length ∧
    (freelistDeleteFromBlock w fl R prevs B next).1.size = fl.size - RangeSize R := by
  unfold freelistDeleteFromBlock
  simp only [freelistBlockLimit_eq]
  by_cases hb : R.base = B.base
  · by_cases hl : R.limit = blockLim fl.alignment B
    · simp [hb, hl, leftFrag, rightFrag, setPrevNext_list, setPrevNext_alignment, setPrevNext_size, setPrevNext_listSize_neg, setPrevNext_listSize_zero, setPrevNext_listSize_one, rangeOf]
      omega
    · have hlt : R.limit < blockLim fl.alignment B := by omega
      have hset := rangeOf_init w fl hw hRl hBl hlt
      simp [hb, hl, hlt, leftFrag, rightFrag, setPrevNext_list, setPrevNext_alignment, setPrevNext_size, setPrevNext_listSize_neg, setPrevNext_listSize_zero, setPrevNext_listSize_one, hset]
      simp [rangeOf]
  · have hblt : B.base < R.base := by omega
    have hsetL := rangeOf_setLimit (w := w) (b := B) hw hBb hRb hblt
    by_cases hl : R.limit = blockLim fl.alignment B
    · simp [hb, hl, hblt, leftFrag, rightFrag, hsetL]
      simp [rangeOf]
    · have hlt : R.limit < blockLim fl.alignment B := by omega
      have hset := rangeOf_init w fl hw hRl hBl hlt
      simp [hb, hl, hlt, hblt, leftFrag, rightFrag, setPrevNext_list, setPrevNext_alignment, setPrevNext_size, setPrevNext_listSize_neg, setPrevNext_listSize_zero, setPrevNext_listSize_one,
        hset, hsetL]
      simp [rangeOf]

theorem deleteScan_found {w : Nat} {fl : Freelist} {R : Range} (B : FreelistBlock)
    (Ys : List FreelistBlock) (hRlt : R.base < R.limit)
    (h1 : B.base ≤ R.base) (h2 : R.limit ≤ blockLim fl.alignment B) :
    ∀ (Xs prevs : List FreelistBlock),
      (∀ x ∈ Xs, blockLim fl.alignment x < R.base ∧ x.base < R.limit) →
      freelistDeleteScan w fl R prevs (Xs ++ B :: Ys) =
        (Res.OK, (freelistDeleteFromBlock w fl R (Xs.reverse ++ prevs) B Ys).1,
          some (freelistDeleteFromBlock w fl R (Xs.reverse ++ prevs) B Ys).2) := by
  intro Xs
  induction Xs with
  | nil =>
    intro prevs _
    simp only [List.nil_append, List.reverse_nil]
    unfold freelistDeleteScan
    simp only [freelistBlockLimit_eq]
    rw [if_neg (by omega), if_pos (by omega), if_neg (by omega)]
  | cons x Xs ih =>
    intro prevs hx
    have h3 := hx x (by simp)
    simp only [List.cons_append]
    unfold freelistDeleteScan
    simp only [freelistBlockLimit_eq]
    rw [if_neg (by omega), if_neg (by omega)]
    rw [ih (x :: prevs) (fun y hy => hx y (by simp [hy]))]
    simp

theorem deleteScan_fail {w : Nat} {fl : Freelist} {R : Range} :
    ∀ (curs prevs : List FreelistBlock),
      (∀ b ∈ curs, ¬ (b.base ≤ R.base ∧ R.limit ≤ blockLim fl.alignment b)) →
      freelistDeleteScan w fl R prevs curs = (Res.FAIL, fl, none) := by
  intro curs
  induction curs with
  | nil => intro prevs _; simp [freelistDeleteScan]
  | cons cur next ih =>
    intro prevs h
    have h0 := h cur (by simp)
    unfold freelistDeleteScan
    simp only [freelistBlockLimit_eq]
    split
    · rfl
    · split
      · rw [if_pos (by omega)]
      · exact ih _ (fun b hb => h b (by simp [hb]))

theorem delete_not_contained_fails {w : Nat} {fl : Freelist} {R : Range}
    (h : ∀ r ∈ ranges fl, ¬ (r.base ≤ R.base ∧ R.limit ≤ r.limit)) :
    freelistDelete w fl R = (Res.FAIL, fl, none) := by
  unfold freelistDelete
  apply deleteScan_fail
  intro b hb
  exact h (rangeOf fl.alignment b) (List.mem_map_of_mem _ hb)

theorem delete_spec {w : Nat} {fl : Freelist} {R B : Range} {xs ys : List Range}
    (hv : Valid w fl) (hdec : ranges fl = xs ++ B :: ys)
    (hRlt : R.base < R.limit) (hRb : fl.alignment ∣ R.base) (hRl : fl.alignment ∣ R.limit)
    (h1 : B.base ≤ R.base) (h2 : R.limit ≤ B.limit) : DeletePost w fl R xs ys B := by
  obtain ⟨hokb, hisob⟩ := valid_blocks hv
  obtain ⟨ha, hw, hok, hiso, hcnt, hsz⟩ := hv
  rw [ranges_eq, List.map_eq_append_iff] at hdec
  obtain ⟨Xs, rest, hl, rfl, hrest⟩ := hdec
  rw [List.map_eq_cons_iff] at hrest
  obtain ⟨Bb, Ys, rfl, rfl, rfl⟩ := hrest
  simp only [rangeOf_base, rangeOf_limit] at h1 h2
  rw [hl] at hokb hisob
  have hB := hokb Bb (by simp)
  have hXs : ∀ x ∈ Xs, blockLim fl.alignment x < R.base ∧ x.base < R.limit := by
    intro x hx
    have h3 := (List.pairwise_append.1 hisob).2.2 x hx Bb (by simp)
    have h4 := (hokb x (by simp [hx])).2.1
    omega
  have hscan := deleteScan_found (w := w) Bb Ys hRlt h1 h2 Xs [] hXs
  rw [List.append_nil] at hscan
  have hpos : 0 < fl.listSize := by rw [hcnt, hl]; simp
  obtain ⟨e1, e2, e3, e4, e5⟩ := deleteFromBlock_spec (w := w) (R := R) Xs.reverse Bb Ys
    hw hB.2.2.1 hB.2.2.2 hRb hRl h1 h2 hpos
  unfold DeletePost freelistDelete
  rw [hl, hscan]
  refine ⟨rfl, by simp [e1], ?_, e3, ?_, e4, e5⟩
  · rw [ranges_eq]
    simp only [e3, e2, List.reverse_reverse]
  · have := congrArg List.length e2
    simp only [List.length_map, List.length_append, List.length_reverse, List.length_nil,
      List.length_cons] at this ⊢
    omega

theorem isolated_replace {xs ys mids : List Range} {B : Range}
    (h : Isolated (xs ++ B :: ys))
    (hin : ∀ m ∈ mids, B.base ≤ m.base ∧ m.limit ≤ B.limit)
    (hm : Isolated mids) : Isolated (xs ++ mids ++ ys) := by
  rw [isolated_append] at h
  obtain ⟨hx, hBy, hxBy⟩ := h
  have hBy' := List.pairwise_cons.1 hBy
  rw [isolated_append, isolated_append]
  refine ⟨⟨hx, hm, ?_⟩, hBy'.2, ?_⟩
  · intro x hx' m hm'
    have := hxBy x hx' B (by simp)
    have := hin m hm'
    omega
  · intro x hx' y hy'
    rcases List.mem_append.1 hx' with hx' | hx'
    · exact hxBy x hx' y (by simp [hy'])
    · have := hBy'.1 y hy'
      have := hin x hx'
      omega

theorem frags_inside {B R : Range} (h1 : B.base ≤ R.base) (h2 : R.limit ≤ B.limit)
    (hle : R.base ≤ R.limit)
    (hR : R.base < R.limit ∨ R.base = B.base ∨ R.limit = B.limit) :
    (∀ m ∈ leftFrag B R ++ rightFrag B R, B.base ≤ m.base ∧ m.limit ≤ B.limit) ∧
    Isolated (leftFrag B R ++ rightFrag B R) ∧
    totalSize (leftFrag B R ++ rightFrag B R) + RangeSize R = RangeSize B := by
  unfold leftFrag rightFrag
  by_cases hb : B.base < R.base <;> by_cases hl : R.limit < B.limit <;>
    simp [hb, hl, Isolated, totalSize, RangeSize] <;> omega

theorem frags_ok {a : Nat} {B R : Range} (hB : RangeOK a B) (h1 : B.base ≤ R.base)
    (hle : R.base ≤ R.limit) (hRb : a ∣ R.base) (hRl : a ∣ R.limit) :
    ∀ m ∈ leftFrag B R ++ rightFrag B R, RangeOK a m := by
  obtain ⟨hB0, hBlt, hBb, hBl⟩ := hB
  unfold leftFrag rightFrag
  intro m hm
  by_cases hb : B.base < R.base <;> by_cases hl : R.limit < B.limit <;>
    simp [hb, hl] at hm
  · rcases hm with rfl | rfl
    · exact ⟨hB0, hb, hBb, hRb⟩
    · exact ⟨by simp; omega, hl, hRl, hBl⟩
  · subst hm
    exact ⟨hB0, hb, hBb, hRb⟩
  · subst hm
    exact ⟨by simp; omega, hl, hRl, hBl⟩

theorem valid_after_delete {w : Nat} {fl fl1 : Freelist} {R B : Range} {xs ys : List Range}
    (hv : Valid w fl) (hdec : ranges fl = xs ++ B :: ys)
    (hle : R.base ≤ R.limit)
    (hR : R.base < R.limit ∨ R.base = B.base ∨ R.limit = B.limit)
    (hRb : fl.alignment ∣ R.base) (hRl : fl.alignment ∣ R.limit)
    (h1 : B.base ≤ R.base) (h2 : R.limit ≤ B.limit)
    (hrs : ranges fl1 = xs ++ leftFrag B R ++ rightFrag B R ++ ys)
    (hal : fl1.alignment = fl.alignment)
    (hlen : fl1.list.length + 1 =
      fl.list.length + (leftFrag B R).length + (rightFrag B R).length)
    (hcnt : fl1.listSize + 1 =
      fl.listSize + (leftFrag B R).length + (rightFrag B R).length)
    (hsz : fl1.size = fl.size - RangeSize R) : Valid w fl1 := by
  have hv' := hv
  obtain ⟨ha, hw, hok, hiso, hcnt0, hsz0⟩ := hv'
  rw [hdec] at hok hiso hsz0
  obtain ⟨hin, hmiso, hmsz⟩ := frags_inside h1 h2 hle hR
  have hrs' : ranges fl1 = xs ++ (leftFrag B R ++ rightFrag B R) ++ ys := by
    rw [hrs]; simp
  apply valid_of_ranges hv hal
  · rw [hrs']
    intro r hr
    simp only [List.mem_append] at hr
    rcases hr with (hr | hr) | hr
    · exact hok r (by simp [hr])
    · exact frags_ok (hok B (by simp)) h1 hle hRb hRl r (List.mem_append.2 hr)
    · exact hok r (by simp [hr])
  · rw [hrs']
    exact isolated_replace hiso hin hmiso
  · omega
  · rw [hsz, hrs', hsz0]
    simp only [totalSize_append, totalSize_cons] at hmsz ⊢
    omega

theorem deletePost_valid {w : Nat} {fl : Freelist} {R B : Range} {xs ys : List Range}
    (hv : Valid w fl) (hdec : ranges fl = xs ++ B :: ys)
    (hRlt : R.base < R.limit) (hRb : fl.alignment ∣ R.base) (hRl : fl.alignment ∣ R.limit)
    (h1 : B.base ≤ R.base) (h2 : R.limit ≤ B.limit)
    (hp : DeletePost w fl R xs ys B) : Valid w (freelistDelete w fl R).2.1 := by
  obtain ⟨_, _, hrs, hal, hlen, hcnt, hsz⟩ := hp
  exact valid_after_delete hv hdec (Nat.le_of_lt hRlt) (Or.inl hRlt) hRb hRl h1 h2
    hrs hal hlen hcnt hsz

theorem delete_valid {w : Nat} {fl : Freelist} {R : Range} (hv : Valid w fl)
    (hRlt : R.base < R.limit) (hRb : fl.alignment ∣ R.base) (hRl : fl.alignment ∣ R.limit) :
    Valid w (freelistDelete w fl R).2.1 := by
  by_cases hex : ∃ r ∈ ranges fl, r.base ≤ R.base ∧ R.limit ≤ r.limit
  · obtain ⟨B, hB, h1, h2⟩ := hex
    obtain ⟨xs, ys, hdec⟩ := List.append_of_mem hB
    exact deletePost_valid hv hdec hRlt hRb hRl h1 h2
      (delete_spec hv hdec hRlt hRb hRl h1 h2)
  · push_neg at hex
    rw [delete_not_contained_fails (fun r hr hc => absurd hc.2 (not_le.2 (hex r hr hc.1)))]
    exact hv

/-! ## The find methods -/

theorem exists_first {α : Type} (p : α → Prop) [DecidablePred p] :
    ∀ (l : List α), (∃ b ∈ l, p b) →
      ∃ Xs B Ys, l = Xs ++ B :: Ys ∧ p B ∧ ∀ x ∈ Xs, ¬ p x := by
  intro l
  induction l with
  | nil => intro h; simp at h
  | cons a l ih =>
    intro h
    by_cases ha : p a
    · exact ⟨[], a, l, rfl, ha, by simp⟩
    · obtain ⟨b, hb, hpb⟩ := h
      have hbl : b ∈ l := by
        rcases List.mem_cons.1 hb with rfl | hb
        · exact absurd hpb ha
        · exact hb
      obtain ⟨Xs, B, Ys, rfl, hB, hXs⟩ := ih ⟨b, hbl, hpb⟩
      refine ⟨a :: Xs, B, Ys, rfl, hB, ?_⟩
      intro x hx
      rcases List.mem_cons.1 hx with rfl | hx
      · exact ha
      · exact hXs x hx

theorem exists_last {α : Type} (p : α → Prop) [DecidablePred p] (l : List α)
    (h : ∃ b ∈ l, p b) :
    ∃ Xs B Ys, l = Xs ++ B :: Ys ∧ p B ∧ ∀ y ∈ Ys, ¬ p y := by
  obtain ⟨b, hb, hpb⟩ := h
  obtain ⟨Xs, B, Ys, hl, hB, hXs⟩ := exists_first p l.reverse ⟨b, by simpa using hb, hpb⟩
  refine ⟨Ys.reverse, B, Xs.reverse, ?_, hB, fun y hy => hXs y (by simpa using hy)⟩
  have := congrArg List.reverse hl
  simpa using this

theorem exists_max {α : Type} (f : α → Nat) :
    ∀ (l : List α), l ≠ [] → ∃ b ∈ l, ∀ x ∈ l, f x ≤ f b := by
  intro l
  induction l with
  | nil => intro h; exact absurd rfl h
  | cons a l ih =>
    intro _
    by_cases hl : l = []
    · subst hl
      exact ⟨a, by simp, by simp⟩
    · obtain ⟨b, hb, hmax⟩ := ih hl
      by_cases hab : f b ≤ f a
      · refine ⟨a, by simp, ?_⟩
        intro x hx
        rcases List.mem_cons.1 hx with rfl | hx
        · exact Nat.le_refl _
        · exact Nat.le_trans (hmax x hx) hab
      · refine ⟨b, by simp [hb], ?_⟩
        intro x hx
        rcases List.mem_cons.1 hx with rfl | hx
        · omega
        · exact hmax x hx

theorem findFirstLoop_none {w : Nat} {fl : Freelist} {size : Nat} {fd : FindDelete} :
    ∀ (curs prevs : List FreelistBlock),
      (∀ b ∈ curs, freelistBlockSize fl b < size) →
      freelistFindFirstLoop w fl size fd prevs curs = ⟨false, fl, none, none⟩ := by
  intro curs
  induction curs with
  | nil => intro prevs _; simp [freelistFindFirstLoop]
  | cons cur next ih =>
    intro prevs h
    have h0 := h cur (by simp)
    unfold freelistFindFirstLoop
    rw [if_neg (by omega)]
    exact ih _ (fun b hb => h b (by simp [hb]))

theorem findFirstLoop_found {w : Nat} {fl : Freelist} {size : Nat} {fd : FindDelete}
    (B : FreelistBlock) (Ys : List FreelistBlock) (hB : size ≤ freelistBlockSize fl B) :
    ∀ (Xs prevs : List FreelistBlock),
      (∀ x ∈ Xs, freelistBlockSize fl x < size) →
      freelistFindFirstLoop w fl size fd prevs (Xs ++ B :: Ys) =
        ⟨true, (freelistFindDeleteFromBlock w fl size fd (Xs.reverse ++ prevs) B Ys).1,
          some (freelistFindDeleteFromBlock w fl size fd (Xs.reverse ++ prevs) B Ys).2.1,
          some (freelistFindDeleteFromBlock w fl size fd (Xs.reverse ++ prevs) B Ys).2.2⟩ := by
  intro Xs
  induction Xs with
  | nil =>
    intro prevs _
    simp only [List.nil_append, List.reverse_nil]
    unfold freelistFindFirstLoop
    rw [if_pos hB]
  | cons x Xs ih =>
    intro prevs h
    have h0 := h x (by simp)
    simp only [List.cons_append]
    unfold freelistFindFirstLoop
    rw [if_neg (by omega), ih (x :: prevs) (fun y hy => h y (by simp [hy]))]
    simp

theorem findLastLoop_none {fl : Freelist} {size : Nat} :
    ∀ (curs prevs : List FreelistBlock)
      (found : Option (List FreelistBlock × FreelistBlock × List FreelistBlock)),
      (∀ b ∈ curs, freelistBlockSize fl b < size) →
      freelistFindLastLoop fl size found prevs curs = found := by
  intro curs
  induction curs with
  | nil => intro prevs found _; simp [freelistFindLastLoop]
  | cons cur next ih =>
    intro prevs found h
    have h0 := h cur (by simp)
    unfold freelistFindLastLoop
    simp only
    rw [if_neg (by omega)]
    exact ih _ _ (fun b hb => h b (by simp [hb]))

theorem findLastLoop_found {fl : Freelist} {size : Nat}
    (B : FreelistBlock) (Ys : List FreelistBlock) (hB : size ≤ freelistBlockSize fl B)
    (hYs : ∀ y ∈ Ys, freelistBlockSize fl y < size) :
    ∀ (Xs prevs : List FreelistBlock)
      (found : Option (List FreelistBlock × FreelistBlock × List FreelistBlock)),
      freelistFindLastLoop fl size found prevs (Xs ++ B :: Ys) =
        some (Xs.reverse ++ prevs, B, Ys) := by
  intro Xs
  induction Xs with
  | nil =>
    intro prevs found
    simp only [List.nil_append, List.reverse_nil]
    unfold freelistFindLastLoop
    simp only
    rw [if_pos hB]
    exact findLastLoop_none Ys _ _ hYs
  | cons x Xs ih =>
    intro prevs found
    simp only [List.cons_append]
    unfold freelistFindLastLoop
    simp only
    rw [ih]
    simp

theorem findLargestLoop_none {fl : Freelist} :
    ∀ (curs prevs : List FreelistBlock) (size : Nat)
      (best : Option (List FreelistBlock × FreelistBlock × List FreelistBlock)),
      (∀ b ∈ curs, freelistBlockSize fl b < size) →
      freelistFindLargestLoop fl size best prevs curs = (size, best) := by
  intro curs
  induction curs with
  | nil => intro prevs size best _; simp [freelistFindLargestLoop]
  | cons cur next ih =>
    intro prevs size best h
    have h0 := h cur (by simp)
    unfold freelistFindLargestLoop
    rw [if_neg (by omega)]
    exact ih _ _ _ (fun b hb => h b (by simp [hb]))

theorem findLargestLoop_found {fl : Freelist}
    (B : FreelistBlock) (Ys : List FreelistBlock)
    (hYs : ∀ y ∈ Ys, freelistBlockSize fl y < freelistBlockSize fl B) :
    ∀ (Xs prevs : List FreelistBlock) (size : Nat)
      (best : Option (List FreelistBlock × FreelistBlock × List FreelistBlock)),
      size ≤ freelistBlockSize fl B →
      (∀ x ∈ Xs, freelistBlockSize fl x ≤ freelistBlockSize fl B) →
      freelistFindLargestLoop fl size best prevs (Xs ++ B :: Ys) =
        (freelistBlockSize fl B, some (Xs.reverse ++ prevs, B, Ys)) := by
  intro Xs
  induction Xs with
  | nil =>
    intro prevs size best hB _
    simp only [List.nil_append, List.reverse_nil]
    unfold freelistFindLargestLoop
    rw [if_pos hB]
    exact findLargestLoop_none Ys _ _ _ hYs
  | cons x Xs ih =>
    intro prevs size best hB hXs
    have h0 := hXs x (by simp)
    simp only [List.cons_append]
    unfold freelistFindLargestLoop
    split
    · rw [ih _ _ _ h0 (fun y hy => hXs y (by simp [hy]))]
      simp
    · rw [ih _ _ _ hB (fun y hy => hXs y (by simp [hy]))]
      simp

theorem deleteFromBlock_valid {w : Nat} {fl : Freelist} {R : Range} (hv : Valid w fl)
    (prevs : List FreelistBlock) (B : FreelistBlock) (next : List FreelistBlock)
    (hl : fl.list = prevs.reverse ++ B :: next)
    (hle : R.base ≤ R.limit)
    (hR : R.base < R.limit ∨ R.base = B.base ∨ R.limit = blockLim fl.alignment B)
    (hRb : fl.alignment ∣ R.base) (hRl : fl.alignment ∣ R.limit)
    (h1 : B.base ≤ R.base) (h2 : R.limit ≤ blockLim fl.alignment B) :
    (freelistDeleteFromBlock w fl R prevs B next).2 = rangeOf fl.alignment B ∧
    ranges (freelistDeleteFromBlock w fl R prevs B next).1 =
      prevs.reverse.map (rangeOf fl.alignment) ++ leftFrag (rangeOf fl.alignment B) R ++
        rightFrag (rangeOf fl.alignment B) R ++ next.map (rangeOf fl.alignment) ∧
    (freelistDeleteFromBlock w fl R prevs B next).1.alignment = fl.alignment ∧
    (freelistDeleteFromBlock w fl R prevs B next).1.listSize + 1 =
      fl.listSize + (leftFrag (rangeOf fl.alignment B) R).length +
        (rightFrag (rangeOf fl.alignment B) R).length ∧
    (freelistDeleteFromBlock w fl R prevs B next).1.size = fl.size - RangeSize R ∧
    Valid w (freelistDeleteFromBlock w fl R prevs B next).1 := by
  obtain ⟨hokb, _⟩ := valid_blocks hv
  have hB := hokb B (by rw [hl]; simp)
  have hpos : 0 < fl.listSize := by rw [hv.2.2.2.2.1, hl]; simp
  obtain ⟨e1, e2, e3, e4, e5⟩ := deleteFromBlock_spec (w := w) (R := R) prevs B next
    hv.2.1 hB.2.2.1 hB.2.2.2 hRb hRl h1 h2 hpos
  have hrs : ranges (freelistDeleteFromBlock w fl R prevs B next).1 =
      prevs.reverse.map (rangeOf fl.alignment) ++ leftFrag (rangeOf fl.alignment B) R ++
        rightFrag (rangeOf fl.alignment B) R ++ next.map (rangeOf fl.alignment) := by
    rw [ranges_eq, e3, e2]
  refine ⟨e1, hrs, e3, e4, e5, ?_⟩
  have hdec : ranges fl = prevs.reverse.map (rangeOf fl.alignment) ++
      rangeOf fl.alignment B :: next.map (rangeOf fl.alignment) := by
    rw [ranges_eq, hl]; simp
  refine valid_after_delete hv hdec hle ?_ hRb hRl h1 h2 hrs e3 ?_ e4 e5
  · simpa using hR
  · have := congrArg List.length e2
    rw [hl]
    simp only [List.length_map, List.length_append, List.length_reverse,
      List.length_cons] at this ⊢
    omega

theorem findDeleteFromBlock_spec {w : Nat} {fl : Freelist} {size : Nat} (fd : FindDelete)
    (hv : Valid w fl)
    (prevs : List FreelistBlock) (B : FreelistBlock) (next : List FreelistBlock)
    (hl : fl.list = prevs.reverse ++ B :: next)
    (hsize : size ≤ freelistBlockSize fl B) (hal : fl.alignment ∣ size) :
    (freelistFindDeleteFromBlock w fl size fd prevs B next).2.1 =
      findRange fd (rangeOf fl.alignment B) size ∧
    (freelistFindDeleteFromBlock w fl size fd prevs B next).2.2 = rangeOf fl.alignment B ∧
    (fd = FindDelete.NONE → (freelistFindDeleteFromBlock w fl size fd prevs B next).1 = fl) ∧
    (fd ≠ FindDelete.NONE →
      ranges (freelistFindDeleteFromBlock w fl size fd prevs B next).1 =
        prevs.reverse.map (rangeOf fl.alignment) ++
          leftFrag (rangeOf fl.alignment B) (findRange fd (rangeOf fl.alignment B) size) ++
          rightFrag (rangeOf fl.alignment B) (findRange fd (rangeOf fl.alignment B) size) ++
          next.map (rangeOf fl.alignment) ∧
      (freelistFindDeleteFromBlock w fl size fd prevs B next).1.listSize + 1 =
        fl.listSize +
          (leftFrag (rangeOf fl.alignment B) (findRange fd (rangeOf fl.alignment B) size)).length +
          (rightFrag (rangeOf fl.alignment B) (findRange fd (rangeOf fl.alignment B) size)).length ∧
      (freelistFindDeleteFromBlock w fl size fd prevs B next).1.size =
        fl.size - RangeSize (findRange fd (rangeOf fl.alignment B) size)) ∧
    (freelistFindDeleteFromBlock w fl size fd prevs B next).1.alignment = fl.alignment ∧
    Valid w (freelistFindDeleteFromBlock w fl size fd prevs B next).1 := by
  obtain ⟨hokb, _⟩ := valid_blocks hv
  obtain ⟨hB0, hBlt, hBb, hBl⟩ := hokb B (by rw [hl]; simp)
  simp only [freelistBlockSize, freelistBlockLimit_eq] at hsize
  cases fd with
  | NONE =>
    simp [freelistFindDeleteFromBlock, findRange, rangeOf, freelistBlockLimit_eq, hv]
  | LOW =>
    obtain ⟨e1, e2, e3, e4, e5, e6⟩ := deleteFromBlock_valid (w := w)
      (R := ⟨B.base, B.base + size⟩) hv prevs B next hl
      (by simp) (Or.inr (Or.inl rfl)) hBb ((Nat.dvd_add_right hBb).2 hal) (Nat.le_refl _)
      (by simp only; omega)
    simp only [freelistFindDeleteFromBlock, findRange, rangeOf, freelistBlockLimit_eq] at *
    exact ⟨rfl, e1, by simp, fun _ => ⟨e2, e4, e5⟩, e3, e6⟩
  | HIGH =>
    obtain ⟨e1, e2, e3, e4, e5, e6⟩ := deleteFromBlock_valid (w := w)
      (R := ⟨blockLim fl.alignment B - size, blockLim fl.alignment B⟩) hv prevs B next hl
      (by simp) (Or.inr (Or.inr rfl)) (Nat.dvd_sub' hBl hal) hBl (by simp only; omega)
      (Nat.le_refl _)
    simp only [freelistFindDeleteFromBlock, findRange, rangeOf, freelistBlockLimit_eq] at *
    exact ⟨rfl, e1, by simp, fun _ => ⟨e2, e4, e5⟩, e3, e6⟩
  | ENTIRE =>
    obtain ⟨e1, e2, e3, e4, e5, e6⟩ := deleteFromBlock_valid (w := w)
      (R := ⟨B.base, blockLim fl.alignment B⟩) hv prevs B next hl
      (by simp only; omega) (Or.inr (Or.inl rfl)) hBb hBl (Nat.le_refl _)
      (Nat.le_refl _)
    simp only [freelistFindDeleteFromBlock, findRange, rangeOf, freelistBlockLimit_eq] at *
    exact ⟨rfl, e1, by simp, fun _ => ⟨e2, e4, e5⟩, e3, e6⟩

theorem findFirst_cases (w : Nat) (fl : Freelist) (size : Nat) (fd : FindDelete) :
    ((∀ b ∈ fl.list, freelistBlockSize fl b < size) ∧
      freelistFindFirst w fl size fd = ⟨false, fl, none, none⟩) ∨
    (∃ Xs B Ys, fl.list = Xs ++ B :: Ys ∧ size ≤ freelistBlockSize fl B ∧
      (∀ x ∈ Xs, freelistBlockSize fl x < size) ∧
      freelistFindFirst w fl size fd =
        ⟨true, (freelistFindDeleteFromBlock w fl size fd Xs.reverse B Ys).1,
          some (freelistFindDeleteFromBlock w fl size fd Xs.reverse B Ys).2.1,
          some (freelistFindDeleteFromBlock w fl size fd Xs.reverse B Ys).2.2⟩) := by
  by_cases h : ∃ b ∈ fl.list, size ≤ freelistBlockSize fl b
  · right
    obtain ⟨Xs, B, Ys, hl, hB, hXs⟩ :=
      exists_first (fun b => size ≤ freelistBlockSize fl b) fl.list h
    refine ⟨Xs, B, Ys, hl, hB, fun x hx => Nat.lt_of_not_le (hXs x hx), ?_⟩
    unfold freelistFindFirst
    rw [hl, findFirstLoop_found B Ys hB Xs [] (fun x hx => Nat.lt_of_not_le (hXs x hx))]
    simp
  · left
    push_neg at h
    exact ⟨h, findFirstLoop_none _ _ h⟩

theorem findLast_cases (w : Nat) (fl : Freelist) (size : Nat) (fd : FindDelete) :
    ((∀ b ∈ fl.list, freelistBlockSize fl b < size) ∧
      freelistFindLast w fl size fd = ⟨false, fl, none, none⟩) ∨
    (∃ Xs B Ys, fl.list = Xs ++ B :: Ys ∧ size ≤ freelistBlockSize fl B ∧
      (∀ y ∈ Ys, freelistBlockSize fl y < size) ∧
      freelistFindLast w fl size fd =
        ⟨true, (freelistFindDeleteFromBlock w fl size fd Xs.reverse B Ys).1,
          some (freelistFindDeleteFromBlock w fl size fd Xs.reverse B Ys).2.1,
          some (freelistFindDeleteFromBlock w fl size fd Xs.reverse B Ys).2.2⟩) := by
  by_cases h : ∃ b ∈ fl.list, size ≤ freelistBlockSize fl b
  · right
    obtain ⟨Xs, B, Ys, hl, hB, hYs⟩ :=
      exists_last (fun b => size ≤ freelistBlockSize fl b) fl.list h
    refine ⟨Xs, B, Ys, hl, hB, fun y hy => Nat.lt_of_not_le (hYs y hy), ?_⟩
    unfold freelistFindLast
    rw [hl, findLastLoop_found B Ys hB (fun y hy => Nat.lt_of_not_le (hYs y hy)) Xs [] none]
    simp
  · left
    push_neg at h
    refine ⟨h, ?_⟩
    unfold freelistFindLast
    rw [findLastLoop_none _ _ _ h]

theorem findLargest_cases (w : Nat) (fl : Freelist) (size : Nat) (fd : FindDelete) :
    ((∀ b ∈ fl.list, freelistBlockSize fl b < size) ∧
      freelistFindLargest w fl size fd = ⟨false, fl, none, none⟩) ∨
    (∃ Xs B Ys, fl.list = Xs ++ B :: Ys ∧ size ≤ freelistBlockSize fl B ∧
      (∀ b ∈ fl.list, freelistBlockSize fl b ≤ freelistBlockSize fl B) ∧
      (∀ y ∈ Ys, freelistBlockSize fl y < freelistBlockSize fl B) ∧
      freelistFindLargest w fl size fd =
        ⟨true,
          (freelistFindDeleteFromBlock w fl (freelistBlockSize fl B) fd Xs.reverse B Ys).1,
          some (freelistFindDeleteFromBlock w fl (freelistBlockSize fl B) fd
            Xs.reverse B Ys).2.1,
          some (freelistFindDeleteFromBlock w fl (freelistBlockSize fl B) fd
            Xs.reverse B Ys).2.2⟩) := by
  by_cases h : ∃ b ∈ fl.list, size ≤ freelistBlockSize fl b
  · right
    obtain ⟨b0, hb0, hsz0⟩ := h
    have hne : fl.list ≠ [] := List.ne_nil_of_mem hb0
    obtain ⟨m, hm, hmax⟩ := exists_max (freelistBlockSize fl) fl.list hne
    obtain ⟨Xs, B, Ys, hl, hB, hYs⟩ :=
      exists_last (fun b => freelistBlockSize fl m ≤ freelistBlockSize fl b) fl.list
        ⟨m, hm, Nat.le_refl _⟩
    have hBmem : B ∈ fl.list := by rw [hl]; simp
    have hBm : freelistBlockSize fl B = freelistBlockSize fl m :=
      Nat.le_antisymm (hmax B hBmem) hB
    have hall : ∀ b ∈ fl.list, freelistBlockSize fl b ≤ freelistBlockSize fl B := by
      intro b hb
      rw [hBm]
      exact hmax b hb
    have hYs' : ∀ y ∈ Ys, freelistBlockSize fl y < freelistBlockSize fl B := by
      intro y hy
      rw [hBm]
      exact Nat.lt_of_not_le (hYs y hy)
    have hsB : size ≤ freelistBlockSize fl B := Nat.le_trans hsz0 (hall b0 hb0)
    refine ⟨Xs, B, Ys, hl, hsB, hall, hYs', ?_⟩
    unfold freelistFindLargest
    rw [hl, findLargestLoop_found B Ys hYs' Xs [] size none hsB
      (fun x hx => hall x (by rw [hl]; simp [hx]))]
    simp
  · left
    push_neg at h
    refine ⟨h, ?_⟩
    unfold freelistFindLargest
    rw [findLargestLoop_none _ _ _ _ h]

theorem iterateLoop_valid {w : Nat} {σ : Type} (visitor : σ → Range → Bool × Bool × σ) :
    ∀ (curs : List FreelistBlock) (fl : Freelist) (closure : σ) (prevs : List FreelistBlock),
      Valid w fl → fl.list = prevs.reverse ++ curs →
      Valid w (freelistIterateAndDeleteLoop visitor fl closure prevs curs).2.1 := by
  intro curs
  induction curs with
  | nil =>
    intro fl closure prevs hv _
    simpa [freelistIterateAndDeleteLoop] using hv
  | cons cur next ih =>
    intro fl closure prevs hv hl
    obtain ⟨hokb, _⟩ := valid_blocks hv
    obtain ⟨hB0, hBlt, hBb, hBl⟩ := hokb cur (by rw [hl]; simp)
    obtain ⟨_, _, _, _, _, hdv⟩ := deleteFromBlock_valid (w := w)
      (R := ⟨cur.base, blockLim fl.alignment cur⟩) hv prevs cur next hl
      (by simp only; omega) (Or.inr (Or.inl rfl)) hBb hBl (Nat.le_refl _) (Nat.le_refl _)
    have hdel : (freelistDeleteFromBlock w fl ⟨cur.base, blockLim fl.alignment cur⟩
        prevs cur next).1 =
        { freelistBlockSetPrevNext fl prevs next (-1) with
          size := (freelistBlockSetPrevNext fl prevs next (-1)).size
            - freelistBlockSize fl cur } := by
      simp [freelistDeleteFromBlock, freelistBlockLimit_eq, RangeSize, freelistBlockSize]
    rw [hdel] at hdv
    unfold freelistIterateAndDeleteLoop
    simp only
    by_cases hd : (visitor closure ⟨cur.base, freelistBlockLimit fl cur⟩).1 = true
    · simp only [hd, if_true]
      split
      · exact hdv
      · exact ih _ _ _ hdv (by simp [setPrevNext_list])
    · simp only [hd]
      split
      · simpa using hv
      · exact ih _ _ _ hv (by simp [hl])

theorem iterateAndDelete_valid {w : Nat} {σ : Type} (visitor : σ → Range → Bool × Bool × σ)
    (fl : Freelist) (closure : σ) (hv : Valid w fl) :
    Valid w (freelistIterateAndDelete visitor fl closure).2.1 :=
  iterateLoop_valid visitor fl.list fl closure [] hv (by simp)

theorem findFirst_valid {w : Nat} {fl : Freelist} (size : Nat) (fd : FindDelete)
    (hv : Valid w fl) (hal : fl.alignment ∣ size) :
    Valid w (freelistFindFirst w fl size fd).fl := by
  rcases findFirst_cases w fl size fd with ⟨_, h⟩ | ⟨Xs, B, Ys, hl, hB, _, h⟩
  · rw [h]; exact hv
  · rw [h]
    exact (findDeleteFromBlock_spec fd hv Xs.reverse B Ys (by simpa using hl) hB hal).2.2.2.2.2

theorem findLast_valid {w : Nat} {fl : Freelist} (size : Nat) (fd : FindDelete)
    (hv : Valid w fl) (hal : fl.alignment ∣ size) :
    Valid w (freelistFindLast w fl size fd).fl := by
  rcases findLast_cases w fl size fd with ⟨_, h⟩ | ⟨Xs, B, Ys, hl, hB, _, h⟩
  · rw [h]; exact hv
  · rw [h]
    exact (findDeleteFromBlock_spec fd hv Xs.reverse B Ys (by simpa using hl) hB hal).2.2.2.2.2

theorem findLargest_valid {w : Nat} {fl : Freelist} (size : Nat) (fd : FindDelete)
    (hv : Valid w fl) : Valid w (freelistFindLargest w fl size fd).fl := by
  rcases findLargest_cases w fl size fd with ⟨_, h⟩ | ⟨Xs, B, Ys, hl, _, _, _, h⟩
  · rw [h]; exact hv
  · rw [h]
    obtain ⟨hokb, _⟩ := valid_blocks hv
    obtain ⟨_, _, hBb, hBl⟩ := hokb B (by rw [hl]; simp)
    exact (findDeleteFromBlock_spec fd hv Xs.reverse B Ys (by simpa using hl) (Nat.le_refl _)
      (by
        simp only [freelistBlockSize, freelistBlockLimit_eq]
        exact Nat.dvd_sub' hBl hBb)).2.2.2.2.2

theorem init_valid {w a : Nat} (ha : 0 < a) (hw : w ≤ a) : Valid w (freelistInit a) := by
  refine ⟨ha, hw, ?_, ?_, rfl, rfl⟩
  · intro r hr
    simp [ranges, freelistInit] at hr
  · simp [Isolated, ranges, freelistInit]

/-! ## The claims about the free-list land -/

theorem reachable_valid {w a : Nat} (ha : 0 < a) (hw : w ≤ a) {fl : Freelist}
    (h : Reachable w a fl) : Valid w fl ∧ fl.alignment = a := by
  induction h with
  | init => exact ⟨init_valid ha hw, rfl⟩
  | @insert fl R _ hR ih =>
    obtain ⟨hv, hal⟩ := ih
    have hv1 := insert_valid (R := R) hv (by rw [hal]; exact hR)
    refine ⟨hv1, ?_⟩
    by_cases hex : ∃ r ∈ ranges fl, Overlaps R r
    · rw [insert_overlap_fails hv hex]; exact hal
    · push_neg at hex
      obtain ⟨xs, ys, lo, hi, hp⟩ := insert_spec hv (by rw [hal]; exact hR) hex
      rw [hp.2.2.2.2.2.2.2.2.1]; exact hal
  | @delete fl R _ hR ih =>
    obtain ⟨hv, hal⟩ := ih
    rw [← hal] at hR
    have hv1 := delete_valid (R := R) hv hR.2.1 hR.2.2.1 hR.2.2.2
    refine ⟨hv1, ?_⟩
    by_cases hex : ∃ r ∈ ranges fl, r.base ≤ R.base ∧ R.limit ≤ r.limit
    · obtain ⟨B, hB, h1, h2⟩ := hex
      obtain ⟨xs, ys, hdec⟩ := List.append_of_mem hB
      rw [(delete_spec hv hdec hR.2.1 hR.2.2.1 hR.2.2.2 h1 h2).2.2.2.1]; exact hal
    · push_neg at hex
      rw [delete_not_contained_fails
        (fun r hr hc => absurd hc.2 (not_le.2 (hex r hr hc.1)))]
      exact hal

theorem valid_sorted {w : Nat} {fl : Freelist} (hv : Valid w fl) :
    (ranges fl).Pairwise (fun r s => r.base < s.base) := by
  obtain ⟨_, _, hok, hiso, _, _⟩ := hv
  refine List.Pairwise.imp_of_mem ?_ hiso
  intro r s hr _ h
  have := (hok r hr).2.1
  omega

/-- C1 (freelist isolation invariant): on every land reached from a freshly
initialised land by `Insert` and `Delete` calls on non-empty aligned ranges
with non-null base, the stored ranges are in strictly ascending address order
and each range ends strictly below the base of the next one. -/
theorem freelist_isolation_invariant (w a : Nat) (ha : 0 < a) (hw : w ≤ a)
    (fl : Freelist) (h : Reachable w a fl) :
    (ranges fl).Pairwise (fun r s => r.base < s.base) ∧
    (ranges fl).Chain' (fun r s => r.limit < s.base) := by
  have hv := (reachable_valid ha hw h).1
  exact ⟨valid_sorted hv, List.Pairwise.chain' hv.2.2.2.1⟩

theorem rangeOK_16_32 : RangeOK 16 ⟨16, 32⟩ := by
  refine ⟨by decide, by decide, by decide, by decide⟩

theorem rangeOK_32_48 : RangeOK 16 ⟨32, 48⟩ := by
  refine ⟨by decide, by decide, by decide, by decide⟩

theorem rangeOK_64_96 : RangeOK 16 ⟨64, 96⟩ := by
  refine ⟨by decide, by decide, by decide, by decide⟩

/-- Witness for C1: insert `[16,32)`, insert `[64,96)`, insert `[32,48)`
(coalescing on the left), delete `[64,96)`. -/
theorem freelist_isolation_invariant_witness :
    (ranges (freelistDelete 8 (freelistInsert 8 (freelistInsert 8 (freelistInsert 8
      (freelistInit 16) ⟨16, 32⟩).2.1 ⟨64, 96⟩).2.1 ⟨32, 48⟩).2.1 ⟨64, 96⟩).2.1).Pairwise
        (fun r s => r.base < s.base) ∧
    (ranges (freelistDelete 8 (freelistInsert 8 (freelistInsert 8 (freelistInsert 8
      (freelistInit 16) ⟨16, 32⟩).2.1 ⟨64, 96⟩).2.1 ⟨32, 48⟩).2.1 ⟨64, 96⟩).2.1).Chain'
        (fun r s => r.limit < s.base) :=
  freelist_isolation_invariant 8 16 (by decide) (by decide) _
    (Reachable.delete (Reachable.insert (Reachable.insert (Reachable.insert Reachable.init
      rangeOK_16_32) rangeOK_64_96) rangeOK_32_48) rangeOK_64_96)

theorem step_valid {w : Nat} {fl fl1 : Freelist} (hv : Valid w fl) (hs : Step w fl fl1) :
    Valid w fl1 := by
  cases hs with
  | insert _ R hR => exact insert_valid hv hR
  | delete _ R hR => exact delete_valid hv hR.2.1 hR.2.2.1 hR.2.2.2
  | findFirst _ size fd hal => exact findFirst_valid size fd hv hal
  | findLast _ size fd hal => exact findLast_valid size fd hv hal
  | findLargest _ size fd => exact findLargest_valid size fd hv
  | iterateAndDelete visitor _ closure => exact iterateAndDelete_valid visitor fl closure hv

theorem reachableOps_valid {w a : Nat} (ha : 0 < a) (hw : w ≤ a) {fl : Freelist}
    (h : ReachableOps w a fl) : Valid w fl := by
  induction h with
  | init => exact init_valid ha hw
  | step _ hs ih => exact step_valid ih hs

/-- C2 (freelist size accounting): on every land reached from a freshly
initialised land by any sequence of `Insert`, `Delete`, `FindFirst`,
`FindLast`, `FindLargest` (any deletion policy) and `IterateAndDelete` calls,
the running `size` equals the sum of the lengths of the stored blocks. -/
theorem freelist_size_accounting (w a : Nat) (ha : 0 < a) (hw : w ≤ a)
    (fl : Freelist) (h : ReachableOps w a fl) :
    fl.size = totalSize (ranges fl) :=
  (reachableOps_valid ha hw h).2.2.2.2.2

theorem rangeOK_16_64 : RangeOK 16 ⟨16, 64⟩ := by
  refine ⟨by decide, by decide, by decide, by decide⟩

/-- Witness for C2: insert `[16,64)`, take the low 16 bytes with `FindFirst`,
then delete every block with `IterateAndDelete`. -/
theorem freelist_size_accounting_witness :
    (freelistIterateAndDelete (fun (_ : Unit) (_ : Range) => (true, true, ()))
      (freelistFindFirst 8 (freelistInsert 8 (freelistInit 16) ⟨16, 64⟩).2.1 16
        FindDelete.LOW).fl ()).2.1.size =
    totalSize (ranges (freelistIterateAndDelete (fun (_ : Unit) (_ : Range) => (true, true, ()))
      (freelistFindFirst 8 (freelistInsert 8 (freelistInit 16) ⟨16, 64⟩).2.1 16
        FindDelete.LOW).fl ()).2.1) :=
  freelist_size_accounting 8 16 (by decide) (by decide) _
    (ReachableOps.step (ReachableOps.step (ReachableOps.step ReachableOps.init
      (Step.insert _ _ rangeOK_16_64)) (Step.findFirst _ 16 FindDelete.LOW (by decide)))
      (Step.iterateAndDelete _ _ _))

theorem covered_append (xs ys : List Range) (x : Nat) :
    Covered (xs ++ ys) x ↔ Covered xs x ∨ Covered ys x := by
  unfold Covered
  constructor
  · rintro ⟨r, hr, h⟩
    rcases List.mem_append.1 hr with hr | hr
    · exact Or.inl ⟨r, hr, h⟩
    · exact Or.inr ⟨r, hr, h⟩
  · rintro (⟨r, hr, h⟩ | ⟨r, hr, h⟩)
    · exact ⟨r, List.mem_append_left _ hr, h⟩
    · exact ⟨r, List.mem_append_right _ hr, h⟩

theorem covered_singleton (r : Range) (x : Nat) :
    Covered [r] x ↔ r.base ≤ x ∧ x < r.limit := by
  simp [Covered]

theorem covered_nil (x : Nat) : ¬ Covered [] x := by
  simp [Covered]

theorem insertPost_covered {w : Nat} {fl : Freelist} {R : Range} {xs ys : List Range}
    {lo hi : Option Range} (hv : Valid w fl) (hR : R.base < R.limit)
    (hp : InsertPost w fl R xs ys lo hi) (x : Nat) :
    Covered (ranges (freelistInsert w fl R).2.1) x ↔
      Covered (ranges fl) x ∨ (R.base ≤ x ∧ x < R.limit) := by
  obtain ⟨hdec, hlo, hhi, _, _, _, _, hrs, _⟩ := hp
  have hok := hv.2.2.1
  rw [hdec] at hok
  rw [hrs, hdec]
  simp only [covered_append, covered_singleton]
  cases lo with
  | none =>
    cases hi with
    | none =>
      simp only [Option.toList, Option.elim, covered_nil]
      tauto
    | some h =>
      obtain ⟨_, h1, _, _⟩ := hok h (by simp)
      have h2 := hhi h rfl
      simp only [Option.toList, Option.elim, covered_nil, covered_singleton]
      constructor
      · rintro ((hx | hx) | hx)
        · tauto
        · by_cases hc : x < R.limit
          · exact Or.inr ⟨hx.1, hc⟩
          · exact Or.inl (Or.inl (Or.inr ⟨by omega, hx.2⟩))
        · tauto
      · rintro ((((hx | hx) | hx) | hx) | hx)
        · tauto
        · exact absurd hx id
        · exact Or.inl (Or.inr ⟨by omega, hx.2⟩)
        · tauto
        · exact Or.inl (Or.inr ⟨hx.1, by omega⟩)
  | some l =>
    obtain ⟨_, l1, _, _⟩ := hok l (by simp)
    have h3 := hlo l rfl
    cases hi with
    | none =>
      simp only [Option.toList, Option.elim, covered_nil, covered_singleton]
      constructor
      · rintro ((hx | hx) | hx)
        · tauto
        · by_cases hc : x < l.limit
          · exact Or.inl (Or.inl (Or.inl (Or.inr ⟨hx.1, hc⟩)))
          · exact Or.inr ⟨by omega, hx.2⟩
        · tauto
      · rintro ((((hx | hx) | hx) | hx) | hx)
        · tauto
        · exact Or.inl (Or.inr ⟨hx.1, by omega⟩)
        · exact absurd hx id
        · tauto
        · exact Or.inl (Or.inr ⟨by omega, hx.2⟩)
    | some h =>
      obtain ⟨_, h1, _, _⟩ := hok h (by simp)
      have h2 := hhi h rfl
      simp only [Option.toList, Option.elim, covered_singleton]
      constructor
      · rintro ((hx | hx) | hx)
        · tauto
        · by_cases hc : x < l.limit
          · exact Or.inl (Or.inl (Or.inl (Or.inr ⟨hx.1, hc⟩)))
          · by_cases hc2 : x < R.limit
            · exact Or.inr ⟨by omega, hc2⟩
            · exact Or.inl (Or.inl (Or.inr ⟨by omega, hx.2⟩))
        · tauto
      · rintro ((((hx | hx) | hx) | hx) | hx)
        · tauto
        · exact Or.inl (Or.inr ⟨hx.1, by omega⟩)
        · exact Or.inl (Or.inr ⟨by omega, hx.2⟩)
        · tauto
        · exact Or.inl (Or.inr ⟨by omega, by omega⟩)

theorem insertPost_neighbours {w : Nat} {fl : Freelist} {R : Range} {xs ys : List Range}
    {lo hi : Option Range} (hv : Valid w fl) (hR : R.base < R.limit)
    (hp : InsertPost w fl R xs ys lo hi) :
    (∀ l ∈ lo, l ∈ ranges fl ∧ l.limit = R.base) ∧
    (lo = none → ∀ r ∈ ranges fl, r.limit ≠ R.base) ∧
    (∀ h ∈ hi, h ∈ ranges fl ∧ h.base = R.limit) ∧
    (hi = none → ∀ r ∈ ranges fl, r.base ≠ R.limit) := by
  obtain ⟨hdec, hlo, hhi, hxs, hys, _⟩ := hp
  have hok := hv.2.2.1
  refine ⟨?_, ?_, ?_, ?_⟩
  · intro l hl
    refine ⟨?_, hlo l hl⟩
    rw [hdec]
    have : l ∈ lo.toList := by simpa using hl
    simp [this]
  · intro hnone r hr
    subst hnone
    rw [hdec] at hr
    have hrok := (hok r (by rw [hdec]; exact hr)).2.1
    simp only [List.mem_append, Option.toList_none, List.not_mem_nil, or_false,
      Option.mem_toList] at hr
    rcases hr with (hr | hr) | hr
    · have := hxs r hr; omega
    · have := hhi r hr; omega
    · have := hys r hr; omega
  · intro h hh
    refine ⟨?_, hhi h hh⟩
    rw [hdec]
    have : h ∈ hi.toList := by simpa using hh
    simp [this]
  · intro hnone r hr
    subst hnone
    rw [hdec] at hr
    have hrok := (hok r (by rw [hdec]; exact hr)).2.1
    simp only [List.mem_append, Option.toList_none, List.not_mem_nil, or_false,
      Option.mem_toList] at hr
    rcases hr with (hr | hr) | hr
    · have := hxs r hr; omega
    · have := hlo r hr; omega
    · have := hys r hr; omega

theorem not_overlaps_of_disjoint {r s : Range} (h : r.limit ≤ s.base ∨ s.limit ≤ r.base) :
    ¬ Overlaps r s := by
  rintro ⟨x, h1, h2, h3, h4⟩
  omega

theorem insert_into_empty {w a : Nat} (ha : 0 < a) (hw : w ≤ a) {R : Range}
    (hR : RangeOK a R) :
    ranges (freelistInsert w (freelistInit a) R).2.1 = [R] ∧
    Valid w (freelistInsert w (freelistInit a) R).2.1 ∧
    (freelistInsert w (freelistInit a) R).2.1.alignment = a := by
  have hv := init_valid ha hw
  have hno : ∀ r ∈ ranges (freelistInit a), ¬ Overlaps R r := by
    intro r hr
    simp [ranges, freelistInit] at hr
  obtain ⟨xs, ys, lo, hi, hp⟩ := insert_spec hv hR hno
  have hv1 := insertPost_valid hv hR hp
  obtain ⟨hdec, _, _, _, _, _, _, hrs, hal, _⟩ := hp
  have hnil : ranges (freelistInit a) = [] := rfl
  rw [hnil] at hdec
  have h1 := congrArg List.length hdec
  simp only [List.length_nil, List.length_append] at h1
  have hxs : xs = [] := List.eq_nil_of_length_eq_zero (by omega)
  have hys : ys = [] := List.eq_nil_of_length_eq_zero (by omega)
  have hlo : lo = none := by
    cases lo with
    | none => rfl
    | some l =>
      simp only [Option.toList_some, List.length_singleton] at h1
      omega
  have hhi : hi = none := by
    cases hi with
    | none => rfl
    | some l =>
      simp only [Option.toList_some, List.length_singleton] at h1
      omega
  subst hxs hys hlo hhi
  exact ⟨by simpa using hrs, hv1, hal⟩

theorem insert_adjacent_pair {w a b m l : Nat} (ha : 0 < a) (hw : w ≤ a) (hb0 : b ≠ 0)
    (hbm : b < m) (hml : m < l) (hab : a ∣ b) (ham : a ∣ m) (hal : a ∣ l) :
    ranges (freelistInsert w (freelistInsert w (freelistInit a) ⟨b, m⟩).2.1 ⟨m, l⟩).2.1
      = [⟨b, l⟩] := by
  obtain ⟨hrs1, hv1, hal1⟩ := insert_into_empty (w := w) ha hw
    (R := ⟨b, m⟩) ⟨hb0, hbm, hab, ham⟩
  have hR2 : RangeOK (freelistInsert w (freelistInit a) ⟨b, m⟩).2.1.alignment ⟨m, l⟩ := by
    rw [hal1]
    exact ⟨by simp; omega, hml, ham, hal⟩
  have hno : ∀ r ∈ ranges (freelistInsert w (freelistInit a) ⟨b, m⟩).2.1,
      ¬ Overlaps ⟨m, l⟩ r := by
    intro r hr
    rw [hrs1] at hr
    simp only [List.mem_singleton] at hr
    subst hr
    exact not_overlaps_of_disjoint (Or.inr (Nat.le_refl _))
  obtain ⟨xs, ys, lo, hi, hp⟩ := insert_spec hv1 hR2 hno
  obtain ⟨hdec, hlo, hhi, hxs, hys, _, _, hrs, _⟩ := hp
  rw [hrs1] at hdec
  have hmem : ∀ r, r ∈ xs ++ lo.toList ++ hi.toList ++ ys → r = ⟨b, m⟩ := by
    intro r hr
    rw [← hdec] at hr
    simpa using hr
  have hxs0 : xs = [] := by
    apply List.eq_nil_iff_forall_not_mem.2
    intro r hr
    have h1 := hmem r (by simp [hr])
    have h2 := hxs r hr
    subst h1
    simp at h2
  have hys0 : ys = [] := by
    apply List.eq_nil_iff_forall_not_mem.2
    intro r hr
    have h1 := hmem r (by simp [hr])
    have h2 := hys r hr
    subst h1
    simp at h2
    omega
  have hhi0 : hi = none := by
    cases hi with
    | none => rfl
    | some h =>
      have h1 := hmem h (by simp)
      have h2 := hhi h rfl
      subst h1
      simp at h2
      omega
  subst hxs0 hys0 hhi0
  cases lo with
  | none => simp at hdec
  | some l0 =>
    simp at hdec
    subst hdec
    simpa using hrs

/-- C3 (insert coalesces in every combination): on a valid land, inserting an
acceptable range `R` that overlaps no stored block succeeds; afterwards the
covered addresses are the old ones plus `R`; the returned range is `R`
extended by the stored block ending at `R.base` (`lo`, if any) and by the
stored block starting at `R.limit` (`hi`, if any); the block count grows by
one and shrinks by one for each neighbour merged.  And inserting `[b, m)` then
`[m, l)` into an empty land leaves exactly the block `[b, l)`. -/
theorem insert_coalesces (w : Nat) :
    (∀ (fl : Freelist) (R : Range), Valid w fl → RangeOK fl.alignment R →
      (∀ r ∈ ranges fl, ¬ Overlaps R r) →
      (freelistInsert w fl R).1 = Res.OK ∧
      (∀ x, Covered (ranges (freelistInsert w fl R).2.1) x ↔
        Covered (ranges fl) x ∨ (R.base ≤ x ∧ x < R.limit)) ∧
      ∃ lo hi : Option Range,
        (∀ l ∈ lo, l ∈ ranges fl ∧ l.limit = R.base) ∧
        (lo = none → ∀ r ∈ ranges fl, r.limit ≠ R.base) ∧
        (∀ h ∈ hi, h ∈ ranges fl ∧ h.base = R.limit) ∧
        (hi = none → ∀ r ∈ ranges fl, r.base ≠ R.limit) ∧
        (freelistInsert w fl R).2.2 =
          some ⟨lo.elim R.base Range.base, hi.elim R.limit Range.limit⟩ ∧
        (freelistInsert w fl R).2.1.listSize + lo.toList.length + hi.toList.length
          = fl.listSize + 1 ∧
        (freelistInsert w fl R).2.1.list.length + lo.toList.length + hi.toList.length
          = fl.list.length + 1) ∧
    (∀ a b m l : Nat, 0 < a → w ≤ a → b ≠ 0 → b < m → m < l → a ∣ b → a ∣ m → a ∣ l →
      ranges (freelistInsert w (freelistInsert w (freelistInit a) ⟨b, m⟩).2.1 ⟨m, l⟩).2.1
        = [⟨b, l⟩]) := by
  constructor
  · intro fl R hv hR hno
    obtain ⟨xs, ys, lo, hi, hp⟩ := insert_spec hv hR hno
    obtain ⟨n1, n2, n3, n4⟩ := insertPost_neighbours hv hR.2.1 hp
    refine ⟨hp.2.2.2.2.2.1, fun x => insertPost_covered hv hR.2.1 hp x,
      lo, hi, n1, n2, n3, n4, hp.2.2.2.2.2.2.1, hp.2.2.2.2.2.2.2.2.2.2.1,
      hp.2.2.2.2.2.2.2.2.2.1⟩
  · intro a b m l ha hw hb0 hbm hml hab ham hal
    exact insert_adjacent_pair ha hw hb0 hbm hml hab ham hal

theorem sampleLand_valid : Valid 8 sampleLand :=
  insert_valid (insert_valid (init_valid (by decide) (by decide)) rangeOK_16_32) rangeOK_64_96

theorem sampleLand_ranges : ranges sampleLand = [⟨16, 32⟩, ⟨64, 96⟩] := by decide

theorem sampleLand_no_overlap_32_64 : ∀ r ∈ ranges sampleLand, ¬ Overlaps ⟨32, 64⟩ r := by
  intro r hr
  rw [sampleLand_ranges] at hr
  simp only [List.mem_cons, List.mem_singleton, List.not_mem_nil, or_false] at hr
  rcases hr with rfl | rfl
  · exact not_overlaps_of_disjoint (Or.inr (by decide))
  · exact not_overlaps_of_disjoint (Or.inl (by decide))

/-- Witness for C3: `[32,64)` inserted between `[16,32)` and `[64,96)`, and
`[16,32)` followed by `[32,48)` inserted into an empty land. -/
theorem insert_coalesces_witness :
    ((freelistInsert 8 sampleLand ⟨32, 64⟩).1 = Res.OK ∧
      (∀ x, Covered (ranges (freelistInsert 8 sampleLand ⟨32, 64⟩).2.1) x ↔
        Covered (ranges sampleLand) x ∨ (32 ≤ x ∧ x < 64)) ∧
      ∃ lo hi : Option Range,
        (∀ l ∈ lo, l ∈ ranges sampleLand ∧ l.limit = 32) ∧
        (lo = none → ∀ r ∈ ranges sampleLand, r.limit ≠ 32) ∧
        (∀ h ∈ hi, h ∈ ranges sampleLand ∧ h.base = 64) ∧
        (hi = none → ∀ r ∈ ranges sampleLand, r.base ≠ 64) ∧
        (freelistInsert 8 sampleLand ⟨32, 64⟩).2.2 =
          some ⟨lo.elim 32 Range.base, hi.elim 64 Range.limit⟩ ∧
        (freelistInsert 8 sampleLand ⟨32, 64⟩).2.1.listSize + lo.toList.length
          + hi.toList.length = sampleLand.listSize + 1 ∧
        (freelistInsert 8 sampleLand ⟨32, 64⟩).2.1.list.length + lo.toList.length
          + hi.toList.length = sampleLand.list.length + 1) ∧
    ranges (freelistInsert 8 (freelistInsert 8 (freelistInit 16) ⟨16, 32⟩).2.1 ⟨32, 48⟩).2.1
      = [⟨16, 48⟩] :=
  ⟨(insert_coalesces 8).1 sampleLand ⟨32, 64⟩ sampleLand_valid
      ⟨by decide, by decide, by decide, by decide⟩ sampleLand_no_overlap_32_64,
    (insert_coalesces 8).2 16 16 32 48 (by decide) (by decide) (by decide) (by decide)
      (by decide) (by decide) (by decide) (by decide)⟩

/-- C4 (delete removes exactly the requested range): on a valid land whose
ranges are `xs ++ B :: ys`, deleting a non-empty aligned range `R` inside `B`
succeeds, returns `B`, replaces `B` by its left fragment `[B.base, R.base)` if
non-empty and its right fragment `[R.limit, B.limit)` if non-empty, leaves
`xs` and `ys` as they were, and lowers `size` by the length of `R`. -/
theorem delete_removes_range (w : Nat) (fl : Freelist) (R B : Range) (xs ys : List Range)
    (hv : Valid w fl) (hdec : ranges fl = xs ++ B :: ys)
    (hRlt : R.base < R.limit) (hRb : fl.alignment ∣ R.base) (hRl : fl.alignment ∣ R.limit)
    (h1 : B.base ≤ R.base) (h2 : R.limit ≤ B.limit) :
    (freelistDelete w fl R).1 = Res.OK ∧
    (freelistDelete w fl R).2.2 = some B ∧
    ranges (freelistDelete w fl R).2.1 =
      xs ++ (if B.base < R.base then [⟨B.base, R.base⟩] else []) ++
        (if R.limit < B.limit then [⟨R.limit, B.limit⟩] else []) ++ ys ∧
    (freelistDelete w fl R).2.1.size + RangeSize R = fl.size ∧
    (freelistDelete w fl R).2.1.listSize + 1 =
      fl.listSize + (if B.base < R.base then 1 else 0) + (if R.limit < B.limit then 1 else 0)
    := by
  obtain ⟨e1, e2, e3, _, _, e6, e7⟩ := delete_spec hv hdec hRlt hRb hRl h1 h2
  refine ⟨e1, e2, e3, ?_, ?_⟩
  · rw [e7]
    have hsz := hv.2.2.2.2.2
    rw [hdec] at hsz
    simp only [totalSize_append, totalSize_cons, RangeSize] at hsz ⊢
    omega
  · rw [e6]
    unfold leftFrag rightFrag
    by_cases hb : B.base < R.base <;> by_cases hl : R.limit < B.limit <;> simp [hb, hl]

/-- Witness for C4: delete `[64,80)` from the block `[64,96)`. -/
theorem delete_removes_range_witness :
    (freelistDelete 8 sampleLand ⟨64, 80⟩).1 = Res.OK ∧
    (freelistDelete 8 sampleLand ⟨64, 80⟩).2.2 = some ⟨64, 96⟩ ∧
    ranges (freelistDelete 8 sampleLand ⟨64, 80⟩).2.1 =
      [⟨16, 32⟩] ++ (if 64 < 64 then [⟨64, 64⟩] else []) ++
        (if 80 < 96 then [⟨80, 96⟩] else []) ++ [] ∧
    (freelistDelete 8 sampleLand ⟨64, 80⟩).2.1.size + RangeSize ⟨64, 80⟩ = sampleLand.size ∧
    (freelistDelete 8 sampleLand ⟨64, 80⟩).2.1.listSize + 1 =
      sampleLand.listSize + (if 64 < 64 then 1 else 0) + (if 80 < 96 then 1 else 0) :=
  delete_removes_range 8 sampleLand ⟨64, 80⟩ ⟨64, 96⟩ [⟨16, 32⟩] [] sampleLand_valid
    sampleLand_ranges (by decide) (by decide) (by decide) (by decide) (by decide)

theorem insert_ok_of_no_overlap {w : Nat} {fl : Freelist} {R : Range} (hv : Valid w fl)
    (hR : R.base < R.limit) (hno : ∀ r ∈ ranges fl, ¬ Overlaps R r) :
    (freelistInsert w fl R).1 = Res.OK := by
  cases hscan : freelistInsertScan fl R.base R.limit [] fl.list with
  | none =>
    exfalso
    obtain ⟨b, hb, h1, h2⟩ := insertScan_none fl _ _ _ _ hscan
    have hmem : blockRange fl b ∈ ranges fl := List.mem_map_of_mem _ hb
    exact hno _ hmem (overlaps_of_lt hR (hv.2.2.1 _ hmem).2.1 h1 h2)
  | some pc =>
    unfold freelistInsert
    simp only [hscan]

/-- C5 (insert overlap rejection): on a valid land, inserting a range that
shares an address with a stored block returns the failure code and leaves the
land (list, `size`, block count) as it was; inserting a non-empty range that
overlaps no stored block does not fail. -/
theorem insert_overlap_rejected (w : Nat) (fl : Freelist) (R : Range) (hv : Valid w fl) :
    ((∃ r ∈ ranges fl, Overlaps R r) →
      (freelistInsert w fl R).1 = Res.FAIL ∧ (freelistInsert w fl R).2.1 = fl) ∧
    (R.base < R.limit → (∀ r ∈ ranges fl, ¬ Overlaps R r) →
      (freelistInsert w fl R).1 = Res.OK) := by
  constructor
  · intro hex
    rw [insert_overlap_fails hv hex]
    exact ⟨rfl, rfl⟩
  · intro hR hno
    exact insert_ok_of_no_overlap hv hR hno

/-- Witness for C5: `[80,112)` overlaps the block `[64,96)`; `[32,64)` overlaps
nothing. -/
theorem insert_overlap_rejected_witness :
    ((freelistInsert 8 sampleLand ⟨80, 112⟩).1 = Res.FAIL ∧
      (freelistInsert 8 sampleLand ⟨80, 112⟩).2.1 = sampleLand) ∧
    (freelistInsert 8 sampleLand ⟨32, 64⟩).1 = Res.OK :=
  ⟨(insert_overlap_rejected 8 sampleLand ⟨80, 112⟩ sampleLand_valid).1
      ⟨⟨64, 96⟩, by rw [sampleLand_ranges]; simp,
        ⟨80, by decide, by decide, by decide, by decide⟩⟩,
    (insert_overlap_rejected 8 sampleLand ⟨32, 64⟩ sampleLand_valid).2 (by decide)
      sampleLand_no_overlap_32_64⟩

/-- C6 (delete rejection): deleting a range that is not wholly contained in a
single stored block (it lies in a gap, straddles a block boundary, spans
several blocks or lies beyond the last block) returns the failure code and
leaves the land (list, `size`, block count) as it was.  This holds on every
land and for every range, so in particular on valid lands and non-empty
ranges. -/
theorem delete_rejected (w : Nat) (fl : Freelist) (R : Range)
    (hnot : ∀ r ∈ ranges fl, ¬ (r.base ≤ R.base ∧ R.limit ≤ r.limit)) :
    (freelistDelete w fl R).1 = Res.FAIL ∧ (freelistDelete w fl R).2.1 = fl ∧
    (freelistDelete w fl R).2.2 = none := by
  rw [delete_not_contained_fails hnot]
  exact ⟨rfl, rfl, rfl⟩

theorem sampleLand_not_contained_80_112 :
    ∀ r ∈ ranges sampleLand, ¬ (r.base ≤ 80 ∧ 112 ≤ r.limit) := by
  intro r hr
  rw [sampleLand_ranges] at hr
  simp only [List.mem_cons, List.mem_singleton, List.not_mem_nil, or_false] at hr
  rcases hr with rfl | rfl <;> decide

/-- Witness for C6: `[80,112)` straddles the limit of the block `[64,96)`. -/
theorem delete_rejected_witness :
    (freelistDelete 8 sampleLand ⟨80, 112⟩).1 = Res.FAIL ∧
    (freelistDelete 8 sampleLand ⟨80, 112⟩).2.1 = sampleLand ∧
    (freelistDelete 8 sampleLand ⟨80, 112⟩).2.2 = none :=
  delete_rejected 8 sampleLand ⟨80, 112⟩ sampleLand_not_contained_80_112

theorem frags_after_insert {R : Range} {lo hi : Option Range}
    (hlo : ∀ l ∈ lo, l.limit = R.base ∧ l.base < l.limit)
    (hhi : ∀ h ∈ hi, h.base = R.limit ∧ h.base < h.limit) :
    leftFrag ⟨lo.elim R.base Range.base, hi.elim R.limit Range.limit⟩ R = lo.toList ∧
    rightFrag ⟨lo.elim R.base Range.base, hi.elim R.limit Range.limit⟩ R = hi.toList := by
  unfold leftFrag rightFrag
  constructor
  · cases lo with
    | none => simp
    | some l =>
      obtain ⟨h1, h2⟩ := hlo l rfl
      have : l.base < R.base := by omega
      simp only [Option.elim, this, if_true, Option.toList_some]
      rw [← h1]
  · cases hi with
    | none => simp
    | some h =>
      obtain ⟨h1, h2⟩ := hhi h rfl
      have : R.limit < h.limit := by omega
      simp only [Option.elim, this, if_true, Option.toList_some]
      rw [← h1]

/-- C7 (insert/delete round trip): on a valid land, after a successful insert
of an acceptable range `R` that overlaps no stored block, deleting the same `R`
succeeds and restores `size`, the block count and the sequence of stored
ranges. -/
theorem insert_delete_round_trip (w : Nat) (fl : Freelist) (R : Range) (hv : Valid w fl)
    (hR : RangeOK fl.alignment R) (hno : ∀ r ∈ ranges fl, ¬ Overlaps R r) :
    (freelistInsert w fl R).1 = Res.OK ∧
    (freelistDelete w (freelistInsert w fl R).2.1 R).1 = Res.OK ∧
    ranges (freelistDelete w (freelistInsert w fl R).2.1 R).2.1 = ranges fl ∧
    (freelistDelete w (freelistInsert w fl R).2.1 R).2.1.size = fl.size ∧
    (freelistDelete w (freelistInsert w fl R).2.1 R).2.1.listSize = fl.listSize ∧
    (freelistDelete w (freelistInsert w fl R).2.1 R).2.1.list.length = fl.list.length := by
  obtain ⟨xs, ys, lo, hi, hp⟩ := insert_spec hv hR hno
  have hv1 := insertPost_valid hv hR hp
  obtain ⟨hdec, hlo, hhi, _, _, hres, _, hrs, hal, hlen, hcnt, hsz⟩ := hp
  obtain ⟨hR0, hRlt, hRb, hRl⟩ := hR
  have hok := hv.2.2.1
  rw [hdec] at hok
  have hlo' : ∀ l ∈ lo, l.limit = R.base ∧ l.base < l.limit :=
    fun l hl => ⟨hlo l hl, (hok l (by
      have : l ∈ lo.toList := Option.mem_toList.2 hl
      simp [this])).2.1⟩
  have hhi' : ∀ h ∈ hi, h.base = R.limit ∧ h.base < h.limit :=
    fun h hh => ⟨hhi h hh, (hok h (by
      have : h ∈ hi.toList := Option.mem_toList.2 hh
      simp [this])).2.1⟩
  obtain ⟨hlf, hrf⟩ := frags_after_insert hlo' hhi'
  have hdec1 : ranges (freelistInsert w fl R).2.1 =
      xs ++ (⟨lo.elim R.base Range.base, hi.elim R.limit Range.limit⟩ : Range) :: ys := by
    rw [hrs]; simp
  have hM1 : (⟨lo.elim R.base Range.base, hi.elim R.limit Range.limit⟩ : Range).base
      ≤ R.base := by
    cases lo with
    | none => simp
    | some l => have := hlo' l rfl; simp only [Option.elim]; omega
  have hM2 : R.limit
      ≤ (⟨lo.elim R.base Range.base, hi.elim R.limit Range.limit⟩ : Range).limit := by
    cases hi with
    | none => simp
    | some h => have := hhi' h rfl; simp only [Option.elim]; omega
  obtain ⟨d1, _, d3, _, d5, d6, d7⟩ := delete_spec hv1 hdec1 hRlt
    (by rw [hal]; exact hRb) (by rw [hal]; exact hRl) hM1 hM2
  rw [hlf, hrf] at d3 d5 d6
  refine ⟨hres, d1, by rw [d3, hdec], ?_, by omega, by omega⟩
  rw [d7, hsz]
  omega

/-- Witness for C7: `[32,64)` merges the two blocks of the sample land and is
deleted again. -/
theorem insert_delete_round_trip_witness :
    (freelistInsert 8 sampleLand ⟨32, 64⟩).1 = Res.OK ∧
    (freelistDelete 8 (freelistInsert 8 sampleLand ⟨32, 64⟩).2.1 ⟨32, 64⟩).1 = Res.OK ∧
    ranges (freelistDelete 8 (freelistInsert 8 sampleLand ⟨32, 64⟩).2.1 ⟨32, 64⟩).2.1
      = ranges sampleLand ∧
    (freelistDelete 8 (freelistInsert 8 sampleLand ⟨32, 64⟩).2.1 ⟨32, 64⟩).2.1.size
      = sampleLand.size ∧
    (freelistDelete 8 (freelistInsert 8 sampleLand ⟨32, 64⟩).2.1 ⟨32, 64⟩).2.1.listSize
      = sampleLand.listSize ∧
    (freelistDelete 8 (freelistInsert 8 sampleLand ⟨32, 64⟩).2.1 ⟨32, 64⟩).2.1.list.length
      = sampleLand.list.length :=
  insert_delete_round_trip 8 sampleLand ⟨32, 64⟩ sampleLand_valid
    ⟨by decide, by decide, by decide, by decide⟩ sampleLand_no_overlap_32_64

theorem findDeleteFromBlock_old (w : Nat) (fl : Freelist) (size : Nat) (fd : FindDelete)
    (prevs : List FreelistBlock) (B : FreelistBlock) (next : List FreelistBlock) :
    (freelistFindDeleteFromBlock w fl size fd prevs B next).2.2 = rangeOf fl.alignment B := by
  cases fd <;> simp [freelistFindDeleteFromBlock, freelistDeleteFromBlock, rangeOf,
    freelistBlockLimit_eq]

theorem blockSize_eq (fl : Freelist) (b : FreelistBlock) :
    freelistBlockSize fl b = RangeSize (rangeOf fl.alignment b) := rfl

theorem not_exists_big {fl : Freelist} {size : Nat}
    (h : ∀ b ∈ fl.list, freelistBlockSize fl b < size) :
    ¬ ∃ r ∈ ranges fl, size ≤ RangeSize r := by
  rintro ⟨r, hr, hle⟩
  rw [ranges_eq] at hr
  obtain ⟨b, hb, rfl⟩ := List.mem_map.1 hr
  have := h b hb
  rw [blockSize_eq] at this
  omega

/-- C8 (find selection): on a valid land, `FindFirst` reports found exactly
when some stored block has length at least `size` and then selects (reports as
old range) the lowest-addressed such block; `FindLast` selects the
highest-addressed such block; `FindLargest` reports found exactly when some
block has length at least `size` and then selects a block of maximum length
among all stored blocks.  When nothing is found the land is unchanged. -/
theorem find_selection (w : Nat) (fl : Freelist) (size : Nat) (fd : FindDelete)
    (hv : Valid w fl) :
    (((freelistFindFirst w fl size fd).found = true ↔ ∃ r ∈ ranges fl, size ≤ RangeSize r) ∧
      ((freelistFindFirst w fl size fd).found = true →
        ∃ B ∈ ranges fl, (freelistFindFirst w fl size fd).oldRangeReturn = some B ∧
          size ≤ RangeSize B ∧ ∀ r ∈ ranges fl, size ≤ RangeSize r → B.base ≤ r.base) ∧
      ((freelistFindFirst w fl size fd).found = false →
        (freelistFindFirst w fl size fd).fl = fl)) ∧
    (((freelistFindLast w fl size fd).found = true ↔ ∃ r ∈ ranges fl, size ≤ RangeSize r) ∧
      ((freelistFindLast w fl size fd).found = true →
        ∃ B ∈ ranges fl, (freelistFindLast w fl size fd).oldRangeReturn = some B ∧
          size ≤ RangeSize B ∧ ∀ r ∈ ranges fl, size ≤ RangeSize r → r.base ≤ B.base) ∧
      ((freelistFindLast w fl size fd).found = false →
        (freelistFindLast w fl size fd).fl = fl)) ∧
    (((freelistFindLargest w fl size fd).found = true ↔
        ∃ r ∈ ranges fl, size ≤ RangeSize r) ∧
      ((freelistFindLargest w fl size fd).found = true →
        ∃ B ∈ ranges fl, (freelistFindLargest w fl size fd).oldRangeReturn = some B ∧
          size ≤ RangeSize B ∧ ∀ r ∈ ranges fl, RangeSize r ≤ RangeSize B) ∧
      ((freelistFindLargest w fl size fd).found = false →
        (freelistFindLargest w fl size fd).fl = fl)) := by
  obtain ⟨hokb, hisob⟩ := valid_blocks hv
  refine ⟨?_, ?_, ?_⟩
  · rcases findFirst_cases w fl size fd with ⟨hsmall, h⟩ | ⟨Xs, B, Ys, hl, hB, hXs, h⟩
    · rw [h]
      have := not_exists_big hsmall
      simp [this]
    · rw [h]
      have hBmem : rangeOf fl.alignment B ∈ ranges fl := by
        rw [ranges_eq, hl]; simp
      refine ⟨by simpa using ⟨_, hBmem, hB⟩, fun _ => ⟨_, hBmem, ?_, hB, ?_⟩, by simp⟩
      · simp only [findDeleteFromBlock_old]
      · intro r hr hle
        rw [ranges_eq, hl] at hr
        obtain ⟨b, hb, rfl⟩ := List.mem_map.1 hr
        rw [hl] at hisob hokb
        simp only [List.mem_append, List.mem_cons] at hb
        rcases hb with hb | rfl | hb
        · have := hXs b hb
          rw [blockSize_eq] at this
          omega
        · exact Nat.le_refl _
        · have h3 := (List.pairwise_cons.1 (List.pairwise_append.1 hisob).2.1).1 b hb
          have h4 := (hokb B (by simp)).2.1
          simp only [rangeOf_base]
          omega
  · rcases findLast_cases w fl size fd with ⟨hsmall, h⟩ | ⟨Xs, B, Ys, hl, hB, hYs, h⟩
    · rw [h]
      have := not_exists_big hsmall
      simp [this]
    · rw [h]
      have hBmem : rangeOf fl.alignment B ∈ ranges fl := by
        rw [ranges_eq, hl]; simp
      refine ⟨by simpa using ⟨_, hBmem, hB⟩, fun _ => ⟨_, hBmem, ?_, hB, ?_⟩, by simp⟩
      · simp only [findDeleteFromBlock_old]
      · intro r hr hle
        rw [ranges_eq, hl] at hr
        obtain ⟨b, hb, rfl⟩ := List.mem_map.1 hr
        rw [hl] at hisob hokb
        simp only [List.mem_append, List.mem_cons] at hb
        rcases hb with hb | rfl | hb
        · have h3 := (List.pairwise_append.1 hisob).2.2 b hb B (by simp)
          have h4 := (hokb b (by simp [hb])).2.1
          simp only [rangeOf_base]
          omega
        · exact Nat.le_refl _
        · have := hYs b hb
          rw [blockSize_eq] at this
          omega
  · rcases findLargest_cases w fl size fd with
      ⟨hsmall, h⟩ | ⟨Xs, B, Ys, hl, hB, hmax, _, h⟩
    · rw [h]
      have := not_exists_big hsmall
      simp [this]
    · rw [h]
      have hBmem : rangeOf fl.alignment B ∈ ranges fl := by
        rw [ranges_eq, hl]; simp
      refine ⟨by simpa using ⟨_, hBmem, hB⟩, fun _ => ⟨_, hBmem, ?_, hB, ?_⟩, by simp⟩
      · simp only [findDeleteFromBlock_old]
      · intro r hr
        rw [ranges_eq] at hr
        obtain ⟨b, hb, rfl⟩ := List.mem_map.1 hr
        exact hmax b hb

/-- Witness for C8: the three finds on the sample land with request 16 and
policy `NONE`. -/
theorem find_selection_witness :
    (((freelistFindFirst 8 sampleLand 16 FindDelete.NONE).found = true ↔
        ∃ r ∈ ranges sampleLand, 16 ≤ RangeSize r) ∧
      ((freelistFindFirst 8 sampleLand 16 FindDelete.NONE).found = true →
        ∃ B ∈ ranges sampleLand,
          (freelistFindFirst 8 sampleLand 16 FindDelete.NONE).oldRangeReturn = some B ∧
          16 ≤ RangeSize B ∧ ∀ r ∈ ranges sampleLand, 16 ≤ RangeSize r → B.base ≤ r.base) ∧
      ((freelistFindFirst 8 sampleLand 16 FindDelete.NONE).found = false →
        (freelistFindFirst 8 sampleLand 16 FindDelete.NONE).fl = sampleLand)) ∧
    (((freelistFindLast 8 sampleLand 16 FindDelete.NONE).found = true ↔
        ∃ r ∈ ranges sampleLand, 16 ≤ RangeSize r) ∧
      ((freelistFindLast 8 sampleLand 16 FindDelete.NONE).found = true →
        ∃ B ∈ ranges sampleLand,
          (freelistFindLast 8 sampleLand 16 FindDelete.NONE).oldRangeReturn = some B ∧
          16 ≤ RangeSize B ∧ ∀ r ∈ ranges sampleLand, 16 ≤ RangeSize r → r.base ≤ B.base) ∧
      ((freelistFindLast 8 sampleLand 16 FindDelete.NONE).found = false →
        (freelistFindLast 8 sampleLand 16 FindDelete.NONE).fl = sampleLand)) ∧
    (((freelistFindLargest 8 sampleLand 16 FindDelete.NONE).found = true ↔
        ∃ r ∈ ranges sampleLand, 16 ≤ RangeSize r) ∧
      ((freelistFindLargest 8 sampleLand 16 FindDelete.NONE).found = true →
        ∃ B ∈ ranges sampleLand,
          (freelistFindLargest 8 sampleLand 16 FindDelete.NONE).oldRangeReturn = some B ∧
          16 ≤ RangeSize B ∧ ∀ r ∈ ranges sampleLand, RangeSize r ≤ RangeSize B) ∧
      ((freelistFindLargest 8 sampleLand 16 FindDelete.NONE).found = false →
        (freelistFindLargest 8 sampleLand 16 FindDelete.NONE).fl = sampleLand)) :=
  find_selection 8 sampleLand 16 FindDelete.NONE sampleLand_valid

theorem policyPost_of_block {w : Nat} {fl : Freelist} {size : Nat} (fd : FindDelete)
    (hv : Valid w fl) (Xs : List FreelistBlock) (B : FreelistBlock) (Ys : List FreelistBlock)
    (hl : fl.list = Xs ++ B :: Ys) (hsize : size ≤ freelistBlockSize fl B)
    (hal : fl.alignment ∣ size) :
    PolicyPost fd size fl
      ⟨true, (freelistFindDeleteFromBlock w fl size fd Xs.reverse B Ys).1,
        some (freelistFindDeleteFromBlock w fl size fd Xs.reverse B Ys).2.1,
        some (freelistFindDeleteFromBlock w fl size fd Xs.reverse B Ys).2.2⟩
      (Xs.map (rangeOf fl.alignment)) (rangeOf fl.alignment B)
      (Ys.map (rangeOf fl.alignment)) := by
  obtain ⟨e1, e2, e3, e4, _, _⟩ :=
    findDeleteFromBlock_spec (w := w) fd hv Xs.reverse B Ys (by simpa using hl) hsize hal
  obtain ⟨hokb, _⟩ := valid_blocks hv
  obtain ⟨_, hBlt, _, _⟩ := hokb B (by rw [hl]; simp)
  have hsz := hv.2.2.2.2.2
  rw [ranges_eq, hl] at hsz
  simp only [List.map_append, List.map_cons, totalSize_append, totalSize_cons, RangeSize,
    rangeOf_base, rangeOf_limit] at hsz
  simp only [freelistBlockSize, freelistBlockLimit_eq] at hsize
  simp only [List.reverse_reverse] at e4
  unfold PolicyPost
  refine ⟨by simp only [e2], ?_, ?_, ?_, ?_⟩
  · intro hfd
    subst hfd
    exact ⟨by simp only [e1, findRange], e3 rfl⟩
  · intro hfd
    subst hfd
    obtain ⟨f1, _, f3⟩ := e4 (by decide)
    refine ⟨by simp only [e1, findRange, rangeOf_base], ?_, ?_⟩
    · simp only [f1, findRange, leftFrag, rightFrag, rangeOf_base, rangeOf_limit,
        Nat.lt_irrefl, if_false, List.append_nil]
    · simp only [f3, findRange, RangeSize, rangeOf_base]
      omega
  · intro hfd
    subst hfd
    obtain ⟨f1, _, f3⟩ := e4 (by decide)
    refine ⟨by simp only [e1, findRange, rangeOf_limit], ?_, ?_⟩
    · simp only [f1, findRange, leftFrag, rightFrag, rangeOf_base, rangeOf_limit,
        Nat.lt_irrefl, if_false, List.append_nil]
    · simp only [f3, findRange, RangeSize, rangeOf_limit]
      omega
  · intro hfd
    subst hfd
    obtain ⟨f1, _, f3⟩ := e4 (by decide)
    refine ⟨by simp only [e1, findRange], ?_, ?_⟩
    · simp only [f1, findRange, leftFrag, rightFrag, Nat.lt_irrefl, if_false,
        List.append_nil]
    · simp only [f3, findRange, RangeSize, rangeOf_base, rangeOf_limit]
      omega

/-- C9 (find deletion policy, `FindFirst` and `FindLast`): on a valid land and
for an aligned request `size`, when a find selects the block `B` (the first,
respectively last, block of length at least `size`), policy `NONE` returns `B`
and leaves the land unchanged; `LOW` returns `[B.base, B.base + size)` and
leaves `[B.base + size, B.limit)` if non-empty; `HIGH` returns
`[B.limit - size, B.limit)` and leaves `[B.base, B.limit - size)` if
non-empty; `ENTIRE` returns and removes all of `B`; the old range is `B` in
every case and the other blocks stay as they were. -/
theorem find_deletion_policy (w : Nat) (fl : Freelist) (size : Nat) (fd : FindDelete)
    (hv : Valid w fl) (hal : fl.alignment ∣ size) :
    ((freelistFindFirst w fl size fd).found = true →
      ∃ xs B ys, ranges fl = xs ++ B :: ys ∧ size ≤ RangeSize B ∧
        (∀ x ∈ xs, RangeSize x < size) ∧
        PolicyPost fd size fl (freelistFindFirst w fl size fd) xs B ys) ∧
    ((freelistFindLast w fl size fd).found = true →
      ∃ xs B ys, ranges fl = xs ++ B :: ys ∧ size ≤ RangeSize B ∧
        (∀ y ∈ ys, RangeSize y < size) ∧
        PolicyPost fd size fl (freelistFindLast w fl size fd) xs B ys) := by
  constructor
  · intro hfound
    rcases findFirst_cases w fl size fd with ⟨_, h⟩ | ⟨Xs, B, Ys, hl, hB, hXs, h⟩
    · rw [h] at hfound
      simp at hfound
    · refine ⟨Xs.map (rangeOf fl.alignment), rangeOf fl.alignment B,
        Ys.map (rangeOf fl.alignment), by rw [ranges_eq, hl]; simp, hB, ?_, ?_⟩
      · intro x hx
        obtain ⟨b, hb, rfl⟩ := List.mem_map.1 hx
        exact hXs b hb
      · rw [h]
        exact policyPost_of_block fd hv Xs B Ys hl hB hal
  · intro hfound
    rcases findLast_cases w fl size fd with ⟨_, h⟩ | ⟨Xs, B, Ys, hl, hB, hYs, h⟩
    · rw [h] at hfound
      simp at hfound
    · refine ⟨Xs.map (rangeOf fl.alignment), rangeOf fl.alignment B,
        Ys.map (rangeOf fl.alignment), by rw [ranges_eq, hl]; simp, hB, ?_, ?_⟩
      · intro y hy
        obtain ⟨b, hb, rfl⟩ := List.mem_map.1 hy
        exact hYs b hb
      · rw [h]
        exact policyPost_of_block fd hv Xs B Ys hl hB hal

/-- Witness for C9: request 16 with policy `LOW` on the sample land. -/
theorem find_deletion_policy_witness :
    ((freelistFindFirst 8 sampleLand 16 FindDelete.LOW).found = true →
      ∃ xs B ys, ranges sampleLand = xs ++ B :: ys ∧ 16 ≤ RangeSize B ∧
        (∀ x ∈ xs, RangeSize x < 16) ∧
        PolicyPost FindDelete.LOW 16 sampleLand
          (freelistFindFirst 8 sampleLand 16 FindDelete.LOW) xs B ys) ∧
    ((freelistFindLast 8 sampleLand 16 FindDelete.LOW).found = true →
      ∃ xs B ys, ranges sampleLand = xs ++ B :: ys ∧ 16 ≤ RangeSize B ∧
        (∀ y ∈ ys, RangeSize y < 16) ∧
        PolicyPost FindDelete.LOW 16 sampleLand
          (freelistFindLast 8 sampleLand 16 FindDelete.LOW) xs B ys) :=
  find_deletion_policy 8 sampleLand 16 FindDelete.LOW sampleLand_valid (by decide)

/-- Counterexample for C10: on a land holding the single block `[16,64)`,
`FindLargest` with request 16 and policy `LOW` does not return `[16,32)` and
leave `[32,64)`; it returns the whole block `[16,64)` and empties the land, and
likewise with policy `HIGH` (where the claim expects `[48,64)` returned and
`[16,48)` left). -/
theorem findLargest_policy_counterexample :
    ¬ ((freelistFindLargest 8 (freelistInsert 8 (freelistInit 16) ⟨16, 64⟩).2.1 16
          FindDelete.LOW).rangeReturn = some ⟨16, 16 + 16⟩ ∧
        ranges (freelistFindLargest 8 (freelistInsert 8 (freelistInit 16) ⟨16, 64⟩).2.1 16
          FindDelete.LOW).fl = [⟨16 + 16, 64⟩]) ∧
    ¬ ((freelistFindLargest 8 (freelistInsert 8 (freelistInit 16) ⟨16, 64⟩).2.1 16
          FindDelete.HIGH).rangeReturn = some ⟨64 - 16, 64⟩ ∧
        ranges (freelistFindLargest 8 (freelistInsert 8 (freelistInit 16) ⟨16, 64⟩).2.1 16
          FindDelete.HIGH).fl = [⟨16, 64 - 16⟩]) ∧
    (freelistFindLargest 8 (freelistInsert 8 (freelistInit 16) ⟨16, 64⟩).2.1 16
      FindDelete.LOW).rangeReturn = some ⟨16, 64⟩ ∧
    ranges (freelistFindLargest 8 (freelistInsert 8 (freelistInit 16) ⟨16, 64⟩).2.1 16
      FindDelete.LOW).fl = [] ∧
    (freelistFindLargest 8 (freelistInsert 8 (freelistInit 16) ⟨16, 64⟩).2.1 16
      FindDelete.HIGH).rangeReturn = some ⟨16, 64⟩ ∧
    ranges (freelistFindLargest 8 (freelistInsert 8 (freelistInit 16) ⟨16, 64⟩).2.1 16
      FindDelete.HIGH).fl = [] := by
  decide

/-- C10 (amended): on a valid land, when `FindLargest` finds a block it selects
a block `B` of maximum length, at least `size` long, and reports `B` both as
the found range and as the old range under every policy; policy `NONE` leaves
the land unchanged, and each of `LOW`, `HIGH` and `ENTIRE` removes all of `B`,
leaving the other blocks as they were and lowering `size` by the length of
`B`. -/
theorem findLargest_policy (w : Nat) (fl : Freelist) (size : Nat) (fd : FindDelete)
    (hv : Valid w fl) (hfound : (freelistFindLargest w fl size fd).found = true) :
    ∃ xs B ys, ranges fl = xs ++ B :: ys ∧ size ≤ RangeSize B ∧
      (∀ r ∈ ranges fl, RangeSize r ≤ RangeSize B) ∧
      (freelistFindLargest w fl size fd).rangeReturn = some B ∧
      (freelistFindLargest w fl size fd).oldRangeReturn = some B ∧
      (fd = FindDelete.NONE → (freelistFindLargest w fl size fd).fl = fl) ∧
      (fd ≠ FindDelete.NONE →
        ranges (freelistFindLargest w fl size fd).fl = xs ++ ys ∧
        (freelistFindLargest w fl size fd).fl.size + RangeSize B = fl.size) := by
  rcases findLargest_cases w fl size fd with ⟨_, h⟩ | ⟨Xs, B, Ys, hl, hB, hmax, _, h⟩
  · rw [h] at hfound
    simp at hfound
  · obtain ⟨hokb, _⟩ := valid_blocks hv
    obtain ⟨_, hBlt, hBb, hBl⟩ := hokb B (by rw [hl]; simp)
    have hdvd : fl.alignment ∣ freelistBlockSize fl B := by
      simp only [freelistBlockSize, freelistBlockLimit_eq]
      exact Nat.dvd_sub' hBl hBb
    obtain ⟨p1, p2, p3, p4, p5⟩ :=
      policyPost_of_block (w := w) fd hv Xs B Ys hl (Nat.le_refl _) hdvd
    have hlow : (⟨B.base, B.base + freelistBlockSize fl B⟩ : Range)
        = rangeOf fl.alignment B := by
      simp only [freelistBlockSize, freelistBlockLimit_eq, rangeOf]
      congr 1
      omega
    have hhigh : (⟨blockLim fl.alignment B - freelistBlockSize fl B,
        blockLim fl.alignment B⟩ : Range) = rangeOf fl.alignment B := by
      simp only [freelistBlockSize, freelistBlockLimit_eq, rangeOf]
      congr 1
      omega
    have hnolow : ¬ (B.base + freelistBlockSize fl B < blockLim fl.alignment B) := by
      simp only [freelistBlockSize, freelistBlockLimit_eq]
      omega
    have hnohigh : ¬ (B.base < blockLim fl.alignment B - freelistBlockSize fl B) := by
      simp only [freelistBlockSize, freelistBlockLimit_eq]
      omega
    have hsB : freelistBlockSize fl B = RangeSize (rangeOf fl.alignment B) := rfl
    refine ⟨Xs.map (rangeOf fl.alignment), rangeOf fl.alignment B,
      Ys.map (rangeOf fl.alignment), by rw [ranges_eq, hl]; simp, hB, ?_, ?_, ?_, ?_, ?_⟩
    · intro r hr
      rw [ranges_eq] at hr
      obtain ⟨b, hb, rfl⟩ := List.mem_map.1 hr
      exact hmax b hb
    · rw [h]
      simp only [rangeOf_base, rangeOf_limit] at p2 p3 p4 p5
      cases fd with
      | NONE => exact (p2 rfl).1
      | LOW => rw [(p3 rfl).1, hlow]
      | HIGH => rw [(p4 rfl).1, hhigh]
      | ENTIRE => exact (p5 rfl).1
    · rw [h]
      exact p1
    · intro hfd
      rw [h]
      exact (p2 hfd).2
    · intro hfd
      rw [h]
      simp only [rangeOf_base, rangeOf_limit] at p3 p4 p5
      cases fd with
      | NONE => exact absurd rfl hfd
      | LOW =>
        obtain ⟨_, q2, q3⟩ := p3 rfl
        rw [if_neg hnolow] at q2
        exact ⟨by simpa using q2, by rw [← hsB]; exact q3⟩
      | HIGH =>
        obtain ⟨_, q2, q3⟩ := p4 rfl
        rw [if_neg hnohigh] at q2
        exact ⟨by simpa using q2, by rw [← hsB]; exact q3⟩
      | ENTIRE =>
        obtain ⟨_, q2, q3⟩ := p5 rfl
        exact ⟨q2, q3⟩

/-- Witness for the amended C10: request 16 with policy `LOW` on the sample
land, whose largest block is `[64,96)`. -/
theorem findLargest_policy_witness :
    ∃ xs B ys, ranges sampleLand = xs ++ B :: ys ∧ 16 ≤ RangeSize B ∧
      (∀ r ∈ ranges sampleLand, RangeSize r ≤ RangeSize B) ∧
      (freelistFindLargest 8 sampleLand 16 FindDelete.LOW).rangeReturn = some B ∧
      (freelistFindLargest 8 sampleLand 16 FindDelete.LOW).oldRangeReturn = some B ∧
      (FindDelete.LOW = FindDelete.NONE →
        (freelistFindLargest 8 sampleLand 16 FindDelete.LOW).fl = sampleLand) ∧
      (FindDelete.LOW ≠ FindDelete.NONE →
        ranges (freelistFindLargest 8 sampleLand 16 FindDelete.LOW).fl = xs ++ ys ∧
        (freelistFindLargest 8 sampleLand 16 FindDelete.LOW).fl.size + RangeSize B
          = sampleLand.size) :=
  findLargest_policy 8 sampleLand 16 FindDelete.LOW sampleLand_valid (by decide)

/-! ## Block count and emptiness -/

theorem totalSize_eq_zero_iff {a : Nat} {rs : List Range} (hok : ∀ r ∈ rs, RangeOK a r) :
    totalSize rs = 0 ↔ rs = [] := by
  constructor
  · intro h
    cases rs with
    | nil => rfl
    | cons r rest =>
      have h1 := (hok r (by simp)).2.1
      rw [totalSize_cons] at h
      unfold RangeSize at h
      omega
  · intro h
    subst h
    rfl

theorem valid_empty_iff {w : Nat} {fl : Freelist} (hv : Valid w fl) :
    fl.listSize = fl.list.length ∧ (fl.list = [] ↔ fl.size = 0) ∧
    (fl.size = 0 ↔ fl.listSize = 0) := by
  obtain ⟨_, _, hok, _, hcnt, hsz⟩ := hv
  have h1 : fl.size = 0 ↔ ranges fl = [] := by
    rw [hsz]
    exact totalSize_eq_zero_iff hok
  have h2 : ranges fl = [] ↔ fl.list = [] := by
    rw [ranges_eq]
    exact List.map_eq_nil_iff
  refine ⟨hcnt, ?_, ?_⟩
  · rw [h1, h2]
  · rw [h1, h2, hcnt]
    exact List.length_eq_zero.symm

/-- C11 (freelist emptiness and count): on every land reached from a freshly
initialised land by any sequence of method calls, `listSize` is the number of
blocks on the list, and the list is empty iff `size` is 0 iff `listSize` is
0. -/
theorem freelist_count_and_emptiness (w a : Nat) (ha : 0 < a) (hw : w ≤ a)
    (fl : Freelist) (h : ReachableOps w a fl) :
    fl.listSize = fl.list.length ∧ (fl.list = [] ↔ fl.size = 0) ∧
    (fl.size = 0 ↔ fl.listSize = 0) :=
  valid_empty_iff (reachableOps_valid ha hw h)

/-- Witness for C11: insert `[16,64)` and take the whole block back with
`FindLargest`, policy `ENTIRE`. -/
theorem freelist_count_and_emptiness_witness :
    (freelistFindLargest 8 (freelistInsert 8 (freelistInit 16) ⟨16, 64⟩).2.1 16
      FindDelete.ENTIRE).fl.listSize =
      (freelistFindLargest 8 (freelistInsert 8 (freelistInit 16) ⟨16, 64⟩).2.1 16
        FindDelete.ENTIRE).fl.list.length ∧
    ((freelistFindLargest 8 (freelistInsert 8 (freelistInit 16) ⟨16, 64⟩).2.1 16
      FindDelete.ENTIRE).fl.list = [] ↔
      (freelistFindLargest 8 (freelistInsert 8 (freelistInit 16) ⟨16, 64⟩).2.1 16
        FindDelete.ENTIRE).fl.size = 0) ∧
    ((freelistFindLargest 8 (freelistInsert 8 (freelistInit 16) ⟨16, 64⟩).2.1 16
      FindDelete.ENTIRE).fl.size = 0 ↔
      (freelistFindLargest 8 (freelistInsert 8 (freelistInit 16) ⟨16, 64⟩).2.1 16
        FindDelete.ENTIRE).fl.listSize = 0) :=
  freelist_count_and_emptiness 8 16 (by decide) (by decide) _
    (ReachableOps.step (ReachableOps.step ReachableOps.init
      (Step.insert _ _ rangeOK_16_64)) (Step.findLargest _ 16 FindDelete.ENTIRE))

/-! ## Area scanning -/

theorem xor_and_testBit (w mask i : Nat) :
    (w ^^^ (w &&& mask)).testBit i = (w.testBit i && !mask.testBit i) := by
  rw [Nat.testBit_xor, Nat.testBit_and]
  cases w.testBit i <;> cases mask.testBit i <;> rfl

theorem scanArea_offers {S : Type} (fix1 : S → Nat → Bool × S)
    (fix2 : S → Nat → ResCode × Nat × S) (test : Nat → Bool) (mask : Nat) :
    ∀ (ws : List Nat) (ss : S),
      ((MPS_SCAN_AREA fix1 fix2 test mask ss ws).1,
        (MPS_SCAN_AREA fix1 fix2 test mask ss ws).2.1) =
      offerAll fix1 fix2 ss
        ((ws.filter (fun w => test (w &&& mask))).map (fun w => w ^^^ (w &&& mask))) := by
  intro ws
  induction ws with
  | nil => intro ss; rfl
  | cons w rest ih =>
    intro ss
    unfold MPS_SCAN_AREA
    by_cases ht : test (w &&& mask) = true
    · simp only [ht, if_true, List.filter_cons_of_pos, List.map_cons]
      unfold offerAll
      by_cases h1 : (fix1 ss (w ^^^ (w &&& mask))).1 = true
      · simp only [h1, if_true]
        by_cases h2 : (fix2 (fix1 ss (w ^^^ (w &&& mask))).2 (w ^^^ (w &&& mask))).1
            = ResCode.OK
        · simp only [h2, if_true]
          exact ih _
        · simp only [h2, if_false]
      · simp only [h1, if_false]
        exact ih _
    · have ht' : test (w &&& mask) = false := by simpa using ht
      simp only [ht', Bool.false_eq_true, if_false]
      rw [List.filter_cons_of_neg (by simp [ht'])]
      exact ih _

theorem scanArea_length {S : Type} (fix1 : S → Nat → Bool × S)
    (fix2 : S → Nat → ResCode × Nat × S) (test : Nat → Bool) (mask : Nat) :
    ∀ (ws : List Nat) (ss : S),
      (MPS_SCAN_AREA fix1 fix2 test mask ss ws).2.2.length = ws.length := by
  intro ws
  induction ws with
  | nil => intro ss; rfl
  | cons w rest ih =>
    intro ss
    unfold MPS_SCAN_AREA
    simp only
    split
    · split
      · split
        · simp [ih]
        · simp
      · simp [ih]
    · simp [ih]

theorem scanArea_untested {S : Type} (fix1 : S → Nat → Bool × S)
    (fix2 : S → Nat → ResCode × Nat × S) (test : Nat → Bool) (mask : Nat) :
    ∀ (ws : List Nat) (ss : S) (i w : Nat),
      ws[i]? = some w → test (w &&& mask) = false →
      (MPS_SCAN_AREA fix1 fix2 test mask ss ws).2.2[i]? = some w := by
  intro ws
  induction ws with
  | nil => intro ss i w h; simp at h
  | cons x rest ih =>
    intro ss i w h ht
    unfold MPS_SCAN_AREA
    simp only
    cases i with
    | zero =>
      simp only [List.getElem?_cons_zero, Option.some.injEq] at h
      subst h
      simp [ht]
    | succ j =>
      simp only [List.getElem?_cons_succ] at h
      split
      · split
        · split
          · simp only [List.getElem?_cons_succ]
            exact ih _ j w h ht
          · simp only [List.getElem?_cons_succ]
            exact h
        · simp only [List.getElem?_cons_succ]
          exact ih _ j w h ht
      · simp only [List.getElem?_cons_succ]
        exact ih _ j w h ht

theorem scanArea_written {S : Type} (fix1 : S → Nat → Bool × S)
    (fix2 : S → Nat → ResCode × Nat × S) (test : Nat → Bool) (mask : Nat) :
    ∀ (ws : List Nat) (ss : S) (i w v : Nat),
      ws[i]? = some w → (MPS_SCAN_AREA fix1 fix2 test mask ss ws).2.2[i]? = some v →
      v ≠ w →
      test (w &&& mask) = true ∧
      ∃ s0, (fix1 s0 (w ^^^ (w &&& mask))).1 = true ∧
        (fix2 (fix1 s0 (w ^^^ (w &&& mask))).2 (w ^^^ (w &&& mask))).1 = ResCode.OK ∧
        v = (fix2 (fix1 s0 (w ^^^ (w &&& mask))).2 (w ^^^ (w &&& mask))).2.1
          ||| (w &&& mask) := by
  intro ws
  induction ws with
  | nil => intro ss i w v h; simp at h
  | cons x rest ih =>
    intro ss i w v h hv hne
    unfold MPS_SCAN_AREA at hv
    simp only at hv
    cases i with
    | zero =>
      simp only [List.getElem?_cons_zero, Option.some.injEq] at h
      subst h
      split at hv
      · rename_i ht
        split at hv
        · rename_i h1
          split at hv
          · rename_i h2
            simp only [List.getElem?_cons_zero, Option.some.injEq] at hv
            exact ⟨ht, ss, h1, h2, hv.symm⟩
          · simp only [List.getElem?_cons_zero, Option.some.injEq] at hv
            exact absurd hv.symm hne
        · simp only [List.getElem?_cons_zero, Option.some.injEq] at hv
          exact absurd hv.symm hne
      · simp only [List.getElem?_cons_zero, Option.some.injEq] at hv
        exact absurd hv.symm hne
    | succ j =>
      simp only [List.getElem?_cons_succ] at h
      split at hv
      · split at hv
        · split at hv
          · simp only [List.getElem?_cons_succ] at hv
            exact ih _ j w v h hv hne
          · simp only [List.getElem?_cons_succ] at hv
            rw [h] at hv
            simp only [Option.some.injEq] at hv
            exact absurd hv.symm hne
        · simp only [List.getElem?_cons_succ] at hv
          exact ih _ j w v h hv hne
      · simp only [List.getElem?_cons_succ] at hv
        exact ih _ j w v h hv hne

theorem scanArea_cons {S : Type} (fix1 : S → Nat → Bool × S)
    (fix2 : S → Nat → ResCode × Nat × S) (test : Nat → Bool) (mask : Nat) (ss : S) (w : Nat)
    (rest : List Nat) :
    MPS_SCAN_AREA fix1 fix2 test mask ss (w :: rest) =
      if test (w &&& mask) = true then
        if (fix1 ss (w ^^^ (w &&& mask))).1 = true then
          if (fix2 (fix1 ss (w ^^^ (w &&& mask))).2 (w ^^^ (w &&& mask))).1 = ResCode.OK then
            ((MPS_SCAN_AREA fix1 fix2 test mask
                (fix2 (fix1 ss (w ^^^ (w &&& mask))).2 (w ^^^ (w &&& mask))).2.2 rest).1,
              (MPS_SCAN_AREA fix1 fix2 test mask
                (fix2 (fix1 ss (w ^^^ (w &&& mask))).2 (w ^^^ (w &&& mask))).2.2 rest).2.1,
              ((fix2 (fix1 ss (w ^^^ (w &&& mask))).2 (w ^^^ (w &&& mask))).2.1
                  ||| (w &&& mask)) ::
                (MPS_SCAN_AREA fix1 fix2 test mask
                  (fix2 (fix1 ss (w ^^^ (w &&& mask))).2 (w ^^^ (w &&& mask))).2.2 rest).2.2)
          else
            ((fix2 (fix1 ss (w ^^^ (w &&& mask))).2 (w ^^^ (w &&& mask))).1,
              (fix2 (fix1 ss (w ^^^ (w &&& mask))).2 (w ^^^ (w &&& mask))).2.2, w :: rest)
        else
          ((MPS_SCAN_AREA fix1 fix2 test mask (fix1 ss (w ^^^ (w &&& mask))).2 rest).1,
            (MPS_SCAN_AREA fix1 fix2 test mask (fix1 ss (w ^^^ (w &&& mask))).2 rest).2.1,
            w :: (MPS_SCAN_AREA fix1 fix2 test mask (fix1 ss (w ^^^ (w &&& mask))).2 rest).2.2)
      else
        ((MPS_SCAN_AREA fix1 fix2 test mask ss rest).1,
          (MPS_SCAN_AREA fix1 fix2 test mask ss rest).2.1,
          w :: (MPS_SCAN_AREA fix1 fix2 test mask ss rest).2.2) := by
  rw [MPS_SCAN_AREA]

theorem scanArea_nil {S : Type} (fix1 : S → Nat → Bool × S)
    (fix2 : S → Nat → ResCode × Nat × S) (test : Nat → Bool) (mask : Nat) (ss : S) :
    MPS_SCAN_AREA fix1 fix2 test mask ss [] = (ResCode.OK, ss, []) := by
  rw [MPS_SCAN_AREA]

theorem scanArea_append {S : Type} (fix1 : S → Nat → Bool × S)
    (fix2 : S → Nat → ResCode × Nat × S) (test : Nat → Bool) (mask : Nat) :
    ∀ (xs ys : List Nat) (ss : S),
      MPS_SCAN_AREA fix1 fix2 test mask ss (xs ++ ys) =
        if (MPS_SCAN_AREA fix1 fix2 test mask ss xs).1 = ResCode.OK then
          ((MPS_SCAN_AREA fix1 fix2 test mask
              (MPS_SCAN_AREA fix1 fix2 test mask ss xs).2.1 ys).1,
            (MPS_SCAN_AREA fix1 fix2 test mask
              (MPS_SCAN_AREA fix1 fix2 test mask ss xs).2.1 ys).2.1,
            (MPS_SCAN_AREA fix1 fix2 test mask ss xs).2.2 ++
              (MPS_SCAN_AREA fix1 fix2 test mask
                (MPS_SCAN_AREA fix1 fix2 test mask ss xs).2.1 ys).2.2)
        else
          ((MPS_SCAN_AREA fix1 fix2 test mask ss xs).1,
            (MPS_SCAN_AREA fix1 fix2 test mask ss xs).2.1,
            (MPS_SCAN_AREA fix1 fix2 test mask ss xs).2.2 ++ ys) := by
  intro xs
  induction xs with
  | nil =>
    intro ys ss
    simp only [scanArea_nil, List.nil_append, if_true]
  | cons w rest ih =>
    intro ys ss
    rw [List.cons_append, scanArea_cons, scanArea_cons fix1 fix2 test mask ss w rest]
    by_cases ht : test (w &&& mask) = true
    · simp only [if_pos ht]
      by_cases h1 : (fix1 ss (w ^^^ (w &&& mask))).1 = true
      · simp only [if_pos h1]
        by_cases h2 :
            (fix2 (fix1 ss (w ^^^ (w &&& mask))).2 (w ^^^ (w &&& mask))).1 = ResCode.OK
        · simp only [if_pos h2]
          rw [ih]
          split <;> rfl
        · simp only [if_neg h2, List.cons_append]
      · simp only [if_neg h1]
        rw [ih]
        split <;> rfl
    · simp only [if_neg ht]
      rw [ih]
      split <;> rfl

theorem scanArea_single {S : Type} (fix1 : S → Nat → Bool × S)
    (fix2 : S → Nat → ResCode × Nat × S) (test : Nat → Bool) (mask : Nat) (ss : S) (w : Nat) :
    MPS_SCAN_AREA fix1 fix2 test mask ss [w] =
      if test (w &&& mask) = true then
        if (fix1 ss (w ^^^ (w &&& mask))).1 = true then
          if (fix2 (fix1 ss (w ^^^ (w &&& mask))).2 (w ^^^ (w &&& mask))).1 = ResCode.OK then
            (ResCode.OK, (fix2 (fix1 ss (w ^^^ (w &&& mask))).2 (w ^^^ (w &&& mask))).2.2,
              [(fix2 (fix1 ss (w ^^^ (w &&& mask))).2 (w ^^^ (w &&& mask))).2.1
                ||| (w &&& mask)])
          else
            ((fix2 (fix1 ss (w ^^^ (w &&& mask))).2 (w ^^^ (w &&& mask))).1,
              (fix2 (fix1 ss (w ^^^ (w &&& mask))).2 (w ^^^ (w &&& mask))).2.2, [w])
        else (ResCode.OK, (fix1 ss (w ^^^ (w &&& mask))).2, [w])
      else (ResCode.OK, ss, [w]) := by
  rw [scanArea_cons]
  simp only [scanArea_nil]

theorem scanArea_reached {S : Type} (fix1 : S → Nat → Bool × S)
    (fix2 : S → Nat → ResCode × Nat × S) (test : Nat → Bool) (mask : Nat) (xs ys : List Nat)
    (w : Nat) (ss : S) (h : (MPS_SCAN_AREA fix1 fix2 test mask ss xs).1 = ResCode.OK) :
    (MPS_SCAN_AREA fix1 fix2 test mask ss (xs ++ w :: ys)).2.2[xs.length]? =
      some
        (if test (w &&& mask) = true ∧
            (fix1 (MPS_SCAN_AREA fix1 fix2 test mask ss xs).2.1 (w ^^^ (w &&& mask))).1 = true ∧
            (fix2 (fix1 (MPS_SCAN_AREA fix1 fix2 test mask ss xs).2.1 (w ^^^ (w &&& mask))).2
              (w ^^^ (w &&& mask))).1 = ResCode.OK then
          (fix2 (fix1 (MPS_SCAN_AREA fix1 fix2 test mask ss xs).2.1 (w ^^^ (w &&& mask))).2
            (w ^^^ (w &&& mask))).2.1 ||| (w &&& mask)
        else w) := by
  rw [scanArea_append, if_pos h]
  simp only
  have hl := scanArea_length fix1 fix2 test mask xs ss
  rw [List.getElem?_append_right (Nat.le_of_eq hl), hl, Nat.sub_self, scanArea_cons]
  by_cases ht : test (w &&& mask) = true
  · by_cases h1 :
        (fix1 (MPS_SCAN_AREA fix1 fix2 test mask ss xs).2.1 (w ^^^ (w &&& mask))).1 = true
    · by_cases h2 :
          (fix2 (fix1 (MPS_SCAN_AREA fix1 fix2 test mask ss xs).2.1 (w ^^^ (w &&& mask))).2
            (w ^^^ (w &&& mask))).1 = ResCode.OK
      · rw [if_pos ht, if_pos h1, if_pos h2, if_pos ⟨ht, h1, h2⟩]
        simp only [List.getElem?_cons_zero]
      · rw [if_pos ht, if_pos h1, if_neg h2, if_neg (fun c => h2 c.2.2)]
        simp only [List.getElem?_cons_zero]
    · rw [if_pos ht, if_neg h1, if_neg (fun c => h1 c.2.1)]
      simp only [List.getElem?_cons_zero]
  · rw [if_neg ht, if_neg (fun c => ht c.1)]
    simp only [List.getElem?_cons_zero]


/-- C20 (tagged area scan selection): `mps_scan_area_tagged` offers to the fix
step exactly the words `w` of the area with `w &&& mask = pattern`, in address
order, each as the reference `w` with the bits of `mask` cleared; the area
keeps its length; every word whose masked bits differ from `pattern` stays as
it was; a word that was changed had the tag `pattern` and was written back
as the fixed reference or-ed with `w &&& mask`.  A fixed word is written back:
when the selected words in front of a word `w` with the tag `pattern` have been
offered with `ResOK`, leaving the scan state `s1`, and `MPS_FIX1` accepts the
reference of `w` in `s1` and `MPS_FIX2` returns `ResOK` with a new reference,
the word at the place of `w` is afterwards the new reference or-ed with
`w &&& mask`; when `MPS_FIX1` declines or `MPS_FIX2` fails, the word stays as
it was.  A single word with the tag `pattern` that is fixed is replaced by the
new reference or-ed with `w &&& mask`. -/
theorem scan_area_tagged_selection {S : Type} (fix1 : S → Nat → Bool × S)
    (fix2 : S → Nat → ResCode × Nat × S) (tag : ScanTag) (ss : S) (area : List Nat) :
    ((mps_scan_area_tagged fix1 fix2 ss area tag).1,
      (mps_scan_area_tagged fix1 fix2 ss area tag).2.1) =
      offerAll fix1 fix2 ss
        ((area.filter (fun w => w &&& tag.mask == tag.pattern)).map
          (fun w => w ^^^ (w &&& tag.mask))) ∧
    (∀ w i : Nat, (w ^^^ (w &&& tag.mask)).testBit i = (w.testBit i && !tag.mask.testBit i)) ∧
    (mps_scan_area_tagged fix1 fix2 ss area tag).2.2.length = area.length ∧
    (∀ i w : Nat, area[i]? = some w → w &&& tag.mask ≠ tag.pattern →
      (mps_scan_area_tagged fix1 fix2 ss area tag).2.2[i]? = some w) ∧
    (∀ i w v : Nat, area[i]? = some w →
      (mps_scan_area_tagged fix1 fix2 ss area tag).2.2[i]? = some v → v ≠ w →
      w &&& tag.mask = tag.pattern ∧
      ∃ s0, (fix1 s0 (w ^^^ (w &&& tag.mask))).1 = true ∧
        (fix2 (fix1 s0 (w ^^^ (w &&& tag.mask))).2 (w ^^^ (w &&& tag.mask))).1
          = ResCode.OK ∧
        v = (fix2 (fix1 s0 (w ^^^ (w &&& tag.mask))).2 (w ^^^ (w &&& tag.mask))).2.1
          ||| (w &&& tag.mask)) ∧
    (∀ (xs ys : List Nat) (w : Nat) (s1 : S), area = xs ++ w :: ys →
      offerAll fix1 fix2 ss
        ((xs.filter (fun w => w &&& tag.mask == tag.pattern)).map
          (fun w => w ^^^ (w &&& tag.mask))) = (ResCode.OK, s1) →
      w &&& tag.mask = tag.pattern →
      (fix1 s1 (w ^^^ (w &&& tag.mask))).1 = true →
      (fix2 (fix1 s1 (w ^^^ (w &&& tag.mask))).2 (w ^^^ (w &&& tag.mask))).1 = ResCode.OK →
      (mps_scan_area_tagged fix1 fix2 ss area tag).2.2[xs.length]? =
        some ((fix2 (fix1 s1 (w ^^^ (w &&& tag.mask))).2 (w ^^^ (w &&& tag.mask))).2.1
          ||| (w &&& tag.mask))) ∧
    (∀ (xs ys : List Nat) (w : Nat) (s1 : S), area = xs ++ w :: ys →
      offerAll fix1 fix2 ss
        ((xs.filter (fun w => w &&& tag.mask == tag.pattern)).map
          (fun w => w ^^^ (w &&& tag.mask))) = (ResCode.OK, s1) →
      w &&& tag.mask = tag.pattern →
      ((fix1 s1 (w ^^^ (w &&& tag.mask))).1 = false ∨
        (fix2 (fix1 s1 (w ^^^ (w &&& tag.mask))).2 (w ^^^ (w &&& tag.mask))).1
          ≠ ResCode.OK) →
      (mps_scan_area_tagged fix1 fix2 ss area tag).2.2[xs.length]? = some w) ∧
    (∀ (s0 : S) (w : Nat), w &&& tag.mask = tag.pattern →
      (fix1 s0 (w ^^^ (w &&& tag.mask))).1 = true →
      (fix2 (fix1 s0 (w ^^^ (w &&& tag.mask))).2 (w ^^^ (w &&& tag.mask))).1 = ResCode.OK →
      mps_scan_area_tagged fix1 fix2 s0 [w] tag =
        (ResCode.OK, (fix2 (fix1 s0 (w ^^^ (w &&& tag.mask))).2 (w ^^^ (w &&& tag.mask))).2.2,
          [(fix2 (fix1 s0 (w ^^^ (w &&& tag.mask))).2 (w ^^^ (w &&& tag.mask))).2.1
            ||| (w &&& tag.mask)])) := by
  unfold mps_scan_area_tagged
  refine ⟨scanArea_offers fix1 fix2 _ _ area ss, fun w i => xor_and_testBit w tag.mask i,
    scanArea_length fix1 fix2 _ _ area ss, ?_, ?_, ?_, ?_, ?_⟩
  · intro i w h hne
    exact scanArea_untested fix1 fix2 _ _ area ss i w h (by simpa using hne)
  · intro i w v h hv hne
    obtain ⟨ht, s0, h1, h2, h3⟩ := scanArea_written fix1 fix2 _ _ area ss i w v h hv hne
    exact ⟨by simpa using ht, s0, h1, h2, h3⟩
  · intro xs ys w s1 harea hoff ht h1 h2
    have ho := scanArea_offers fix1 fix2 (fun tag_bits => tag_bits == tag.pattern) tag.mask xs ss
    rw [hoff] at ho
    have hok := congrArg Prod.fst ho
    have hs := congrArg Prod.snd ho
    simp only at hok hs
    rw [harea, scanArea_reached fix1 fix2 _ tag.mask xs ys w ss hok, hs]
    have ht' : (w &&& tag.mask == tag.pattern) = true := by simpa using ht
    rw [if_pos ⟨ht', h1, h2⟩]
  · intro xs ys w s1 harea hoff ht hno
    have ho := scanArea_offers fix1 fix2 (fun tag_bits => tag_bits == tag.pattern) tag.mask xs ss
    rw [hoff] at ho
    have hok := congrArg Prod.fst ho
    have hs := congrArg Prod.snd ho
    simp only at hok hs
    rw [harea, scanArea_reached fix1 fix2 _ tag.mask xs ys w ss hok, hs]
    rw [if_neg]
    rintro ⟨_, c1, c2⟩
    rcases hno with hno | hno
    · rw [c1] at hno
      exact Bool.noConfusion hno
    · exact hno c2
  · intro s0 w ht h1 h2
    have ht' : (w &&& tag.mask == tag.pattern) = true := by simpa using ht
    rw [scanArea_single]
    simp only [ht', h1, h2, if_true]

/-! ## The MVT pool: word arithmetic and maintenance of the free space -/

theorem wadd_lt {M : Nat} (hM : 0 < M) (a b : Nat) : wadd M a b < M := Nat.mod_lt _ hM

theorem wsub_lt {M : Nat} (hM : 0 < M) (a b : Nat) : wsub M a b < M := Nat.mod_lt _ hM

theorem wmul_lt {M : Nat} (hM : 0 < M) (a b : Nat) : wmul M a b < M := Nat.mod_lt _ hM

theorem wadd_cast (M a b : Nat) : ((wadd M a b : Nat) : ZMod M) = (a : ZMod M) + b := by
  unfold wadd
  rw [ZMod.natCast_mod, Nat.cast_add]

theorem wsub_cast {M : Nat} (hM : 0 < M) (a b : Nat) :
    ((wsub M a b : Nat) : ZMod M) = (a : ZMod M) - b := by
  unfold wsub
  rw [ZMod.natCast_mod, Nat.cast_add, Nat.cast_sub (Nat.le_of_lt (Nat.mod_lt _ hM)),
    ZMod.natCast_self, ZMod.natCast_mod]
  ring

theorem wsub_eq_sub {M a b : Nat} (hba : b ≤ a) (haM : a < M) : wsub M a b = a - b := by
  unfold wsub
  have hb : b % M = b := Nat.mod_eq_of_lt (by omega)
  rw [hb]
  have : a + (M - b) = (a - b) + M := by omega
  rw [this, Nat.add_mod_right]
  exact Nat.mod_eq_of_lt (by omega)

theorem wadd_eq_add {M a b : Nat} (h : a + b < M) : wadd M a b = a + b :=
  Nat.mod_eq_of_lt h

theorem wmul_eq_mul {M a b : Nat} (h : a * b < M) : wmul M a b = a * b :=
  Nat.mod_eq_of_lt h

theorem eq_of_cast_eq {M a b : Nat} (ha : a < M) (h : (a : ZMod M) = (b : ZMod M)) :
    a = b % M := by
  have h1 := (ZMod.natCast_eq_natCast_iff' a b M).1 h
  rw [Nat.mod_eq_of_lt ha] at h1
  exact h1

theorem word_eq {M a b : Nat} (ha : a < M) (hb : b < M) (h : (a : ZMod M) = (b : ZMod M)) :
    a = b := by
  have h1 := eq_of_cast_eq ha h
  rw [Nat.mod_eq_of_lt hb] at h1
  exact h1

theorem wsub_wadd_one {M a b : Nat} (hb : 0 < b) (h : a + b - 1 < M) :
    wsub M (wadd M a b) 1 = a + b - 1 := by
  have hM : 0 < M := by omega
  apply word_eq (wsub_lt hM _ _) h
  rw [wsub_cast hM, wadd_cast]
  have h1 : a + b - 1 + 1 = a + b := by omega
  have h2 : ((a + b - 1 + 1 : Nat) : ZMod M) = ((a + b : Nat) : ZMod M) := by
    rw [h1]
  push_cast at h2
  push_cast
  linear_combination -h2

theorem Maint.refl {E : Type} (W : World E) (mvt : MVT E) : Maint W mvt mvt :=
  ⟨rfl, rfl, id, id⟩

theorem Maint.trans {E : Type} {W : World E} {a b c : MVT E} (h1 : Maint W a b)
    (h2 : Maint W b c) : Maint W a c :=
  ⟨h2.core_eq.trans h1.core_eq, h2.diff_eq.trans h1.diff_eq,
    fun h => h2.words (h1.words h), fun h => h2.avail (h1.avail h)⟩

theorem maint_env {E : Type} (W : World E) (mvt : MVT E) (e : E) :
    Maint W mvt { mvt with env := e } :=
  ⟨rfl, rfl, id, id⟩

theorem maint_env_overflow {E : Type} (W : World E) (mvt : MVT E) (e : E) (b : Bool) :
    Maint W mvt { mvt with env := e, abqOverflow := b } :=
  ⟨rfl, rfl, id, id⟩

theorem maint_overflow {E : Type} (W : World E) (mvt : MVT E) (b : Bool) :
    Maint W mvt { mvt with abqOverflow := b } :=
  ⟨rfl, rfl, id, id⟩

theorem maint_segFree {E : Type} (W : World E) (hM : 0 < W.wordMod) (mvt : MVT E)
    (seg : Seg) : Maint W mvt (MVTSegFree W mvt seg) := by
  refine ⟨rfl, ?_, ?_, ?_⟩
  · simp only [MVTSegFree, wsub_cast hM]
    ring
  · intro h
    exact ⟨wsub_lt hM _ _, h.2.1, wsub_lt hM _ _, h.2.2.2⟩
  · intro _
    rfl

theorem maint_fuel {E : Type} (W : World E) (hM : 0 < W.wordMod) :
    ∀ fuel : Nat,
      (∀ (mvt : MVT E) (range : Range) (r : Bool × MVT E),
        MVTReserve W fuel mvt range = some r → Maint W mvt r.2) ∧
      (∀ (mvt : MVT E) (base limit : Nat) (success : Bool) (r : Bool × MVT E),
        MVTReturnSegs W fuel mvt base limit success = some r → Maint W mvt r.2) ∧
      (∀ (mvt : MVT E) (base limit : Nat) (r : ResCode × MVT E),
        MVTDelete W fuel mvt base limit = some r → Maint W mvt r.2) := by
  intro fuel
  induction fuel with
  | zero =>
    refine ⟨?_, ?_, ?_⟩
    · intro mvt range r h; simp [MVTReserve] at h
    · intro mvt base limit success r h; simp [MVTReturnSegs] at h
    · intro mvt base limit r h; simp [MVTDelete] at h
  | succ n ih =>
    obtain ⟨ihR, ihS, ihD⟩ := ih
    refine ⟨?_, ?_, ?_⟩
    · intro mvt range r h
      rw [MVTReserve] at h
      simp only at h
      split at h
      · simp only [Option.some.injEq] at h
        subst h
        exact maint_env W mvt _
      · split at h
        · simp at h
        · rename_i oldRange _
          split at h
          · simp at h
          · rename_i success mvt1 hrs
            have h1 := (maint_env W mvt _).trans (ihS _ _ _ _ _ hrs)
            simp only at h1
            split at h
            · split at h
              · simp only [Option.some.injEq] at h
                subst h
                exact h1.trans (maint_env W mvt1 _)
              · simp only [Option.some.injEq] at h
                subst h
                exact h1.trans (maint_env_overflow W mvt1 _ _)
            · simp only [Option.some.injEq] at h
              subst h
              exact h1.trans (maint_overflow W mvt1 _)
    · intro mvt base limit success r h
      rw [MVTReturnSegs] at h
      split at h
      · split at h
        · simp at h
        · rename_i seg _
          split at h
          · split at h
            · simp at h
            · rename_i res mvt1 hd
              have h1 := ihD _ _ _ _ hd
              have h2 := ihS _ _ _ _ _ h
              exact (h1.trans (maint_segFree W hM mvt1 seg)).trans h2
          · exact ihS _ _ _ _ _ h
      · simp only [Option.some.injEq] at h
        subst h
        exact Maint.refl W mvt
    · intro mvt base limit r h
      rw [MVTDelete] at h
      simp only at h
      split at h
      · simp only [Option.some.injEq] at h
        subst h
        exact maint_env W mvt _
      · split at h
        · simp at h
        · rename_i mvt2 hleft
          have hl : Maint W mvt mvt2 := by
            split at hleft
            · rw [Option.map_eq_some'] at hleft
              obtain ⟨p, hp, rfl⟩ := hleft
              exact (maint_env W mvt _).trans (ihR _ _ _ hp)
            · simp only [Option.some.injEq] at hleft
              subst hleft
              exact maint_env W mvt _
          rw [Option.map_eq_some'] at h
          obtain ⟨mvt3, h3, rfl⟩ := h
          split at h3
          · rw [Option.map_eq_some'] at h3
            obtain ⟨p, hp, rfl⟩ := h3
            exact hl.trans (ihR _ _ _ hp)
          · simp only [Option.some.injEq] at h3
            subst h3
            exact hl

theorem maint_reserve {E : Type} (W : World E) (hM : 0 < W.wordMod) {fuel : Nat}
    {mvt : MVT E} {range : Range} {r : Bool × MVT E}
    (h : MVTReserve W fuel mvt range = some r) : Maint W mvt r.2 :=
  (maint_fuel W hM fuel).1 _ _ _ h

theorem maint_delete {E : Type} (W : World E) (hM : 0 < W.wordMod) {fuel : Nat}
    {mvt : MVT E} {base limit : Nat} {r : ResCode × MVT E}
    (h : MVTDelete W fuel mvt base limit = some r) : Maint W mvt r.2 :=
  (maint_fuel W hM fuel).2.2 _ _ _ _ h

theorem maint_insert {E : Type} (W : World E) (hM : 0 < W.wordMod) {fuel : Nat}
    {mvt : MVT E} {base limit : Nat} {r : ResCode × MVT E}
    (h : MVTInsert W fuel mvt base limit = some r) : Maint W mvt r.2 := by
  unfold MVTInsert at h
  simp only at h
  split at h
  · simp only [Option.some.injEq] at h
    subst h
    exact maint_env W mvt _
  · split at h
    · rw [Option.map_eq_some'] at h
      obtain ⟨p, hp, rfl⟩ := h
      exact (maint_env W mvt _).trans (maint_reserve W hM hp)
    · simp only [Option.some.injEq] at h
      subst h
      exact maint_env W mvt _

theorem maint_iterateLoop {E σ : Type} (W : World E)
    (visitor : MVT E → σ → Range → Option (Bool × MVT E × σ))
    (hvis : ∀ mvt cl range r, visitor mvt cl range = some r → Maint W mvt r.2.1) :
    ∀ (fuel : Nat) (mvt : MVT E) (cl : σ) (r : Bool × MVT E × σ),
      LandIterateLoop W visitor fuel mvt cl = some r → Maint W mvt r.2.1 := by
  intro fuel
  induction fuel with
  | zero => intro mvt cl r h; simp [LandIterateLoop] at h
  | succ n ih =>
    intro mvt cl r h
    rw [LandIterateLoop] at h
    split at h
    · simp only [Option.some.injEq] at h
      subst h
      exact maint_env W mvt _
    · split at h
      · simp at h
      · rename_i cont mvt1 cl1 hv
        have h1 := (maint_env W mvt _).trans (hvis _ _ _ _ hv)
        split at h
        · exact h1.trans (ih _ _ _ h)
        · simp only [Option.some.injEq] at h
          subst h
          exact h1

theorem maint_iterate {E σ : Type} (W : World E)
    (visitor : MVT E → σ → Range → Option (Bool × MVT E × σ))
    (hvis : ∀ mvt cl range r, visitor mvt cl range = some r → Maint W mvt r.2.1)
    {fuel : Nat} {mvt : MVT E} {cl : σ} {r : Bool × MVT E × σ}
    (h : LandIterate W visitor fuel mvt cl = some r) : Maint W mvt r.2.1 :=
  (maint_env W mvt _).trans (maint_iterateLoop W visitor hvis fuel _ _ _ h)

theorem maint_refillVisitor {E : Type} (W : World E) (hM : 0 < W.wordMod) (fuel : Nat)
    (mvt : MVT E) (cl : Unit) (range : Range) (r : Bool × MVT E × Unit)
    (h : MVTRefillVisitor W fuel mvt cl range = some r) : Maint W mvt r.2.1 := by
  unfold MVTRefillVisitor at h
  split at h
  · simp only [Option.some.injEq] at h
    subst h
    exact Maint.refl W mvt
  · rw [Option.map_eq_some'] at h
    obtain ⟨p, hp, rfl⟩ := h
    exact maint_reserve W hM hp

theorem maint_refill {E : Type} (W : World E) (hM : 0 < W.wordMod) {fuel : Nat}
    {mvt mvt1 : MVT E} (h : MVTRefillABQIfEmpty W fuel mvt = some mvt1) :
    Maint W mvt mvt1 := by
  unfold MVTRefillABQIfEmpty at h
  split at h
  · rw [Option.map_eq_some'] at h
    obtain ⟨p, hp, rfl⟩ := h
    exact (maint_overflow W mvt false).trans
      (maint_iterate W _ (maint_refillVisitor W hM fuel) hp)
  · simp only [Option.some.injEq] at h
    subst h
    exact Maint.refl W mvt

theorem maint_contingencyVisitor {E : Type} (W : World E)
    (mvt : MVT E) (cl : MVTContigencyClosure) (range : Range)
    (r : Bool × MVT E × MVTContigencyClosure)
    (h : MVTContingencyVisitor W mvt cl range = some r) : Maint W mvt r.2.1 := by
  unfold MVTContingencyVisitor at h
  simp only at h
  split at h
  · simp only [Option.some.injEq] at h
    subst h
    exact Maint.refl W mvt
  · split at h
    · simp only [Option.some.injEq] at h
      subst h
      exact Maint.refl W mvt
    · split at h
      · simp at h
      · simp only [Option.some.injEq] at h
        subst h
        exact Maint.refl W mvt
      · simp only [Option.some.injEq] at h
        subst h
        exact Maint.refl W mvt

theorem maint_contingencySearch {E : Type} (W : World E) {fuel : Nat} {mvt : MVT E}
    {min : Nat} {r : Option Range × MVT E}
    (h : MVTContingencySearch W fuel mvt min = some r) : Maint W mvt r.2 := by
  unfold MVTContingencySearch at h
  split at h
  · simp at h
  · rename_i mvt1 cl hi
    simp only [Option.some.injEq] at h
    subst h
    exact maint_iterate W _ (maint_contingencyVisitor W) hi
  · rename_i mvt1 cl hi
    simp only [Option.some.injEq] at h
    subst h
    exact maint_iterate W _ (maint_contingencyVisitor W) hi

/-! ### Accounting -/

theorem acct_of_maint {E : Type} {W : World E} {mvt mvt1 : MVT E} (h : Maint W mvt mvt1)
    (ha : AcctOK W mvt) : AcctOK W mvt1 := by
  unfold AcctOK at *
  have hc := h.core_eq
  simp only [core, Prod.mk.injEq] at hc
  obtain ⟨_, _, ⟨h1, h2⟩, _⟩ := hc
  have hd := h.diff_eq
  rw [h1, h2]
  linear_combination hd + ha

theorem acct_noteFill {E : Type} {W : World E} (hM : 0 < W.wordMod) {mvt : MVT E}
    (base limit : Nat) (ha : AcctOK W mvt) : AcctOK W (MVTNoteFill W mvt base limit) := by
  unfold AcctOK at *
  simp only [MVTNoteFill, wadd_cast, wsub_cast hM]
  linear_combination ha

theorem words_noteFill {E : Type} {W : World E} (hM : 0 < W.wordMod) {mvt : MVT E}
    (base limit : Nat) (hw : WordsOK W mvt) : WordsOK W (MVTNoteFill W mvt base limit) :=
  ⟨hw.1, wadd_lt hM _ _, wsub_lt hM _ _, hw.2.2.2⟩

theorem acct_segAlloc {E : Type} {W : World E} {mvt : MVT E}
    (size : Nat) (ha : AcctOK W mvt) : AcctOK W (MVTSegAlloc W mvt size).2.2 := by
  unfold AcctOK at *
  unfold MVTSegAlloc
  simp only
  split
  · simp only [wadd_cast]
    linear_combination ha
  · exact ha

theorem words_segAlloc {E : Type} {W : World E} (hM : 0 < W.wordMod) {mvt : MVT E}
    (size : Nat) (hw : WordsOK W mvt) : WordsOK W (MVTSegAlloc W mvt size).2.2 := by
  unfold MVTSegAlloc
  simp only
  split
  · exact ⟨wadd_lt hM _ _, hw.2.1, wadd_lt hM _ _, hw.2.2.2⟩
  · exact hw

theorem acct_segFree {E : Type} {W : World E} (hM : 0 < W.wordMod) {mvt : MVT E}
    (seg : Seg) (ha : AcctOK W mvt) : AcctOK W (MVTSegFree W mvt seg) :=
  acct_of_maint (maint_segFree W hM mvt seg) ha

/-! ### Properties that the fill paths preserve -/

theorem stable_oversizeFill {E : Type} {W : World E} {P : MVT E → Prop}
    (hP : FillStable W P)
    {mvt : MVT E} (minSize : Nat) (hi : P mvt) : P (MVTOversizeFill W mvt minSize).2.2 := by
  have h1 := hP.segAlloc (SizeArenaGrains W minSize) hi
  unfold MVTOversizeFill
  simp only
  split
  · exact h1
  · exact hP.noteFill _ _ (hP.charge _ h1)

theorem stable_splinterFill {E : Type} {W : World E} {P : MVT E → Prop}
    (hP : FillStable W P)
    {mvt : MVT E}
    {minSize : Nat} {r : Range × MVT E} (h : MVTSplinterFill W mvt minSize = some r)
    (hi : P mvt) : P r.2 := by
  unfold MVTSplinterFill at h
  split at h
  · simp at h
  · simp only [Option.some.injEq] at h
    subst h
    exact hP.noteFill _ _ (hP.release hi)

theorem stable_deleteFill {E : Type} {W : World E} {P : MVT E → Prop}
    (hP : FillStable W P) (hM : 0 < W.wordMod) {fuel : Nat}
    {mvt1 : MVT E} {range : Range} {minSize : Nat} {r : Option Range × MVT E}
    (h : (match MVTOneSegOnly W mvt1 range.base range.limit minSize with
      | none => none
      | some (base, limit) =>
        match MVTDelete W fuel mvt1 base limit with
        | none => none
        | some (res, mvt2) =>
          if res ≠ ResCode.OK then some (none, mvt2)
          else some (some ⟨base, limit⟩, MVTNoteFill W mvt2 base limit)) = some r)
    (hi : P mvt1) : P r.2 := by
  split at h
  · simp at h
  · split at h
    · simp at h
    · rename_i res mvt2 hd
      have h2 := hP.maint (maint_delete W hM hd) hi
      split at h
      · simp only [Option.some.injEq] at h
        subst h
        exact h2
      · simp only [Option.some.injEq] at h
        subst h
        exact hP.noteFill _ _ h2

theorem stable_abqFill {E : Type} {W : World E} {P : MVT E → Prop}
    (hP : FillStable W P) (hM : 0 < W.wordMod) {fuel : Nat} {mvt : MVT E}
    {minSize : Nat} {r : Option Range × MVT E} (h : MVTABQFill W fuel mvt minSize = some r)
    (hi : P mvt) : P r.2 := by
  unfold MVTABQFill at h
  split at h
  · simp at h
  · rename_i mvt1 hr
    have h1 := hP.maint (maint_refill W hM hr) hi
    split at h
    · simp only [Option.some.injEq] at h
      subst h
      exact h1
    · exact stable_deleteFill hP hM h h1

theorem stable_contingencyFill {E : Type} {W : World E} {P : MVT E → Prop}
    (hP : FillStable W P) (hM : 0 < W.wordMod) {fuel : Nat}
    {mvt : MVT E} {minSize : Nat} {r : Option Range × MVT E}
    (h : MVTContingencyFill W fuel mvt minSize = some r)
    (hi : P mvt) : P r.2 := by
  unfold MVTContingencyFill at h
  split at h
  · simp at h
  · rename_i mvt1 hs
    simp only [Option.some.injEq] at h
    subst h
    exact hP.maint (maint_contingencySearch W hs) hi
  · rename_i range mvt1 hs
    exact stable_deleteFill hP hM h (hP.maint (maint_contingencySearch W hs) hi)

theorem stable_segFill {E : Type} {W : World E} {P : MVT E → Prop}
    (hP : FillStable W P) {mvt : MVT E}
    (fillSize : Nat) (hi : P mvt) : P (MVTSegFill W mvt fillSize).2.2 := by
  have h1 := hP.segAlloc fillSize hi
  unfold MVTSegFill
  simp only
  split
  · exact h1
  · exact hP.noteFill _ _ h1

theorem stable_bufferFill {E : Type} {W : World E} {P : MVT E → Prop}
    (hP : FillStable W P) (hM : 0 < W.wordMod) {fuel : Nat}
    {mvt : MVT E} {minSize : Nat} {r : ResCode × Option Range × MVT E}
    (h : MVTBufferFill W fuel mvt minSize = some r) (hi : P mvt) :
    P r.2.2 := by
  unfold MVTBufferFill at h
  split at h
  · simp only [Option.some.injEq] at h
    subst h
    exact stable_oversizeFill hP minSize hi
  · split at h
    · rename_i range mvt1 hs
      simp only [Option.some.injEq] at h
      subst h
      exact stable_splinterFill hP hs hi
    · split at h
      · simp at h
      · rename_i range mvt1 ha
        simp only [Option.some.injEq] at h
        subst h
        exact stable_abqFill hP hM ha hi
      · rename_i mvt1 ha
        have h1 : P mvt1 := stable_abqFill hP hM ha hi
        simp only at h
        split at h
        · simp at h
        · rename_i range mvt3 hf
          simp only [Option.some.injEq] at h
          subst h
          split at hf
          · exact stable_contingencyFill hP hM hf (hP.meters _ (hP.meters _ h1))
          · simp at hf
        · rename_i mvt3 hf
          have h3 : P mvt3 := by
            split at hf
            · exact stable_contingencyFill hP hM hf (hP.meters _ (hP.meters _ h1))
            · simp only [Option.some.injEq, Prod.mk.injEq, true_and] at hf
              subst hf
              exact hP.meters _ h1
          have h4 := stable_segFill hP mvt3.fillSize h3
          split at h
          · simp only [Option.some.injEq] at h
            subst h
            exact h4
          · split at h
            · simp at h
            · rename_i range mvt4 hsec
              simp only [Option.some.injEq] at h
              subst h
              split at hsec
              · simp at hsec
              · split at hsec
                · exact stable_contingencyFill hP hM hsec (hP.meters _ h4)
                · simp at hsec
            · rename_i mvt4 hsec
              simp only [Option.some.injEq] at h
              subst h
              apply hP.meters
              split at hsec
              · simp only [Option.some.injEq, Prod.mk.injEq, true_and] at hsec
                subst hsec
                exact h4
              · split at hsec
                · exact stable_contingencyFill hP hM hsec (hP.meters _ h4)
                · simp only [Option.some.injEq, Prod.mk.injEq, true_and] at hsec
                  subst hsec
                  exact h4

/-! ### The accounting invariant -/

theorem inv_of_maint {E : Type} {W : World E} {mvt mvt1 : MVT E} (h : Maint W mvt mvt1)
    (hi : AcctInv W mvt) : AcctInv W mvt1 :=
  ⟨acct_of_maint h hi.1, h.words hi.2⟩

theorem inv_segFree {E : Type} {W : World E} (hM : 0 < W.wordMod) {mvt : MVT E}
    (seg : Seg) (hi : AcctInv W mvt) : AcctInv W (MVTSegFree W mvt seg) :=
  inv_of_maint (maint_segFree W hM mvt seg) hi

theorem acctInv_stable {E : Type} (W : World E) (hM : 0 < W.wordMod) :
    FillStable W (AcctInv W) where
  maint := fun h hi => inv_of_maint h hi
  noteFill := fun base limit hi =>
    ⟨acct_noteFill hM base limit hi.1, words_noteFill hM base limit hi.2⟩
  segAlloc := fun size hi => ⟨acct_segAlloc size hi.1, words_segAlloc hM size hi.2⟩
  charge := by
    intro mvt excess hi
    obtain ⟨ha, hw⟩ := hi
    refine ⟨?_, hw.1, hw.2.1, wsub_lt hM _ _, wadd_lt hM _ _⟩
    unfold AcctOK at *
    simp only [wadd_cast, wsub_cast hM]
    linear_combination ha
  release := fun hi => hi
  meters := fun _ hi => hi

theorem inv_move {E : Type} {W : World E} (hM : 0 < W.wordMod) {mvt : MVT E} (size : Nat)
    (hi : AcctInv W mvt) :
    AcctInv W { mvt with
      available := wadd W.wordMod mvt.available size,
      allocated := wsub W.wordMod mvt.allocated size } := by
  obtain ⟨ha, hw⟩ := hi
  refine ⟨?_, hw.1, wsub_lt hM _ _, wadd_lt hM _ _, hw.2.2.2⟩
  unfold AcctOK at *
  simp only [wadd_cast, wsub_cast hM]
  linear_combination ha

theorem inv_splinter {E : Type} {W : World E} {mvt : MVT E} (b : Bool) (base limit : Nat)
    (hi : AcctInv W mvt) :
    AcctInv W { mvt with splinter := b, splinterBase := base, splinterLimit := limit } := hi

theorem inv_bufferEmpty {E : Type} {W : World E} (hM : 0 < W.wordMod) {fuel : Nat}
    {mvt : MVT E} {base limit : Nat} {mvt1 : MVT E}
    (h : MVTBufferEmpty W fuel mvt base limit = some mvt1) (hi : AcctInv W mvt) :
    AcctInv W mvt1 := by
  unfold MVTBufferEmpty at h
  simp only at h
  have hmv := inv_move hM (limit - base) hi
  split at h
  · simp only [Option.some.injEq] at h
    subst h
    exact hi
  · split at h
    · rw [Option.map_eq_some'] at h
      obtain ⟨p, hp, rfl⟩ := h
      exact inv_of_maint (maint_insert W hM hp) hmv
    · split at h
      · split at h
        · rw [Option.map_eq_some'] at h
          obtain ⟨p, hp, rfl⟩ := h
          exact inv_of_maint (maint_insert W hM hp) hmv
        · rw [Option.map_eq_some'] at h
          obtain ⟨p, hp, rfl⟩ := h
          exact inv_splinter _ _ _ (inv_of_maint (maint_insert W hM hp) hmv)
      · simp only [Option.some.injEq] at h
        subst h
        exact inv_splinter _ _ _ hmv

theorem inv_free {E : Type} {W : World E} (hM : 0 < W.wordMod) {fuel : Nat}
    {mvt : MVT E} {base size : Nat} {mvt1 : MVT E}
    (h : MVTFree W fuel mvt base size = some mvt1) (hi : AcctInv W mvt) :
    AcctInv W mvt1 := by
  unfold MVTFree at h
  simp only at h
  have hmv := inv_move hM (SizeAlignUp W.wordMod size mvt.alignment) hi
  split at h
  · split at h
    · simp at h
    · rename_i seg _
      simp only [Option.some.injEq] at h
      subst h
      apply inv_segFree hM
      obtain ⟨ha, hw⟩ := hmv
      refine ⟨?_, hw.1, hw.2.1, wadd_lt hM _ _, wsub_lt hM _ _⟩
      unfold AcctOK at *
      simp only [wadd_cast, wsub_cast hM] at ha ⊢
      linear_combination ha
  · rw [Option.map_eq_some'] at h
    obtain ⟨p, hp, rfl⟩ := h
    exact inv_of_maint (maint_insert W hM hp) hmv

theorem init_fields {E : Type} {W : World E} {env : E} {args : MVTArgs} {mvt : MVT E}
    (h : MVTInit W env args = some (Except.ok mvt)) :
    ∃ fillSize reuseSize abqDepth,
      MVTInitDerived W.wordMod W.grainSize args.maxSize args.meanSize args.reserveDepth
        = some (fillSize, reuseSize, abqDepth) ∧
      (W.abqInit (W.landInit (W.landInit (W.landInit (W.poolInit env).2 0 args.align).2 1
        args.align).2 2 args.align).2 abqDepth).1 = ResCode.OK ∧
      mvt =
        { alignment := args.align, minSize := args.minSize,
          meanSize := args.meanSize, maxSize := args.maxSize,
          fragLimit := args.fragLimit, reuseSize := reuseSize,
          fillSize := fillSize, availLimit := 0, abqOverflow := false,
          splinter := false, splinterBase := 0, splinterLimit := 0,
          size := 0, allocated := 0, available := 0, unavailable := 0,
          meters := ⟨[], [], [], []⟩,
          env := (W.abqInit (W.landInit (W.landInit (W.landInit (W.poolInit env).2 0
            args.align).2 1 args.align).2 2 args.align).2 abqDepth).2 } := by
  unfold MVTInit at h
  split at h
  · simp at h
  · rename_i fillSize reuseSize abqDepth hd
    refine ⟨fillSize, reuseSize, abqDepth, hd, ?_⟩
    simp only at h
    split at h
    · simp at h
    · split at h
      · simp at h
      · split at h
        · simp at h
        · split at h
          · simp at h
          · split at h
            · simp at h
            · rename_i h4
              simp only [Option.some.injEq, Except.ok.injEq] at h
              exact ⟨by simpa using h4, h.symm⟩

theorem inv_init {E : Type} {W : World E} (hM : 0 < W.wordMod) {env : E} {args : MVTArgs}
    {mvt : MVT E} (h : MVTInit W env args = some (Except.ok mvt)) :
    AcctInv W mvt ∧
    mvt.size = 0 ∧ mvt.allocated = 0 ∧ mvt.available = 0 ∧ mvt.unavailable = 0 := by
  obtain ⟨f, r, d, _, _, rfl⟩ := init_fields h
  refine ⟨⟨?_, hM, hM, hM, hM⟩, rfl, rfl, rfl, rfl⟩
  unfold AcctOK
  simp

theorem inv_step {E : Type} {W : World E} (hM : 0 < W.wordMod) {mvt mvt1 : MVT E}
    (h : MVTStep W mvt mvt1) (hi : AcctInv W mvt) : AcctInv W mvt1 := by
  have hP := acctInv_stable W hM
  cases h
  case segAlloc size => exact hP.segAlloc size hi
  case segFree seg => exact inv_segFree hM seg hi
  case bufferFill fuel minSize r h => exact stable_bufferFill hP hM h hi
  case oversizeFill minSize => exact stable_oversizeFill hP minSize hi
  case splinterFill minSize r h => exact stable_splinterFill hP h hi
  case abqFill fuel minSize r h => exact stable_abqFill hP hM h hi
  case contingencyFill fuel minSize r h => exact stable_contingencyFill hP hM h hi
  case segFill fillSize => exact stable_segFill hP fillSize hi
  case bufferEmpty fuel base limit h => exact inv_bufferEmpty hM h hi
  case free fuel base size h => exact inv_free hM h hi

theorem inv_reachable {E : Type} {W : World E} (hM : 0 < W.wordMod) {mvt : MVT E}
    (h : MVTReachable W mvt) : AcctInv W mvt := by
  induction h with
  | init env args mvt h => exact (inv_init hM h).1
  | step _ hs ih => exact inv_step hM hs ih

theorem acct_eq {E : Type} {W : World E} {mvt : MVT E} (hi : AcctInv W mvt) :
    mvt.size = (mvt.allocated + mvt.available + mvt.unavailable) % W.wordMod := by
  apply eq_of_cast_eq hi.2.1
  have := hi.1
  unfold AcctOK at this
  rw [this]
  push_cast
  ring

/-- C12 (MVT accounting invariant): `MVTInit` sets the four counters to zero,
and every pool that arises from it by `MVTSegAlloc`, `MVTSegFree`,
`MVTBufferFill` (or one of its five fill paths alone), `MVTBufferEmpty` and
`MVTFree`, applied to any arguments, satisfies the clause of `MVTCheck`
`size == allocated + available + unavailable`, evaluated in machine words as C
does; when the sum is itself a machine word, the equation holds between the
numbers. -/
theorem mvt_accounting_invariant {E : Type} (W : World E) (hM : 0 < W.wordMod)
    (mvt : MVT E) (h : MVTReachable W mvt) :
    (∀ (env : E) (args : MVTArgs) (mvt0 : MVT E),
      MVTInit W env args = some (Except.ok mvt0) →
      mvt0.size = 0 ∧ mvt0.allocated = 0 ∧ mvt0.available = 0 ∧ mvt0.unavailable = 0) ∧
    mvt.size =
      wadd W.wordMod (wadd W.wordMod mvt.allocated mvt.available) mvt.unavailable ∧
    (mvt.allocated + mvt.available + mvt.unavailable < W.wordMod →
      mvt.size = mvt.allocated + mvt.available + mvt.unavailable) := by
  have he := acct_eq (inv_reachable hM h)
  refine ⟨fun env args mvt0 h0 => (inv_init hM h0).2, ?_, ?_⟩
  · rw [he]
    unfold wadd
    rw [Nat.mod_add_mod]
  · intro hlt
    rw [he, Nat.mod_eq_of_lt hlt]

theorem mvt_accounting_invariant_witness :
    0 < sampleWorld.wordMod ∧ MVTReachable sampleWorld samplePoolFreed ∧
    samplePoolFreed.size = samplePoolFreed.allocated + samplePoolFreed.available
      + samplePoolFreed.unavailable :=
  have hr : MVTReachable sampleWorld samplePoolFreed :=
    MVTReachable.step
      (MVTReachable.step
        (MVTReachable.step (MVTReachable.init sampleEnv sampleArgs samplePool rfl)
          (MVTStep.bufferFill 5 samplePool 100 (ResCode.OK, some ⟨65536, 69632⟩, samplePoolFilled)
            rfl))
        (MVTStep.bufferEmpty 5 samplePoolFilled 65648 69632 samplePoolEmptied rfl))
      (MVTStep.free 5 samplePoolEmptied 65536 112 samplePoolFreed rfl)
  ⟨by decide, hr,
    (mvt_accounting_invariant sampleWorld (by decide) samplePoolFreed hr).2.2 (by decide)⟩

/-! ### The retained splinter -/

theorem keeps_refl {E : Type} (mvt : MVT E) : Keeps mvt mvt := ⟨rfl, fun _ => rfl⟩

theorem keeps_of_maint {E : Type} {W : World E} {mvt0 a b : MVT E} (h : Maint W a b)
    (hk : Keeps mvt0 a) : Keeps mvt0 b := by
  have hc := h.core_eq
  simp only [core, Prod.mk.injEq] at hc
  obtain ⟨⟨_, hmin, _⟩, ⟨hs, hb, hl⟩, _, _⟩ := hc
  unfold Keeps splinterOf at *
  rw [hmin, hs, hb, hl]
  exact hk

theorem keeps_stable {E : Type} (W : World E) (mvt0 : MVT E) :
    FillStable W (Keeps mvt0) where
  maint := fun h hk => keeps_of_maint h hk
  noteFill := fun _ _ hk => hk
  segAlloc := by
    intro mvt size hk
    unfold MVTSegAlloc
    simp only
    split
    · exact hk
    · exact hk
  charge := fun _ hk => hk
  release := fun hk => ⟨hk.1, fun h => Bool.noConfusion h⟩
  meters := fun _ hk => hk

theorem splinterOK_of_keeps {E : Type} {a b : MVT E} (hk : Keeps a b) (h : SplinterOK a) :
    SplinterOK b := by
  intro hb
  have h1 := hk.2 hb
  simp only [splinterOf, Prod.mk.injEq] at h1
  obtain ⟨hs, hbase, hlim⟩ := h1
  rw [hk.1, hbase, hlim]
  exact h (hs ▸ hb)

theorem splinterOK_of_maint {E : Type} {W : World E} {a b : MVT E} (h : Maint W a b)
    (hs : SplinterOK a) : SplinterOK b :=
  splinterOK_of_keeps (keeps_of_maint h (keeps_refl a)) hs

theorem splinterOf_of_maint {E : Type} {W : World E} {a b : MVT E} (h : Maint W a b) :
    splinterOf b = splinterOf a := by
  have hc := h.core_eq
  simp only [core, Prod.mk.injEq] at hc
  obtain ⟨_, ⟨hs, hb, hl⟩, _, _⟩ := hc
  simp only [splinterOf, hs, hb, hl]

theorem minSize_of_maint {E : Type} {W : World E} {a b : MVT E} (h : Maint W a b) :
    b.minSize = a.minSize := by
  have hc := h.core_eq
  simp only [core, Prod.mk.injEq] at hc
  exact hc.1.2.1

theorem bufferEmpty_eq {E : Type} (W : World E) (fuel : Nat) (mvt : MVT E) (base limit : Nat)
    (hT : base < limit) :
    MVTBufferEmpty W fuel mvt base limit =
      if limit - base < mvt.minSize then
        (MVTInsert W fuel (moveToAvailable W mvt (limit - base)) base limit).map Prod.snd
      else if mvt.splinter = true then
        if limit - base < mvt.splinterLimit - mvt.splinterBase then
          (MVTInsert W fuel (moveToAvailable W mvt (limit - base)) base limit).map Prod.snd
        else
          (MVTInsert W fuel (moveToAvailable W mvt (limit - base)) mvt.splinterBase
            mvt.splinterLimit).map
            (fun r => { r.2 with splinter := true, splinterBase := base, splinterLimit := limit })
      else
        some { moveToAvailable W mvt (limit - base) with
               splinter := true, splinterBase := base, splinterLimit := limit } := by
  have h0 : ¬ limit - base = 0 := by omega
  unfold MVTBufferEmpty moveToAvailable
  simp only [h0, if_false]

theorem splinterOK_bufferEmpty {E : Type} {W : World E} (hM : 0 < W.wordMod) {fuel : Nat}
    {mvt : MVT E} {base limit : Nat} {mvt1 : MVT E}
    (h : MVTBufferEmpty W fuel mvt base limit = some mvt1) (hs : SplinterOK mvt) :
    SplinterOK mvt1 := by
  by_cases hT : base < limit
  · rw [bufferEmpty_eq W fuel mvt base limit hT] at h
    have hmv : SplinterOK (moveToAvailable W mvt (limit - base)) := hs
    split at h
    · rw [Option.map_eq_some'] at h
      obtain ⟨p, hp, rfl⟩ := h
      exact splinterOK_of_maint (maint_insert W hM hp) hmv
    · rename_i hge
      split at h
      · split at h
        · rw [Option.map_eq_some'] at h
          obtain ⟨p, hp, rfl⟩ := h
          exact splinterOK_of_maint (maint_insert W hM hp) hmv
        · rw [Option.map_eq_some'] at h
          obtain ⟨p, hp, rfl⟩ := h
          intro _
          have hmin := minSize_of_maint (maint_insert W hM hp)
          show p.2.minSize ≤ limit - base
          rw [hmin]
          show mvt.minSize ≤ limit - base
          omega
      · simp only [Option.some.injEq] at h
        subst h
        intro _
        show mvt.minSize ≤ limit - base
        omega
  · have h0 : limit - base = 0 := by omega
    unfold MVTBufferEmpty at h
    simp only [h0, if_true, Option.some.injEq] at h
    subst h
    exact hs

theorem keeps_free {E : Type} {W : World E} (hM : 0 < W.wordMod) {fuel : Nat}
    {mvt : MVT E} {base size : Nat} {mvt1 : MVT E}
    (h : MVTFree W fuel mvt base size = some mvt1) : Keeps mvt mvt1 := by
  unfold MVTFree at h
  simp only at h
  split at h
  · split at h
    · simp at h
    · simp only [Option.some.injEq] at h
      subst h
      exact keeps_refl mvt
  · rw [Option.map_eq_some'] at h
    obtain ⟨p, hp, rfl⟩ := h
    exact keeps_of_maint (maint_insert W hM hp)
      (keeps_refl (moveToAvailable W mvt (SizeAlignUp W.wordMod size mvt.alignment)))

theorem splinterOK_step {E : Type} {W : World E} (hM : 0 < W.wordMod) {mvt mvt1 : MVT E}
    (h : MVTStep W mvt mvt1) (hs : SplinterOK mvt) : SplinterOK mvt1 := by
  have hP := keeps_stable W mvt
  have hk := keeps_refl mvt
  cases h
  case segAlloc size => exact splinterOK_of_keeps (hP.segAlloc size hk) hs
  case segFree seg => exact hs
  case bufferFill fuel minSize r h =>
    exact splinterOK_of_keeps (stable_bufferFill hP hM h hk) hs
  case oversizeFill minSize =>
    exact splinterOK_of_keeps (stable_oversizeFill hP minSize hk) hs
  case splinterFill minSize r h =>
    exact splinterOK_of_keeps (stable_splinterFill hP h hk) hs
  case abqFill fuel minSize r h => exact splinterOK_of_keeps (stable_abqFill hP hM h hk) hs
  case contingencyFill fuel minSize r h =>
    exact splinterOK_of_keeps (stable_contingencyFill hP hM h hk) hs
  case segFill fillSize => exact splinterOK_of_keeps (stable_segFill hP fillSize hk) hs
  case bufferEmpty fuel base limit h => exact splinterOK_bufferEmpty hM h hs
  case free fuel base size h => exact splinterOK_of_keeps (keeps_free hM h) hs

theorem splinterOK_reachable {E : Type} {W : World E} (hM : 0 < W.wordMod) {mvt : MVT E}
    (h : MVTReachable W mvt) : SplinterOK mvt := by
  induction h with
  | init env args mvt h =>
    obtain ⟨f, r, d, _, _, rfl⟩ := init_fields h
    intro hf
    exact Bool.noConfusion hf
  | step _ hs ih => exact splinterOK_step hM hs ih

theorem insert_returns {E : Type} (W : World E) (fuel : Nat) (mvt : MVT E) (base limit : Nat)
    (h : InsertShallow W mvt ⟨base, limit⟩) :
    ∃ r, MVTInsert W (fuel + 1) mvt base limit = some r := by
  unfold InsertShallow at h
  unfold MVTInsert
  simp only
  split
  · exact ⟨_, rfl⟩
  · rename_i hok
    split
    · rename_i hge
      rcases h with h | h | h
      · exact absurd h hok
      · omega
      · rw [MVTReserve]
        simp only [h, if_true, Option.map_some']
        exact ⟨_, rfl⟩
    · exact ⟨_, rfl⟩

/-- C13 (MVT splinter retention policy): for `MVTBufferEmpty` with a non-empty
unused tail `[base, limit)` of size `s`, after `s` bytes went from `allocated`
to `available`: if `s < minSize` the tail is inserted by `MVTInsert` and the
splinter stays as it was; if `s ≥ minSize` and no splinter is retained the tail
becomes the splinter and the world is not touched; if a splinter of size
`o ≤ s` is retained it is inserted by `MVTInsert` and the tail becomes the
splinter; if `s < o` the tail is inserted and the splinter stays.  There is one
splinter slot, `MVTBufferEmpty` keeps a retained splinter at least `minSize`
long, and so is it in every pool that arises from `MVTInit`.  The insertion
returns with one unit of fuel whenever it ends without a return of segments. -/
theorem buffer_empty_splinter_policy {E : Type} (W : World E) (hM : 0 < W.wordMod)
    (fuel : Nat) (mvt : MVT E) (base limit : Nat) (hT : base < limit) :
    (limit - base < mvt.minSize →
      MVTBufferEmpty W fuel mvt base limit =
        (MVTInsert W fuel (moveToAvailable W mvt (limit - base)) base limit).map Prod.snd ∧
      ∀ mvt1, MVTBufferEmpty W fuel mvt base limit = some mvt1 →
        splinterOf mvt1 = splinterOf mvt) ∧
    (mvt.minSize ≤ limit - base → mvt.splinter = false →
      MVTBufferEmpty W fuel mvt base limit =
        some { moveToAvailable W mvt (limit - base) with
               splinter := true, splinterBase := base, splinterLimit := limit } ∧
      ∀ mvt1, MVTBufferEmpty W fuel mvt base limit = some mvt1 →
        splinterOf mvt1 = (true, base, limit) ∧ mvt1.env = mvt.env) ∧
    (mvt.minSize ≤ limit - base → mvt.splinter = true →
      mvt.splinterLimit - mvt.splinterBase ≤ limit - base →
      MVTBufferEmpty W fuel mvt base limit =
        (MVTInsert W fuel (moveToAvailable W mvt (limit - base)) mvt.splinterBase
          mvt.splinterLimit).map
          (fun r => { r.2 with splinter := true, splinterBase := base, splinterLimit := limit }) ∧
      ∀ mvt1, MVTBufferEmpty W fuel mvt base limit = some mvt1 →
        splinterOf mvt1 = (true, base, limit)) ∧
    (mvt.minSize ≤ limit - base → mvt.splinter = true →
      limit - base < mvt.splinterLimit - mvt.splinterBase →
      MVTBufferEmpty W fuel mvt base limit =
        (MVTInsert W fuel (moveToAvailable W mvt (limit - base)) base limit).map Prod.snd ∧
      ∀ mvt1, MVTBufferEmpty W fuel mvt base limit = some mvt1 →
        splinterOf mvt1 = splinterOf mvt) ∧
    (∀ mvt1, MVTBufferEmpty W fuel mvt base limit = some mvt1 → SplinterOK mvt →
      SplinterOK mvt1) ∧
    (MVTReachable W mvt → SplinterOK mvt) ∧
    (∀ range : Range, InsertShallow W mvt range →
      ∃ r, MVTInsert W (fuel + 1) (moveToAvailable W mvt (limit - base)) range.base
        range.limit = some r) := by
  have heq := bufferEmpty_eq W fuel mvt base limit hT
  have hins : ∀ (b l : Nat) (mvt1 : MVT E),
      (MVTInsert W fuel (moveToAvailable W mvt (limit - base)) b l).map Prod.snd = some mvt1 →
      splinterOf mvt1 = splinterOf mvt := by
    intro b l mvt1 h
    rw [Option.map_eq_some'] at h
    obtain ⟨p, hp, rfl⟩ := h
    have h1 := splinterOf_of_maint (maint_insert W hM hp)
    exact h1
  refine ⟨?_, ?_, ?_, ?_, ?_, ?_, ?_⟩
  · intro hlt
    rw [heq, if_pos hlt]
    exact ⟨rfl, fun mvt1 h => hins _ _ _ h⟩
  · intro hge hs
    have h1 : ¬ limit - base < mvt.minSize := by omega
    rw [heq, if_neg h1, if_neg (by simp [hs])]
    refine ⟨rfl, fun mvt1 h => ?_⟩
    simp only [Option.some.injEq] at h
    subst h
    exact ⟨rfl, rfl⟩
  · intro hge hs hle
    have h1 : ¬ limit - base < mvt.minSize := by omega
    have h2 : ¬ limit - base < mvt.splinterLimit - mvt.splinterBase := by omega
    rw [heq, if_neg h1, if_pos hs, if_neg h2]
    refine ⟨rfl, fun mvt1 h => ?_⟩
    rw [Option.map_eq_some'] at h
    obtain ⟨p, _, rfl⟩ := h
    rfl
  · intro hge hs hlt
    have h1 : ¬ limit - base < mvt.minSize := by omega
    rw [heq, if_neg h1, if_pos hs, if_pos hlt]
    exact ⟨rfl, fun mvt1 h => hins _ _ _ h⟩
  · intro mvt1 h hs
    exact splinterOK_bufferEmpty hM h hs
  · intro hr
    exact splinterOK_reachable hM hr
  · intro range h
    exact insert_returns W fuel (moveToAvailable W mvt (limit - base)) range.base range.limit h

theorem buffer_empty_splinter_policy_witness :
    0 < sampleWorld.wordMod ∧ 65648 < 69632 ∧
    samplePoolFilled.minSize ≤ 69632 - 65648 ∧ samplePoolFilled.splinter = false ∧
    MVTBufferEmpty sampleWorld 5 samplePoolFilled 65648 69632 =
      some { moveToAvailable sampleWorld samplePoolFilled (69632 - 65648) with
             splinter := true, splinterBase := 65648, splinterLimit := 69632 } :=
  ⟨by decide, by decide, by decide, rfl,
    ((buffer_empty_splinter_policy sampleWorld (by decide) 5 samplePoolFilled 65648 69632
      (by decide)).2.1 (by decide) rfl).1⟩

/-! ### Oversize requests -/

theorem sizeAlignUp_eq {M size align : Nat} (ha : 0 < align) (hfit : size + align - 1 < M) :
    SizeAlignUp M size align = (size + align - 1) / align * align := by
  unfold SizeAlignUp
  rw [wsub_wadd_one ha hfit]

theorem sizeAlignUp_bounds {M size align : Nat} (ha : 0 < align)
    (hfit : size + align - 1 < M) :
    align ∣ SizeAlignUp M size align ∧ size ≤ SizeAlignUp M size align ∧
    SizeAlignUp M size align < size + align := by
  rw [sizeAlignUp_eq ha hfit]
  have h1 := Nat.div_mul_le_self (size + align - 1) align
  have h2 := Nat.lt_div_mul_add (a := size + align - 1) ha
  refine ⟨Dvd.intro_left _ rfl, ?_, ?_⟩
  · omega
  · omega

theorem sizeAlignUp_of_dvd {M size align : Nat} (ha : 0 < align)
    (hfit : size + align - 1 < M) (hd : align ∣ size) : SizeAlignUp M size align = size := by
  obtain ⟨h1, h2, h3⟩ := sizeAlignUp_bounds ha hfit
  obtain ⟨k, hk⟩ := hd
  obtain ⟨j, hj⟩ := h1
  rw [hj, hk] at h2 h3 ⊢
  have h4 : k ≤ j := Nat.le_of_mul_le_mul_left h2 ha
  have h5 : j < k + 1 := by
    have : align * j < align * (k + 1) := by rw [Nat.mul_add, Nat.mul_one]; exact h3
    exact Nat.lt_of_mul_lt_mul_left this
  have : j = k := by omega
  rw [this]

theorem oversizeFill_ok {E : Type} (W : World E) (hM : 0 < W.wordMod) (mvt : MVT E)
    (minSize : Nat) (seg : Seg) (env1 : E)
    (hseg : W.segAlloc mvt.env (SizeArenaGrains W minSize) = (ResCode.OK, seg, env1))
    (hsize : SegSize seg = SizeArenaGrains W minSize) (hw : WordsOK W mvt) :
    MVTOversizeFill W mvt minSize =
      (ResCode.OK, some ⟨seg.base, seg.base + minSize⟩,
        { mvt with
          size := wadd W.wordMod mvt.size (SizeArenaGrains W minSize),
          availLimit :=
            wmul W.wordMod (wadd W.wordMod mvt.size (SizeArenaGrains W minSize)) mvt.fragLimit
              / 100,
          allocated := wadd W.wordMod mvt.allocated minSize,
          unavailable :=
            wadd W.wordMod mvt.unavailable (wsub W.wordMod (SizeArenaGrains W minSize) minSize),
          env := env1 }) := by
  have hav : wsub W.wordMod
      (wsub W.wordMod (wadd W.wordMod mvt.available (SizeArenaGrains W minSize))
        (wsub W.wordMod (SizeArenaGrains W minSize) minSize))
      (seg.base + minSize - seg.base) = mvt.available := by
    apply word_eq (wsub_lt hM _ _) hw.2.2.1
    have h1 : seg.base + minSize - seg.base = minSize := by omega
    rw [h1]
    simp only [wsub_cast hM, wadd_cast]
    ring
  unfold MVTOversizeFill MVTSegAlloc MVTNoteFill
  simp only [hseg, hsize, if_true, ne_eq, not_true_eq_false, if_false, Prod.mk.injEq, true_and]
  rw [hav]
  have h1 : seg.base + minSize - seg.base = minSize := by omega
  rw [h1]

/-- C14 (MVT oversize charge): for a request `minSize > fillSize` for which the
arena hands out a segment of the size asked for, `SizeArenaGrains (minSize)`,
`MVTBufferFill` returns OK with the range `[segBase, segBase + minSize)`; `size`
grows by the segment size, `allocated` by `minSize`, `unavailable` by the
segment size less `minSize`, and `available` is what it was before the call.
When `minSize + grainSize - 1` is a machine word, the segment size is the least
multiple of the grain size that is at least `minSize`. -/
theorem oversize_fill_charge {E : Type} (W : World E) (hM : 0 < W.wordMod) (fuel : Nat)
    (mvt : MVT E) (minSize : Nat) (seg : Seg) (env1 : E)
    (hbig : mvt.fillSize < minSize)
    (hseg : W.segAlloc mvt.env (SizeArenaGrains W minSize) = (ResCode.OK, seg, env1))
    (hsize : SegSize seg = SizeArenaGrains W minSize) (hw : WordsOK W mvt) :
    (∃ mvt1 : MVT E,
      MVTBufferFill W fuel mvt minSize =
        some (ResCode.OK, some ⟨seg.base, seg.base + minSize⟩, mvt1) ∧
      mvt1.size = wadd W.wordMod mvt.size (SegSize seg) ∧
      mvt1.allocated = wadd W.wordMod mvt.allocated minSize ∧
      mvt1.unavailable =
        wadd W.wordMod mvt.unavailable (wsub W.wordMod (SegSize seg) minSize) ∧
      mvt1.available = mvt.available ∧
      mvt1.env = env1) ∧
    (0 < W.grainSize → minSize + W.grainSize - 1 < W.wordMod →
      W.grainSize ∣ SegSize seg ∧ minSize ≤ SegSize seg ∧
      SegSize seg < minSize + W.grainSize ∧
      wsub W.wordMod (SegSize seg) minSize = SegSize seg - minSize) := by
  constructor
  · have hb : MVTBufferFill W fuel mvt minSize = some (MVTOversizeFill W mvt minSize) := by
      unfold MVTBufferFill
      rw [if_pos hbig]
    rw [hb, oversizeFill_ok W hM mvt minSize seg env1 hseg hsize hw, hsize]
    exact ⟨_, rfl, rfl, rfl, rfl, rfl, rfl⟩
  · intro hg hfit
    rw [hsize]
    obtain ⟨h1, h2, h3⟩ := sizeAlignUp_bounds (M := W.wordMod) hg hfit
    refine ⟨h1, h2, h3, ?_⟩
    apply wsub_eq_sub h2
    show SizeAlignUp W.wordMod minSize W.grainSize < W.wordMod
    omega

theorem oversize_fill_charge_witness :
    (∃ mvt1 : MVT SampleEnv,
      MVTBufferFill sampleWorld 5 samplePool 5000 =
        some (ResCode.OK, some ⟨65536, 65536 + 5000⟩, mvt1) ∧
      mvt1.size = wadd sampleWorld.wordMod samplePool.size (SegSize ⟨65536, 73728⟩) ∧
      mvt1.allocated = wadd sampleWorld.wordMod samplePool.allocated 5000 ∧
      mvt1.unavailable =
        wadd sampleWorld.wordMod samplePool.unavailable
          (wsub sampleWorld.wordMod (SegSize ⟨65536, 73728⟩) 5000) ∧
      mvt1.available = samplePool.available ∧
      mvt1.env =
        { samplePool.env with next := 73728, segs := [⟨65536, 73728⟩] }) ∧
    (0 < sampleWorld.grainSize → 5000 + sampleWorld.grainSize - 1 < sampleWorld.wordMod →
      sampleWorld.grainSize ∣ SegSize ⟨65536, 73728⟩ ∧ 5000 ≤ SegSize ⟨65536, 73728⟩ ∧
      SegSize ⟨65536, 73728⟩ < 5000 + sampleWorld.grainSize ∧
      wsub sampleWorld.wordMod (SegSize ⟨65536, 73728⟩) 5000 =
        SegSize ⟨65536, 73728⟩ - 5000) :=
  oversize_fill_charge sampleWorld (by decide) 5 samplePool 5000 ⟨65536, 73728⟩
    { samplePool.env with next := 73728, segs := [⟨65536, 73728⟩] }
    (by decide) rfl rfl ⟨by decide, by decide, by decide, by decide⟩

/-- C15 (MVT oversize free undoes oversize fill): for a request
`minSize > fillSize` that is a multiple of the alignment, an oversize buffer
fill that succeeds, followed by `MVTFree (base, minSize)` of the block it
returned, gives the whole segment back to the arena (`SegFree`) and leaves the
pool as it was before the fill but for the state of the world: `size`,
`allocated`, `available`, `unavailable` and `availLimit` have the values they
had before the fill. -/
theorem oversize_free_undoes_fill {E : Type} (W : World E) (hM : 0 < W.wordMod)
    (fuel : Nat) (mvt : MVT E) (minSize : Nat) (seg : Seg) (env1 : E)
    (hbig : mvt.fillSize < minSize)
    (ha : 0 < mvt.alignment) (hd : mvt.alignment ∣ minSize)
    (hfit : minSize + mvt.alignment - 1 < W.wordMod)
    (hseg : W.segAlloc mvt.env (SizeArenaGrains W minSize) = (ResCode.OK, seg, env1))
    (hsize : SegSize seg = SizeArenaGrains W minSize)
    (hof : W.segOfAddr env1 seg.base = some seg)
    (hw : WordsOK W mvt) (hav : AvailLimitOK W mvt) :
    ∃ mvt1 : MVT E,
      MVTBufferFill W fuel mvt minSize =
        some (ResCode.OK, some ⟨seg.base, seg.base + minSize⟩, mvt1) ∧
      MVTFree W fuel mvt1 seg.base minSize = some { mvt with env := W.segFree env1 seg } ∧
      (∀ mvt2, MVTFree W fuel mvt1 seg.base minSize = some mvt2 →
        mvt2.size = mvt.size ∧ mvt2.allocated = mvt.allocated ∧
        mvt2.available = mvt.available ∧ mvt2.unavailable = mvt.unavailable ∧
        mvt2.availLimit = mvt.availLimit ∧ mvt2.env = W.segFree env1 seg) := by
  have hb : MVTBufferFill W fuel mvt minSize = some (MVTOversizeFill W mvt minSize) := by
    unfold MVTBufferFill
    rw [if_pos hbig]
  have hal : SizeAlignUp W.wordMod minSize mvt.alignment = minSize :=
    sizeAlignUp_of_dvd ha hfit hd
  obtain ⟨hw1, hw2, hw3, hw4⟩ := hw
  have h1 : wsub W.wordMod (wadd W.wordMod mvt.allocated minSize) minSize = mvt.allocated := by
    apply word_eq (wsub_lt hM _ _) hw2
    simp only [wsub_cast hM, wadd_cast]
    ring
  have h2 : wsub W.wordMod
      (wadd W.wordMod mvt.unavailable (wsub W.wordMod (SizeArenaGrains W minSize) minSize))
      (wsub W.wordMod (SizeArenaGrains W minSize) minSize) = mvt.unavailable := by
    apply word_eq (wsub_lt hM _ _) hw4
    simp only [wsub_cast hM, wadd_cast]
    ring
  have h3 : wsub W.wordMod (wadd W.wordMod mvt.size (SizeArenaGrains W minSize))
      (SizeArenaGrains W minSize) = mvt.size := by
    apply word_eq (wsub_lt hM _ _) hw1
    simp only [wsub_cast hM, wadd_cast]
    ring
  have h4 : wsub W.wordMod
      (wadd W.wordMod (wadd W.wordMod mvt.available minSize)
        (wsub W.wordMod (SizeArenaGrains W minSize) minSize))
      (SizeArenaGrains W minSize) = mvt.available := by
    apply word_eq (wsub_lt hM _ _) hw3
    simp only [wsub_cast hM, wadd_cast]
    ring
  have hfree : MVTFree W fuel (MVTOversizeFill W mvt minSize).2.2 seg.base minSize =
      some { mvt with env := W.segFree env1 seg } := by
    rw [oversizeFill_ok W hM mvt minSize seg env1 hseg hsize ⟨hw1, hw2, hw3, hw4⟩]
    unfold MVTFree MVTSegFree
    simp only [hal, hof, hsize, if_pos hbig, gt_iff_lt, h1, h2, h3, h4]
    unfold AvailLimitOK at hav
    rw [← hav]
  refine ⟨(MVTOversizeFill W mvt minSize).2.2, ?_, hfree, ?_⟩
  · rw [hb, oversizeFill_ok W hM mvt minSize seg env1 hseg hsize ⟨hw1, hw2, hw3, hw4⟩]
  · intro mvt2 h
    rw [hfree] at h
    simp only [Option.some.injEq] at h
    subst h
    exact ⟨rfl, rfl, rfl, rfl, rfl, rfl⟩

theorem oversize_free_undoes_fill_witness :
    ∃ mvt1 : MVT SampleEnv,
      MVTBufferFill sampleWorld 5 samplePool 5008 =
        some (ResCode.OK, some ⟨65536, 65536 + 5008⟩, mvt1) ∧
      MVTFree sampleWorld 5 mvt1 65536 5008 =
        some { samplePool with
               env := sampleWorld.segFree
                 { samplePool.env with next := 73728, segs := [⟨65536, 73728⟩] }
                 ⟨65536, 73728⟩ } ∧
      (∀ mvt2, MVTFree sampleWorld 5 mvt1 65536 5008 = some mvt2 →
        mvt2.size = samplePool.size ∧ mvt2.allocated = samplePool.allocated ∧
        mvt2.available = samplePool.available ∧ mvt2.unavailable = samplePool.unavailable ∧
        mvt2.availLimit = samplePool.availLimit ∧
        mvt2.env = sampleWorld.segFree
          { samplePool.env with next := 73728, segs := [⟨65536, 73728⟩] } ⟨65536, 73728⟩) :=
  oversize_free_undoes_fill sampleWorld (by decide) 5 samplePool 5008 ⟨65536, 73728⟩
    { samplePool.env with next := 73728, segs := [⟨65536, 73728⟩] }
    (by decide) (by decide) (by decide) (by decide) rfl rfl rfl
    ⟨by decide, by decide, by decide, by decide⟩ rfl

/-- C16 (MVT splinter path): for a request `minSize ≤ fillSize`, when a
splinter of size at least `minSize` is retained, `MVTBufferFill` returns OK and
the whole splinter `[splinterBase, splinterLimit)` with any fuel; the flag is
cleared, the size of the splinter goes from `available` to `allocated`, and
nothing else of the pool changes: the world, which holds the land, the ABQ and
the segments, is as before.  For a request above `fillSize` the fill is the
oversize fill, which leaves the splinter retained as it was. -/
theorem splinter_fill_path {E : Type} (W : World E) (fuel : Nat) (mvt : MVT E)
    (minSize : Nat) :
    (minSize ≤ mvt.fillSize → mvt.splinter = true →
      minSize ≤ mvt.splinterLimit - mvt.splinterBase →
      MVTBufferFill W fuel mvt minSize =
        some (ResCode.OK, some ⟨mvt.splinterBase, mvt.splinterLimit⟩,
          { mvt with
            splinter := false,
            available :=
              wsub W.wordMod mvt.available (mvt.splinterLimit - mvt.splinterBase),
            allocated :=
              wadd W.wordMod mvt.allocated (mvt.splinterLimit - mvt.splinterBase) })) ∧
    (mvt.fillSize < minSize →
      MVTBufferFill W fuel mvt minSize = some (MVTOversizeFill W mvt minSize) ∧
      splinterOf (MVTOversizeFill W mvt minSize).2.2 = splinterOf mvt) := by
  constructor
  · intro hsmall hs hge
    have h1 : ¬ minSize > mvt.fillSize := by omega
    have h2 : ¬ (mvt.splinter = false ∨ mvt.splinterLimit - mvt.splinterBase < minSize) := by
      rw [hs]
      simp only [Bool.true_eq_false, false_or, not_lt]
      exact hge
    unfold MVTBufferFill
    rw [if_neg h1]
    unfold MVTSplinterFill
    rw [if_neg h2]
    rfl
  · intro hbig
    constructor
    · unfold MVTBufferFill
      rw [if_pos hbig]
    · unfold MVTOversizeFill MVTSegAlloc
      simp only
      split
      · split <;> rfl
      · rfl

theorem splinter_fill_path_witness :
    MVTBufferFill sampleWorld 0 samplePoolEmptied 200 =
      some (ResCode.OK, some ⟨65648, 69632⟩,
        { samplePoolEmptied with
          splinter := false,
          available := wsub sampleWorld.wordMod samplePoolEmptied.available (69632 - 65648),
          allocated :=
            wadd sampleWorld.wordMod samplePoolEmptied.allocated (69632 - 65648) }) :=
  (splinter_fill_path sampleWorld 0 samplePoolEmptied 200).1 (by decide) rfl (by decide)

/-! ### Failure of a fill -/

theorem segAlloc_code {E : Type} (W : World E) (mvt : MVT E) (size : Nat) :
    (MVTSegAlloc W mvt size).1 = (W.segAlloc mvt.env size).1 := by
  unfold MVTSegAlloc
  simp only
  split <;> rfl

theorem segFill_code {E : Type} (W : World E) (mvt : MVT E) (fillSize : Nat)
    (h : (MVTSegFill W mvt fillSize).1 ≠ ResCode.OK) :
    (MVTSegFill W mvt fillSize).1 = (W.segAlloc mvt.env fillSize).1 ∧
    (MVTSegFill W mvt fillSize).2.1 = none := by
  unfold MVTSegFill at h ⊢
  simp only at h ⊢
  split
  · exact ⟨segAlloc_code W mvt fillSize, rfl⟩
  · rename_i hok
    rw [if_neg hok] at h
    exact absurd rfl h

theorem oversizeFill_code {E : Type} (W : World E) (mvt : MVT E) (minSize : Nat)
    (h : (MVTOversizeFill W mvt minSize).1 ≠ ResCode.OK) :
    (MVTOversizeFill W mvt minSize).1 = (W.segAlloc mvt.env (SizeArenaGrains W minSize)).1 ∧
    (MVTOversizeFill W mvt minSize).2.1 = none := by
  unfold MVTOversizeFill at h ⊢
  simp only at h ⊢
  split
  · exact ⟨segAlloc_code W mvt _, rfl⟩
  · rename_i hok
    rw [if_neg hok] at h
    exact absurd rfl h

theorem fillSize_stable {E : Type} (W : World E) (n : Nat) :
    FillStable W (fun mvt : MVT E => mvt.fillSize = n) where
  maint := by
    intro a b h ha
    have hc := h.core_eq
    simp only [core, Prod.mk.injEq] at hc
    obtain ⟨⟨_, _, _, _, _, _, hf⟩, _⟩ := hc
    rw [hf]
    exact ha
  noteFill := fun _ _ h => h
  segAlloc := by
    intro mvt size h
    unfold MVTSegAlloc
    simp only
    split
    · exact h
    · exact h
  charge := fun _ h => h
  release := fun h => h
  meters := fun _ h => h

theorem bufferFill_from_segFill {E : Type} (W : World E) (fuel : Nat) (mvt : MVT E)
    (minSize : Nat) (mvt3 : MVT E) (h : ReachesSegFill W fuel mvt minSize mvt3) :
    MVTBufferFill W fuel mvt minSize =
      if (MVTSegFill W mvt3 mvt3.fillSize).1 = ResCode.OK then
        some (MVTSegFill W mvt3 mvt3.fillSize)
      else
        match
          (match (MVTSegFill W mvt3 mvt3.fillSize).1 with
            | ResCode.OK => some (none, (MVTSegFill W mvt3 mvt3.fillSize).2.2)
            | ResCode.failure code =>
              if W.resIsAllocFailure code then
                MVTContingencyFill W fuel
                  (noteEmergencyContingency (MVTSegFill W mvt3 mvt3.fillSize).2.2 minSize)
                  minSize
              else some (none, (MVTSegFill W mvt3 mvt3.fillSize).2.2) :
            Option (Option Range × MVT E)) with
        | none => none
        | some (some range, mvt4) => some (ResCode.OK, some range, mvt4)
        | some (none, mvt4) =>
          some ((MVTSegFill W mvt3 mvt3.fillSize).1, none, noteFailure mvt4 minSize) := by
  obtain ⟨hsmall, hspl, mvt1, habq, hfirst⟩ := h
  have h1 : ¬ minSize > mvt.fillSize := by omega
  unfold MVTBufferFill
  rw [if_neg h1]
  simp only [hspl, habq]
  rcases hfirst with ⟨hlt, rfl⟩ | ⟨hge, hc⟩
  · have h2 : ¬ mvt1.available ≥ mvt1.availLimit := by omega
    simp only [h2, if_false]
    rfl
  · have h2 : mvt1.available ≥ mvt1.availLimit := hge
    simp only [h2, if_true]
    unfold noteFragLimitContingency noteUnderflow at hc
    simp only [hc]
    rfl

theorem reaches_fillSize {E : Type} (W : World E) (hM : 0 < W.wordMod) {fuel : Nat}
    {mvt : MVT E} {minSize : Nat} {mvt3 : MVT E} (h : ReachesSegFill W fuel mvt minSize mvt3) :
    mvt3.fillSize = mvt.fillSize := by
  obtain ⟨_, _, mvt1, habq, hfirst⟩ := h
  have hP := fillSize_stable W mvt.fillSize
  have h1 : mvt1.fillSize = mvt.fillSize := stable_abqFill hP hM habq rfl
  rcases hfirst with ⟨_, rfl⟩ | ⟨_, hc⟩
  · exact h1
  · exact stable_contingencyFill hP hM hc h1

theorem bufferFill_fail {E : Type} (W : World E) {fuel : Nat} {mvt : MVT E} {minSize : Nat}
    {r : ResCode × Option Range × MVT E} (hsmall : minSize ≤ mvt.fillSize)
    (h : MVTBufferFill W fuel mvt minSize = some r) (hne : r.1 ≠ ResCode.OK) :
    ∃ mvt3, ReachesSegFill W fuel mvt minSize mvt3 ∧
      r.1 = (MVTSegFill W mvt3 mvt3.fillSize).1 ∧ r.2.1 = none := by
  unfold MVTBufferFill at h
  split at h
  · omega
  · split at h
    · simp only [Option.some.injEq] at h
      subst h
      exact absurd rfl hne
    · rename_i hspl
      split at h
      · simp at h
      · simp only [Option.some.injEq] at h
        subst h
        exact absurd rfl hne
      · rename_i mvt1 habq
        simp only at h
        split at h
        · simp at h
        · simp only [Option.some.injEq] at h
          subst h
          exact absurd rfl hne
        · rename_i mvt3 hf
          have hreach : ReachesSegFill W fuel mvt minSize mvt3 := by
            refine ⟨hsmall, hspl, mvt1, habq, ?_⟩
            split at hf
            · rename_i hge
              exact Or.inr ⟨hge, hf⟩
            · rename_i hlt
              simp only [Option.some.injEq, Prod.mk.injEq, true_and] at hf
              exact Or.inl ⟨by omega, hf.symm⟩
          refine ⟨mvt3, hreach, ?_⟩
          split at h
          · rename_i hok
            simp only [Option.some.injEq] at h
            subst h
            exact absurd hok hne
          · split at h
            · simp at h
            · simp only [Option.some.injEq] at h
              subst h
              exact absurd rfl hne
            · simp only [Option.some.injEq] at h
              subst h
              exact ⟨rfl, rfl⟩

/-- C17 (MVT fill failure propagation): for a request `minSize ≤ fillSize` that
neither the splinter nor the ABQ satisfies, `MVTBufferFill` goes to the
allocation of a new segment without a contingency search when
`available < availLimit`, and with `available ≥ availLimit` a contingency fill
that finds a fit makes the fill succeed.  When it has come to the new segment:
a successful `MVTSegFill` is the result; after a failure with an
allocation-failure code the contingency fill is tried whatever the limit, a
fit gives OK and no fit gives the code of the segment fill; after a failure
with any other code the result is that code and the pool is the one the
segment fill left, with the failure metered.  Every result that is not OK
carries no range and is the result code of `SegAlloc` for the size asked
for. -/
theorem fill_failure_propagation {E : Type} (W : World E) (hM : 0 < W.wordMod) (fuel : Nat)
    (mvt : MVT E) (minSize : Nat) :
    (∀ mvt1 : MVT E, minSize ≤ mvt.fillSize → MVTSplinterFill W mvt minSize = none →
      MVTABQFill W fuel mvt minSize = some (none, mvt1) →
      (mvt1.available < mvt1.availLimit →
        ReachesSegFill W fuel mvt minSize (noteUnderflow mvt1 minSize)) ∧
      (mvt1.availLimit ≤ mvt1.available → ∀ (range : Range) (mvt3 : MVT E),
        MVTContingencyFill W fuel
          (noteFragLimitContingency (noteUnderflow mvt1 minSize) minSize) minSize
          = some (some range, mvt3) →
        MVTBufferFill W fuel mvt minSize = some (ResCode.OK, some range, mvt3))) ∧
    (∀ mvt3 : MVT E, ReachesSegFill W fuel mvt minSize mvt3 →
      ((MVTSegFill W mvt3 mvt3.fillSize).1 = ResCode.OK →
        MVTBufferFill W fuel mvt minSize = some (MVTSegFill W mvt3 mvt3.fillSize)) ∧
      (∀ code : Nat, (MVTSegFill W mvt3 mvt3.fillSize).1 = ResCode.failure code →
        (W.resIsAllocFailure code = true →
          (∀ (range : Range) (mvt4 : MVT E),
            MVTContingencyFill W fuel
              (noteEmergencyContingency (MVTSegFill W mvt3 mvt3.fillSize).2.2 minSize) minSize
              = some (some range, mvt4) →
            MVTBufferFill W fuel mvt minSize = some (ResCode.OK, some range, mvt4)) ∧
          (∀ mvt4 : MVT E,
            MVTContingencyFill W fuel
              (noteEmergencyContingency (MVTSegFill W mvt3 mvt3.fillSize).2.2 minSize) minSize
              = some (none, mvt4) →
            MVTBufferFill W fuel mvt minSize =
              some (ResCode.failure code, none, noteFailure mvt4 minSize))) ∧
        (W.resIsAllocFailure code = false →
          MVTBufferFill W fuel mvt minSize =
            some (ResCode.failure code, none,
              noteFailure (MVTSegFill W mvt3 mvt3.fillSize).2.2 minSize)))) ∧
    (∀ r : ResCode × Option Range × MVT E, MVTBufferFill W fuel mvt minSize = some r →
      r.1 ≠ ResCode.OK →
      r.2.1 = none ∧
      ∃ env : E,
        r.1 = (W.segAlloc env
          (if mvt.fillSize < minSize then SizeArenaGrains W minSize else mvt.fillSize)).1) := by
  refine ⟨?_, ?_, ?_⟩
  · intro mvt1 hsmall hspl habq
    constructor
    · intro hlt
      exact ⟨hsmall, hspl, mvt1, habq, Or.inl ⟨hlt, rfl⟩⟩
    · intro hge range mvt3 hc
      have h1 : ¬ minSize > mvt.fillSize := by omega
      have h2 : mvt1.available ≥ mvt1.availLimit := hge
      unfold noteFragLimitContingency noteUnderflow at hc
      unfold MVTBufferFill
      rw [if_neg h1]
      simp only [hspl, habq, h2, if_true, hc]
  · intro mvt3 hr
    have heq := bufferFill_from_segFill W fuel mvt minSize mvt3 hr
    refine ⟨?_, ?_⟩
    · intro hok
      rw [heq, if_pos hok]
    · intro code hcode
      have hne : ¬ (MVTSegFill W mvt3 mvt3.fillSize).1 = ResCode.OK := by
        rw [hcode]
        exact fun h => ResCode.noConfusion h
      rw [if_neg hne] at heq
      refine ⟨?_, ?_⟩
      · intro hal
        refine ⟨?_, ?_⟩
        · intro range mvt4 hc
          rw [heq]
          simp only [hcode, hal, if_true, hc]
        · intro mvt4 hc
          rw [heq]
          simp only [hcode, hal, if_true, hc]
      · intro hal
        rw [heq]
        simp only [hcode, hal, Bool.false_eq_true, if_false]
  · intro r h hne
    by_cases hbig : mvt.fillSize < minSize
    · rw [if_pos hbig]
      unfold MVTBufferFill at h
      rw [if_pos hbig] at h
      simp only [Option.some.injEq] at h
      subst h
      obtain ⟨h1, h2⟩ := oversizeFill_code W mvt minSize hne
      exact ⟨h2, mvt.env, h1⟩
    · rw [if_neg hbig]
      obtain ⟨mvt3, hr, h1, h2⟩ := bufferFill_fail W (by omega) h hne
      refine ⟨h2, mvt3.env, ?_⟩
      rw [h1] at hne ⊢
      rw [(segFill_code W mvt3 mvt3.fillSize hne).1, reaches_fillSize W hM hr]

theorem fill_failure_propagation_witness :
    0 < sampleWorld.wordMod ∧
    MVTBufferFill sampleWorld 5 samplePoolFull 100 = some sampleFailedFill ∧
    sampleFailedFill.1 ≠ ResCode.OK ∧
    sampleFailedFill.2.1 = none ∧
    ∃ env : SampleEnv,
      sampleFailedFill.1 = (sampleWorld.segAlloc env
        (if samplePoolFull.fillSize < 100 then SizeArenaGrains sampleWorld 100
          else samplePoolFull.fillSize)).1 :=
  ⟨by decide, rfl, by decide,
    (fill_failure_propagation sampleWorld (by decide) 5 samplePoolFull 100).2.2
      sampleFailedFill rfl (by decide)⟩

/-! ### The derived parameters of `MVTInit` -/

theorem specFillSize_bounds (grainSize maxSize : Nat) (hg : 0 < grainSize) :
    maxSize ≤ specFillSize grainSize maxSize ∧
    specFillSize grainSize maxSize ≤ maxSize + grainSize - 1 ∧
    (0 < maxSize → grainSize ≤ specFillSize grainSize maxSize) := by
  unfold specFillSize
  rw [Nat.ceilDiv_eq_add_pred_div]
  have h1 := Nat.div_mul_le_self (maxSize + grainSize - 1) grainSize
  have h2 := Nat.lt_div_mul_add (a := maxSize + grainSize - 1) hg
  refine ⟨by omega, h1, ?_⟩
  intro hpos
  have h3 : 0 < (maxSize + grainSize - 1) / grainSize :=
    Nat.div_pos (by omega) hg
  exact Nat.le_mul_of_pos_left _ h3

theorem initDerived_eq {E : Type} (W : World E) (args : MVTArgs) (hok : MVTArgsOK W args)
    (hfit : args.reserveDepth * args.meanSize + specReuseSize W.grainSize args.maxSize - 1
      < W.wordMod) :
    MVTInitDerived W.wordMod W.grainSize args.maxSize args.meanSize args.reserveDepth =
      some (specFillSize W.grainSize args.maxSize, specReuseSize W.grainSize args.maxSize,
        specAbqDepth W.grainSize args.maxSize args.meanSize args.reserveDepth) := by
  obtain ⟨ha, hag, hmin, hmean, hmax, hrd, _, _, _⟩ := hok
  have hg : 0 < W.grainSize := by omega
  obtain ⟨hb1, hb2, hb3⟩ := specFillSize_bounds W.grainSize args.maxSize hg
  have hb4 := hb3 (by omega)
  have hprod : 0 < args.reserveDepth * args.meanSize := Nat.mul_pos hrd (by omega)
  unfold specReuseSize at hfit
  have hfill : SizeAlignUp W.wordMod args.maxSize W.grainSize
      = specFillSize W.grainSize args.maxSize := by
    rw [sizeAlignUp_eq hg (by omega)]
    rfl
  have hreuse : wmul W.wordMod 2 (specFillSize W.grainSize args.maxSize)
      = 2 * specFillSize W.grainSize args.maxSize := wmul_eq_mul (by omega)
  have hmul : wmul W.wordMod args.reserveDepth args.meanSize
      = args.reserveDepth * args.meanSize := wmul_eq_mul (by omega)
  have hne : ¬ 2 * specFillSize W.grainSize args.maxSize = 0 := by omega
  unfold MVTInitDerived
  simp only [hfill, hreuse, hmul, hne, if_false]
  rw [wsub_wadd_one (by omega) hfit]
  unfold specAbqDepth specReuseSize
  rw [Nat.ceilDiv_eq_add_pred_div]
  congr 3
  split
  · rename_i h
    exact (max_eq_left (Nat.le_of_lt h)).symm
  · rename_i h
    exact (max_eq_right (Nat.le_of_not_lt h)).symm

theorem mvtInit_derived_counterexample :
    MVTArgsOK sampleWorld overflowArgs ∧
    (∃ mvt : MVT SampleEnv,
      MVTInit sampleWorld sampleEnv overflowArgs = some (Except.ok mvt) ∧
      mvt.fillSize = 4096 ∧ mvt.reuseSize = 8192 ∧ mvt.env.abqElements = 3) ∧
    specAbqDepth sampleWorld.grainSize overflowArgs.maxSize overflowArgs.meanSize
      overflowArgs.reserveDepth = 2 ^ 51 :=
  ⟨⟨by decide, by decide, by decide, by decide, by decide, by decide, by decide, by decide,
      by decide⟩,
    ⟨_, rfl, rfl, rfl, rfl⟩, by decide⟩

/-- C18 (MVT derived parameters, amended): for every parameter tuple that
passes the checks of `MVTInit` and for which
`reserveDepth × meanSize + reuseSize − 1` is a machine word, where `reuseSize`
is twice `maxSize` rounded up to whole arena grains, `MVTInit` does not divide
by zero, sets `fillSize` to `maxSize` rounded up to a whole number of arena
grains and `reuseSize` to `2 × fillSize`, and initialises the ABQ with depth
`max (3, ceil (reserveDepth × meanSize / reuseSize))`. -/
theorem mvtInit_derived_parameters {E : Type} (W : World E) (args : MVTArgs)
    (hok : MVTArgsOK W args)
    (hfit : args.reserveDepth * args.meanSize + specReuseSize W.grainSize args.maxSize - 1
      < W.wordMod) :
    MVTInitDerived W.wordMod W.grainSize args.maxSize args.meanSize args.reserveDepth =
      some (specFillSize W.grainSize args.maxSize, specReuseSize W.grainSize args.maxSize,
        specAbqDepth W.grainSize args.maxSize args.meanSize args.reserveDepth) ∧
    (∀ env : E, MVTInit W env args ≠ none) ∧
    (∀ (env : E) (mvt : MVT E), MVTInit W env args = some (Except.ok mvt) →
      mvt.fillSize = specFillSize W.grainSize args.maxSize ∧
      mvt.reuseSize = specReuseSize W.grainSize args.maxSize ∧
      mvt.env =
        (W.abqInit (W.landInit (W.landInit (W.landInit (W.poolInit env).2 0 args.align).2 1
          args.align).2 2 args.align).2
          (specAbqDepth W.grainSize args.maxSize args.meanSize args.reserveDepth)).2) := by
  have hd := initDerived_eq W args hok hfit
  refine ⟨hd, ?_, ?_⟩
  · intro env
    unfold MVTInit
    rw [hd]
    simp only
    split_ifs <;> exact fun h => Option.noConfusion h
  · intro env mvt h
    obtain ⟨f, r, d, hd1, _, rfl⟩ := init_fields h
    rw [hd] at hd1
    simp only [Option.some.injEq, Prod.mk.injEq] at hd1
    obtain ⟨rfl, rfl, rfl⟩ := hd1
    exact ⟨rfl, rfl, rfl⟩

theorem mvtInit_derived_parameters_witness :
    MVTInitDerived sampleWorld.wordMod sampleWorld.grainSize sampleArgs.maxSize
        sampleArgs.meanSize sampleArgs.reserveDepth =
      some (specFillSize sampleWorld.grainSize sampleArgs.maxSize,
        specReuseSize sampleWorld.grainSize sampleArgs.maxSize,
        specAbqDepth sampleWorld.grainSize sampleArgs.maxSize sampleArgs.meanSize
          sampleArgs.reserveDepth) ∧
    specFillSize sampleWorld.grainSize sampleArgs.maxSize = 4096 ∧
    specAbqDepth sampleWorld.grainSize sampleArgs.maxSize sampleArgs.meanSize
      sampleArgs.reserveDepth = 3 :=
  ⟨(mvtInit_derived_parameters sampleWorld sampleArgs
      ⟨by decide, by decide, by decide, by decide, by decide, by decide, by decide, by decide,
        by decide⟩ (by decide)).1,
    by decide, by decide⟩

/-- C19 (MVT parameter chain, failing input): on a 64-bit platform with grains
of 4096 bytes the arguments `minSize = meanSize = 1`, `maxSize = 2 ^ 63`,
`reserveDepth = 1` pass every check of `MVTInit`; `fillSize` is `2 ^ 63`,
`reuseSize = 2 * fillSize` wraps to zero, and the division by `reuseSize` for
the depth of the ABQ is a division by zero. -/
theorem mvtInit_zero_reuseSize :
    MVTArgsOK sampleWorld zeroReuseArgs ∧
    SizeArenaGrains sampleWorld zeroReuseArgs.maxSize = 2 ^ 63 ∧
    wmul sampleWorld.wordMod 2 (SizeArenaGrains sampleWorld zeroReuseArgs.maxSize) = 0 ∧
    MVTInitDerived sampleWorld.wordMod sampleWorld.grainSize zeroReuseArgs.maxSize
      zeroReuseArgs.meanSize zeroReuseArgs.reserveDepth = none ∧
    MVTInit sampleWorld sampleEnv zeroReuseArgs = none :=
  ⟨⟨by decide, by decide, by decide, by decide, by decide, by decide, by decide, by decide,
      by decide⟩,
    by decide, by decide, by decide, rfl⟩

theorem scan_area_tagged_selection_witness :
    mps_scan_area_tagged sampleFix1 sampleFix2 [] [261, 515] ⟨7, 5⟩ =
      (ResCode.OK, [256], [277, 515]) ∧
    ((mps_scan_area_tagged sampleFix1 sampleFix2 [] [261, 515] ⟨7, 5⟩).1,
      (mps_scan_area_tagged sampleFix1 sampleFix2 [] [261, 515] ⟨7, 5⟩).2.1) =
      offerAll sampleFix1 sampleFix2 []
        (([261, 515].filter (fun w => w &&& 7 == 5)).map (fun w => w ^^^ (w &&& 7))) ∧
    (mps_scan_area_tagged sampleFix1 sampleFix2 [] [261, 515] ⟨7, 5⟩).2.2[1]? = some 515 ∧
    (mps_scan_area_tagged sampleFix1 sampleFix2 [] [261, 515] ⟨7, 5⟩).2.2[0]? = some 277 ∧
    (mps_scan_area_tagged sampleFix1 sampleFix2 [] [261, 517] ⟨7, 5⟩).2.2[1]? = some 533 ∧
    mps_scan_area_tagged sampleFix1 sampleFix2 [] [517] ⟨7, 5⟩ = (ResCode.OK, [512], [533]) :=
  ⟨by decide,
    (scan_area_tagged_selection sampleFix1 sampleFix2 ⟨7, 5⟩ [] [261, 515]).1,
    (scan_area_tagged_selection sampleFix1 sampleFix2 ⟨7, 5⟩ [] [261, 515]).2.2.2.1 1 515
      rfl (by decide),
    (scan_area_tagged_selection sampleFix1 sampleFix2 ⟨7, 5⟩ [] [261, 515]).2.2.2.2.2.1
      [] [515] 261 [] rfl rfl (by decide) rfl rfl,
    (scan_area_tagged_selection sampleFix1 sampleFix2 ⟨7, 5⟩ [] [261, 517]).2.2.2.2.2.1
      [261] [] 517 [256] rfl rfl (by decide) rfl rfl,
    (scan_area_tagged_selection sampleFix1 sampleFix2 ⟨7, 5⟩ [] [517]).2.2.2.2.2.2.2
      [] 517 (by decide) rfl rfl⟩

/-! ### The other area scanners -/

/-- C21 (tagged-or-zero area scan selection): `mps_scan_area_tagged_or_zero`
offers to the fix step exactly the words `w` of the area with `w &&& mask = 0`
or `w &&& mask = pattern`, in address order, each with the bits of `mask`
cleared; the words it selects are those `mps_scan_area_tagged` selects with
the same descriptor together with the words whose masked bits are all zero;
the area keeps its length, every other word stays as it was, and a word that
was changed was selected and written back as the fixed reference or-ed with
`w &&& mask`. -/
theorem scan_area_tagged_or_zero_selection {S : Type} (fix1 : S → Nat → Bool × S)
    (fix2 : S → Nat → ResCode × Nat × S) (tag : ScanTag) (ss : S) (area : List Nat) :
    ((mps_scan_area_tagged_or_zero fix1 fix2 ss area tag).1,
      (mps_scan_area_tagged_or_zero fix1 fix2 ss area tag).2.1) =
      offerAll fix1 fix2 ss
        ((area.filter (fun w => w &&& tag.mask == 0 || w &&& tag.mask == tag.pattern)).map
          (fun w => w ^^^ (w &&& tag.mask))) ∧
    (∀ w : Nat,
      w ∈ area.filter (fun w => w &&& tag.mask == 0 || w &&& tag.mask == tag.pattern) ↔
      w ∈ area.filter (fun w => w &&& tag.mask == tag.pattern) ∨
        (w ∈ area ∧ w &&& tag.mask = 0)) ∧
    (mps_scan_area_tagged_or_zero fix1 fix2 ss area tag).2.2.length = area.length ∧
    (∀ i w : Nat, area[i]? = some w → w &&& tag.mask ≠ 0 → w &&& tag.mask ≠ tag.pattern →
      (mps_scan_area_tagged_or_zero fix1 fix2 ss area tag).2.2[i]? = some w) ∧
    (∀ i w v : Nat, area[i]? = some w →
      (mps_scan_area_tagged_or_zero fix1 fix2 ss area tag).2.2[i]? = some v → v ≠ w →
      (w &&& tag.mask = 0 ∨ w &&& tag.mask = tag.pattern) ∧
      ∃ s0, (fix1 s0 (w ^^^ (w &&& tag.mask))).1 = true ∧
        (fix2 (fix1 s0 (w ^^^ (w &&& tag.mask))).2 (w ^^^ (w &&& tag.mask))).1
          = ResCode.OK ∧
        v = (fix2 (fix1 s0 (w ^^^ (w &&& tag.mask))).2 (w ^^^ (w &&& tag.mask))).2.1
          ||| (w &&& tag.mask)) := by
  unfold mps_scan_area_tagged_or_zero
  refine ⟨scanArea_offers fix1 fix2 _ _ area ss, ?_,
    scanArea_length fix1 fix2 _ _ area ss, ?_, ?_⟩
  · intro w
    simp only [List.mem_filter, Bool.or_eq_true, beq_iff_eq]
    constructor
    · rintro ⟨hm, h0 | hp⟩
      · exact Or.inr ⟨hm, h0⟩
      · exact Or.inl ⟨hm, hp⟩
    · rintro (⟨hm, hp⟩ | ⟨hm, h0⟩)
      · exact ⟨hm, Or.inr hp⟩
      · exact ⟨hm, Or.inl h0⟩
  · intro i w h h0 hp
    exact scanArea_untested fix1 fix2 _ _ area ss i w h (by simp [h0, hp])
  · intro i w v h hv hne
    obtain ⟨ht, s0, h1, h2, h3⟩ := scanArea_written fix1 fix2 _ _ area ss i w v h hv hne
    exact ⟨by simpa using ht, s0, h1, h2, h3⟩

theorem scan_area_tagged_or_zero_selection_witness :
    mps_scan_area_tagged_or_zero sampleFix1 sampleFix2 [] [261, 515, 520] ⟨7, 5⟩ =
      (ResCode.OK, [520, 256], [277, 515, 536]) ∧
    ((mps_scan_area_tagged_or_zero sampleFix1 sampleFix2 [] [261, 515, 520] ⟨7, 5⟩).2.2)[1]?
      = some 515 :=
  ⟨by decide,
    (scan_area_tagged_or_zero_selection sampleFix1 sampleFix2 ⟨7, 5⟩ [] [261, 515, 520]).2.2.2.1
      1 515 rfl (by decide) (by decide)⟩

/-- C22 (masked and plain area scans visit every word): `mps_scan_area_masked`
offers every word `w` of the area to the fix step, in address order and once,
as `w` with the bits of `mask` cleared, until a fix fails; a word that is fixed
is written back as the new reference or-ed with `w &&& mask`, every other word
stays as it was, and the scan of an area in two parts is the scan of the first
part followed by the scan of the second.  `mps_scan_area` is
`mps_scan_area_masked` with mask 0, for which the reference is the word itself
and the word written back is the new reference. -/
theorem scan_area_masked_visits_all {S : Type} (fix1 : S → Nat → Bool × S)
    (fix2 : S → Nat → ResCode × Nat × S) (tag : ScanTag) (ss : S) (area : List Nat) :
    ((mps_scan_area_masked fix1 fix2 ss area tag).1,
      (mps_scan_area_masked fix1 fix2 ss area tag).2.1) =
      offerAll fix1 fix2 ss (area.map (fun w => w ^^^ (w &&& tag.mask))) ∧
    (∀ w i : Nat, (w ^^^ (w &&& tag.mask)).testBit i = (w.testBit i && !tag.mask.testBit i)) ∧
    (mps_scan_area_masked fix1 fix2 ss area tag).2.2.length = area.length ∧
    (∀ (s0 : S) (w : Nat),
      (fix1 s0 (w ^^^ (w &&& tag.mask))).1 = true →
      (fix2 (fix1 s0 (w ^^^ (w &&& tag.mask))).2 (w ^^^ (w &&& tag.mask))).1 = ResCode.OK →
      mps_scan_area_masked fix1 fix2 s0 [w] tag =
        (ResCode.OK, (fix2 (fix1 s0 (w ^^^ (w &&& tag.mask))).2 (w ^^^ (w &&& tag.mask))).2.2,
          [(fix2 (fix1 s0 (w ^^^ (w &&& tag.mask))).2 (w ^^^ (w &&& tag.mask))).2.1
            ||| (w &&& tag.mask)])) ∧
    (∀ (s0 : S) (xs ys : List Nat), (mps_scan_area_masked fix1 fix2 s0 xs tag).1 = ResCode.OK →
      mps_scan_area_masked fix1 fix2 s0 (xs ++ ys) tag =
        ((mps_scan_area_masked fix1 fix2
            (mps_scan_area_masked fix1 fix2 s0 xs tag).2.1 ys tag).1,
          (mps_scan_area_masked fix1 fix2
            (mps_scan_area_masked fix1 fix2 s0 xs tag).2.1 ys tag).2.1,
          (mps_scan_area_masked fix1 fix2 s0 xs tag).2.2 ++
            (mps_scan_area_masked fix1 fix2
              (mps_scan_area_masked fix1 fix2 s0 xs tag).2.1 ys tag).2.2)) ∧
    (∀ i w v : Nat, area[i]? = some w →
      (mps_scan_area_masked fix1 fix2 ss area tag).2.2[i]? = some v → v ≠ w →
      ∃ s0, (fix1 s0 (w ^^^ (w &&& tag.mask))).1 = true ∧
        (fix2 (fix1 s0 (w ^^^ (w &&& tag.mask))).2 (w ^^^ (w &&& tag.mask))).1
          = ResCode.OK ∧
        v = (fix2 (fix1 s0 (w ^^^ (w &&& tag.mask))).2 (w ^^^ (w &&& tag.mask))).2.1
          ||| (w &&& tag.mask)) ∧
    (∀ pattern : Nat,
      mps_scan_area fix1 fix2 ss area = mps_scan_area_masked fix1 fix2 ss area ⟨0, pattern⟩) ∧
    (∀ w v : Nat, w ^^^ (w &&& 0) = w ∧ v ||| (w &&& 0) = v) := by
  unfold mps_scan_area_masked
  refine ⟨?_, fun w i => xor_and_testBit w tag.mask i,
    scanArea_length fix1 fix2 _ _ area ss, ?_, ?_, ?_, fun _ => rfl, ?_⟩
  · have h := scanArea_offers fix1 fix2 (fun _ => true) tag.mask area ss
    simpa using h
  · intro s0 w h1 h2
    rw [scanArea_single]
    simp only [h1, h2, if_true]
  · intro s0 xs ys hok
    rw [scanArea_append, if_pos hok]
  · intro i w v h hv hne
    obtain ⟨_, s0, h1, h2, h3⟩ := scanArea_written fix1 fix2 _ _ area ss i w v h hv hne
    exact ⟨s0, h1, h2, h3⟩
  · intro w v
    simp

theorem scan_area_masked_visits_all_witness :
    mps_scan_area_masked sampleFix1 sampleFix2 [] [261, 515] ⟨7, 5⟩ =
      (ResCode.OK, [512, 256], [277, 531]) ∧
    mps_scan_area sampleFix1 sampleFix2 [] [261, 515] = (ResCode.OK, [515, 261], [277, 531]) ∧
    mps_scan_area_masked sampleFix1 sampleFix2 [] [261] ⟨7, 5⟩ = (ResCode.OK, [256], [277]) :=
  ⟨by decide, by decide,
    (scan_area_masked_visits_all sampleFix1 sampleFix2 ⟨7, 5⟩ [] [261, 515]).2.2.2.1 [] 261
      rfl rfl⟩

/-! ## Roots: scanning and the write barrier -/

theorem andNot_testBit (x c i : Nat) :
    (andNot x c).testBit i = (x.testBit i && !c.testBit i) :=
  xor_and_testBit x c i

theorem andNot_and_self (x c : Nat) : andNot x c &&& c = 0 := by
  apply Nat.eq_of_testBit_eq
  intro i
  rw [Nat.testBit_and, andNot_testBit, Nat.zero_testBit]
  cases x.testBit i <;> cases c.testBit i <;> rfl

theorem or_and_self (x c : Nat) : (x ||| c) &&& c = c := by
  apply Nat.eq_of_testBit_eq
  intro i
  rw [Nat.testBit_and, Nat.testBit_or]
  cases x.testBit i <;> cases c.testBit i <;> rfl

theorem accessWrite_testBit (i : Nat) : AccessWRITE.testBit i = decide (i = 1) := by
  have h : (2 ^ 1).testBit i = decide (1 = i) := Nat.testBit_two_pow
  simp only [pow_one] at h
  unfold AccessWRITE
  rw [h]
  by_cases hi : i = 1
  · simp [hi]
  · have : ¬ 1 = i := fun h => hi h.symm
    simp [hi, this]

theorem andNot_write_testBit (pm i : Nat) :
    (andNot pm AccessWRITE).testBit i = (pm.testBit i && decide (i ≠ 1)) := by
  rw [andNot_testBit, accessWrite_testBit]
  by_cases hi : i = 1 <;> simp [hi]

theorem or_write_testBit (pm i : Nat) :
    (pm ||| AccessWRITE).testBit i = (pm.testBit i || decide (i = 1)) := by
  rw [Nat.testBit_or, accessWrite_testBit]

theorem rootSetSummary_spec {E : Type} (W : RootWorld E) (root : Root) (summary : Nat)
    (hprot : root.protectable = true) :
    (rootSetSummary W root summary).summary = summary ∧
    (summary = W.refSetUNIV →
      (rootSetSummary W root summary).pm = andNot root.pm AccessWRITE ∧
      (rootSetSummary W root summary).pm &&& AccessWRITE = 0) ∧
    (summary ≠ W.refSetUNIV →
      (rootSetSummary W root summary).pm = root.pm ||| AccessWRITE ∧
      (rootSetSummary W root summary).pm &&& AccessWRITE = AccessWRITE) ∧
    (∀ i : Nat, i ≠ 1 → (rootSetSummary W root summary).pm.testBit i = root.pm.testBit i) ∧
    (rootSetSummary W root summary).grey = root.grey ∧
    (rootSetSummary W root summary).protBase = root.protBase ∧
    (rootSetSummary W root summary).protLimit = root.protLimit ∧
    (rootSetSummary W root summary).protectable = true ∧
    (rootSetSummary W root summary).mode = root.mode := by
  unfold rootSetSummary
  rw [if_pos hprot]
  by_cases hs : summary = W.refSetUNIV
  · rw [if_pos hs]
    refine ⟨rfl, fun _ => ⟨rfl, andNot_and_self _ _⟩, fun h => absurd hs h, ?_, rfl, rfl, rfl,
      hprot, rfl⟩
    intro i hi
    show (andNot root.pm AccessWRITE).testBit i = _
    rw [andNot_write_testBit]
    simp [hi]
  · rw [if_neg hs]
    refine ⟨rfl, fun h => absurd h hs, fun _ => ⟨rfl, or_and_self _ _⟩, ?_, rfl, rfl, rfl,
      hprot, rfl⟩
    intro i hi
    show (root.pm ||| AccessWRITE).testBit i = _
    rw [or_write_testBit]
    simp [hi]

/-- C23 (root summary/protection coupling): for a protectable root that is
grey for one of the traces of the scan state, when the scan of the root
succeeds, `RootScan` returns OK; the summary of the root is the summary of the
scan state, its grey set has none of the traces of the scan state, and `pm` has
`AccessWRITE` cleared when that summary is the universal set and set when it is
not, the other bits being as before; the last thing done is
`ProtSet (protBase, protLimit, pm)` with the new `pm` when it is not empty, and
otherwise the world is the one the scan left, in which any protection of the
root had been lifted. -/
theorem root_scan_summary_protection {E : Type} (W : RootWorld E) (env : E) (ss : ScanState)
    (root : Root) (hprot : root.protectable = true)
    (hgrey : TraceSetInter root.grey ss.traces ≠ TraceSetEMPTY)
    (hok : (rootScanVar W (rootScanLift W env root) ss root).1 = ResCode.OK) :
    (RootScan W env ss root).1 = ResCode.OK ∧
    (RootScan W env ss root).2.1 = (rootScanVar W (rootScanLift W env root) ss root).2.1 ∧
    (RootScan W env ss root).2.2.1.summary =
      (rootScanVar W (rootScanLift W env root) ss root).2.1.summary ∧
    (RootScan W env ss root).2.2.1.grey =
      TraceSetDiff root.grey (rootScanVar W (rootScanLift W env root) ss root).2.1.traces ∧
    TraceSetInter (RootScan W env ss root).2.2.1.grey
      (rootScanVar W (rootScanLift W env root) ss root).2.1.traces = TraceSetEMPTY ∧
    ((rootScanVar W (rootScanLift W env root) ss root).2.1.summary = W.refSetUNIV →
      (RootScan W env ss root).2.2.1.pm &&& AccessWRITE = 0) ∧
    ((rootScanVar W (rootScanLift W env root) ss root).2.1.summary ≠ W.refSetUNIV →
      (RootScan W env ss root).2.2.1.pm &&& AccessWRITE = AccessWRITE) ∧
    (∀ i : Nat, i ≠ 1 → (RootScan W env ss root).2.2.1.pm.testBit i = root.pm.testBit i) ∧
    (RootScan W env ss root).2.2.1.protBase = root.protBase ∧
    (RootScan W env ss root).2.2.1.protLimit = root.protLimit ∧
    ((RootScan W env ss root).2.2.1.pm ≠ AccessSetEMPTY →
      (RootScan W env ss root).2.2.2 =
        W.protSet (rootScanVar W (rootScanLift W env root) ss root).2.2 root.protBase
          root.protLimit (RootScan W env ss root).2.2.1.pm) ∧
    ((RootScan W env ss root).2.2.1.pm = AccessSetEMPTY →
      (RootScan W env ss root).2.2.2 =
        (rootScanVar W (rootScanLift W env root) ss root).2.2) := by
  have hne : ¬ (rootScanVar W (rootScanLift W env root) ss root).1 ≠ ResCode.OK :=
    fun h => h hok
  have heq : RootScan W env ss root =
      ((rootScanVar W (rootScanLift W env root) ss root).1,
        (rootScanVar W (rootScanLift W env root) ss root).2.1,
        rootSetSummary W
          { root with
            grey := TraceSetDiff root.grey
              (rootScanVar W (rootScanLift W env root) ss root).2.1.traces }
          (rootScanVar W (rootScanLift W env root) ss root).2.1.summary,
        if (rootSetSummary W
            { root with
              grey := TraceSetDiff root.grey
                (rootScanVar W (rootScanLift W env root) ss root).2.1.traces }
            (rootScanVar W (rootScanLift W env root) ss root).2.1.summary).pm
            ≠ AccessSetEMPTY then
          W.protSet (rootScanVar W (rootScanLift W env root) ss root).2.2
            (rootSetSummary W
              { root with
                grey := TraceSetDiff root.grey
                  (rootScanVar W (rootScanLift W env root) ss root).2.1.traces }
              (rootScanVar W (rootScanLift W env root) ss root).2.1.summary).protBase
            (rootSetSummary W
              { root with
                grey := TraceSetDiff root.grey
                  (rootScanVar W (rootScanLift W env root) ss root).2.1.traces }
              (rootScanVar W (rootScanLift W env root) ss root).2.1.summary).protLimit
            (rootSetSummary W
              { root with
                grey := TraceSetDiff root.grey
                  (rootScanVar W (rootScanLift W env root) ss root).2.1.traces }
              (rootScanVar W (rootScanLift W env root) ss root).2.1.summary).pm
        else (rootScanVar W (rootScanLift W env root) ss root).2.2) := by
    unfold RootScan
    rw [if_neg hgrey]
    simp only
    rw [if_neg hne]
  obtain ⟨h1, h2, h3, h4, h5, h6, h7, _, _⟩ := rootSetSummary_spec W
    { root with
      grey := TraceSetDiff root.grey
        (rootScanVar W (rootScanLift W env root) ss root).2.1.traces }
    (rootScanVar W (rootScanLift W env root) ss root).2.1.summary hprot
  rw [heq]
  refine ⟨hok, rfl, h1, h5, ?_, fun h => (h2 h).2, fun h => (h3 h).2, h4, h6, h7, ?_, ?_⟩
  · show TraceSetInter (rootSetSummary W _ _).grey _ = TraceSetEMPTY
    rw [h5]
    exact andNot_and_self _ _
  · intro hpm
    show (if _ then _ else _) = _
    rw [if_pos hpm, h6, h7]
  · intro hpm
    show (if _ then _ else _) = _
    rw [if_neg (fun h => h hpm)]

theorem root_scan_summary_protection_witness :
    RootScan sampleRootWorld [] sampleScanState (sampleRoot 5 0) =
      (ResCode.OK, { sampleScanState with summary := 5 },
        { sampleRoot 5 2 with grey := 0, summary := 5 }, [(8192, 12288, 2)]) ∧
    (RootScan sampleRootWorld [] sampleScanState (sampleRoot 5 0)).2.2.1.pm &&& AccessWRITE
      = AccessWRITE :=
  ⟨by decide,
    (root_scan_summary_protection sampleRootWorld [] sampleScanState (sampleRoot 5 0) rfl
      (by decide) (by decide)).2.2.2.2.2.2.1 (by decide)⟩

/-- C24 (RootScan failure restores protection): for a root of any variant that
is grey for one of the traces of the scan state, when the scan of the root
returns a result that is not OK, `RootScan` returns that result and leaves the
root as it was, so its grey set, its summary and `pm` are unchanged; if `pm` is
not empty the scan ran with the protection lifted and the last thing done is
`ProtSet (protBase, protLimit, pm)`, and if `pm` is empty no protection is
set. -/
theorem root_scan_failure_restores {E : Type} (W : RootWorld E) (env : E) (ss : ScanState)
    (root : Root) (hgrey : TraceSetInter root.grey ss.traces ≠ TraceSetEMPTY)
    (hfail : (rootScanVar W (rootScanLift W env root) ss root).1 ≠ ResCode.OK) :
    (RootScan W env ss root).1 = (rootScanVar W (rootScanLift W env root) ss root).1 ∧
    (RootScan W env ss root).2.2.1 = root ∧
    (root.pm ≠ AccessSetEMPTY →
      rootScanLift W env root = W.protSet env root.protBase root.protLimit AccessSetEMPTY ∧
      (RootScan W env ss root).2.2.2 =
        W.protSet (rootScanVar W (rootScanLift W env root) ss root).2.2 root.protBase
          root.protLimit root.pm) ∧
    (root.pm = AccessSetEMPTY →
      rootScanLift W env root = env ∧
      (RootScan W env ss root).2.2.2 =
        (rootScanVar W (rootScanLift W env root) ss root).2.2) := by
  have heq : RootScan W env ss root =
      ((rootScanVar W (rootScanLift W env root) ss root).1,
        (rootScanVar W (rootScanLift W env root) ss root).2.1, root,
        if root.pm ≠ AccessSetEMPTY then
          W.protSet (rootScanVar W (rootScanLift W env root) ss root).2.2 root.protBase
            root.protLimit root.pm
        else (rootScanVar W (rootScanLift W env root) ss root).2.2) := by
    unfold RootScan
    rw [if_neg hgrey]
    simp only
    rw [if_pos hfail]
  rw [heq]
  refine ⟨rfl, rfl, ?_, ?_⟩
  · intro hpm
    constructor
    · unfold rootScanLift
      rw [if_pos hpm]
    · show (if _ then _ else _) = _
      rw [if_pos hpm]
  · intro hpm
    constructor
    · unfold rootScanLift
      rw [if_neg (fun h => h hpm)]
    · show (if _ then _ else _) = _
      rw [if_neg (fun h => h hpm)]

theorem root_scan_failure_restores_witness :
    RootScan sampleRootWorld [] sampleScanState (sampleRoot 0 2) =
      (ResFAIL, sampleScanState, sampleRoot 0 2, [(8192, 12288, 2), (8192, 12288, 0)]) ∧
    (RootScan sampleRootWorld [] sampleScanState (sampleRoot 0 2)).2.2.1 = sampleRoot 0 2 :=
  ⟨by decide,
    (root_scan_failure_restores sampleRootWorld [] sampleScanState (sampleRoot 0 2)
      (by decide) (by decide)).2.1⟩

/-- C25 (RootAccess on a write-barrier hit): for a protectable root whose `pm`
contains `AccessWRITE`, `RootAccess (root, AccessWRITE)` sets the summary of
the root to the universal set, clears `AccessWRITE` from `pm` and leaves the
other bits of `pm` and the other fields of the root as they were, and calls
`ProtSet (protBase, protLimit, pm)` with the new `pm`, which no longer forbids
the write. -/
theorem root_access_write_barrier {E : Type} (W : RootWorld E) (env : E) (root : Root)
    (hprot : root.protectable = true)
    (hpm : root.pm &&& AccessWRITE ≠ AccessSetEMPTY) :
    (RootAccess W env root AccessWRITE).1.summary = W.refSetUNIV ∧
    (RootAccess W env root AccessWRITE).1.pm = andNot root.pm AccessWRITE ∧
    (RootAccess W env root AccessWRITE).1.pm &&& AccessWRITE = AccessSetEMPTY ∧
    root.pm.testBit 1 = true ∧
    (RootAccess W env root AccessWRITE).1.pm.testBit 1 = false ∧
    (∀ i : Nat, i ≠ 1 →
      (RootAccess W env root AccessWRITE).1.pm.testBit i = root.pm.testBit i) ∧
    (RootAccess W env root AccessWRITE).1 =
      { root with summary := W.refSetUNIV, pm := andNot root.pm AccessWRITE } ∧
    (RootAccess W env root AccessWRITE).2 =
      W.protSet env root.protBase root.protLimit (andNot root.pm AccessWRITE) := by
  obtain ⟨h1, h2, _, h4, _, h6, h7, _, _⟩ := rootSetSummary_spec W root W.refSetUNIV hprot
  obtain ⟨h2a, h2b⟩ := h2 rfl
  have hroot : rootSetSummary W root W.refSetUNIV =
      { root with summary := W.refSetUNIV, pm := andNot root.pm AccessWRITE } := by
    unfold rootSetSummary
    rw [if_pos hprot, if_pos rfl]
  have hbit : root.pm.testBit 1 = true := by
    by_contra hb
    apply hpm
    apply Nat.eq_of_testBit_eq
    intro i
    rw [Nat.testBit_and, accessWrite_testBit]
    by_cases hi : i = 1
    · subst hi
      simp [AccessSetEMPTY, hb]
    · simp [AccessSetEMPTY, hi]
  unfold RootAccess
  simp only
  refine ⟨h1, h2a, h2b, hbit, ?_, h4, hroot, ?_⟩
  · rw [h2a, andNot_write_testBit]
    simp
  · rw [h6, h7, h2a]

theorem root_access_write_barrier_witness :
    RootAccess sampleRootWorld [] (sampleRoot 5 3) AccessWRITE =
      ({ sampleRoot 5 1 with summary := 2 ^ 64 - 1 }, [(8192, 12288, 1)]) ∧
    (RootAccess sampleRootWorld [] (sampleRoot 5 3) AccessWRITE).1.pm &&& AccessWRITE
      = AccessSetEMPTY :=
  ⟨by decide,
    (root_access_write_barrier sampleRootWorld [] (sampleRoot 5 3) rfl (by decide)).2.2.1⟩

/-! ## Roots: creation and the root ring -/

theorem set_last {α : Type} (old : List α) (a b : α) :
    (old ++ [a]).set ((old ++ [a]).length - 1) b = old ++ [b] := by
  have h : (old ++ [a]).length - 1 = old.length := by simp
  rw [h, List.set_append_right _ _ (Nat.le_refl _)]
  simp

theorem eraseIdx_last {α : Type} (old : List α) (b : α) (n : Nat) (h : n = old.length) :
    (old ++ [b]).eraseIdx n = old := by
  subst h
  rw [List.eraseIdx_append_of_length_le (Nat.le_refl _)]
  simp

theorem rootRingLoop_others (root x : Root) :
    ∀ (old : List Root) (i : Nat),
      rootRingLoop root (i + old.length) i (old ++ [x]) = old.any (rootsIntersect root) := by
  intro old
  induction old with
  | nil =>
    intro i
    simp [rootRingLoop]
  | cons t rest ih =>
    intro i
    have hne : i ≠ i + (t :: rest).length := by simp
    have hlen : i + (t :: rest).length = (i + 1) + rest.length := by
      simp only [List.length_cons]; omega
    rw [List.cons_append, rootRingLoop, List.any_cons]
    by_cases hx : rootsIntersect root t = true
    · rw [if_pos ⟨hne, hx⟩, hx]
      rfl
    · rw [if_neg (fun h => hx h.2), hlen, ih (i + 1)]
      have : rootsIntersect root t = false := by simpa using hx
      rw [this]
      rfl

theorem rootsIntersect_comm (a b : Root) : rootsIntersect a b = rootsIntersect b a := by
  unfold rootsIntersect
  rw [Bool.and_comm]

theorem rootCreate_eq {E : Type} (W : RootWorld E) (env : E) (globals : Globals)
    (rank mode : Nat) (type : RootVar) (theUnion : RootUnion) :
    ((W.controlAlloc env).1 ≠ ResCode.OK →
      rootCreate W env globals rank mode type theUnion =
        ((W.controlAlloc env).1, none, globals, (W.controlAlloc env).2)) ∧
    ((W.controlAlloc env).1 = ResCode.OK →
      rootCreate W env globals rank mode type theUnion =
        (ResCode.OK,
          some { serial := globals.rootSerial, rank := rank, grey := TraceSetEMPTY,
                 summary := W.refSetUNIV, mode := mode, protectable := false, protBase := 0,
                 protLimit := 0, pm := AccessSetEMPTY, var := type, the := theUnion },
          { rootSerial := wadd W.wordMod globals.rootSerial 1,
            rootRing := globals.rootRing ++
              [{ serial := globals.rootSerial, rank := rank, grey := TraceSetEMPTY,
                 summary := W.refSetUNIV, mode := mode, protectable := false, protBase := 0,
                 protLimit := 0, pm := AccessSetEMPTY, var := type, the := theUnion }] },
          (W.controlAlloc env).2)) := by
  unfold rootCreate
  constructor
  · intro h
    simp only [h, ne_eq, not_false_eq_true, if_true]
  · intro h
    simp only [h, ne_eq, not_true_eq_false, if_false]

theorem rootCreateProtectable_eq {E : Type} (W : RootWorld E) (env : E) (globals : Globals)
    (rank mode : Nat) (var : RootVar) (base limit : Nat) (theUnion : RootUnion) :
    ((W.controlAlloc env).1 ≠ ResCode.OK →
      rootCreateProtectable W env globals rank mode var base limit theUnion =
        ((W.controlAlloc env).1, none, globals, (W.controlAlloc env).2)) ∧
    ((W.controlAlloc env).1 = ResCode.OK →
      rootCreateProtectable W env globals rank mode var base limit theUnion =
        if globals.rootRing.any (rootsIntersect
            (rootProtect W
              { serial := globals.rootSerial, rank := rank, grey := TraceSetEMPTY,
                summary := W.refSetUNIV, mode := mode, protectable := false, protBase := 0,
                protLimit := 0, pm := AccessSetEMPTY, var := var, the := theUnion }
              mode base limit)) = true then
          (ResFAIL, none,
            { rootSerial := wadd W.wordMod globals.rootSerial 1, rootRing := globals.rootRing },
            W.controlFree (W.controlAlloc env).2)
        else
          (ResCode.OK,
            some (rootProtect W
              { serial := globals.rootSerial, rank := rank, grey := TraceSetEMPTY,
                summary := W.refSetUNIV, mode := mode, protectable := false, protBase := 0,
                protLimit := 0, pm := AccessSetEMPTY, var := var, the := theUnion }
              mode base limit),
            { rootSerial := wadd W.wordMod globals.rootSerial 1,
              rootRing := globals.rootRing ++
                [rootProtect W
                  { serial := globals.rootSerial, rank := rank, grey := TraceSetEMPTY,
                    summary := W.refSetUNIV, mode := mode, protectable := false, protBase := 0,
                    protLimit := 0, pm := AccessSetEMPTY, var := var, the := theUnion }
                  mode base limit] },
            (W.controlAlloc env).2)) := by
  obtain ⟨h1, h2⟩ := rootCreate_eq W env globals rank mode var theUnion
  constructor
  · intro h
    unfold rootCreateProtectable
    simp only [h1 h]
  · intro h
    unfold rootCreateProtectable
    simp only [h2 h, set_last]
    have hl : (globals.rootRing ++
        [({ serial := globals.rootSerial, rank := rank, grey := TraceSetEMPTY,
            summary := W.refSetUNIV, mode := mode, protectable := false, protBase := 0,
            protLimit := 0, pm := AccessSetEMPTY, var := var, the := theUnion } : Root)]).length
          - 1 = 0 + globals.rootRing.length := by simp
    rw [hl, rootRingLoop_others]
    split
    · unfold RootDestroy
      simp only [eraseIdx_last _ _ _ (Nat.zero_add _)]
    · rfl

theorem rootProtect_range {E : Type} (W : RootWorld E) (root : Root) (mode base limit : Nat)
    (hb : root.protBase = 0) (hl : root.protLimit = 0) :
    ((rootProtect W root mode base limit).protBase,
      (rootProtect W root mode base limit).protLimit) = protRange W mode base limit := by
  unfold rootProtect protRange
  split
  · split
    · simp only
      split <;> rfl
    · rfl
  · rw [hb, hl]

theorem rootSetSummary_range {E : Type} (W : RootWorld E) (root : Root) (summary : Nat) :
    (rootSetSummary W root summary).protBase = root.protBase ∧
    (rootSetSummary W root summary).protLimit = root.protLimit := by
  unfold rootSetSummary
  split
  · split <;> exact ⟨rfl, rfl⟩
  · exact ⟨rfl, rfl⟩

theorem rootScan_range {E : Type} (W : RootWorld E) (env : E) (ss : ScanState) (root : Root) :
    (RootScan W env ss root).2.2.1.protBase = root.protBase ∧
    (RootScan W env ss root).2.2.1.protLimit = root.protLimit := by
  unfold RootScan
  split
  · exact ⟨rfl, rfl⟩
  · simp only
    split
    · exact ⟨rfl, rfl⟩
    · exact rootSetSummary_range W _ _

theorem rootAccess_range {E : Type} (W : RootWorld E) (env : E) (root : Root) (mode : Nat) :
    (RootAccess W env root mode).1.protBase = root.protBase ∧
    (RootAccess W env root mode).1.protLimit = root.protLimit :=
  rootSetSummary_range W root W.refSetUNIV

theorem ringDisjoint_append {ring : List Root} {root : Root} (h : RingDisjoint ring)
    (hn : ring.any (rootsIntersect root) = false) : RingDisjoint (ring ++ [root]) := by
  unfold RingDisjoint at *
  rw [List.pairwise_append]
  refine ⟨h, List.pairwise_singleton _ _, ?_⟩
  intro a ha b hb
  rw [List.mem_singleton] at hb
  subst hb
  rw [List.any_eq_false] at hn
  rw [rootsIntersect_comm]
  simpa using hn a ha

theorem ringDisjoint_append_zero {ring : List Root} {root : Root} (h : RingDisjoint ring)
    (hl : root.protLimit = 0) : RingDisjoint (ring ++ [root]) := by
  apply ringDisjoint_append h
  rw [List.any_eq_false]
  intro x _
  unfold rootsIntersect
  rw [hl]
  simp

theorem ringDisjoint_set {ring : List Root} {i : Nat} {root root1 : Root}
    (h : RingDisjoint ring) (hi : ring[i]? = some root)
    (hb : root1.protBase = root.protBase) (hl : root1.protLimit = root.protLimit) :
    RingDisjoint (ring.set i root1) := by
  have hkey : ∀ (l : List Root) (j : Nat), l[j]? = some root →
      (l.set j root1).map (fun r => (r.protBase, r.protLimit))
        = l.map (fun r => (r.protBase, r.protLimit)) := by
    intro l
    induction l with
    | nil => intro j hj; simp at hj
    | cons x rest ih =>
      intro j hj
      cases j with
      | zero =>
        simp only [List.getElem?_cons_zero, Option.some.injEq] at hj
        subst hj
        simp [hb, hl]
      | succ k =>
        simp only [List.getElem?_cons_succ] at hj
        simp only [List.set_cons_succ, List.map_cons, ih k hj]
  have hmap : ∀ l : List Root, RingDisjoint l ↔
      (l.map (fun r => (r.protBase, r.protLimit))).Pairwise
        (fun a b => (decide (a.1 < b.2) && decide (b.1 < a.2)) = false) := by
    intro l
    unfold RingDisjoint
    rw [List.pairwise_map]
    rfl
  rw [hmap, hkey ring i hi, ← hmap]
  exact h

theorem ringDisjoint_create {E : Type} (W : RootWorld E) (env : E) (g : Globals)
    (rank mode : Nat) (type : RootVar) (theUnion : RootUnion) (h : RingDisjoint g.rootRing) :
    RingDisjoint (rootCreate W env g rank mode type theUnion).2.2.1.rootRing := by
  obtain ⟨h1, h2⟩ := rootCreate_eq W env g rank mode type theUnion
  by_cases hc : (W.controlAlloc env).1 = ResCode.OK
  · rw [h2 hc]
    exact ringDisjoint_append_zero h rfl
  · rw [h1 hc]
    exact h

theorem ringDisjoint_createProtectable {E : Type} (W : RootWorld E) (env : E) (g : Globals)
    (rank mode : Nat) (var : RootVar) (base limit : Nat) (theUnion : RootUnion)
    (h : RingDisjoint g.rootRing) :
    RingDisjoint
      (rootCreateProtectable W env g rank mode var base limit theUnion).2.2.1.rootRing := by
  obtain ⟨h1, h2⟩ := rootCreateProtectable_eq W env g rank mode var base limit theUnion
  by_cases hc : (W.controlAlloc env).1 = ResCode.OK
  · rw [h2 hc]
    split
    · exact h
    · rename_i hn
      exact ringDisjoint_append h (by simpa using hn)
  · rw [h1 hc]
    exact h

theorem ringDisjoint_step {E : Type} (W : RootWorld E) {s t : Globals × E}
    (hs : RingStep W s t) (h : RingDisjoint s.1.rootRing) : RingDisjoint t.1.rootRing := by
  cases hs
  case createArea g env rank mode base limit scan_area closure =>
    exact ringDisjoint_createProtectable W env g rank mode _ base limit _ h
  case createAreaTagged g env rank mode base limit scan_area mask pattern =>
    exact ringDisjoint_createProtectable W env g rank mode _ base limit _ h
  case createFmt g env rank mode scan base limit =>
    exact ringDisjoint_createProtectable W env g rank mode _ base limit _ h
  case createThread g env rank thread scan_area closure stackCold =>
    exact ringDisjoint_create W env g rank 0 _ _ h
  case createThreadTagged g env rank thread scan_area mask pattern stackCold =>
    exact ringDisjoint_create W env g rank 0 _ _ h
  case createFun g env rank scan p s =>
    exact ringDisjoint_create W env g rank 0 _ _ h
  case destroy g env i =>
    exact List.Pairwise.sublist (List.eraseIdx_sublist _ _) h
  case scan g env i root ss hi =>
    exact ringDisjoint_set h hi (rootScan_range W env ss root).1 (rootScan_range W env ss root).2
  case access g env i root mode hi =>
    exact ringDisjoint_set h hi (rootAccess_range W env root mode).1
      (rootAccess_range W env root mode).2

theorem ringDisjoint_reachable {E : Type} (W : RootWorld E) {s : Globals × E}
    (h : RingReachable W s) : RingDisjoint s.1.rootRing := by
  induction h with
  | init rootSerial env => exact List.Pairwise.nil
  | step _ hs ih => exact ringDisjoint_step W hs ih

/-- C26 (root mutual exclusion): when the protected range computed for a new
area, tagged-area or format root has an address in common with the protected
range of a root on the ring, the creation returns a result that is not OK
(`ResFAIL` when the control pool gave the memory for the root), writes no
root to `rootReturn`, and leaves on the ring the roots that were there before.
In every arena that arises from one without roots by creations (of the six
kinds), destructions, scans and barrier hits, no two roots of the ring pass
the intersection test of `rootCreateProtectable`, and so no address lies in
the protected ranges of two roots of the ring. -/
theorem root_mutual_exclusion {E : Type} (W : RootWorld E) :
    (∀ (env : E) (globals : Globals) (rank mode : Nat) (var : RootVar) (base limit : Nat)
      (theUnion : RootUnion) (trial : Root) (x : Nat),
      trial ∈ globals.rootRing →
      (protRange W mode base limit).1 ≤ x → x < (protRange W mode base limit).2 →
      trial.protBase ≤ x → x < trial.protLimit →
      (rootCreateProtectable W env globals rank mode var base limit theUnion).1
        ≠ ResCode.OK ∧
      ((W.controlAlloc env).1 = ResCode.OK →
        (rootCreateProtectable W env globals rank mode var base limit theUnion).1 = ResFAIL) ∧
      (rootCreateProtectable W env globals rank mode var base limit theUnion).2.1 = none ∧
      (rootCreateProtectable W env globals rank mode var base limit theUnion).2.2.1.rootRing
        = globals.rootRing) ∧
    (∀ (env : E) (globals : Globals) (rank mode base limit scan_area closure mask pattern
      scan : Nat),
      RootCreateArea W env globals rank mode base limit scan_area closure =
        rootCreateProtectable W env globals rank mode RootVar.AREA base limit
          (RootUnion.area base limit scan_area (AreaScanUnion.closure closure)) ∧
      RootCreateAreaTagged W env globals rank mode base limit scan_area mask pattern =
        rootCreateProtectable W env globals rank mode RootVar.AREA_TAGGED base limit
          (RootUnion.area base limit scan_area (AreaScanUnion.tag mask pattern)) ∧
      RootCreateFmt W env globals rank mode scan base limit =
        rootCreateProtectable W env globals rank mode RootVar.FMT base limit
          (RootUnion.fmt scan base limit)) ∧
    (∀ s : Globals × E, RingReachable W s →
      RingDisjoint s.1.rootRing ∧
      ∀ (i j : Nat) (a b : Root) (x : Nat), i < j →
        s.1.rootRing[i]? = some a → s.1.rootRing[j]? = some b →
        ¬ (a.protBase ≤ x ∧ x < a.protLimit ∧ b.protBase ≤ x ∧ x < b.protLimit)) := by
  refine ⟨?_, fun _ _ _ _ _ _ _ _ _ _ _ => ⟨rfl, rfl, rfl⟩, ?_⟩
  · intro env globals rank mode var base limit theUnion trial x hmem h1 h2 h3 h4
    obtain ⟨e1, e2⟩ := rootCreateProtectable_eq W env globals rank mode var base limit theUnion
    by_cases hc : (W.controlAlloc env).1 = ResCode.OK
    · have hr := rootProtect_range W
        { serial := globals.rootSerial, rank := rank, grey := TraceSetEMPTY,
          summary := W.refSetUNIV, mode := mode, protectable := false, protBase := 0,
          protLimit := 0, pm := AccessSetEMPTY, var := var, the := theUnion }
        mode base limit rfl rfl
      simp only [Prod.ext_iff] at hr
      have hany : globals.rootRing.any (rootsIntersect
          (rootProtect W
            { serial := globals.rootSerial, rank := rank, grey := TraceSetEMPTY,
              summary := W.refSetUNIV, mode := mode, protectable := false, protBase := 0,
              protLimit := 0, pm := AccessSetEMPTY, var := var, the := theUnion }
            mode base limit)) = true := by
        rw [List.any_eq_true]
        refine ⟨trial, hmem, ?_⟩
        unfold rootsIntersect
        rw [hr.1, hr.2]
        simp only [Bool.and_eq_true, decide_eq_true_eq]
        constructor <;> omega
      rw [e2 hc, if_pos hany]
      exact ⟨fun h => ResCode.noConfusion h, fun _ => rfl, rfl, rfl⟩
    · rw [e1 hc]
      exact ⟨hc, fun h => absurd h hc, rfl, rfl⟩
  · intro s hs
    have hd := ringDisjoint_reachable W hs
    refine ⟨hd, ?_⟩
    intro i j a b x hij hi hj hx
    unfold RingDisjoint at hd
    rw [List.pairwise_iff_getElem] at hd
    have hi1 := (List.getElem?_eq_some_iff.1 hi)
    have hj1 := (List.getElem?_eq_some_iff.1 hj)
    obtain ⟨hil, hia⟩ := hi1
    obtain ⟨hjl, hjb⟩ := hj1
    have := hd i j hil hjl hij
    rw [hia, hjb] at this
    unfold rootsIntersect at this
    simp only [Bool.and_eq_false_iff, decide_eq_false_iff_not] at this
    omega

theorem root_mutual_exclusion_witness :
    RootCreateArea sampleRootWorld [] sampleGlobals 0 RootModePROTECTABLE 9000 9008 5 0 =
      (ResFAIL, none, { sampleGlobals with rootSerial := 2 }, []) ∧
    (rootCreateProtectable sampleRootWorld [] sampleGlobals 0 RootModePROTECTABLE RootVar.AREA
        9000 9008 (RootUnion.area 9000 9008 5 (AreaScanUnion.closure 0))).2.2.1.rootRing
      = sampleGlobals.rootRing :=
  ⟨by decide,
    ((root_mutual_exclusion sampleRootWorld).1 [] sampleGlobals 0 RootModePROTECTABLE
      RootVar.AREA 9000 9008 (RootUnion.area 9000 9008 5 (AreaScanUnion.closure 0))
      (sampleRoot 5 0) 9000 (by decide) (by decide) (by decide) (by decide)
      (by decide)).2.2.2⟩

theorem addrAlignDown_bounds {addr align : Nat} (ha : 0 < align) :
    align ∣ AddrAlignDown addr align ∧ AddrAlignDown addr align ≤ addr ∧
    addr < AddrAlignDown addr align + align := by
  unfold AddrAlignDown
  exact ⟨Dvd.intro_left _ rfl, Nat.div_mul_le_self _ _, Nat.lt_div_mul_add ha⟩

theorem andNot_modes (mode : Nat) :
    andNot mode (RootModePROTECTABLE ||| RootModePROTECTABLE_INNER) &&&
        (RootModePROTECTABLE ||| RootModePROTECTABLE_INNER) = 0 ∧
    andNot mode (RootModePROTECTABLE ||| RootModePROTECTABLE_INNER) &&& RootModeCONSTANT
      = mode &&& RootModeCONSTANT := by
  refine ⟨andNot_and_self _ _, ?_⟩
  unfold RootModeCONSTANT
  rw [Nat.and_one_is_mod, Nat.and_one_is_mod]
  have h := andNot_testBit mode (RootModePROTECTABLE ||| RootModePROTECTABLE_INNER) 0
  have h6 : (RootModePROTECTABLE ||| RootModePROTECTABLE_INNER).testBit 0 = false := by decide
  rw [h6, Nat.testBit_zero, Nat.testBit_zero] at h
  simp only [Bool.not_false, Bool.and_true, decide_eq_decide] at h
  rcases Nat.mod_two_eq_zero_or_one mode with h0 | h1
  · rcases Nat.mod_two_eq_zero_or_one
      (andNot mode (RootModePROTECTABLE ||| RootModePROTECTABLE_INNER)) with g0 | g1
    · rw [g0, h0]
    · rw [h.1 g1] at h0
      exact absurd h0 (by decide)
  · rw [h.2 h1, h1]

/-- C27 (root protected-range rounding): for a root created by
`rootCreateProtectable` over `[base, limit)`, where `limit` rounded up to the
arena grain is an address.  With mode PROTECTABLE and not PROTECTABLE_INNER
the root is protectable, `protBase` is `base` rounded down and `protLimit` is
`limit` rounded up to a multiple of the grain size, so `[protBase, protLimit)`
contains `[base, limit)`.  With PROTECTABLE_INNER as well, `protBase` is `base`
rounded up and `protLimit` is `limit` rounded down, so the protected range
lies in `[base, limit)`; the root is protectable iff `protBase < protLimit`,
and otherwise both protectable bits of its mode are cleared and the bit
CONSTANT is kept.  Without PROTECTABLE the root is not protectable, and
neither is any thread or function root. -/
theorem root_protected_range_rounding {E : Type} (W : RootWorld E) (env : E)
    (globals : Globals) (rank mode : Nat) (var : RootVar) (base limit : Nat)
    (theUnion : RootUnion) (root : Root) (hg : 0 < W.grainSize) (hlt : base < limit)
    (hfit : limit + W.grainSize - 1 < W.wordMod)
    (hc : (rootCreateProtectable W env globals rank mode var base limit theUnion).2.1
      = some root) :
    (mode &&& RootModePROTECTABLE ≠ 0 → mode &&& RootModePROTECTABLE_INNER = 0 →
      root.protectable = true ∧ root.mode = mode ∧
      root.protBase = base / W.grainSize * W.grainSize ∧
      root.protLimit = (limit + W.grainSize - 1) / W.grainSize * W.grainSize ∧
      W.grainSize ∣ root.protBase ∧ W.grainSize ∣ root.protLimit ∧
      root.protBase ≤ base ∧ base < root.protBase + W.grainSize ∧
      limit ≤ root.protLimit ∧ root.protLimit < limit + W.grainSize) ∧
    (mode &&& RootModePROTECTABLE ≠ 0 → mode &&& RootModePROTECTABLE_INNER ≠ 0 →
      root.protBase = (base + W.grainSize - 1) / W.grainSize * W.grainSize ∧
      root.protLimit = limit / W.grainSize * W.grainSize ∧
      W.grainSize ∣ root.protBase ∧ W.grainSize ∣ root.protLimit ∧
      base ≤ root.protBase ∧ root.protBase < base + W.grainSize ∧
      root.protLimit ≤ limit ∧ limit < root.protLimit + W.grainSize ∧
      (root.protectable = true ↔ root.protBase < root.protLimit) ∧
      (root.protBase < root.protLimit → root.mode = mode) ∧
      (¬ root.protBase < root.protLimit →
        root.mode &&& (RootModePROTECTABLE ||| RootModePROTECTABLE_INNER) = 0 ∧
        root.mode &&& RootModeCONSTANT = mode &&& RootModeCONSTANT)) ∧
    (mode &&& RootModePROTECTABLE = 0 →
      root.protectable = false ∧ root.protBase = 0 ∧ root.protLimit = 0) ∧
    (∀ (rank1 thread scan_area closure mask pattern stackCold scan p s : Nat) (r : Root),
      ((RootCreateThread W env globals rank1 thread scan_area closure stackCold).2.1 = some r ∨
        (RootCreateThreadTagged W env globals rank1 thread scan_area mask pattern
          stackCold).2.1 = some r ∨
        (RootCreateFun W env globals rank1 scan p s).2.1 = some r) →
      r.protectable = false ∧ r.protBase = 0 ∧ r.protLimit = 0) := by
  obtain ⟨e1, e2⟩ := rootCreateProtectable_eq W env globals rank mode var base limit theUnion
  have hroot : root = rootProtect W (freshRoot W globals rank mode var theUnion)
      mode base limit := by
    by_cases hca : (W.controlAlloc env).1 = ResCode.OK
    · rw [e2 hca] at hc
      split at hc
      · simp at hc
      · simp only [Option.some.injEq] at hc
        exact hc.symm
    · rw [e1 hca] at hc
      simp at hc
  have hup : ∀ a : Nat, a ≤ limit → AddrArenaGrainUp W a
      = (a + W.grainSize - 1) / W.grainSize * W.grainSize ∧
      W.grainSize ∣ AddrArenaGrainUp W a ∧ a ≤ AddrArenaGrainUp W a ∧
      AddrArenaGrainUp W a < a + W.grainSize := by
    intro a ha
    have hf : a + W.grainSize - 1 < W.wordMod := by omega
    unfold AddrArenaGrainUp AddrAlignUp
    exact ⟨sizeAlignUp_eq hg hf, sizeAlignUp_bounds hg hf⟩
  have hdown : ∀ a : Nat, AddrArenaGrainDown W a = a / W.grainSize * W.grainSize ∧
      W.grainSize ∣ AddrArenaGrainDown W a ∧ AddrArenaGrainDown W a ≤ a ∧
      a < AddrArenaGrainDown W a + W.grainSize := by
    intro a
    unfold AddrArenaGrainDown
    exact ⟨rfl, addrAlignDown_bounds hg⟩
  refine ⟨?_, ?_, ?_, ?_⟩
  · intro hp hi
    have hr : root =
        { freshRoot W globals rank mode var theUnion with
          protectable := true,
          protBase := AddrArenaGrainDown W base,
          protLimit := AddrArenaGrainUp W limit } := by
      rw [hroot]
      unfold rootProtect
      rw [if_pos hp, if_neg (fun h => h hi)]
    obtain ⟨u1, u2, u3, u4⟩ := hup limit (Nat.le_refl _)
    obtain ⟨d1, d2, d3, d4⟩ := hdown base
    rw [hr]
    exact ⟨rfl, rfl, d1, u1, d2, u2, d3, d4, u3, u4⟩
  · intro hp hi
    obtain ⟨u1, u2, u3, u4⟩ := hup base (Nat.le_of_lt hlt)
    obtain ⟨d1, d2, d3, d4⟩ := hdown limit
    by_cases hne : AddrArenaGrainUp W base < AddrArenaGrainDown W limit
    · have hr : root =
          { freshRoot W globals rank mode var theUnion with
            protectable := true,
            protBase := AddrArenaGrainUp W base,
            protLimit := AddrArenaGrainDown W limit } := by
        rw [hroot]
        unfold rootProtect
        rw [if_pos hp, if_pos hi]
        simp only
        rw [if_neg (fun h => h hne)]
      rw [hr]
      exact ⟨u1, d1, u2, d2, u3, u4, d3, d4, ⟨fun _ => hne, fun _ => rfl⟩, fun _ => rfl,
        fun h => absurd hne h⟩
    · have hr : root =
          { freshRoot W globals rank mode var theUnion with
            protectable := false,
            protBase := AddrArenaGrainUp W base,
            protLimit := AddrArenaGrainDown W limit,
            mode := andNot mode (RootModePROTECTABLE ||| RootModePROTECTABLE_INNER) } := by
        rw [hroot]
        unfold rootProtect
        rw [if_pos hp, if_pos hi]
        simp only
        rw [if_pos hne]
        rfl
      rw [hr]
      refine ⟨u1, d1, u2, d2, u3, u4, d3, d4, ⟨fun h => Bool.noConfusion h, fun h => absurd h hne⟩,
        fun h => absurd h hne, fun _ => andNot_modes mode⟩
  · intro hp
    have hr : root = freshRoot W globals rank mode var theUnion := by
      rw [hroot]
      unfold rootProtect
      rw [if_neg (fun h => h hp)]
    rw [hr]
    exact ⟨rfl, rfl, rfl⟩
  · intro rank1 thread scan_area closure mask pattern stackCold scan p s r h
    have hcre : ∀ (type : RootVar) (u : RootUnion),
        (rootCreate W env globals rank1 0 type u).2.1 = some r →
        r.protectable = false ∧ r.protBase = 0 ∧ r.protLimit = 0 := by
      intro type u hr
      obtain ⟨c1, c2⟩ := rootCreate_eq W env globals rank1 0 type u
      by_cases hca : (W.controlAlloc env).1 = ResCode.OK
      · rw [c2 hca] at hr
        simp only [Option.some.injEq] at hr
        rw [← hr]
        exact ⟨rfl, rfl, rfl⟩
      · rw [c1 hca] at hr
        simp at hr
    rcases h with h | h | h
    · exact hcre _ _ h
    · exact hcre _ _ h
    · exact hcre _ _ h

theorem root_protected_range_rounding_witness :
    (RootCreateArea sampleRootWorld [] ⟨0, []⟩ 0 RootModePROTECTABLE 9000 9008 5 0).2.1 =
      some { sampleRoot 5 0 with
             grey := 0, protBase := 8192, protLimit := 12288,
             the := RootUnion.area 9000 9008 5 (AreaScanUnion.closure 0) } ∧
    8192 ≤ 9000 ∧ 9008 ≤ 12288 :=
  have h := (root_protected_range_rounding sampleRootWorld [] ⟨0, []⟩ 0 RootModePROTECTABLE
    RootVar.AREA 9000 9008 (RootUnion.area 9000 9008 5 (AreaScanUnion.closure 0))
    { sampleRoot 5 0 with
      grey := 0, protBase := 8192, protLimit := 12288,
      the := RootUnion.area 9000 9008 5 (AreaScanUnion.closure 0) }
    (by decide) (by decide) (by decide) (by decide)).1 (by decide) (by decide)
  ⟨by decide, h.2.2.2.2.2.2.1, h.2.2.2.2.2.2.2.2.1⟩

/-! ## The client arena -/

/-- C28 (client arena insufficient-size rejection): `ClientArenaCreate` over a
block of `size` bytes at `base` returns `ResMEMORY`, writes nothing to
`arenaReturn` and leaves the world as it was (no call of the generic arena, of
the boot block or of `ChunkInit`) whenever `size < grainSize * MPS_WORD_WIDTH`
(the product in machine words, as C computes it), or `size` is less than the
aligned size of the arena structure, or the aligned base of the chunk after the
arena structure is above the limit `base + size` of the block.  The grain size
is the grain size asked for, 1 by default, aligned up to
`ARENA_CLIENT_GRAIN_SIZE` and then to `ProtGranularity ()`; when nothing
overflows these are the roundings to multiples and the product is the product
of the numbers. -/
theorem client_arena_insufficient_size {E : Type} (W : ArenaWorld E) (env : E)
    (size base : Nat) (grainArg : Option Nat) :
    ((size < wmul W.wordMod (clientArenaGrainSize W grainArg) W.wordWidth ∨
        size < clArenaSize W ∨
        clientArenaChunkBase W base > wadd W.wordMod base size) →
      ClientArenaCreate W env size base grainArg = (ResMEMORY, none, env)) ∧
    (∀ g : Nat, (match grainArg with | some g => g | none => 1) = g →
      0 < W.clientGrainSize → 0 < W.protGranularity →
      g + W.clientGrainSize - 1 < W.wordMod →
      (g + W.clientGrainSize - 1) / W.clientGrainSize * W.clientGrainSize
        + W.protGranularity - 1 < W.wordMod →
      clientArenaGrainSize W grainArg =
        ((g + W.clientGrainSize - 1) / W.clientGrainSize * W.clientGrainSize
          + W.protGranularity - 1) / W.protGranularity * W.protGranularity ∧
      W.protGranularity ∣ clientArenaGrainSize W grainArg ∧
      g ≤ clientArenaGrainSize W grainArg ∧
      (clientArenaGrainSize W grainArg * W.wordWidth < W.wordMod →
        wmul W.wordMod (clientArenaGrainSize W grainArg) W.wordWidth
          = clientArenaGrainSize W grainArg * W.wordWidth)) := by
  constructor
  · intro h
    unfold ClientArenaCreate
    simp only
    by_cases h1 : size < wmul W.wordMod (clientArenaGrainSize W grainArg) W.wordWidth
    · rw [if_pos h1]
    · rw [if_neg h1]
      by_cases h2 : size < clArenaSize W
      · rw [if_pos h2]
      · rw [if_neg h2]
        have h3 : clientArenaChunkBase W base > wadd W.wordMod base size := by
          rcases h with h | h | h
          · exact absurd h h1
          · exact absurd h h2
          · exact h
        rw [if_pos h3]
  · intro g hg hc hp hf1 hf2
    have e1 : SizeAlignUp W.wordMod g W.clientGrainSize
        = (g + W.clientGrainSize - 1) / W.clientGrainSize * W.clientGrainSize :=
      sizeAlignUp_eq hc hf1
    obtain ⟨_, b2, _⟩ := sizeAlignUp_bounds hc hf1
    rw [e1] at b2
    have e2 := sizeAlignUp_eq (M := W.wordMod) hp hf2
    obtain ⟨c1, c2, _⟩ := sizeAlignUp_bounds (M := W.wordMod) hp hf2
    have hgs : clientArenaGrainSize W grainArg = SizeAlignUp W.wordMod
        ((g + W.clientGrainSize - 1) / W.clientGrainSize * W.clientGrainSize)
        W.protGranularity := by
      unfold clientArenaGrainSize
      rw [hg, e1]
    rw [hgs]
    refine ⟨e2, c1, Nat.le_trans b2 c2, fun h => wmul_eq_mul h⟩

theorem client_arena_insufficient_size_witness :
    ClientArenaCreate sampleArenaWorld 0 100000 65536 none = (ResMEMORY, none, 0) ∧
    clientArenaGrainSize sampleArenaWorld none = 8192 ∧
    (ClientArenaCreate sampleArenaWorld 0 1048576 65536 none).1 = ResCode.OK :=
  ⟨(client_arena_insufficient_size sampleArenaWorld 0 100000 65536 none).1
      (Or.inl (by decide)),
    by decide, by decide⟩

theorem countP_set_le {α : Type} (p : α → Bool) (a : α) :
    ∀ (l : List α) (i : Nat), (l.set i a).countP p ≤ l.countP p + 1 := by
  intro l
  induction l with
  | nil => intro i; simp
  | cons x rest ih =>
    intro i
    cases i with
    | zero =>
      simp only [List.set_cons_zero, List.countP_cons]
      split <;> split <;> omega
    | succ k =>
      simp only [List.set_cons_succ, List.countP_cons]
      have := ih k
      omega

theorem countP_set_clear {α : Type} (p : α → Bool) (a b : α) (hb : p b = true)
    (ha : p a = false) :
    ∀ (l : List α) (i : Nat), l[i]? = some b → (l.set i a).countP p + 1 = l.countP p := by
  intro l
  induction l with
  | nil => intro i h; simp at h
  | cons x rest ih =>
    intro i h
    cases i with
    | zero =>
      simp only [List.getElem?_cons_zero, Option.some.injEq] at h
      subst h
      simp only [List.set_cons_zero, List.countP_cons, hb, ha, if_true]
      simp
    | succ k =>
      simp only [List.getElem?_cons_succ] at h
      simp only [List.set_cons_succ, List.countP_cons]
      have := ih k h
      omega

theorem markLoop_spec (baseIndex pages pool : Nat) :
    ∀ (fuel i : Nat) (chunk : Chunk),
      (markAllocatedLoop baseIndex pages pool fuel i chunk).pages = chunk.pages ∧
      (markAllocatedLoop baseIndex pages pool fuel i chunk).pageShift = chunk.pageShift ∧
      (markAllocatedLoop baseIndex pages pool fuel i chunk).freePages = chunk.freePages ∧
      (markAllocatedLoop baseIndex pages pool fuel i chunk).pageTract.length
        = chunk.pageTract.length ∧
      (markAllocatedLoop baseIndex pages pool fuel i chunk).allocTable.length
        = chunk.allocTable.length ∧
      usedPages (markAllocatedLoop baseIndex pages pool fuel i chunk)
        ≤ usedPages chunk + fuel := by
  intro fuel
  induction fuel with
  | zero =>
    intro i chunk
    exact ⟨rfl, rfl, rfl, rfl, rfl, Nat.le_refl _⟩
  | succ n ih =>
    intro i chunk
    rw [markAllocatedLoop]
    split
    · obtain ⟨h1, h2, h3, h4, h5, h6⟩ := ih (i + 1) (PageAlloc chunk (baseIndex + i) pool)
      refine ⟨h1, h2, h3, ?_, ?_, ?_⟩
      · rw [h4]
        simp [PageAlloc]
      · rw [h5]
        simp [PageAlloc]
      · have hc : usedPages (PageAlloc chunk (baseIndex + i) pool) ≤ usedPages chunk + 1 :=
          countP_set_le _ _ _ _
        omega
    · exact ⟨rfl, rfl, rfl, rfl, rfl, by omega⟩

theorem freeLoop_spec (limitIndex pool : Nat) :
    ∀ (fuel pi : Nat) (chunk : Chunk), pi + fuel = limitIndex →
      (∀ j : Nat, pi ≤ j → j < limitIndex → chunk.pageTract[j]? = some (some pool)) →
      (freeLoop limitIndex fuel pi chunk).pages = chunk.pages ∧
      (freeLoop limitIndex fuel pi chunk).pageShift = chunk.pageShift ∧
      (freeLoop limitIndex fuel pi chunk).freePages = chunk.freePages ∧
      (freeLoop limitIndex fuel pi chunk).pageTract.length = chunk.pageTract.length ∧
      (freeLoop limitIndex fuel pi chunk).allocTable = chunk.allocTable ∧
      usedPages (freeLoop limitIndex fuel pi chunk) + fuel = usedPages chunk := by
  intro fuel
  induction fuel with
  | zero =>
    intro pi chunk _ _
    exact ⟨rfl, rfl, rfl, rfl, rfl, rfl⟩
  | succ n ih =>
    intro pi chunk hsum hall
    rw [freeLoop]
    have hlt : pi < limitIndex := by omega
    rw [if_pos hlt]
    have hall1 : ∀ j : Nat, pi + 1 ≤ j → j < limitIndex →
        (TractFinish chunk pi).pageTract[j]? = some (some pool) := by
      intro j hj1 hj2
      have hne : pi ≠ j := by omega
      simp only [TractFinish, List.getElem?_set_ne hne]
      exact hall j (by omega) hj2
    obtain ⟨h1, h2, h3, h4, h5, h6⟩ := ih (pi + 1) (TractFinish chunk pi) (by omega) hall1
    refine ⟨h1, h2, h3, ?_, h5, ?_⟩
    · rw [h4]
      simp [TractFinish]
    · have hc : usedPages (TractFinish chunk pi) + 1 = usedPages chunk :=
        countP_set_clear (fun t : Option Nat => t.isSome) none (some pool) rfl rfl _ _
          (hall pi (Nat.le_refl _) hlt)
      omega

theorem btResRange_length (bt : List Bool) (base limit : Nat) :
    (BTResRange bt base limit).length = bt.length := by
  simp [BTResRange]

theorem chunkOK_mark (M : Nat) (committed : Nat) (chunk : Chunk) (baseIndex pages pool : Nat)
    (hM : chunk.freePages < M) (hpre : MarkPre chunk baseIndex pages) (hok : ChunkOK chunk) :
    ChunkOK (ClientArenaPagesMarkAllocated M committed chunk baseIndex pages pool).2.2 ∧
    (ClientArenaPagesMarkAllocated M committed chunk baseIndex pages pool).2.2.freePages
      = chunk.freePages - pages ∧
    (ClientArenaPagesMarkAllocated M committed chunk baseIndex pages pool).2.2.pages
      = chunk.pages := by
  obtain ⟨h1, h2, h3, h4, h5, h6⟩ := markLoop_spec baseIndex pages pool pages 0 chunk
  obtain ⟨_, _, _, hfree⟩ := hpre
  obtain ⟨o1, o2, o3⟩ := hok
  have hsub : wsub M chunk.freePages pages = chunk.freePages - pages := wsub_eq_sub hfree hM
  unfold ClientArenaPagesMarkAllocated
  simp only
  rw [h3, hsub]
  refine ⟨⟨?_, ?_, ?_⟩, rfl, h1⟩
  · show (markAllocatedLoop baseIndex pages pool pages 0 chunk).pageTract.length = _
    rw [h4, o1, h1]
  · show (markAllocatedLoop baseIndex pages pool pages 0 chunk).allocTable.length = _
    rw [h5, o2, h1]
  · show chunk.freePages - pages + usedPages (markAllocatedLoop baseIndex pages pool pages 0 chunk)
      ≤ (markAllocatedLoop baseIndex pages pool pages 0 chunk).pages
    rw [h1]
    have : usedPages (markAllocatedLoop baseIndex pages pool pages 0 chunk)
        ≤ usedPages chunk + pages := h6
    omega

theorem chunkOK_free (M : Nat) (committed : Nat) (chunk : Chunk) (base size pool : Nat)
    (hM : chunk.pages < M) (hpre : FreePre committed chunk base size pool)
    (hok : ChunkOK chunk) :
    ChunkOK (ClientArenaFree M committed chunk base size).2 ∧
    (ClientArenaFree M committed chunk base size).2.freePages
      = chunk.freePages + ChunkSizeToPages chunk size ∧
    (ClientArenaFree M committed chunk base size).2.pages = chunk.pages := by
  obtain ⟨_, _, hlt, hle, hall, _⟩ := hpre
  obtain ⟨o1, o2, o3⟩ := hok
  have hfuel : INDEX_OF_ADDR chunk base +
      (INDEX_OF_ADDR chunk base + ChunkSizeToPages chunk size - INDEX_OF_ADDR chunk base)
      = INDEX_OF_ADDR chunk base + ChunkSizeToPages chunk size := by omega
  obtain ⟨h1, h2, h3, h4, h5, h6⟩ := freeLoop_spec
    (INDEX_OF_ADDR chunk base + ChunkSizeToPages chunk size) pool
    (INDEX_OF_ADDR chunk base + ChunkSizeToPages chunk size - INDEX_OF_ADDR chunk base)
    (INDEX_OF_ADDR chunk base) chunk hfuel (fun j hj1 hj2 => (hall j hj1 hj2).1)
  have hcount : usedPages (freeLoop
      (INDEX_OF_ADDR chunk base + ChunkSizeToPages chunk size)
      (INDEX_OF_ADDR chunk base + ChunkSizeToPages chunk size - INDEX_OF_ADDR chunk base)
      (INDEX_OF_ADDR chunk base) chunk) + ChunkSizeToPages chunk size = usedPages chunk := by
    omega
  have hadd : wadd M chunk.freePages (ChunkSizeToPages chunk size)
      = chunk.freePages + ChunkSizeToPages chunk size := by
    apply wadd_eq_add
    omega
  unfold ClientArenaFree
  simp only
  rw [h3, hadd]
  refine ⟨⟨?_, ?_, ?_⟩, rfl, h1⟩
  · show (freeLoop _ _ _ chunk).pageTract.length = (freeLoop _ _ _ chunk).pages
    rw [h4, o1, h1]
  · show (BTResRange (freeLoop _ _ _ chunk).allocTable _ _).length = (freeLoop _ _ _ chunk).pages
    rw [btResRange_length, h5, o2, h1]
  · show chunk.freePages + ChunkSizeToPages chunk size + usedPages (freeLoop _ _ _ chunk)
      ≤ (freeLoop _ _ _ chunk).pages
    rw [h1]
    omega

theorem chunkOK_init {E : Type} (W : ArenaWorld E) (env : E) (chunk0 : Chunk)
    (ht : chunk0.pageTract = List.replicate chunk0.pages none)
    (ha : chunk0.allocTable.length = chunk0.pages) :
    ChunkOK (ClientChunkInit W env chunk0).2.1 ∧
    (ClientChunkInit W env chunk0).2.1.freePages = chunk0.pages ∧
    (ClientChunkInit W env chunk0).2.1.pages = chunk0.pages := by
  have hu : usedPages chunk0 = 0 := by
    unfold usedPages
    rw [ht]
    simp
  have hl : chunk0.pageTract.length = chunk0.pages := by
    rw [ht]
    simp
  unfold ClientChunkInit
  simp only
  split
  · exact ⟨⟨hl, ha, by show chunk0.pages + usedPages chunk0 ≤ chunk0.pages; omega⟩, rfl, rfl⟩
  · exact ⟨⟨hl, ha, by show chunk0.pages + usedPages chunk0 ≤ chunk0.pages; omega⟩, rfl, rfl⟩

theorem chunkStep_pages {M : Nat} {s t : Nat × Chunk} (h : ChunkStep M s t) :
    t.2.pages = s.2.pages := by
  cases h
  case mark committed chunk baseIndex pages pool hpre =>
    exact (markLoop_spec baseIndex pages pool pages 0 chunk).1
  case free committed chunk base size pool hpre =>
    obtain ⟨_, _, hlt, hle, hall, _⟩ := hpre
    have hfuel : INDEX_OF_ADDR chunk base +
        (INDEX_OF_ADDR chunk base + ChunkSizeToPages chunk size - INDEX_OF_ADDR chunk base)
        = INDEX_OF_ADDR chunk base + ChunkSizeToPages chunk size := by omega
    exact (freeLoop_spec _ pool _ _ chunk hfuel (fun j hj1 hj2 => (hall j hj1 hj2).1)).1

theorem chunkOK_step {M : Nat} {s t : Nat × Chunk} (h : ChunkStep M s t)
    (hM : s.2.pages < M) (hok : ChunkOK s.2) : ChunkOK t.2 := by
  cases h
  case mark committed chunk baseIndex pages pool hpre =>
    have hf : chunk.freePages < M := by
      have h3 : chunk.freePages + usedPages chunk ≤ chunk.pages := hok.2.2
      have hM1 : chunk.pages < M := hM
      omega
    exact (chunkOK_mark M committed chunk baseIndex pages pool hf hpre hok).1
  case free committed chunk base size pool hpre =>
    exact (chunkOK_free M committed chunk base size pool hM hpre hok).1

theorem chunkOK_reachable {E : Type} (W : ArenaWorld E) {s : Nat × Chunk}
    (h : ChunkReachable W s) : s.2.pages < W.wordMod → ChunkOK s.2 := by
  induction h with
  | init env committed chunk0 ht ha =>
    intro _
    exact (chunkOK_init W env chunk0 ht ha).1
  | step _ hs ih =>
    intro hM
    have hp := chunkStep_pages hs
    rw [hp] at hM
    exact chunkOK_step hs hM (ih hM)

theorem mark_eq (M : Nat) (committed : Nat) (chunk : Chunk) (baseIndex pages pool : Nat) :
    (ClientArenaPagesMarkAllocated M committed chunk baseIndex pages pool).1 = ResCode.OK ∧
    (ClientArenaPagesMarkAllocated M committed chunk baseIndex pages pool).2.1
      = wadd M committed ((pages <<< chunk.pageShift) % M) ∧
    (ClientArenaPagesMarkAllocated M committed chunk baseIndex pages pool).2.2.freePages
      = wsub M chunk.freePages pages ∧
    (ClientArenaPagesMarkAllocated M committed chunk baseIndex pages pool).2.2.pageShift
      = chunk.pageShift ∧
    (ClientArenaPagesMarkAllocated M committed chunk baseIndex pages pool).2.2.pages
      = chunk.pages := by
  obtain ⟨h1, h2, h3, _, _, _⟩ := markLoop_spec baseIndex pages pool pages 0 chunk
  refine ⟨rfl, ?_, ?_, h2, h1⟩
  · simp only [ClientArenaPagesMarkAllocated, ChunkPagesToSize, h2]
  · simp only [ClientArenaPagesMarkAllocated, h3]

theorem free_eq (M : Nat) (committed : Nat) (chunk : Chunk) (base size : Nat) :
    (ClientArenaFree M committed chunk base size).1 = wsub M committed size ∧
    (ClientArenaFree M committed chunk base size).2.freePages
      = wadd M (freeLoop (INDEX_OF_ADDR chunk base + ChunkSizeToPages chunk size)
          (INDEX_OF_ADDR chunk base + ChunkSizeToPages chunk size - INDEX_OF_ADDR chunk base)
          (INDEX_OF_ADDR chunk base) chunk).freePages (ChunkSizeToPages chunk size) := by
  unfold ClientArenaFree
  exact ⟨rfl, rfl⟩

theorem freeLoop_freePages (limitIndex : Nat) :
    ∀ (fuel pi : Nat) (chunk : Chunk),
      (freeLoop limitIndex fuel pi chunk).freePages = chunk.freePages := by
  intro fuel
  induction fuel with
  | zero => intro pi chunk; rfl
  | succ n ih =>
    intro pi chunk
    rw [freeLoop]
    split
    · rw [ih]
      rfl
    · rfl

/-- C29 (client arena page accounting): `ClientArenaPagesMarkAllocated` on a
run of `pages` pages returns OK, adds `pages << pageShift` to `committed` and
takes `pages` off `freePages`; `ClientArenaFree` of `size` bytes takes `size`
off `committed` and adds `size >> pageShift` to `freePages` (all in machine
words, and as numbers when nothing wraps).  Freeing the run that was marked,
`pages << pageShift` bytes at the address of page `baseIndex`, restores both
counters.  In every state that arises from a chunk as `ClientChunkInit` leaves
it by the two operations under the preconditions they assert, `freePages` is
not more than the pages of the chunk, and marking takes off `freePages` no more
than it holds. -/
theorem client_arena_page_accounting {E : Type} (W : ArenaWorld E) (hM : 0 < W.wordMod)
    (committed : Nat) (chunk : Chunk) (baseIndex pages pool : Nat) :
    ((ClientArenaPagesMarkAllocated W.wordMod committed chunk baseIndex pages pool).1
        = ResCode.OK ∧
      (ClientArenaPagesMarkAllocated W.wordMod committed chunk baseIndex pages pool).2.1
        = wadd W.wordMod committed ((pages <<< chunk.pageShift) % W.wordMod) ∧
      (ClientArenaPagesMarkAllocated W.wordMod committed chunk baseIndex pages pool).2.2.freePages
        = wsub W.wordMod chunk.freePages pages ∧
      (committed + pages * 2 ^ chunk.pageShift < W.wordMod →
        (ClientArenaPagesMarkAllocated W.wordMod committed chunk baseIndex pages pool).2.1
          = committed + pages * 2 ^ chunk.pageShift) ∧
      (pages ≤ chunk.freePages → chunk.freePages < W.wordMod →
        (ClientArenaPagesMarkAllocated W.wordMod committed chunk baseIndex pages
          pool).2.2.freePages = chunk.freePages - pages)) ∧
    (∀ base size : Nat,
      (ClientArenaFree W.wordMod committed chunk base size).1
        = wsub W.wordMod committed size ∧
      (ClientArenaFree W.wordMod committed chunk base size).2.freePages
        = wadd W.wordMod chunk.freePages (size >>> chunk.pageShift) ∧
      (size ≤ committed → committed < W.wordMod →
        (ClientArenaFree W.wordMod committed chunk base size).1 = committed - size) ∧
      (chunk.freePages + (size >>> chunk.pageShift) < W.wordMod →
        (ClientArenaFree W.wordMod committed chunk base size).2.freePages
          = chunk.freePages + (size >>> chunk.pageShift))) ∧
    (committed < W.wordMod → chunk.freePages < W.wordMod →
      pages <<< chunk.pageShift < W.wordMod →
      INDEX_OF_ADDR chunk (chunk.base + (baseIndex <<< chunk.pageShift)) = baseIndex ∧
      ChunkSizeToPages chunk (pages <<< chunk.pageShift) = pages ∧
      (ClientArenaFree W.wordMod
        (ClientArenaPagesMarkAllocated W.wordMod committed chunk baseIndex pages pool).2.1
        (ClientArenaPagesMarkAllocated W.wordMod committed chunk baseIndex pages pool).2.2
        (chunk.base + (baseIndex <<< chunk.pageShift)) (pages <<< chunk.pageShift)).1
        = committed ∧
      (ClientArenaFree W.wordMod
        (ClientArenaPagesMarkAllocated W.wordMod committed chunk baseIndex pages pool).2.1
        (ClientArenaPagesMarkAllocated W.wordMod committed chunk baseIndex pages pool).2.2
        (chunk.base + (baseIndex <<< chunk.pageShift)) (pages <<< chunk.pageShift)).2.freePages
        = chunk.freePages) ∧
    (∀ s : Nat × Chunk, ChunkReachable W s → s.2.pages < W.wordMod →
      s.2.freePages ≤ s.2.pages ∧
      ∀ (baseIndex1 pages1 pool1 : Nat), MarkPre s.2 baseIndex1 pages1 →
        (ClientArenaPagesMarkAllocated W.wordMod s.1 s.2 baseIndex1 pages1 pool1).2.2.freePages
          + pages1 = s.2.freePages) := by
  obtain ⟨m1, m2, m3, m4, m5⟩ :=
    mark_eq W.wordMod committed chunk baseIndex pages pool
  refine ⟨⟨m1, m2, m3, ?_, ?_⟩, ?_, ?_, ?_⟩
  · intro hfit
    rw [m2, Nat.shiftLeft_eq]
    have h1 : pages * 2 ^ chunk.pageShift % W.wordMod = pages * 2 ^ chunk.pageShift :=
      Nat.mod_eq_of_lt (by omega)
    rw [h1]
    exact wadd_eq_add hfit
  · intro hle hlt
    rw [m3]
    exact wsub_eq_sub hle hlt
  · intro base size
    obtain ⟨f1, f2⟩ := free_eq W.wordMod committed chunk base size
    rw [freeLoop_freePages] at f2
    refine ⟨f1, f2, ?_, ?_⟩
    · intro hle hlt
      rw [f1]
      exact wsub_eq_sub hle hlt
    · intro hfit
      rw [f2]
      exact wadd_eq_add hfit
  · intro hc hf hp
    have hidx : INDEX_OF_ADDR chunk (chunk.base + (baseIndex <<< chunk.pageShift))
        = baseIndex := by
      unfold INDEX_OF_ADDR
      rw [Nat.add_sub_cancel_left, Nat.shiftLeft_shiftRight]
    have hpg : ChunkSizeToPages chunk (pages <<< chunk.pageShift) = pages := by
      unfold ChunkSizeToPages
      rw [Nat.shiftLeft_shiftRight]
    refine ⟨hidx, hpg, ?_, ?_⟩
    · rw [(free_eq _ _ _ _ _).1, m2, Nat.mod_eq_of_lt hp]
      apply word_eq (wsub_lt hM _ _) hc
      rw [wsub_cast hM, wadd_cast]
      ring
    · rw [(free_eq _ _ _ _ _).2, freeLoop_freePages, m3]
      have hpg1 : ChunkSizeToPages
          (ClientArenaPagesMarkAllocated W.wordMod committed chunk baseIndex pages pool).2.2
          (pages <<< chunk.pageShift) = pages := by
        unfold ChunkSizeToPages
        rw [m4, Nat.shiftLeft_shiftRight]
      rw [hpg1]
      apply word_eq (wadd_lt hM _ _) hf
      rw [wadd_cast, wsub_cast hM]
      ring
  · intro s hs hlt
    have hok := chunkOK_reachable W hs hlt
    have h3 : s.2.freePages + usedPages s.2 ≤ s.2.pages := hok.2.2
    refine ⟨by omega, ?_⟩
    intro baseIndex1 pages1 pool1 hpre
    have hf : s.2.freePages < W.wordMod := by omega
    rw [(chunkOK_mark W.wordMod s.1 s.2 baseIndex1 pages1 pool1 hf hpre hok).2.1]
    have := hpre.2.2.2
    omega

theorem client_arena_page_accounting_witness :
    ClientArenaPagesMarkAllocated sampleArenaWorld.wordMod 8192 sampleChunk 2 3 7 =
      (ResCode.OK, 8192 + 3 * 8192,
        { sampleChunk with
          freePages := 5,
          allocTable := [true, false, true, true, true, false, false, false],
          pageTract := [none, none, some 7, some 7, some 7, none, none, none] }) ∧
    (ClientArenaFree sampleArenaWorld.wordMod
      (ClientArenaPagesMarkAllocated sampleArenaWorld.wordMod 8192 sampleChunk 2 3 7).2.1
      (ClientArenaPagesMarkAllocated sampleArenaWorld.wordMod 8192 sampleChunk 2 3 7).2.2
      (sampleChunk.base + (2 <<< sampleChunk.pageShift)) (3 <<< sampleChunk.pageShift)).1
      = 8192 ∧
    (ClientArenaFree sampleArenaWorld.wordMod
      (ClientArenaPagesMarkAllocated sampleArenaWorld.wordMod 8192 sampleChunk 2 3 7).2.1
      (ClientArenaPagesMarkAllocated sampleArenaWorld.wordMod 8192 sampleChunk 2 3 7).2.2
      (sampleChunk.base + (2 <<< sampleChunk.pageShift))
      (3 <<< sampleChunk.pageShift)).2.freePages = sampleChunk.freePages :=
  ⟨by decide,
    ((client_arena_page_accounting sampleArenaWorld (by decide) 8192 sampleChunk 2 3 7).2.2.1
      (by decide) (by decide) (by decide)).2.2⟩

/-! ## Protection on Windows -/

/-- C30 (Win32 ProtSet level mapping): for every access set `mode`, `ProtSet`
asks `VirtualProtect` for `PAGE_NOACCESS` if `mode` contains `AccessREAD`,
otherwise for `PAGE_EXECUTE_READ` if `mode` contains `AccessWRITE`, otherwise
for `PAGE_EXECUTE_READWRITE`, over `limit - base` bytes at `base`.  The level
chosen forbids reads if `mode` contains `AccessREAD` and writes if `mode`
contains `AccessWRITE`, and every one of the three levels that does so forbids
at least what the level chosen forbids. -/
theorem protSet_level_mapping {E : Type} (virtualProtect : E → Nat → Nat → Nat → Bool × E)
    (env : E) (base limit mode : Nat) :
    ProtSet virtualProtect env base limit mode =
      (virtualProtect env base (limit - base) (protSetNewProtect mode)).2 ∧
    (mode &&& AccessREAD ≠ 0 → protSetNewProtect mode = PAGE_NOACCESS) ∧
    (mode &&& AccessREAD = 0 → mode &&& AccessWRITE ≠ 0 →
      protSetNewProtect mode = PAGE_EXECUTE_READ) ∧
    (mode &&& AccessREAD = 0 → mode &&& AccessWRITE = 0 →
      protSetNewProtect mode = PAGE_EXECUTE_READWRITE) ∧
    (mode &&& AccessREAD ≠ 0 → pageForbids (protSetNewProtect mode) &&& AccessREAD ≠ 0) ∧
    (mode &&& AccessWRITE ≠ 0 → pageForbids (protSetNewProtect mode) &&& AccessWRITE ≠ 0) ∧
    (∀ level : Nat,
      level = PAGE_NOACCESS ∨ level = PAGE_EXECUTE_READ ∨ level = PAGE_EXECUTE_READWRITE →
      (mode &&& AccessREAD ≠ 0 → pageForbids level &&& AccessREAD ≠ 0) →
      (mode &&& AccessWRITE ≠ 0 → pageForbids level &&& AccessWRITE ≠ 0) →
      pageForbids (protSetNewProtect mode) &&& pageForbids level
        = pageForbids (protSetNewProtect mode)) := by
  have hr : mode &&& AccessREAD ≠ 0 → protSetNewProtect mode = PAGE_NOACCESS := by
    intro h
    unfold protSetNewProtect
    simp only [h, ne_eq, not_false_eq_true, if_true]
  have hw : mode &&& AccessREAD = 0 → mode &&& AccessWRITE ≠ 0 →
      protSetNewProtect mode = PAGE_EXECUTE_READ := by
    intro h1 h2
    unfold protSetNewProtect
    simp only [h1, h2, ne_eq, not_true_eq_false, not_false_eq_true, if_true, if_false]
  have hn : mode &&& AccessREAD = 0 → mode &&& AccessWRITE = 0 →
      protSetNewProtect mode = PAGE_EXECUTE_READWRITE := by
    intro h1 h2
    unfold protSetNewProtect
    simp only [h1, h2, ne_eq, not_true_eq_false, if_false]
  refine ⟨rfl, hr, hw, hn, ?_, ?_, ?_⟩
  · intro h
    rw [hr h]
    decide
  · intro h
    by_cases h1 : mode &&& AccessREAD = 0
    · rw [hw h1 h]
      decide
    · rw [hr h1]
      decide
  · intro level hl hfr hfw
    by_cases h1 : mode &&& AccessREAD = 0
    · by_cases h2 : mode &&& AccessWRITE = 0
      · rw [hn h1 h2]
        rcases hl with rfl | rfl | rfl <;> decide
      · rw [hw h1 h2]
        have h3 := hfw h2
        rcases hl with rfl | rfl | rfl
        · decide
        · decide
        · exact absurd (by decide) h3
    · rw [hr h1]
      have h3 := hfr h1
      rcases hl with rfl | rfl | rfl
      · decide
      · exact absurd (by decide) h3
      · exact absurd (by decide) h3

theorem protSet_level_mapping_witness :
    protSetNewProtect AccessWRITE = PAGE_EXECUTE_READ ∧
    protSetNewProtect (AccessREAD ||| AccessWRITE) = PAGE_NOACCESS ∧
    protSetNewProtect AccessSetEMPTY = PAGE_EXECUTE_READWRITE ∧
    ProtSet (fun (e : List (Nat × Nat × Nat)) b s p => (true, (b, s, p) :: e)) [] 8192 12288
      AccessWRITE = [(8192, 4096, PAGE_EXECUTE_READ)] :=
  ⟨(protSet_level_mapping (fun (e : List (Nat × Nat × Nat)) b s p => (true, (b, s, p) :: e)) []
      8192 12288 AccessWRITE).2.2.1 (by decide) (by decide),
    by decide, by decide, by decide⟩

/-! ## `freelistIterateAndDelete` and the trace of its visits -/

theorem visits_length_le {σ : Type} (visitor : σ → Range → Bool × Bool × σ) :
    ∀ (rs : List Range) (c : σ), (visits visitor c rs).length ≤ rs.length := by
  intro rs
  induction rs with
  | nil => intro c; simp [visits]
  | cons r rs ih =>
    intro c
    rw [visits]
    split
    · simpa using ih _
    · simp

theorem visits_take {σ : Type} (visitor : σ → Range → Bool × Bool × σ) :
    ∀ (rs : List Range) (c : σ),
      (visits visitor c rs).map (fun e => e.1) = rs.take (visits visitor c rs).length := by
  intro rs
  induction rs with
  | nil => intro c; simp [visits]
  | cons r rs ih =>
    intro c
    rw [visits]
    split
    · simpa using ih _
    · simp

theorem visits_stop {σ : Type} (visitor : σ → Range → Bool × Bool × σ) :
    ∀ (rs : List Range) (c : σ),
      (∀ e ∈ (visits visitor c rs).dropLast, e.2.2 = true) ∧
      ((visits visitor c rs).length < rs.length →
        ∃ e, (visits visitor c rs).getLast? = some e ∧ e.2.2 = false) := by
  intro rs
  induction rs with
  | nil => intro c; simp [visits]
  | cons r rs ih =>
    intro c
    rw [visits]
    by_cases h : (visitor c r).2.1 = true
    · simp only [if_pos h]
      obtain ⟨ih1, ih2⟩ := ih (visitor c r).2.2
      constructor
      · intro e he
        cases ht : visits visitor (visitor c r).2.2 rs with
        | nil => rw [ht] at he; simp at he
        | cons x xs =>
          rw [ht, List.dropLast_cons₂] at he
          rcases List.mem_cons.1 he with rfl | he
          · exact h
          · exact ih1 e (by rw [ht]; exact he)
      · intro hlt
        have hlt1 : (visits visitor (visitor c r).2.2 rs).length < rs.length := by
          simpa using hlt
        obtain ⟨e, he, hf⟩ := ih2 hlt1
        refine ⟨e, ?_, hf⟩
        cases ht : visits visitor (visitor c r).2.2 rs with
        | nil => rw [ht] at he; simp at he
        | cons x xs =>
          rw [ht] at he
          rw [List.getLast?_cons_cons]
          exact he
    · simp only [if_neg h]
      constructor
      · intro e he; simp at he
      · intro _
        exact ⟨_, rfl, by simpa using h⟩

theorem size_ge_of_mem {w : Nat} {fl : Freelist} (hv : Valid w fl) {b : FreelistBlock}
    (hb : b ∈ fl.list) : RangeSize (rangeOf fl.alignment b) ≤ fl.size := by
  rw [hv.2.2.2.2.2, ranges_eq]
  obtain ⟨xs, ys, hl⟩ := List.append_of_mem hb
  rw [hl, List.map_append, List.map_cons, totalSize_append, totalSize_cons]
  omega

theorem visitsDeleted_cons (r : Range) (d c : Bool) (t : List (Range × Bool × Bool)) :
    visitsDeleted ((r, d, c) :: t) = if d then r :: visitsDeleted t else visitsDeleted t := by
  cases d <;> simp [visitsDeleted]

theorem visitsKept_cons (r : Range) (d c : Bool) (t : List (Range × Bool × Bool)) :
    visitsKept ((r, d, c) :: t) = if d then visitsKept t else r :: visitsKept t := by
  cases d <;> simp [visitsKept]

theorem iterateLoop_spec {w : Nat} {σ : Type} (visitor : σ → Range → Bool × Bool × σ) :
    ∀ (curs : List FreelistBlock) (fl : Freelist) (closure : σ) (prevs : List FreelistBlock),
      Valid w fl → fl.list = prevs.reverse ++ curs →
      (freelistIterateAndDeleteLoop visitor fl closure prevs curs).2.1.alignment
        = fl.alignment ∧
      (freelistIterateAndDeleteLoop visitor fl closure prevs curs).1 =
        (visits visitor closure (curs.map (rangeOf fl.alignment))).all (fun e => e.2.2) ∧
      (freelistIterateAndDeleteLoop visitor fl closure prevs curs).2.1.list.map
          (rangeOf fl.alignment) =
        prevs.reverse.map (rangeOf fl.alignment) ++
          visitsKept (visits visitor closure (curs.map (rangeOf fl.alignment))) ++
          (curs.map (rangeOf fl.alignment)).drop
            (visits visitor closure (curs.map (rangeOf fl.alignment))).length ∧
      (freelistIterateAndDeleteLoop visitor fl closure prevs curs).2.1.size +
          totalSize (visitsDeleted (visits visitor closure (curs.map (rangeOf fl.alignment))))
        = fl.size ∧
      (freelistIterateAndDeleteLoop visitor fl closure prevs curs).2.1.listSize +
          (visitsDeleted (visits visitor closure (curs.map (rangeOf fl.alignment)))).length
        = fl.listSize ∧
      (freelistIterateAndDeleteLoop visitor fl closure prevs curs).2.2 =
        visitsClosure visitor closure (curs.map (rangeOf fl.alignment)) := by
  intro curs
  induction curs with
  | nil =>
    intro fl closure prevs hv hl
    simp only [List.append_nil] at hl
    simp [freelistIterateAndDeleteLoop, visits, visitsKept, visitsDeleted, visitsClosure,
      totalSize, hl]
  | cons cur next ih =>
    intro fl closure prevs hv hl
    obtain ⟨hokb, _⟩ := valid_blocks hv
    have hmem : cur ∈ fl.list := by rw [hl]; simp
    obtain ⟨hB0, hBlt, hBb, hBl⟩ := hokb cur hmem
    have hsz := size_ge_of_mem hv hmem
    have hpos : 0 < fl.listSize := by rw [hv.2.2.2.2.1, hl]; simp
    obtain ⟨_, _, hal, hls, hsize, hdv⟩ := deleteFromBlock_valid (w := w)
      (R := ⟨cur.base, blockLim fl.alignment cur⟩) hv prevs cur next hl
      (by simp only; omega) (Or.inr (Or.inl rfl)) hBb hBl (Nat.le_refl _) (Nat.le_refl _)
    have hdel : (freelistDeleteFromBlock w fl ⟨cur.base, blockLim fl.alignment cur⟩
        prevs cur next).1 =
        { freelistBlockSetPrevNext fl prevs next (-1) with
          size := (freelistBlockSetPrevNext fl prevs next (-1)).size
            - freelistBlockSize fl cur } := by
      simp [freelistDeleteFromBlock, freelistBlockLimit_eq, RangeSize, freelistBlockSize]
    rw [hdel] at hdv hal hls hsize
    have hlf : leftFrag (rangeOf fl.alignment cur) ⟨cur.base, blockLim fl.alignment cur⟩ = [] := by
      simp [leftFrag, rangeOf]
    have hrf : rightFrag (rangeOf fl.alignment cur) ⟨cur.base, blockLim fl.alignment cur⟩ = [] := by
      simp [rightFrag, rangeOf]
    rw [hlf, hrf] at hls
    simp only [List.length_nil, Nat.add_zero] at hls
    have hr : (⟨cur.base, freelistBlockLimit fl cur⟩ : Range) = rangeOf fl.alignment cur := rfl
    rw [freelistIterateAndDeleteLoop]
    simp only [hr, List.map_cons]
    rw [visits, visitsClosure]
    clear hal hsize hlf hrf hdel
    by_cases hd : (visitor closure (rangeOf fl.alignment cur)).1 = true
    · simp only [hd, if_true]
      by_cases hc : (visitor closure (rangeOf fl.alignment cur)).2.1 = true
      · simp only [hc, if_true, Bool.true_eq_false, if_false]
        obtain ⟨i1, i2, i3, i4, i5, i6⟩ := ih _ (visitor closure (rangeOf fl.alignment cur)).2.2
          prevs hdv (by simp [setPrevNext_list])
        simp only [setPrevNext_alignment, setPrevNext_size, setPrevNext_listSize_neg,
          blockSize_eq] at i1 i2 i3 i4 i5 i6 ⊢
        generalize freelistIterateAndDeleteLoop visitor _ _ prevs next = L at i1 i2 i3 i4 i5 i6 ⊢
        rw [visitsDeleted_cons, visitsKept_cons]
        simp only [if_true]
        refine ⟨i1, ?_, ?_, ?_, ?_, i6⟩
        · rw [i2]; simp
        · rw [i3]; simp
        · rw [totalSize_cons]; omega
        · rw [List.length_cons]; omega
      · have hc1 : (visitor closure (rangeOf fl.alignment cur)).2.1 = false := by
          simpa using hc
        simp only [hc1, if_true, Bool.false_eq_true, if_false]
        rw [visitsDeleted_cons, visitsKept_cons]
        simp only [if_true, setPrevNext_alignment, setPrevNext_size, setPrevNext_listSize_neg,
          blockSize_eq, setPrevNext_list]
        refine ⟨?_, ?_, ?_, ?_, ?_, ?_⟩
        · trivial
        · simp
        · simp [visitsKept]
        · simp only [visitsDeleted, List.filter_nil, List.map_nil, totalSize_cons, totalSize_nil]
          omega
        · simp only [visitsDeleted, List.filter_nil, List.map_nil, List.length_cons,
            List.length_nil]
          omega
        · trivial
    · have hd1 : (visitor closure (rangeOf fl.alignment cur)).1 = false := by simpa using hd
      simp only [hd1, Bool.false_eq_true, if_false]
      by_cases hc : (visitor closure (rangeOf fl.alignment cur)).2.1 = true
      · simp only [hc, if_true, Bool.true_eq_false, if_false]
        obtain ⟨i1, i2, i3, i4, i5, i6⟩ := ih fl (visitor closure (rangeOf fl.alignment cur)).2.2
          (cur :: prevs) hv (by simp [hl])
        generalize freelistIterateAndDeleteLoop visitor _ _ (cur :: prevs) next = L
          at i1 i2 i3 i4 i5 i6 ⊢
        rw [visitsDeleted_cons, visitsKept_cons]
        simp only [Bool.false_eq_true, if_false]
        refine ⟨i1, ?_, ?_, i4, i5, i6⟩
        · rw [i2]; simp
        · rw [i3]; simp
      · have hc1 : (visitor closure (rangeOf fl.alignment cur)).2.1 = false := by
          simpa using hc
        simp only [hc1, if_true, Bool.false_eq_true, if_false]
        rw [visitsDeleted_cons, visitsKept_cons]
        simp only [Bool.false_eq_true, if_false]
        refine ⟨?_, ?_, ?_, ?_, ?_, ?_⟩
        · trivial
        · simp
        · simp [visitsKept, hl]
        · simp [visitsDeleted, totalSize]
        · simp [visitsDeleted]
        · trivial

/-- C32 (IterateAndDelete semantics): on a valid land the stored ranges are in
ascending address order, and `freelistIterateAndDelete` behaves as the trace
`visits` of its visitor on them says: the visitor is called on the first
ranges of the land, in list order and with the whole range of each block,
every call but the last answers "continue", and the trace is shorter than the
land only if its last call asked to stop; the land afterwards holds the visited
ranges on which the visitor did not set the delete flag, followed by the
unvisited ranges, in their order (so a range that was deleted in the call that
asked to stop is gone as well); `size` went down by the sum of the lengths of
the deleted ranges, the block count and the list by their number; the result
is `FALSE` exactly when a call asked to stop; the closure is the one the last
call left; and the land is valid again. -/
theorem iterate_and_delete_semantics {w : Nat} {σ : Type}
    (visitor : σ → Range → Bool × Bool × σ) (fl : Freelist) (closure : σ)
    (hv : Valid w fl) :
    (ranges fl).Pairwise (fun r s => r.base < s.base) ∧
    (visits visitor closure (ranges fl)).map (fun e => e.1) =
      (ranges fl).take (visits visitor closure (ranges fl)).length ∧
    (∀ e ∈ (visits visitor closure (ranges fl)).dropLast, e.2.2 = true) ∧
    ((visits visitor closure (ranges fl)).length < (ranges fl).length →
      ∃ e, (visits visitor closure (ranges fl)).getLast? = some e ∧ e.2.2 = false) ∧
    ranges (freelistIterateAndDelete visitor fl closure).2.1 =
      visitsKept (visits visitor closure (ranges fl)) ++
        (ranges fl).drop (visits visitor closure (ranges fl)).length ∧
    (freelistIterateAndDelete visitor fl closure).2.1.size +
        totalSize (visitsDeleted (visits visitor closure (ranges fl))) = fl.size ∧
    (freelistIterateAndDelete visitor fl closure).2.1.listSize +
        (visitsDeleted (visits visitor closure (ranges fl))).length = fl.listSize ∧
    (freelistIterateAndDelete visitor fl closure).2.1.list.length +
        (visitsDeleted (visits visitor closure (ranges fl))).length = fl.list.length ∧
    ((freelistIterateAndDelete visitor fl closure).1 = false ↔
      ∃ e ∈ visits visitor closure (ranges fl), e.2.2 = false) ∧
    (freelistIterateAndDelete visitor fl closure).2.2 =
      visitsClosure visitor closure (ranges fl) ∧
    Valid w (freelistIterateAndDelete visitor fl closure).2.1 := by
  obtain ⟨i1, i2, i3, i4, i5, i6⟩ := iterateLoop_spec visitor fl.list fl closure [] hv (by simp)
  have hv1 := iterateAndDelete_valid visitor fl closure hv
  have hs := visits_stop visitor (ranges fl) closure
  have hr : ranges (freelistIterateAndDelete visitor fl closure).2.1 =
      visitsKept (visits visitor closure (ranges fl)) ++
        (ranges fl).drop (visits visitor closure (ranges fl)).length := by
    rw [ranges_eq]
    have : (freelistIterateAndDelete visitor fl closure).2.1.alignment = fl.alignment := i1
    rw [this]
    simpa [ranges_eq] using i3
  refine ⟨valid_sorted hv, visits_take visitor (ranges fl) closure, hs.1, hs.2, hr, i4, i5,
    ?_, ?_, i6, hv1⟩
  · have h1 := hv1.2.2.2.2.1
    have h2 := hv.2.2.2.2.1
    have h5 : (freelistIterateAndDelete visitor fl closure).2.1.listSize +
        (visitsDeleted (visits visitor closure (ranges fl))).length = fl.listSize := i5
    omega
  · have h2 : (freelistIterateAndDelete visitor fl closure).1 =
        (visits visitor closure (ranges fl)).all (fun e => e.2.2) := i2
    rw [h2]
    constructor
    · intro h
      by_contra hne
      push_neg at hne
      have : (visits visitor closure (ranges fl)).all (fun e => e.2.2) = true := by
        rw [List.all_eq_true]
        intro e he
        simpa using hne e he
      rw [this] at h
      exact Bool.noConfusion h
    · rintro ⟨e, he, hf⟩
      by_contra hne
      have hall : (visits visitor closure (ranges fl)).all (fun e => e.2.2) = true := by
        simpa using hne
      rw [List.all_eq_true] at hall
      have := hall e he
      rw [hf] at this
      exact Bool.noConfusion this

/-- Witness for C32: on the sample land the visitor keeps `[16,32)` and goes
on, then deletes `[64,96)` and asks to stop. -/
theorem iterate_and_delete_semantics_witness :
    (freelistIterateAndDelete sampleVisitor sampleLand 0).1 = false ∧
    ranges (freelistIterateAndDelete sampleVisitor sampleLand 0).2.1 = [⟨16, 32⟩] ∧
    (freelistIterateAndDelete sampleVisitor sampleLand 0).2.1.size + 32 = sampleLand.size ∧
    (freelistIterateAndDelete sampleVisitor sampleLand 0).2.2 = 2 ∧
    visits sampleVisitor 0 (ranges sampleLand) =
      [(⟨16, 32⟩, false, true), (⟨64, 96⟩, true, false)] ∧
    Valid 8 (freelistIterateAndDelete sampleVisitor sampleLand 0).2.1 :=
  ⟨by decide, by decide, by decide, by decide, by decide,
    (iterate_and_delete_semantics sampleVisitor sampleLand 0 sampleLand_valid).2.2.2.2.2.2.2.2.2.2⟩

/-! ## The shape of a block and its encoding in memory -/

theorem one_testBit (i : Nat) : (1 : Nat).testBit i = decide (i = 0) := by
  have h : (2 ^ 0).testBit i = decide (0 = i) := Nat.testBit_two_pow
  simp only [pow_zero] at h
  rw [h]
  by_cases hi : i = 0
  · simp [hi]
  · have : ¬ 0 = i := fun e => hi e.symm
    simp [hi, this]

theorem tag_tagSet (word : Nat) : freelistTag (freelistTagSet word) = 1 :=
  or_and_self word 1

theorem tag_tagReset (word : Nat) : freelistTag (freelistTagReset word) = 0 :=
  andNot_and_self word 1

theorem tagReset_tagSet (word : Nat) :
    freelistTagReset (freelistTagSet word) = freelistTagReset word := by
  apply Nat.eq_of_testBit_eq
  intro i
  simp only [freelistTagReset, freelistTagSet, andNot_testBit, Nat.testBit_or, one_testBit]
  by_cases hi : i = 0 <;> simp [hi]

theorem tagReset_tagReset (word : Nat) :
    freelistTagReset (freelistTagReset word) = freelistTagReset word := by
  apply Nat.eq_of_testBit_eq
  intro i
  simp only [freelistTagReset, andNot_testBit, one_testBit]
  by_cases hi : i = 0 <;> simp [hi]

theorem even_testBit_zero {n : Nat} (h : 2 ∣ n) : n.testBit 0 = false := by
  rw [Nat.testBit_zero]
  have : n % 2 = 0 := Nat.mod_eq_zero_of_dvd h
  simp [this]

theorem tag_tagCopy {next : Nat} (h : 2 ∣ next) (word : Nat) :
    freelistTag (freelistTagCopy next word) = freelistTag word := by
  apply Nat.eq_of_testBit_eq
  intro i
  simp only [freelistTag, freelistTagCopy, Nat.testBit_and, Nat.testBit_or, one_testBit]
  by_cases hi : i = 0
  · subst hi
    simp [even_testBit_zero h]
  · simp [hi]

theorem tagReset_tagCopy {next : Nat} (h : 2 ∣ next) (word : Nat) :
    freelistTagReset (freelistTagCopy next word) = next := by
  apply Nat.eq_of_testBit_eq
  intro i
  simp only [freelistTagReset, freelistTag, freelistTagCopy, andNot_testBit, Nat.testBit_and,
    Nat.testBit_or, one_testBit]
  by_cases hi : i = 0
  · subst hi
    simp [even_testBit_zero h]
  · simp [hi]

theorem freelistCheck_alignment {w : Nat} {fl : Freelist} (h : FreelistCheck w fl = true) :
    0 < w ∧ w ≤ fl.alignment ∧ w ∣ fl.alignment := by
  simp only [FreelistCheck, AlignCheck, FreelistMinimumAlignment, freelistAlignment,
    Bool.and_eq_true, decide_eq_true_eq] at h
  obtain ⟨⟨⟨⟨⟨⟨⟨h0, _⟩, _⟩, h1⟩, h2⟩, _⟩, _⟩, _⟩ := h
  exact ⟨h0, h1, Nat.dvd_of_mod_eq_zero h2⟩

theorem inPlace_setLimit_spec {w : Nat} {fl : Freelist} (hfl : FreelistCheck w fl = true)
    (block : FreelistBlockUnion) (limit : Nat) (hck : InPlace.FreelistBlockCheck block = true)
    (hb : fl.alignment ∣ block.addr) (hl : fl.alignment ∣ limit) (hlt : block.addr < limit) :
    (InPlace.freelistBlockSetLimit w fl block limit).1 = true ∧
    InPlace.freelistBlockLimit fl (InPlace.freelistBlockSetLimit w fl block limit).2 = limit ∧
    freelistBlockNext (InPlace.freelistBlockSetLimit w fl block limit).2 =
      freelistBlockNext block ∧
    freelistBlockBase (InPlace.freelistBlockSetLimit w fl block limit).2 =
      freelistBlockBase block ∧
    (freelistBlockIsSmall (InPlace.freelistBlockSetLimit w fl block limit).2 ≠ 0 ↔
      limit - block.addr < sizeofLarge w) := by
  obtain ⟨hw0, hwa, _⟩ := freelistCheck_alignment hfl
  have hlm : limit % freelistAlignment fl = 0 := Nat.mod_eq_zero_of_dvd hl
  unfold InPlace.freelistBlockSetLimit
  simp only
  split
  · rename_i hge
    have hlim : InPlace.freelistBlockLimit fl
        { block with next := freelistTagReset block.next, limit := limit } = limit := by
      simp [InPlace.freelistBlockLimit, freelistBlockIsSmall, tag_tagReset]
    refine ⟨?_, hlim, ?_, rfl, ?_⟩
    · simp [hfl, hck, hlm, hlt, hlim, freelistBlockBase]
    · simp [freelistBlockNext, tagReset_tagReset]
    · simp only [freelistBlockIsSmall, tag_tagReset]
      constructor
      · intro h; exact absurd rfl h
      · intro h; omega
  · rename_i hlt2
    have hgap : block.addr + fl.alignment = limit :=
      aligned_gap hwa hb hl hlt (by simpa [sizeofLarge] using hlt2)
    have hlim : InPlace.freelistBlockLimit fl
        { block with next := freelistTagSet block.next } = limit := by
      simp [InPlace.freelistBlockLimit, freelistBlockIsSmall, tag_tagSet, freelistBlockBase,
        freelistAlignment, hgap]
    refine ⟨?_, hlim, ?_, rfl, ?_⟩
    · have hsz : w ≤ limit - block.addr := by omega
      have hbs : InPlace.freelistBlockSize fl { block with next := freelistTagSet block.next }
          = freelistAlignment fl := by
        rw [InPlace.freelistBlockSize, hlim]
        simp only [freelistBlockBase, freelistAlignment]
        omega
      simp [hfl, hck, hlm, hlt, hlim, hbs, hsz, freelistBlockBase]
    · simp [freelistBlockNext, tagReset_tagSet]
    · simp only [freelistBlockIsSmall, tag_tagSet]
      constructor
      · intro _; omega
      · intro _; decide

theorem tagReset_end : freelistTagReset (freelistTagSet freelistEND) = freelistEND := by
  decide

theorem inPlace_init_spec {w : Nat} {fl : Freelist} (hfl : FreelistCheck w fl = true)
    (base limit old : Nat) (hb0 : base ≠ 0) (hb : fl.alignment ∣ base)
    (hl : fl.alignment ∣ limit) (hlt : base < limit) :
    (InPlace.freelistBlockInit w fl base limit old).1 = true ∧
    freelistBlockBase (InPlace.freelistBlockInit w fl base limit old).2 = base ∧
    InPlace.freelistBlockLimit fl (InPlace.freelistBlockInit w fl base limit old).2 = limit ∧
    freelistBlockNext (InPlace.freelistBlockInit w fl base limit old).2 = freelistEND ∧
    (freelistBlockIsSmall (InPlace.freelistBlockInit w fl base limit old).2 ≠ 0 ↔
      limit - base < sizeofLarge w) := by
  have hck0 : InPlace.FreelistBlockCheck
      { addr := base, next := freelistTagSet freelistEND, limit := old } = true := by
    simp [InPlace.FreelistBlockCheck, freelistBlockNext, freelistBlockIsSmall, tag_tagSet, hb0,
      tagReset_end]
  obtain ⟨s1, s2, s3, s4, s5⟩ := inPlace_setLimit_spec hfl
    { addr := base, next := freelistTagSet freelistEND, limit := old } limit hck0 hb hl hlt
  have hnext : freelistBlockNext (InPlace.freelistBlockSetLimit w fl
      { addr := base, next := freelistTagSet freelistEND, limit := old } limit).2
      = freelistEND := by
    rw [s3]
    exact tagReset_end
  have hlim := s2
  have hbase : (InPlace.freelistBlockSetLimit w fl
      { addr := base, next := freelistTagSet freelistEND, limit := old } limit).2.addr = base :=
    s4
  have hck1 : InPlace.FreelistBlockCheck (InPlace.freelistBlockSetLimit w fl
      { addr := base, next := freelistTagSet freelistEND, limit := old } limit).2 = true := by
    unfold InPlace.FreelistBlockCheck
    rw [hnext, hbase]
    by_cases hs : freelistBlockIsSmall (InPlace.freelistBlockSetLimit w fl
        { addr := base, next := freelistTagSet freelistEND, limit := old } limit).2 ≠ 0
    · simp [hb0, hs]
    · have hl2 : (InPlace.freelistBlockSetLimit w fl
          { addr := base, next := freelistTagSet freelistEND, limit := old } limit).2.limit
          = limit := by
        have := hlim
        unfold InPlace.freelistBlockLimit at this
        rw [if_neg hs] at this
        exact this
      simp [hb0, hl2, hlt]
  unfold InPlace.freelistBlockInit
  simp only
  refine ⟨?_, s4, s2, hnext, s5⟩
  have hbm : base % freelistAlignment fl = 0 := Nat.mod_eq_zero_of_dvd hb
  have hlm : limit % freelistAlignment fl = 0 := Nat.mod_eq_zero_of_dvd hl
  simp [hfl, hb0, hbm, hlm, hlt, s1, hck1]

theorem inPlace_setNext_spec {fl : Freelist} (block : FreelistBlockUnion) (next : Nat)
    (hck : InPlace.FreelistBlockCheck block = true) (hn : 2 ∣ next) :
    (InPlace.freelistBlockSetNext block next).1 = true ∧
    InPlace.freelistBlockLimit fl (InPlace.freelistBlockSetNext block next).2 =
      InPlace.freelistBlockLimit fl block ∧
    freelistBlockNext (InPlace.freelistBlockSetNext block next).2 = next ∧
    freelistBlockBase (InPlace.freelistBlockSetNext block next).2 = freelistBlockBase block := by
  refine ⟨hck, ?_, ?_, rfl⟩
  · simp [InPlace.freelistBlockSetNext, InPlace.freelistBlockLimit, freelistBlockIsSmall,
      tag_tagCopy hn, freelistBlockBase]
  · simp [InPlace.freelistBlockSetNext, freelistBlockNext, tagReset_tagCopy hn]

theorem blockOfMemory_setLimit (w : Nat) (fl : Freelist) (block : FreelistBlockUnion)
    (limit : Nat) :
    blockOfMemory (InPlace.freelistBlockSetLimit w fl block limit).2 =
      freelistBlockSetLimit w fl (blockOfMemory block) limit := by
  unfold InPlace.freelistBlockSetLimit freelistBlockSetLimit blockOfMemory
  simp only
  split
  · simp [freelistBlockIsSmall, tag_tagReset]
  · simp [freelistBlockIsSmall, tag_tagSet]

/-- C40 (in-place block encoding is lossless): on a platform whose word size
`w` is even, for a land that passes `FreelistCheck` (so that its alignment is a
multiple of `w`): a block initialised by `freelistBlockInit` at a non-null
aligned `base` with an aligned `limit > base` passes every assertion on the
way and reads back `base` as its base, `limit` as its limit and the end of the
list as its next block, whatever its second word held before;
`freelistBlockSetLimit` of a block that passes `FreelistBlockCheck` to an
aligned limit above its base passes every assertion, makes `freelistBlockLimit`
return that limit and leaves the next block and the base as they were; and
`freelistBlockSetNext` to the end of the list or to an aligned address leaves
the limit and the base as they were and makes that the next block. -/
theorem block_encoding_lossless (w : Nat) (fl : Freelist) (hw : 2 ∣ w)
    (hfl : FreelistCheck w fl = true) :
    (∀ base limit old : Nat, base ≠ 0 → fl.alignment ∣ base → fl.alignment ∣ limit →
      base < limit →
      (InPlace.freelistBlockInit w fl base limit old).1 = true ∧
      freelistBlockBase (InPlace.freelistBlockInit w fl base limit old).2 = base ∧
      InPlace.freelistBlockLimit fl (InPlace.freelistBlockInit w fl base limit old).2
        = limit ∧
      freelistBlockNext (InPlace.freelistBlockInit w fl base limit old).2 = freelistEND) ∧
    (∀ (block : FreelistBlockUnion) (limit : Nat), InPlace.FreelistBlockCheck block = true →
      fl.alignment ∣ block.addr → fl.alignment ∣ limit → block.addr < limit →
      (InPlace.freelistBlockSetLimit w fl block limit).1 = true ∧
      InPlace.freelistBlockLimit fl (InPlace.freelistBlockSetLimit w fl block limit).2
        = limit ∧
      freelistBlockNext (InPlace.freelistBlockSetLimit w fl block limit).2 =
        freelistBlockNext block ∧
      freelistBlockBase (InPlace.freelistBlockSetLimit w fl block limit).2 =
        freelistBlockBase block) ∧
    (∀ (block : FreelistBlockUnion) (next : Nat), InPlace.FreelistBlockCheck block = true →
      (next = freelistEND ∨ fl.alignment ∣ next) →
      (InPlace.freelistBlockSetNext block next).1 = true ∧
      InPlace.freelistBlockLimit fl (InPlace.freelistBlockSetNext block next).2 =
        InPlace.freelistBlockLimit fl block ∧
      freelistBlockNext (InPlace.freelistBlockSetNext block next).2 = next ∧
      freelistBlockBase (InPlace.freelistBlockSetNext block next).2 =
        freelistBlockBase block) := by
  obtain ⟨_, _, hwa⟩ := freelistCheck_alignment hfl
  refine ⟨?_, ?_, ?_⟩
  · intro base limit old hb0 hb hl hlt
    obtain ⟨h1, h2, h3, h4, _⟩ := inPlace_init_spec hfl base limit old hb0 hb hl hlt
    exact ⟨h1, h2, h3, h4⟩
  · intro block limit hck hb hl hlt
    obtain ⟨h1, h2, h3, h4, _⟩ := inPlace_setLimit_spec hfl block limit hck hb hl hlt
    exact ⟨h1, h2, h3, h4⟩
  · intro block next hck hn
    apply inPlace_setNext_spec block next hck
    rcases hn with rfl | hn
    · exact ⟨0, rfl⟩
    · exact Dvd.dvd.trans hw (Dvd.dvd.trans hwa hn)

/-- Witness for C40: 8-byte words and the sample land of alignment 16, with
the block `[32,48)` and the block `[32,64)` read back. -/
theorem block_encoding_lossless_witness :
    InPlace.freelistBlockLimit sampleLand (InPlace.freelistBlockInit 8 sampleLand 32 48 7).2
      = 48 ∧
    freelistBlockNext (InPlace.freelistBlockInit 8 sampleLand 32 48 7).2 = freelistEND ∧
    (InPlace.freelistBlockSetLimit 8 sampleLand
      (InPlace.freelistBlockInit 8 sampleLand 32 48 7).2 64).1 = true :=
  ⟨((block_encoding_lossless 8 sampleLand (by decide) (by decide)).1 32 48 7 (by decide)
      (by decide) (by decide) (by decide)).2.2.1,
    ((block_encoding_lossless 8 sampleLand (by decide) (by decide)).1 32 48 7 (by decide)
      (by decide) (by decide) (by decide)).2.2.2,
    ((block_encoding_lossless 8 sampleLand (by decide) (by decide)).2.1
      (InPlace.freelistBlockInit 8 sampleLand 32 48 7).2 64 (by decide) (by decide)
      (by decide) (by decide)).1⟩

/-- Counterexample for C33: on a platform with 8-byte words a land of alignment
16 is accepted, and the block `[16,32)`, whose length is exactly the alignment,
is written in the large shape: its tag is clear and it stores the limit 32. -/
theorem block_shape_counterexample :
    FreelistCheck 8 (freelistInit 16) = true ∧
    ¬ ((freelistBlockInit 8 (freelistInit 16) 16 32).small = true ↔
      32 - 16 = (freelistInit 16).alignment) ∧
    (freelistBlockInit 8 (freelistInit 16) 16 32).small = false ∧
    (freelistBlockInit 8 (freelistInit 16) 16 32).limit = 32 ∧
    freelistBlockIsSmall (InPlace.freelistBlockInit 8 (freelistInit 16) 16 32 0).2 = 0 := by
  decide

/-- C33, amended (block shape threshold): a block written by
`freelistBlockSetLimit` (and so by `freelistBlockInit`) over an aligned range
`[base, limit)` of a land whose alignment is at least the word size `w` is in
the small shape exactly when its length is less than the size of the large
shape, two words; a small block has exactly the length of the alignment and a
large block stores its limit; so when the alignment is less than two words a
block is small exactly when its length is the alignment, and when the alignment
is two words or more every block is large, whatever its length. -/
theorem block_shape_threshold (w : Nat) (fl : Freelist) (block : FreelistBlock) (limit : Nat)
    (hw : w ≤ fl.alignment) (hb : fl.alignment ∣ block.base) (hl : fl.alignment ∣ limit)
    (hlt : block.base < limit) :
    ((freelistBlockSetLimit w fl block limit).small = true ↔
      limit - block.base < sizeofLarge w) ∧
    ((freelistBlockSetLimit w fl block limit).small = true →
      limit - block.base = fl.alignment) ∧
    ((freelistBlockSetLimit w fl block limit).small = false →
      (freelistBlockSetLimit w fl block limit).limit = limit) ∧
    (fl.alignment < sizeofLarge w →
      ((freelistBlockSetLimit w fl block limit).small = true ↔
        limit - block.base = fl.alignment)) ∧
    (sizeofLarge w ≤ fl.alignment → (freelistBlockSetLimit w fl block limit).small = false) ∧
    ((freelistBlockInit w fl block.base limit).small =
      (freelistBlockSetLimit w fl block limit).small) := by
  have hsmall : (freelistBlockSetLimit w fl block limit).small = true ↔
      limit - block.base < sizeofLarge w := by
    unfold freelistBlockSetLimit
    simp only
    split
    · rename_i h
      simp only [Bool.false_eq_true, false_iff]
      omega
    · rename_i h
      simp only [true_iff]
      omega
  have hge : fl.alignment ≤ limit - block.base := by
    obtain ⟨j, hj⟩ := hb
    obtain ⟨k, hk⟩ := hl
    have hjk : j < k := by
      apply Nat.lt_of_mul_lt_mul_left (a := fl.alignment)
      rw [← hj, ← hk]; exact hlt
    have : fl.alignment * (j + 1) ≤ fl.alignment * k := Nat.mul_le_mul_left _ hjk
    rw [Nat.mul_add, Nat.mul_one] at this
    omega
  have hlen : (freelistBlockSetLimit w fl block limit).small = true →
      limit - block.base = fl.alignment := by
    intro h
    have h1 := hsmall.1 h
    have := aligned_gap hw hb hl hlt (by simpa [sizeofLarge] using h1)
    omega
  refine ⟨hsmall, hlen, ?_, ?_, ?_, ?_⟩
  · unfold freelistBlockSetLimit
    simp only
    split
    · intro _; rfl
    · intro h; exact absurd h (by simp)
  · intro ha
    constructor
    · exact hlen
    · intro h
      exact hsmall.2 (by omega)
  · intro ha
    cases hs : (freelistBlockSetLimit w fl block limit).small
    · rfl
    · have := hsmall.1 hs
      omega
  · unfold freelistBlockInit freelistBlockSetLimit
    simp only
    split <;> rfl

/-- Witness for C33: 8-byte words, a land of alignment 8 and the block
`[16,24)`. -/
theorem block_shape_threshold_witness :
    ((freelistBlockSetLimit 8 (freelistInit 8) ⟨16, true, 0⟩ 24).small = true ↔
      24 - 16 < sizeofLarge 8) ∧
    (freelistBlockSetLimit 8 (freelistInit 8) ⟨16, true, 0⟩ 24).small = true :=
  ⟨(block_shape_threshold 8 (freelistInit 8) ⟨16, true, 0⟩ 24 (by decide) (by decide)
      (by decide) (by decide)).1, by decide⟩

/-! ## Clipping a range to one segment -/

/-- C36 (`MVTCheckFit` agrees with `MVTOneSegOnly`): for every layout of the
segments and every range `[base, limit)` of size at least `min`, `MVTCheckFit`
finds the segments it looks up exactly when `MVTOneSegOnly` does, and then it
returns `TRUE` exactly when the range that `MVTOneSegOnly` produces with the
same `min` has size at least `min`. -/
theorem checkFit_agrees_with_oneSegOnly {E : Type} (W : World E) (mvt : MVT E)
    (base limit min : Nat) (h : min ≤ limit - base) :
    MVTCheckFit W mvt.env base limit min =
      (MVTOneSegOnly W mvt base limit min).map (fun p => decide (min ≤ p.2 - p.1)) := by
  unfold MVTCheckFit MVTOneSegOnly
  cases h1 : W.segOfAddr mvt.env base with
  | none => rfl
  | some seg =>
    simp only
    by_cases hl : limit ≤ seg.limit
    · have hc : limit ≤ seg.limit ∧ limit - base ≥ min := ⟨hl, h⟩
      rw [if_pos hc, if_pos hl]
      simp [h]
    · have hc : ¬ (limit ≤ seg.limit ∧ limit - base ≥ min) := fun hc => hl hc.1
      rw [if_neg hc, if_neg hl]
      by_cases hs : seg.limit - base ≥ min
      · rw [if_pos hs, if_pos hs]
        simp only [Option.map_some', Option.some.injEq]
        exact (decide_eq_true hs).symm
      · rw [if_neg hs, if_neg hs]
        cases h2 : W.segOfAddr mvt.env seg.limit with
        | none => rfl
        | some seg2 =>
          simp only [Option.map_some', Option.some.injEq]
          by_cases hlt : limit < seg2.limit
          · have hng : ¬ limit > seg2.limit := by omega
            rw [if_pos hlt, if_neg hng]
          · by_cases heq : limit = seg2.limit
            · have hng : ¬ limit > seg2.limit := by omega
              rw [if_neg hlt, if_neg hng, heq]
            · have hgt : limit > seg2.limit := by omega
              rw [if_neg hlt, if_pos hgt]

/-- Witness for C36: the sample pool with its one segment `[65536, 69632)`,
the range `[65536, 65648)` and the request 100. -/
theorem checkFit_agrees_with_oneSegOnly_witness :
    MVTCheckFit sampleWorld samplePoolFilled.env 65536 65648 100 = some true ∧
    MVTOneSegOnly sampleWorld samplePoolFilled 65536 65648 100 = some (65536, 65648) ∧
    MVTCheckFit sampleWorld samplePoolFilled.env 65536 65648 100 =
      (MVTOneSegOnly sampleWorld samplePoolFilled 65536 65648 100).map
        (fun p => decide (100 ≤ p.2 - p.1)) :=
  ⟨by decide, by decide,
    checkFit_agrees_with_oneSegOnly sampleWorld samplePoolFilled 65536 65648 100 (by decide)⟩

theorem oneSegOnly_clip {E : Type} (W : World E) (mvt : MVT E) (range : Range) (minSize : Nat)
    (hmin : 0 < minSize) (hfill : minSize ≤ mvt.fillSize)
    (hlay : SegLayout W mvt.env mvt.fillSize range.base range.limit)
    (hsize : minSize ≤ RangeSize range)
    (hacc : 2 * minSize ≤ RangeSize range ∨
      MVTCheckFit W mvt.env range.base range.limit minSize = some true) :
    ∃ base limit seg,
      MVTOneSegOnly W mvt range.base range.limit minSize = some (base, limit) ∧
      range.base ≤ base ∧ limit ≤ range.limit ∧ minSize ≤ limit - base ∧
      W.segOfAddr mvt.env base = some seg ∧ seg.base ≤ base ∧ limit ≤ seg.limit := by
  have hbl : range.base < range.limit := by
    unfold RangeSize at hsize
    omega
  obtain ⟨seg, hseg⟩ := hlay.cover range.base (Nat.le_refl _) hbl
  obtain ⟨hs1, hs2⟩ := hlay.inside _ _ hseg
  unfold RangeSize at hsize hacc
  by_cases hl : range.limit ≤ seg.limit
  · refine ⟨range.base, range.limit, seg, ?_, Nat.le_refl _, Nat.le_refl _, hsize, hseg, hs1, hl⟩
    unfold MVTOneSegOnly
    rw [hseg]
    simp only
    rw [if_pos hl]
  · by_cases hs : seg.limit - range.base ≥ minSize
    · refine ⟨range.base, seg.limit, seg, ?_, Nat.le_refl _, by omega, hs, hseg, hs1,
        Nat.le_refl _⟩
      unfold MVTOneSegOnly
      rw [hseg]
      simp only
      rw [if_neg hl, if_pos hs]
    · obtain ⟨seg2, hseg2⟩ := hlay.cover seg.limit (by omega) (by omega)
      obtain ⟨ht1, ht2⟩ := hlay.inside _ _ hseg2
      have hbase : seg2.base = seg.limit := by
        rcases hlay.disjoint _ _ _ _ hseg hseg2 with h | h | h
        · subst h; omega
        · omega
        · omega
      have hbig := hlay.big _ _ hseg2
      unfold SegSize at hbig
      have hone : MVTOneSegOnly W mvt range.base range.limit minSize =
          some (seg.limit, if range.limit > seg2.limit then seg2.limit else range.limit) := by
        unfold MVTOneSegOnly
        rw [hseg]
        simp only
        rw [if_neg hl, if_neg hs, hseg2]
      by_cases hgt : range.limit > seg2.limit
      · rw [if_pos hgt] at hone
        exact ⟨seg.limit, seg2.limit, seg2, hone, by omega, by omega, by omega, hseg2,
          by omega, Nat.le_refl _⟩
      · rw [if_neg hgt] at hone
        refine ⟨seg.limit, range.limit, seg2, hone, by omega, Nat.le_refl _, ?_, hseg2,
          by omega, by omega⟩
        rcases hacc with h2 | hfit
        · omega
        · unfold MVTCheckFit at hfit
          rw [hseg] at hfit
          simp only at hfit
          rw [if_neg (fun hc => hl hc.1), if_neg hs, hseg2] at hfit
          simp only [Option.some.injEq, decide_eq_true_eq] at hfit
          have hlt : range.limit < seg2.limit ∨ range.limit = seg2.limit := by omega
          rcases hlt with hlt | hlt
          · rw [if_pos hlt] at hfit
            exact hfit
          · rw [hlt] at hfit ⊢
            simpa using hfit

/-- C35 (clipped fills are large enough): let the pool have the reuse size
that `MVTInit` computes, twice the fill size, without overflow; let the
segments under the free range `range` be laid out as `SegLayout` says (each of
at least `fillSize` bytes, without gaps under the range); and let
`0 < minSize ≤ fillSize`.  If `range` has at least `reuseSize` bytes, as every
entry of the ABQ has, or if `MVTContingencyVisitor` accepts it for the request
`minSize`, then `MVTOneSegOnly` finds its segments and the range it produces
lies in `range`, lies in one segment, and has at least `minSize` bytes: the
assertion at the end of `MVTNoteFill` holds for it. -/
theorem clipped_fills_large_enough {E : Type} (W : World E) (mvt : MVT E) (range : Range)
    (minSize : Nat) (found : Option Range)
    (hmin : 0 < minSize) (hfill : minSize ≤ mvt.fillSize)
    (hreuse : mvt.reuseSize = wmul W.wordMod 2 mvt.fillSize)
    (hnw : 2 * mvt.fillSize < W.wordMod)
    (hlay : SegLayout W mvt.env mvt.fillSize range.base range.limit)
    (hacc : mvt.reuseSize ≤ RangeSize range ∨
      ∃ r, MVTContingencyVisitor W mvt ⟨minSize, found⟩ range = some (false, r)) :
    ∃ base limit seg,
      MVTOneSegOnly W mvt range.base range.limit minSize = some (base, limit) ∧
      range.base ≤ base ∧ limit ≤ range.limit ∧ minSize ≤ limit - base ∧
      W.segOfAddr mvt.env base = some seg ∧ seg.base ≤ base ∧ limit ≤ seg.limit ∧
      MVTNoteFillCheck base limit minSize = true := by
  have hr2 : mvt.reuseSize = 2 * mvt.fillSize := by
    rw [hreuse]
    exact wmul_eq_mul hnw
  have hm2 : wmul W.wordMod 2 minSize = 2 * minSize := wmul_eq_mul (by omega)
  have key : minSize ≤ RangeSize range ∧
      (2 * minSize ≤ RangeSize range ∨
        MVTCheckFit W mvt.env range.base range.limit minSize = some true) := by
    rcases hacc with h | ⟨r, h⟩
    · exact ⟨by omega, Or.inl (by omega)⟩
    · unfold MVTContingencyVisitor at h
      simp only at h
      split at h
      · simp at h
      · rename_i hge
        split at h
        · rename_i h2
          rw [hm2] at h2
          exact ⟨by omega, Or.inl h2⟩
        · split at h
          · simp at h
          · rename_i hfit
            exact ⟨by omega, Or.inr hfit⟩
          · simp at h
  obtain ⟨base, limit, seg, h1, h2, h3, h4, h5, h6, h7⟩ :=
    oneSegOnly_clip W mvt range minSize hmin hfill hlay key.1 key.2
  exact ⟨base, limit, seg, h1, h2, h3, h4, h5, h6, h7, by simpa [MVTNoteFillCheck] using h4⟩

theorem sampleTwoSegs_layout (base limit : Nat) (hb : 65536 ≤ base) (hl : limit ≤ 73728) :
    SegLayout sampleWorld samplePoolTwoSegs.env samplePoolTwoSegs.fillSize base limit := by
  have hfind : ∀ addr seg, sampleWorld.segOfAddr samplePoolTwoSegs.env addr = some seg →
      (seg = ⟨69632, 73728⟩ ∧ 69632 ≤ addr ∧ addr < 73728) ∨
      (seg = ⟨65536, 69632⟩ ∧ 65536 ≤ addr ∧ addr < 69632) := by
    intro addr seg h
    simp only [sampleWorld, samplePoolTwoSegs, List.find?] at h
    split at h
    · rename_i h1
      simp only [Option.some.injEq] at h
      left
      simp only [decide_eq_true_eq] at h1
      exact ⟨h.symm, h1.1, h1.2⟩
    · split at h
      · rename_i h1
        simp only [Option.some.injEq] at h
        right
        simp only [decide_eq_true_eq] at h1
        exact ⟨h.symm, h1.1, h1.2⟩
      · simp at h
  refine ⟨?_, ?_, ?_, ?_⟩
  · intro addr h1 h2
    by_cases h : 69632 ≤ addr
    · refine ⟨⟨69632, 73728⟩, ?_⟩
      have hc : 69632 ≤ addr ∧ addr < 73728 := ⟨h, by omega⟩
      simp [sampleWorld, samplePoolTwoSegs, List.find?, hc]
    · refine ⟨⟨65536, 69632⟩, ?_⟩
      have hc : ¬ (69632 ≤ addr ∧ addr < 73728) := fun hc => h hc.1
      have hd : 65536 ≤ addr ∧ addr < 69632 := ⟨by omega, by omega⟩
      have hd1 : 65536 ≤ addr := hd.1
      have hd2 : addr < 69632 := hd.2
      simp [sampleWorld, samplePoolTwoSegs, List.find?, h, hd1, hd2]
  · intro addr seg h
    rcases hfind addr seg h with ⟨rfl, h1, h2⟩ | ⟨rfl, h1, h2⟩
    · exact ⟨h1, h2⟩
    · exact ⟨h1, h2⟩
  · intro a b s t hs ht
    rcases hfind a s hs with ⟨rfl, _, _⟩ | ⟨rfl, _, _⟩ <;>
      rcases hfind b t ht with ⟨rfl, _, _⟩ | ⟨rfl, _, _⟩
    · left; rfl
    · right; right; decide
    · right; left; decide
    · left; rfl
  · intro addr seg h
    rcases hfind addr seg h with ⟨rfl, _, _⟩ | ⟨rfl, _, _⟩ <;> decide

/-- Witness for C35: the sample pool with the segments `[65536, 69632)` and
`[69632, 73728)`, the range `[69600, 69800)`, which the contingency visitor
accepts for the request 100, and its clipping `[69632, 69800)` to the second
segment. -/
theorem clipped_fills_large_enough_witness :
    MVTContingencyVisitor sampleWorld samplePoolTwoSegs ⟨100, none⟩ ⟨69600, 69800⟩ =
      some (false, samplePoolTwoSegs, ⟨100, some ⟨69600, 69800⟩⟩) ∧
    MVTOneSegOnly sampleWorld samplePoolTwoSegs 69600 69800 100 = some (69632, 69800) ∧
    ∃ base limit seg,
      MVTOneSegOnly sampleWorld samplePoolTwoSegs 69600 69800 100 = some (base, limit) ∧
      69600 ≤ base ∧ limit ≤ 69800 ∧ 100 ≤ limit - base ∧
      sampleWorld.segOfAddr samplePoolTwoSegs.env base = some seg ∧ seg.base ≤ base ∧
      limit ≤ seg.limit ∧ MVTNoteFillCheck base limit 100 = true :=
  ⟨rfl, by decide,
    clipped_fills_large_enough sampleWorld samplePoolTwoSegs ⟨69600, 69800⟩ 100 none
      (by decide) (by decide) (by decide) (by decide)
      (sampleTwoSegs_layout 69600 69800 (by decide) (by decide))
      (Or.inr ⟨_, rfl⟩)⟩

/-! ## The area scanners stop at the first fix error -/

theorem scanArea_fails_at {S : Type} (fix1 : S → Nat → Bool × S)
    (fix2 : S → Nat → ResCode × Nat × S) (test : Nat → Bool) (mask : Nat) :
    ∀ (area : List Nat) (ss : S),
      (MPS_SCAN_AREA fix1 fix2 test mask ss area).1 ≠ ResCode.OK →
      ∃ (pre : List Nat) (word : Nat) (post : List Nat),
        area = pre ++ word :: post ∧
        (MPS_SCAN_AREA fix1 fix2 test mask ss pre).1 = ResCode.OK ∧
        FixFailsAt fix1 fix2 test mask (MPS_SCAN_AREA fix1 fix2 test mask ss pre).2.1 word := by
  intro area
  induction area with
  | nil =>
    intro ss h
    rw [scanArea_nil] at h
    exact absurd rfl h
  | cons w rest ih =>
    intro ss h
    rw [scanArea_cons] at h
    by_cases ht : test (w &&& mask) = true
    · rw [if_pos ht] at h
      by_cases h1 : (fix1 ss (w ^^^ (w &&& mask))).1 = true
      · rw [if_pos h1] at h
        by_cases h2 :
            (fix2 (fix1 ss (w ^^^ (w &&& mask))).2 (w ^^^ (w &&& mask))).1 = ResCode.OK
        · rw [if_pos h2] at h
          obtain ⟨pre, word, post, e, hok, hf⟩ := ih _ h
          refine ⟨w :: pre, word, post, by rw [e]; rfl, ?_, ?_⟩
          · rw [scanArea_cons, if_pos ht, if_pos h1, if_pos h2]
            exact hok
          · rw [scanArea_cons, if_pos ht, if_pos h1, if_pos h2]
            exact hf
        · refine ⟨[], w, rest, rfl, ?_, ?_⟩
          · rw [scanArea_nil]
          · rw [scanArea_nil]
            exact ⟨ht, h1, h2⟩
      · rw [if_neg h1] at h
        obtain ⟨pre, word, post, e, hok, hf⟩ := ih _ h
        refine ⟨w :: pre, word, post, by rw [e]; rfl, ?_, ?_⟩
        · rw [scanArea_cons, if_pos ht, if_neg h1]
          exact hok
        · rw [scanArea_cons, if_pos ht, if_neg h1]
          exact hf
    · rw [if_neg ht] at h
      obtain ⟨pre, word, post, e, hok, hf⟩ := ih _ h
      refine ⟨w :: pre, word, post, by rw [e]; rfl, ?_, ?_⟩
      · rw [scanArea_cons, if_neg ht]
        exact hok
      · rw [scanArea_cons, if_neg ht]
        exact hf

theorem scanArea_stops {S : Type} (fix1 : S → Nat → Bool × S)
    (fix2 : S → Nat → ResCode × Nat × S) (test : Nat → Bool) (mask : Nat) :
    StopsAtFirstError fix1 fix2 test mask (MPS_SCAN_AREA fix1 fix2 test mask) := by
  refine ⟨?_, ?_, ?_⟩
  · intro ss pre word post hok hf
    obtain ⟨ht, h1, h2⟩ := hf
    rw [scanArea_append, if_pos hok, scanArea_cons, if_pos ht, if_pos h1, if_neg h2]
  · intro ss area h
    exact scanArea_fails_at fix1 fix2 test mask area ss h
  · intro ss area
    exact scanArea_length fix1 fix2 test mask area ss

/-- C38 (area scan stops at the first fix error): each of the four area
scanners stops at the first fix error in the sense of `StopsAtFirstError`, with
its own test on the tag bits and its own mask.  If the words in front of a word
are scanned without error and the fix step returns a result other than `ResOK`
for that word, the scanner returns that result, the words in front hold what
their own scan wrote, and that word and every later word are as they were; a
scanner that returns a result other than `ResOK` has met such a word, so if no
fix fails the scanner returns `ResOK`. -/
theorem area_scan_stops_at_first_error {S : Type} (fix1 : S → Nat → Bool × S)
    (fix2 : S → Nat → ResCode × Nat × S) (tag : ScanTag) :
    StopsAtFirstError fix1 fix2 (fun _ => true) 0 (mps_scan_area fix1 fix2) ∧
    StopsAtFirstError fix1 fix2 (fun _ => true) tag.mask
      (fun ss area => mps_scan_area_masked fix1 fix2 ss area tag) ∧
    StopsAtFirstError fix1 fix2 (fun tag_bits => tag_bits == tag.pattern) tag.mask
      (fun ss area => mps_scan_area_tagged fix1 fix2 ss area tag) ∧
    StopsAtFirstError fix1 fix2 (fun tag_bits => tag_bits == 0 || tag_bits == tag.pattern)
      tag.mask (fun ss area => mps_scan_area_tagged_or_zero fix1 fix2 ss area tag) := by
  refine ⟨?_, ?_, ?_, ?_⟩
  · exact scanArea_stops fix1 fix2 (fun _ => true) 0
  · exact scanArea_stops fix1 fix2 (fun _ => true) tag.mask
  · exact scanArea_stops fix1 fix2 (fun tag_bits => tag_bits == tag.pattern) tag.mask
  · exact scanArea_stops fix1 fix2 (fun tag_bits => tag_bits == 0 || tag_bits == tag.pattern)
      tag.mask

/-- Witness for C38: the tagged scanner with mask 7 and pattern 1 on the words
33, 7, 49 and 65, where the fix of the reference 48 fails with the result code
3: the word 33 was fixed to 49, and 49 and 65 are as they were. -/
theorem area_scan_stops_at_first_error_witness :
    mps_scan_area_tagged sampleFix1 sampleFix2Failing [] ([33, 7] ++ 49 :: [65]) ⟨7, 1⟩ =
      (ResCode.failure 3, [48, 32], [49, 7] ++ 49 :: [65]) :=
  (area_scan_stops_at_first_error sampleFix1 sampleFix2Failing ⟨7, 1⟩).2.2.1.1 [] [33, 7] 49
    [65] (by decide) ⟨by decide, by decide, by decide⟩

/-! ## The segment size of the stress pool -/

theorem sizeArenaGrains_wrap {E : Type} (W : World E) {size : Nat}
    (hg : W.grainSize ≤ W.wordMod) (hs : size < W.wordMod)
    (hov : W.wordMod ≤ size + W.grainSize - 1) : SizeArenaGrains W size = 0 := by
  unfold SizeArenaGrains SizeAlignUp
  have h1 : wadd W.wordMod size W.grainSize = size + W.grainSize - W.wordMod := by
    unfold wadd
    have hge : size + W.grainSize ≥ W.wordMod := by omega
    have hlt : size + W.grainSize - W.wordMod < W.wordMod := by omega
    rw [Nat.mod_eq_sub_mod hge, Nat.mod_eq_of_lt hlt]
  have h2 : wsub W.wordMod (wadd W.wordMod size W.grainSize) 1 =
      size + W.grainSize - W.wordMod - 1 := by
    rw [h1]
    have ha : 1 ≤ size + W.grainSize - W.wordMod := by omega
    have hb : size + W.grainSize - W.wordMod < W.wordMod := by omega
    exact wsub_eq_sub ha hb
  rw [h2, Nat.div_eq_of_lt (by omega), Nat.zero_mul]

/-- C39 (stress-pool segment sizing): let the arena grain be positive and at
most the word modulus, and let `size > 0` be a machine word.  If neither the
rounding of `size` up to whole arena grains nor the doubling overflows,
`AMSTSegSizePolicy` returns `ResOK` and writes exactly twice the rounded size.
If the rounding overflows it wraps to 0, and if the doubling overflows it wraps
to a value that is not greater than the rounded size; in both cases, and
whenever the rounded size is 0 or the doubled value is not greater than it, the
function returns `ResMEMORY` and writes nothing.  It never returns `ResOK` with
a size that is not greater than the rounded request, and what it returns with
`ResOK` is exactly twice the request rounded up. -/
theorem amst_seg_size_policy {E : Type} (W : World E) (size : Nat) (hsize : 0 < size)
    (hg0 : 0 < W.grainSize) (hg : W.grainSize ≤ W.wordMod) (hs : size < W.wordMod) :
    (size + W.grainSize - 1 < W.wordMod →
      2 * ((size + W.grainSize - 1) / W.grainSize * W.grainSize) < W.wordMod →
      AMSTSegSizePolicy W size =
        (ResCode.OK, some (2 * ((size + W.grainSize - 1) / W.grainSize * W.grainSize)))) ∧
    (W.wordMod ≤ size + W.grainSize - 1 →
      SizeArenaGrains W size = 0 ∧ AMSTSegSizePolicy W size = (ResMEMORY, none)) ∧
    (size + W.grainSize - 1 < W.wordMod →
      W.wordMod ≤ 2 * ((size + W.grainSize - 1) / W.grainSize * W.grainSize) →
      wadd W.wordMod (SizeArenaGrains W size) (SizeArenaGrains W size)
        ≤ SizeArenaGrains W size ∧
      AMSTSegSizePolicy W size = (ResMEMORY, none)) ∧
    (SizeArenaGrains W size = 0 ∨
        wadd W.wordMod (SizeArenaGrains W size) (SizeArenaGrains W size)
          ≤ SizeArenaGrains W size →
      AMSTSegSizePolicy W size = (ResMEMORY, none)) ∧
    (∀ want : Nat, AMSTSegSizePolicy W size = (ResCode.OK, some want) →
      SizeArenaGrains W size < want ∧ size ≤ SizeArenaGrains W size ∧
      want = 2 * ((size + W.grainSize - 1) / W.grainSize * W.grainSize)) ∧
    (AMSTSegSizePolicy W size = (ResMEMORY, none) ∨
      ∃ want, AMSTSegSizePolicy W size = (ResCode.OK, some want)) := by
  have hup : size + W.grainSize - 1 < W.wordMod →
      SizeArenaGrains W size = (size + W.grainSize - 1) / W.grainSize * W.grainSize ∧
      size ≤ SizeArenaGrains W size := by
    intro hfit
    exact ⟨sizeAlignUp_eq hg0 hfit, (sizeAlignUp_bounds hg0 hfit).2.1⟩
  have hblt : SizeArenaGrains W size < W.wordMod := by
    unfold SizeArenaGrains SizeAlignUp
    have h1 := Nat.div_mul_le_self (wsub W.wordMod (wadd W.wordMod size W.grainSize) 1)
      W.grainSize
    have h2 := wsub_lt (M := W.wordMod) (by omega)
      (wadd W.wordMod size W.grainSize) 1
    omega
  have hmem : (SizeArenaGrains W size = 0 ∨
      wadd W.wordMod (SizeArenaGrains W size) (SizeArenaGrains W size)
        ≤ SizeArenaGrains W size) → AMSTSegSizePolicy W size = (ResMEMORY, none) := by
    intro h
    unfold AMSTSegSizePolicy
    simp only
    by_cases h0 : SizeArenaGrains W size = 0
    · rw [if_pos h0]
    · rw [if_neg h0]
      rcases h with h | h
      · exact absurd h h0
      · rw [if_pos h]
  have hok : ∀ want : Nat, AMSTSegSizePolicy W size = (ResCode.OK, some want) →
      SizeArenaGrains W size ≠ 0 ∧
      want = wadd W.wordMod (SizeArenaGrains W size) (SizeArenaGrains W size) ∧
      SizeArenaGrains W size < want := by
    intro want h
    unfold AMSTSegSizePolicy at h
    simp only at h
    by_cases h0 : SizeArenaGrains W size = 0
    · rw [if_pos h0] at h
      simp [ResMEMORY] at h
    · rw [if_neg h0] at h
      by_cases h1 : wadd W.wordMod (SizeArenaGrains W size) (SizeArenaGrains W size)
          ≤ SizeArenaGrains W size
      · rw [if_pos h1] at h
        simp [ResMEMORY] at h
      · rw [if_neg h1] at h
        simp only [Prod.mk.injEq, Option.some.injEq, true_and] at h
        exact ⟨h0, h.symm, by omega⟩
  have hwrap : ∀ b : Nat, b < W.wordMod → W.wordMod ≤ 2 * b →
      wadd W.wordMod b b ≤ b := by
    intro b hb h2
    unfold wadd
    have hge : b + b ≥ W.wordMod := by omega
    have hlt : b + b - W.wordMod < W.wordMod := by omega
    rw [Nat.mod_eq_sub_mod hge, Nat.mod_eq_of_lt hlt]
    omega
  refine ⟨?_, ?_, ?_, hmem, ?_, ?_⟩
  · intro hfit h2
    obtain ⟨e, hle⟩ := hup hfit
    unfold AMSTSegSizePolicy
    simp only
    have h0 : SizeArenaGrains W size ≠ 0 := by omega
    have hw : wadd W.wordMod (SizeArenaGrains W size) (SizeArenaGrains W size) =
        2 * SizeArenaGrains W size := by
      rw [wadd_eq_add (by rw [e]; omega)]
      omega
    rw [if_neg h0, hw, if_neg (by omega), e]
  · intro hov
    have h0 := sizeArenaGrains_wrap W hg hs hov
    exact ⟨h0, hmem (Or.inl h0)⟩
  · intro hfit h2
    obtain ⟨e, _⟩ := hup hfit
    have h1 := hwrap (SizeArenaGrains W size) hblt (by rw [e]; exact h2)
    exact ⟨h1, hmem (Or.inr h1)⟩
  · intro want h
    obtain ⟨h0, hw, hlt⟩ := hok want h
    have hfit : size + W.grainSize - 1 < W.wordMod := by
      by_contra hc
      exact h0 (sizeArenaGrains_wrap W hg hs (by omega))
    obtain ⟨e, hle⟩ := hup hfit
    refine ⟨hlt, hle, ?_⟩
    have hnw : 2 * SizeArenaGrains W size < W.wordMod := by
      by_contra hc
      have := hwrap (SizeArenaGrains W size) hblt (by omega)
      omega
    rw [hw, wadd_eq_add (by omega), ← e]
    omega
  · by_cases h : SizeArenaGrains W size = 0 ∨
        wadd W.wordMod (SizeArenaGrains W size) (SizeArenaGrains W size)
          ≤ SizeArenaGrains W size
    · exact Or.inl (hmem h)
    · right
      push_neg at h
      refine ⟨wadd W.wordMod (SizeArenaGrains W size) (SizeArenaGrains W size), ?_⟩
      unfold AMSTSegSizePolicy
      simp only
      rw [if_neg h.1, if_neg (by omega)]

/-- Witness for C39: 64-bit words and grains of 4096 bytes; the request 5000
gives 16384, and the request `2 ^ 63` is refused. -/
theorem amst_seg_size_policy_witness :
    AMSTSegSizePolicy sampleWorld 5000 = (ResCode.OK, some 16384) ∧
    AMSTSegSizePolicy sampleWorld (2 ^ 63) = (ResMEMORY, none) :=
  ⟨(amst_seg_size_policy sampleWorld 5000 (by decide) (by decide) (by decide)
      (by decide)).1 (by decide) (by decide),
    ((amst_seg_size_policy sampleWorld (2 ^ 63) (by decide) (by decide) (by decide)
      (by decide)).2.2.1 (by decide) (by decide)).2⟩

/-! ## Creation of roots: validation and consistency -/

/-- C31 (thread-root creation rejects a null cold end of the stack): for every
arena (the globals and the world in any state) and every thread,
`mps_root_create_thread` with a null `cold` ends in the failure of the
assertion `cold != NULL` of `mpsi.c`: it returns nothing, so neither success
nor a root, and `RootCreateThread` is not reached.  That check is the one of
the interface: `RootCreateThread` itself takes a null `stackCold` like any
other, and when the control pool has room it appends the root to the ring and
returns `ResOK`. -/
theorem thread_root_rejects_null_cold {E : Type} (W : RootWorld E) (env : E)
    (globals : Globals) (rank scan_area closure thread : Nat) :
    mps_root_create_thread W env globals rank scan_area closure thread 0 =
      Except.error { file := "mpsi.c", condition := "cold != NULL" } ∧
    (∀ r, mps_root_create_thread W env globals rank scan_area closure thread 0
      ≠ Except.ok r) ∧
    (∀ cold : Nat, cold ≠ 0 →
      mps_root_create_thread W env globals rank scan_area closure thread cold =
        Except.ok (RootCreateThread W env globals rank thread scan_area closure cold)) ∧
    ((W.controlAlloc env).1 = ResCode.OK →
      (RootCreateThread W env globals rank thread scan_area closure 0).1 = ResCode.OK ∧
      (RootCreateThread W env globals rank thread scan_area closure 0).2.2.1.rootRing =
        globals.rootRing ++
          [freshRoot W globals rank 0 RootVar.THREAD
            (RootUnion.thread thread scan_area (AreaScanUnion.closure closure) 0)]) := by
  refine ⟨?_, ?_, ?_, ?_⟩
  · simp [mps_root_create_thread]
  · intro r h
    simp [mps_root_create_thread] at h
  · intro cold hc
    simp [mps_root_create_thread, hc]
  · intro h
    simp [RootCreateThread, rootCreate, h, freshRoot]

/-- C37, at the failing input: in the sample world (grains of 4096 bytes) the
creation of an area root over `[4104, 4200)`, which contains no whole grain,
with the mode `RootModePROTECTABLE | RootModePROTECTABLE_INNER` returns `ResOK`
and a root that is not protectable but has the protected range `8192` to
`4096`: the clauses of `RootCheck` on the protection fail for it.  With the
mode `RootModePROTECTABLE` alone the root over the same range passes them, and
so does every root as `rootCreate` returns it. -/
theorem rootCreateProtectable_inner_no_grain :
    (RootCreateArea sampleRootWorld [] ⟨0, []⟩ 0
        (RootModePROTECTABLE ||| RootModePROTECTABLE_INNER) 4104 4200 5 0).1 = ResCode.OK ∧
    (RootCreateArea sampleRootWorld [] ⟨0, []⟩ 0
        (RootModePROTECTABLE ||| RootModePROTECTABLE_INNER) 4104 4200 5 0).2.1 =
      some { serial := 0, rank := 0, grey := 0, summary := 2 ^ 64 - 1, mode := 0,
             protectable := false, protBase := 8192, protLimit := 4096, pm := 0,
             var := RootVar.AREA,
             the := RootUnion.area 4104 4200 5 (AreaScanUnion.closure 0) } ∧
    ((RootCreateArea sampleRootWorld [] ⟨0, []⟩ 0
        (RootModePROTECTABLE ||| RootModePROTECTABLE_INNER) 4104 4200 5 0).2.1.map
      RootCheckProtection) = some false ∧
    ((RootCreateArea sampleRootWorld [] ⟨0, []⟩ 0 RootModePROTECTABLE 4104 4200 5 0).2.1.map
      RootCheckProtection) = some true ∧
    ((RootCreateFun sampleRootWorld [] ⟨0, []⟩ 0 5 0 0).2.1.map RootCheckProtection)
      = some true := by
  decide

/-! ## The queue of the MVT pool stays consistent with the land -/

theorem overlap_iff (r s : Range) :
    RangesOverlap r s = true ↔ r.base < s.limit ∧ s.base < r.limit := by
  simp [RangesOverlap]

theorem overlap_false_iff (r s : Range) :
    RangesOverlap r s = false ↔ s.limit ≤ r.base ∨ r.limit ≤ s.base := by
  rw [← Bool.not_eq_true, overlap_iff]
  constructor
  · intro h
    by_contra hc
    push_neg at hc
    exact h ⟨hc.1, hc.2⟩
  · rintro h ⟨h1, h2⟩
    omega

theorem overlap_comm (r s : Range) : RangesOverlap r s = RangesOverlap s r := by
  simp [RangesOverlap, Bool.and_comm]

theorem landOK_ne {L : List Range} (hL : LandOK L) {x y : Range} (hx : x ∈ L) (hy : y ∈ L)
    (hne : x ≠ y) : RangesOverlap x y = false := by
  rcases hL.2 x hx y hy with h | h
  · exact absurd h hne
  · exact h

theorem landOK_delete {L L1 : List Range} {old r : Range} (hL : LandOK L) (hold : old ∈ L)
    (h1 : old.base ≤ r.base) (h2 : r.limit ≤ old.limit) (hr : r.base < r.limit)
    (hchar : ∀ x, x ∈ L1 ↔
      (x ∈ L ∧ x ≠ old) ∨ (x = ⟨old.base, r.base⟩ ∧ old.base < r.base) ∨
      (x = ⟨r.limit, old.limit⟩ ∧ r.limit < old.limit)) : LandOK L1 := by
  have hsub : ∀ x, x ∈ L1 → (x ∈ L ∧ x ≠ old) ∨
      (old.base ≤ x.base ∧ x.limit ≤ old.limit ∧ x.base < x.limit ∧
        (x = ⟨old.base, r.base⟩ ∨ x = ⟨r.limit, old.limit⟩)) := by
    intro x hx
    rcases (hchar x).1 hx with h | ⟨rfl, h⟩ | ⟨rfl, h⟩
    · exact Or.inl h
    · exact Or.inr ⟨Nat.le_refl _, by simp only; omega, h, Or.inl rfl⟩
    · exact Or.inr ⟨by simp only; omega, Nat.le_refl _, h, Or.inr rfl⟩
  constructor
  · intro x hx
    rcases hsub x hx with ⟨h, _⟩ | ⟨_, _, h, _⟩
    · exact hL.1 x h
    · exact h
  · intro x hx y hy
    rcases hsub x hx with ⟨hxL, hxo⟩ | ⟨hx1, hx2, hx3, hxe⟩ <;>
      rcases hsub y hy with ⟨hyL, hyo⟩ | ⟨hy1, hy2, hy3, hye⟩
    · exact hL.2 x hxL y hyL
    · right
      have := (overlap_false_iff x old).1 (landOK_ne hL hxL hold hxo)
      rw [overlap_false_iff]
      omega
    · right
      have := (overlap_false_iff y old).1 (landOK_ne hL hyL hold hyo)
      rw [overlap_false_iff]
      omega
    · rcases hxe with rfl | rfl <;> rcases hye with rfl | rfl
      · left; rfl
      · right; rw [overlap_false_iff]; simp only; omega
      · right; rw [overlap_false_iff]; simp only; omega
      · left; rfl

theorem landOK_insert {L L1 : List Range} {new r : Range} (hL : LandOK L)
    (hr : r.base < r.limit) (h1 : new.base ≤ r.base) (h2 : r.limit ≤ new.limit)
    (hchar : ∀ x, x ∈ L1 ↔ x = new ∨ (x ∈ L ∧ RangesOverlap x new = false)) : LandOK L1 := by
  constructor
  · intro x hx
    rcases (hchar x).1 hx with rfl | ⟨h, _⟩
    · omega
    · exact hL.1 x h
  · intro x hx y hy
    rcases (hchar x).1 hx with rfl | ⟨hxL, hxo⟩ <;>
      rcases (hchar y).1 hy with rfl | ⟨hyL, hyo⟩
    · left; rfl
    · right; rw [overlap_comm]; exact hyo
    · right; exact hxo
    · exact hL.2 x hxL y hyL

theorem consistent_of_views {E : Type} {V : FreeSpaceView E} {reuse : Nat} {e e1 : E}
    (hl : V.land e1 = V.land e) (hq : V.abq e1 = V.abq e) (h : ABQConsistent V reuse e) :
    ABQConsistent V reuse e1 := by
  unfold ABQConsistent at h ⊢
  rw [hl, hq]
  exact h

theorem protected_of_views {E : Type} {V : FreeSpaceView E} {P : List Range} {e e1 : E}
    (hl : V.land e1 = V.land e) (hq : V.abq e1 = V.abq e) (h : Protected V P e) :
    Protected V P e1 := by
  unfold Protected at h ⊢
  rw [hl, hq]
  exact h

theorem protected_tail {E : Type} {V : FreeSpaceView E} {P : List Range} {p : Range} {e : E}
    (h : Protected V (p :: P) e) : Protected V P e :=
  fun x hx => h x (List.mem_cons_of_mem _ hx)

theorem protected_cons {E : Type} {V : FreeSpaceView E} {P : List Range} {p : Range} {e : E}
    (h : Protected V P e) (h1 : p ∈ V.land e) (h2 : p ∉ V.abq e) : Protected V (p :: P) e := by
  intro x hx
  rcases List.mem_cons.1 hx with rfl | hx
  · exact ⟨h1, h2⟩
  · exact h x hx

theorem push_true_kept {E : Type} {W : World E} {V : FreeSpaceView E}
    (C : FreeSpaceContract W V) {reuse : Nat} {P : List Range} {e : E} {range : Range}
    (hc : ABQConsistent V reuse e) (hp : Protected V P e) (hin : range ∈ V.land e)
    (hsz : reuse ≤ RangeSize range) (hnq : range ∉ V.abq e) (hnp : range ∉ P)
    (hpush : (W.abqPush e range).1 = true) :
    ABQConsistent V reuse (W.abqPush e range).2 ∧ Protected V P (W.abqPush e range).2 := by
  obtain ⟨hL, hpair, hQ⟩ := hc
  have hq := C.pushOK e range hpush
  obtain ⟨hl, _⟩ := C.pushFrame e range
  constructor
  · refine ⟨by rw [hl]; exact hL, ?_, ?_⟩
    · rw [hq, List.pairwise_append]
      refine ⟨hpair, List.pairwise_singleton _ _, ?_⟩
      intro a ha b hb
      rw [List.mem_singleton] at hb
      subst hb
      exact landOK_ne hL (hQ a ha).1 hin (fun h => hnq (h ▸ ha))
    · intro q hq1
      rw [hq, List.mem_append, List.mem_singleton] at hq1
      rw [hl]
      rcases hq1 with h | rfl
      · exact hQ q h
      · exact ⟨hin, hsz⟩
  · intro p hp1
    rw [hl, hq]
    refine ⟨(hp p hp1).1, ?_⟩
    rw [List.mem_append, List.mem_singleton]
    rintro (h | rfl)
    · exact (hp p hp1).2 h
    · exact hnp hp1

theorem push_false_views {E : Type} {W : World E} {V : FreeSpaceView E}
    (C : FreeSpaceContract W V) (e : E) (range : Range)
    (hpush : ¬ (W.abqPush e range).1 = true) :
    V.land (W.abqPush e range).2 = V.land e ∧ V.abq (W.abqPush e range).2 = V.abq e ∧
    V.pending (W.abqPush e range).2 = V.pending e := by
  have hf : (W.abqPush e range).1 = false := by simpa using hpush
  exact ⟨(C.pushFrame e range).1, C.pushFull e range hf, (C.pushFrame e range).2⟩

theorem frag_fresh {X : List Range} {old f : Range}
    (hX : ∀ q ∈ X, RangesOverlap q old = false) (h1 : old.base ≤ f.base)
    (h2 : f.limit ≤ old.limit) (hf : f.base < f.limit) : f ∉ X := by
  intro hmem
  have := (overlap_false_iff f old).1 (hX f hmem)
  omega

theorem delete_purge_kept {E : Type} {W : World E} {V : FreeSpaceView E}
    (C : FreeSpaceContract W V) {reuse : Nat} {P : List Range} {e : E} {r : Range}
    (hc : ABQConsistent V reuse e) (hp : Protected V P e) (hr : r.base < r.limit)
    (hno : ∀ p ∈ P, RangesOverlap p r = false)
    (hok : (W.landDelete e r).1 = ResCode.OK) :
    ABQConsistent V reuse
      (if RangeSize (W.landDelete e r).2.1 ≥ reuse then
        W.abqIterate (W.landDelete e r).2.2 (MVTDeleteOverlapping (W.landDelete e r).2.1)
      else (W.landDelete e r).2.2) ∧
    Protected V P
      (if RangeSize (W.landDelete e r).2.1 ≥ reuse then
        W.abqIterate (W.landDelete e r).2.2 (MVTDeleteOverlapping (W.landDelete e r).2.1)
      else (W.landDelete e r).2.2) ∧
    V.pending
      (if RangeSize (W.landDelete e r).2.1 ≥ reuse then
        W.abqIterate (W.landDelete e r).2.2 (MVTDeleteOverlapping (W.landDelete e r).2.1)
      else (W.landDelete e r).2.2) = V.pending e ∧
    (∀ q ∈ V.abq
      (if RangeSize (W.landDelete e r).2.1 ≥ reuse then
        W.abqIterate (W.landDelete e r).2.2 (MVTDeleteOverlapping (W.landDelete e r).2.1)
      else (W.landDelete e r).2.2), RangesOverlap q (W.landDelete e r).2.1 = false) ∧
    (∀ p ∈ P, RangesOverlap p (W.landDelete e r).2.1 = false) ∧
    (W.landDelete e r).2.1.base ≤ r.base ∧ r.limit ≤ (W.landDelete e r).2.1.limit ∧
    (∀ x, x ∈ V.land
      (if RangeSize (W.landDelete e r).2.1 ≥ reuse then
        W.abqIterate (W.landDelete e r).2.2 (MVTDeleteOverlapping (W.landDelete e r).2.1)
      else (W.landDelete e r).2.2) ↔
      (x ∈ V.land e ∧ x ≠ (W.landDelete e r).2.1) ∨
      (x = ⟨(W.landDelete e r).2.1.base, r.base⟩ ∧ (W.landDelete e r).2.1.base < r.base) ∨
      (x = ⟨r.limit, (W.landDelete e r).2.1.limit⟩ ∧
        r.limit < (W.landDelete e r).2.1.limit)) := by
  obtain ⟨hL, hpair, hQ⟩ := hc
  obtain ⟨hold, h1, h2, hchar, hq0, hpend0⟩ := C.deleteOK e r hL hr hok
  generalize (W.landDelete e r).2.1 = old at *
  generalize (W.landDelete e r).2.2 = e0 at *
  have hL0 : LandOK (V.land e0) := landOK_delete hL hold h1 h2 hr hchar
  have hPold : ∀ p ∈ P, RangesOverlap p old = false := by
    intro p hp1
    apply landOK_ne hL (hp p hp1).1 hold
    rintro rfl
    have := (overlap_false_iff p r).1 (hno p hp1)
    omega
  have hkeep : ∀ x, x ∈ V.land e → x ≠ old → x ∈ V.land e0 :=
    fun x hx hne => (hchar x).2 (Or.inl ⟨hx, hne⟩)
  have hPne : ∀ p ∈ P, p ≠ old := by
    rintro p hp1 rfl
    have := (overlap_false_iff p p).1 (hPold p hp1)
    have := hL.1 p hold
    omega
  by_cases hbig : RangeSize old ≥ reuse
  · simp only [if_pos hbig]
    obtain ⟨hq1, hl1, hpend1⟩ := C.iterate e0 (MVTDeleteOverlapping old) (fun _ => rfl)
    have hfilter : V.abq (W.abqIterate e0 (MVTDeleteOverlapping old)) =
        (V.abq e).filter (fun q => !RangesOverlap q old) := by
      rw [hq1, hq0]
      rfl
    have hQ1 : ∀ q ∈ V.abq (W.abqIterate e0 (MVTDeleteOverlapping old)),
        q ∈ V.abq e ∧ RangesOverlap q old = false := by
      intro q hq
      rw [hfilter, List.mem_filter] at hq
      exact ⟨hq.1, by simpa using hq.2⟩
    have hne : ∀ q ∈ V.abq (W.abqIterate e0 (MVTDeleteOverlapping old)), q ≠ old := by
      rintro q hq rfl
      have := (overlap_false_iff q q).1 (hQ1 q hq).2
      have := hL.1 q hold
      omega
    refine ⟨⟨by rw [hl1]; exact hL0, ?_, ?_⟩, ?_, by rw [hpend1, hpend0],
      fun q hq => (hQ1 q hq).2, hPold, h1, h2, by rw [hl1]; exact hchar⟩
    · rw [hfilter]
      exact List.Pairwise.sublist (List.filter_sublist _) hpair
    · intro q hq
      rw [hl1]
      exact ⟨hkeep q (hQ q (hQ1 q hq).1).1 (hne q hq), (hQ q (hQ1 q hq).1).2⟩
    · intro p hp1
      rw [hl1]
      refine ⟨hkeep p (hp p hp1).1 (hPne p hp1), ?_⟩
      intro hmem
      exact (hp p hp1).2 (hQ1 p hmem).1
  · simp only [if_neg hbig]
    have hne : ∀ q ∈ V.abq e, q ≠ old := by
      rintro q hq rfl
      exact hbig (hQ q hq).2
    refine ⟨⟨hL0, by rw [hq0]; exact hpair, ?_⟩, ?_, hpend0, ?_, hPold, h1, h2, hchar⟩
    · intro q hq
      rw [hq0] at hq
      exact ⟨hkeep q (hQ q hq).1 (hne q hq), (hQ q hq).2⟩
    · intro p hp1
      rw [hq0]
      exact ⟨hkeep p (hp p hp1).1 (hPne p hp1), (hp p hp1).2⟩
    · intro q hq
      rw [hq0] at hq
      exact landOK_ne hL (hQ q hq).1 hold (hne q hq)

theorem kept_refl {E : Type} {V : FreeSpaceView E} {P : List Range} {mvt : MVT E}
    (hc : ABQConsistent V mvt.reuseSize mvt.env) (hp : Protected V P mvt.env) :
    FreeSpaceKept V mvt.reuseSize P mvt.env mvt :=
  ⟨hc, hp, rfl, rfl⟩

theorem kept_of_views {E : Type} {V : FreeSpaceView E} {P : List Range} {reuse : Nat} {e : E}
    {mvt1 : MVT E} (hc : ABQConsistent V reuse e) (hp : Protected V P e)
    (hl : V.land mvt1.env = V.land e) (hq : V.abq mvt1.env = V.abq e)
    (hpe : V.pending mvt1.env = V.pending e) (hr : mvt1.reuseSize = reuse) :
    FreeSpaceKept V reuse P e mvt1 :=
  ⟨consistent_of_views hl hq hc, protected_of_views hl hq hp, hpe, hr⟩

theorem not_overlap_shrink {p : Range} {base limit b l : Nat}
    (h : RangesOverlap p ⟨base, limit⟩ = false) (hb : base ≤ b) (hl : l ≤ limit) :
    RangesOverlap p ⟨b, l⟩ = false := by
  by_cases hbl : b < l
  · have := (overlap_false_iff p ⟨base, limit⟩).1 h
    rw [overlap_false_iff]
    simp only at this ⊢
    omega
  · rw [← Bool.not_eq_true, overlap_iff]
    rintro ⟨h1, h2⟩
    have := (overlap_false_iff p ⟨base, limit⟩).1 h
    simp only at this h1 h2
    omega

theorem freeSpace_fuel {E : Type} {W : World E} {V : FreeSpaceView E}
    (C : FreeSpaceContract W V) :
    ∀ fuel : Nat,
      (∀ (mvt : MVT E) (range : Range) (r : Bool × MVT E) (P : List Range),
        MVTReserve W fuel mvt range = some r → 0 < mvt.reuseSize →
        ABQConsistent V mvt.reuseSize mvt.env → Protected V P mvt.env →
        range ∈ V.land mvt.env → mvt.reuseSize ≤ RangeSize range →
        range ∉ V.abq mvt.env → range ∉ P →
        FreeSpaceKept V mvt.reuseSize P mvt.env r.2) ∧
      (∀ (mvt : MVT E) (base limit : Nat) (success : Bool) (r : Bool × MVT E)
        (P : List Range),
        MVTReturnSegs W fuel mvt base limit success = some r → 0 < mvt.reuseSize →
        ABQConsistent V mvt.reuseSize mvt.env → Protected V P mvt.env →
        (∀ p ∈ P, RangesOverlap p ⟨base, limit⟩ = false) →
        FreeSpaceKept V mvt.reuseSize P mvt.env r.2) ∧
      (∀ (mvt : MVT E) (base limit : Nat) (r : ResCode × MVT E) (P : List Range),
        MVTDelete W fuel mvt base limit = some r → 0 < mvt.reuseSize →
        ABQConsistent V mvt.reuseSize mvt.env → Protected V P mvt.env → base < limit →
        (∀ p ∈ P, RangesOverlap p ⟨base, limit⟩ = false) →
        FreeSpaceKept V mvt.reuseSize P mvt.env r.2) := by
  intro fuel
  induction fuel with
  | zero =>
    refine ⟨?_, ?_, ?_⟩
    · intro mvt range r P h; simp [MVTReserve] at h
    · intro mvt base limit success r P h; simp [MVTReturnSegs] at h
    · intro mvt base limit r P h; simp [MVTDelete] at h
  | succ n ih =>
    obtain ⟨ihR, ihS, ihD⟩ := ih
    refine ⟨?_, ?_, ?_⟩
    · intro mvt range r P h hre hc hp hin hsz hnq hnp
      rw [MVTReserve] at h
      simp only at h
      split at h
      · rename_i hpush
        simp only [Option.some.injEq] at h
        subst h
        obtain ⟨k1, k2⟩ := push_true_kept C hc hp hin hsz hnq hnp hpush
        exact ⟨k1, k2, (C.pushFrame mvt.env range).2, rfl⟩
      · rename_i hpush
        obtain ⟨vl, vq, vp⟩ := push_false_views C mvt.env range hpush
        split at h
        · simp at h
        · rename_i oldRange hpeek
          split at h
          · simp at h
          · rename_i success mvt1 hrs
            have hold : oldRange ∈ V.abq mvt.env := by
              rw [← vq]
              exact C.peek _ _ hpeek
            have hc2 : ABQConsistent V mvt.reuseSize (W.abqPush mvt.env range).2 :=
              consistent_of_views vl vq hc
            have hp2 : Protected V (range :: P) (W.abqPush mvt.env range).2 :=
              protected_of_views vl vq (protected_cons hp hin hnq)
            have hno : ∀ p ∈ range :: P,
                RangesOverlap p ⟨oldRange.base, oldRange.limit⟩ = false := by
              intro p hp1
              have h1 := protected_cons hp hin hnq p hp1
              apply landOK_ne hc.1 h1.1 (hc.2.2 oldRange hold).1
              rintro rfl
              exact h1.2 hold
            obtain ⟨s1, s2, s3, s4⟩ := ihS _ _ _ _ _ (range :: P) hrs hre hc2 hp2 hno
            simp only at s1 s2 s3 s4
            have hin1 := (s2 range (List.mem_cons_self _ _)).1
            have hnq1 := (s2 range (List.mem_cons_self _ _)).2
            split at h
            · split at h
              · rename_i hpush2
                simp only [Option.some.injEq] at h
                subst h
                rw [← s4] at s1 hsz
                obtain ⟨k1, k2⟩ := push_true_kept C s1 (protected_tail s2) hin1 hsz hnq1 hnp
                  hpush2
                rw [s4] at k1
                exact ⟨k1, k2, by
                  show V.pending (W.abqPush mvt1.env range).2 = V.pending mvt.env
                  rw [(C.pushFrame mvt1.env range).2, s3, vp], s4⟩
              · rename_i hpush2
                simp only [Option.some.injEq] at h
                subst h
                obtain ⟨wl, wq, wp⟩ := push_false_views C mvt1.env range hpush2
                exact ⟨consistent_of_views wl wq s1,
                  protected_of_views wl wq (protected_tail s2), by
                    show V.pending (W.abqPush mvt1.env range).2 = V.pending mvt.env
                    rw [wp, s3, vp], s4⟩
            · simp only [Option.some.injEq] at h
              subst h
              exact ⟨s1, protected_tail s2, by
                show V.pending mvt1.env = V.pending mvt.env
                rw [s3, vp], s4⟩
    · intro mvt base limit success r P h hre hc hp hno
      rw [MVTReturnSegs] at h
      split at h
      · rename_i hbl
        split at h
        · simp at h
        · rename_i seg hseg
          obtain ⟨hi1, hi2⟩ := C.segInside _ _ _ hseg
          split at h
          · rename_i hcond
            split at h
            · simp at h
            · rename_i res mvt1 hd
              obtain ⟨d1, d2, d3, d4⟩ := ihD _ _ _ _ P hd hre hc hp (by omega)
                (fun p hp1 => not_overlap_shrink (hno p hp1) hcond.1 hcond.2)
              simp only at d1 d2 d3 d4
              obtain ⟨fl, fq, fp⟩ := C.segFree mvt1.env seg
              have hre2 : 0 < (MVTSegFree W mvt1 seg).reuseSize := by
                show 0 < mvt1.reuseSize
                rw [d4]; exact hre
              have hc2 : ABQConsistent V (MVTSegFree W mvt1 seg).reuseSize
                  (MVTSegFree W mvt1 seg).env := by
                show ABQConsistent V mvt1.reuseSize (W.segFree mvt1.env seg)
                rw [d4]
                exact consistent_of_views fl fq d1
              have hp2 : Protected V P (MVTSegFree W mvt1 seg).env :=
                protected_of_views (e := mvt1.env) fl fq d2
              obtain ⟨s1, s2, s3, s4⟩ := ihS _ _ _ _ _ P h hre2 hc2 hp2
                (fun p hp1 => not_overlap_shrink (hno p hp1) (by omega) (Nat.le_refl _))
              have e4 : (MVTSegFree W mvt1 seg).reuseSize = mvt.reuseSize := d4
              rw [e4] at s1 s4
              refine ⟨s1, s2, ?_, s4⟩
              rw [s3]
              show V.pending (W.segFree mvt1.env seg) = V.pending mvt.env
              rw [fp, d3]
          · exact ihS _ _ _ _ _ P h hre hc hp
              (fun p hp1 => not_overlap_shrink (hno p hp1) (by omega) (Nat.le_refl _))
      · simp only [Option.some.injEq] at h
        subst h
        exact kept_refl hc hp
    · intro mvt base limit r P h hre hc hp hbl hno
      rw [MVTDelete] at h
      simp only at h
      split at h
      · rename_i hfail
        simp only [Option.some.injEq] at h
        subst h
        obtain ⟨fl, fq, fp⟩ := C.deleteFail mvt.env ⟨base, limit⟩ hfail
        exact kept_of_views hc hp fl fq fp rfl
      · rename_i hok0
        have hok : (W.landDelete mvt.env ⟨base, limit⟩).1 = ResCode.OK := by
          by_contra hc0
          exact hok0 hc0
        obtain ⟨c1, p1, pe1, q1, po1, b1, b2, char1⟩ :=
          delete_purge_kept C hc hp (r := ⟨base, limit⟩) hbl hno hok
        simp only at b1 b2 char1
        generalize (W.landDelete mvt.env ⟨base, limit⟩).2.1 = old at *
        generalize hE1 : (if RangeSize old ≥ mvt.reuseSize then
            W.abqIterate (W.landDelete mvt.env ⟨base, limit⟩).2.2 (MVTDeleteOverlapping old)
          else (W.landDelete mvt.env ⟨base, limit⟩).2.2) = env1 at *
        split at h
        · simp at h
        · rename_i mvt2 hleft
          have stepL : ∀ (P1 : List Range), Protected V P1 env1 →
              (old.base < base → (⟨old.base, base⟩ : Range) ∉ P1) →
              ABQConsistent V mvt.reuseSize mvt2.env ∧ Protected V P1 mvt2.env ∧
              V.pending mvt2.env = V.pending mvt.env ∧ mvt2.reuseSize = mvt.reuseSize := by
            intro P1 hP1 hfresh
            split at hleft
            · rename_i hsz
              rw [Option.map_eq_some'] at hleft
              obtain ⟨pr, hpr, rfl⟩ := hleft
              have hne : old.base < base := by
                unfold RangeSize at hsz
                simp only at hsz
                omega
              obtain ⟨k1, k2, k3, k4⟩ := ihR _ _ _ P1 hpr hre c1 hP1
                ((char1 _).2 (Or.inr (Or.inl ⟨rfl, hne⟩))) hsz
                (frag_fresh q1 (Nat.le_refl _) (by simp only; omega) hne) (hfresh hne)
              simp only at k1 k2 k3 k4
              exact ⟨k1, k2, by rw [k3, pe1], k4⟩
            · simp only [Option.some.injEq] at hleft
              subst hleft
              exact ⟨c1, hP1, pe1, rfl⟩
          rw [Option.map_eq_some'] at h
          obtain ⟨mvt3, h3, rfl⟩ := h
          by_cases hright : limit < old.limit
          · have hPr : Protected V ((⟨limit, old.limit⟩ : Range) :: P) env1 :=
              protected_cons p1 ((char1 _).2 (Or.inr (Or.inr ⟨rfl, hright⟩)))
                (frag_fresh q1 (by simp only; omega) (Nat.le_refl _) hright)
            obtain ⟨l1, l2, l3, l4⟩ := stepL _ hPr (by
              intro hne hmem
              rcases List.mem_cons.1 hmem with heq | hmem
              · have : old.base = limit := congrArg Range.base heq
                omega
              · exact frag_fresh (f := ⟨old.base, base⟩) po1 (Nat.le_refl _) (by simp only; omega) hne hmem)
            split at h3
            · rename_i hsz
              rw [Option.map_eq_some'] at h3
              obtain ⟨pr, hpr, rfl⟩ := h3
              have hre3 : 0 < mvt2.reuseSize := by rw [l4]; exact hre
              rw [← l4] at l1
              obtain ⟨k1, k2, k3, k4⟩ := ihR _ _ _ P hpr hre3 l1 (protected_tail l2)
                (l2 _ (List.mem_cons_self _ _)).1 hsz (l2 _ (List.mem_cons_self _ _)).2
                (frag_fresh po1 (by simp only; omega) (Nat.le_refl _) hright)
              rw [l4] at k1 k4
              exact ⟨k1, k2, by rw [k3, l3], k4⟩
            · simp only [Option.some.injEq] at h3
              subst h3
              exact ⟨l1, protected_tail l2, l3, l4⟩
          · obtain ⟨l1, l2, l3, l4⟩ := stepL P p1 (by
              intro hne hmem
              exact frag_fresh (f := ⟨old.base, base⟩) po1 (Nat.le_refl _) (by simp only; omega) hne hmem)
            split at h3
            · rename_i hsz
              exfalso
              unfold RangeSize at hsz
              simp only at hsz
              rw [l4] at hsz
              omega
            · simp only [Option.some.injEq] at h3
              subst h3
              exact ⟨l1, l2, l3, l4⟩

theorem insert_kept {E : Type} {W : World E} {V : FreeSpaceView E}
    (C : FreeSpaceContract W V) (fuel : Nat) (mvt : MVT E) (base limit : Nat)
    (r : ResCode × MVT E) (h : MVTInsert W fuel mvt base limit = some r)
    (hre : 0 < mvt.reuseSize) (hc : ABQConsistent V mvt.reuseSize mvt.env)
    (hbl : base < limit) :
    ABQConsistent V mvt.reuseSize r.2.env ∧ r.2.reuseSize = mvt.reuseSize := by
  unfold MVTInsert at h
  simp only at h
  split at h
  · rename_i hfail
    simp only [Option.some.injEq] at h
    subst h
    obtain ⟨fl, fq⟩ := C.insertFail mvt.env ⟨base, limit⟩ hfail
    exact ⟨consistent_of_views fl fq hc, rfl⟩
  · rename_i hok0
    have hok : (W.landInsert mvt.env ⟨base, limit⟩).1 = ResCode.OK := by
      by_contra hc0
      exact hok0 hc0
    obtain ⟨hL, hpair, hQ⟩ := hc
    obtain ⟨n1, n2, hsub, hchar, hq0⟩ := C.insertOK mvt.env ⟨base, limit⟩ hL hbl hok
    simp only at n1 n2
    generalize (W.landInsert mvt.env ⟨base, limit⟩).2.1 = new at *
    generalize (W.landInsert mvt.env ⟨base, limit⟩).2.2 = e0 at *
    have hL0 : LandOK (V.land e0) := landOK_insert (r := ⟨base, limit⟩) hL hbl n1 n2 hchar
    have hnew : new.base < new.limit := by omega
    split at h
    · rename_i hbig
      rw [Option.map_eq_some'] at h
      obtain ⟨pr, hpr, rfl⟩ := h
      obtain ⟨hq1, hl1, _⟩ := C.iterate e0 (MVTDeleteOverlapping new) (fun _ => rfl)
      have hfilter : V.abq (W.abqIterate e0 (MVTDeleteOverlapping new)) =
          (V.abq mvt.env).filter (fun q => !RangesOverlap q new) := by
        rw [hq1, hq0]
        rfl
      have hQ1 : ∀ q ∈ V.abq (W.abqIterate e0 (MVTDeleteOverlapping new)),
          q ∈ V.abq mvt.env ∧ RangesOverlap q new = false := by
        intro q hq
        rw [hfilter, List.mem_filter] at hq
        exact ⟨hq.1, by simpa using hq.2⟩
      have hc1 : ABQConsistent V mvt.reuseSize (W.abqIterate e0 (MVTDeleteOverlapping new)) := by
        refine ⟨by rw [hl1]; exact hL0, ?_, ?_⟩
        · rw [hfilter]
          exact List.Pairwise.sublist (List.filter_sublist _) hpair
        · intro q hq
          rw [hl1]
          exact ⟨(hchar q).2 (Or.inr ⟨(hQ q (hQ1 q hq).1).1, (hQ1 q hq).2⟩),
            (hQ q (hQ1 q hq).1).2⟩
      obtain ⟨k1, _, _, k4⟩ := (freeSpace_fuel C fuel).1 _ _ _ [] hpr hre hc1
        (fun p hp => absurd hp (List.not_mem_nil p))
        (by rw [hl1]; exact (hchar new).2 (Or.inl rfl)) hbig
        (frag_fresh (fun q hq => (hQ1 q hq).2) (Nat.le_refl _) (Nat.le_refl _) hnew)
        (List.not_mem_nil _)
      exact ⟨k1, k4⟩
    · rename_i hsmall
      simp only [Option.some.injEq] at h
      subst h
      refine ⟨⟨hL0, by rw [hq0]; exact hpair, ?_⟩, rfl⟩
      intro q hq
      rw [hq0] at hq
      refine ⟨(hchar q).2 (Or.inr ⟨(hQ q hq).1, ?_⟩), (hQ q hq).2⟩
      by_contra hov
      have hov1 : RangesOverlap q new = true := by simpa using hov
      obtain ⟨s1, s2⟩ := hsub q (hQ q hq).1 hov1
      have hqs := (hQ q hq).2
      have hqn := hL.1 q (hQ q hq).1
      unfold RangeSize at hqs hsmall
      omega

theorem refillLoop_kept {E : Type} {W : World E} {V : FreeSpaceView E}
    (C : FreeSpaceContract W V) (f : Nat) :
    ∀ (fuel : Nat) (mvt : MVT E) (r : Bool × MVT E × Unit),
      LandIterateLoop W (MVTRefillVisitor W f) fuel mvt () = some r → 0 < mvt.reuseSize →
      ABQConsistent V mvt.reuseSize mvt.env → Protected V (V.pending mvt.env) mvt.env →
      (V.pending mvt.env).Nodup →
      ABQConsistent V mvt.reuseSize r.2.1.env ∧ r.2.1.reuseSize = mvt.reuseSize := by
  intro fuel
  induction fuel with
  | zero =>
    intro mvt r h
    simp [LandIterateLoop] at h
  | succ n ih =>
    intro mvt r h hre hc hp hnd
    rw [LandIterateLoop] at h
    obtain ⟨nl, nq, npend⟩ := C.iterNext mvt.env
    split at h
    · simp only [Option.some.injEq] at h
      subst h
      exact ⟨consistent_of_views nl nq hc, rfl⟩
    · rename_i range hnext
      have hpe := npend range hnext
      rw [hpe] at hp hnd
      have hhead := hp range (List.mem_cons_self _ _)
      have hc2 : ABQConsistent V mvt.reuseSize (W.landIterNext mvt.env).2 :=
        consistent_of_views nl nq hc
      have hp2 : Protected V (V.pending (W.landIterNext mvt.env).2)
          (W.landIterNext mvt.env).2 :=
        protected_of_views nl nq (protected_tail hp)
      have hnd2 := (List.nodup_cons.1 hnd).2
      have hnotin := (List.nodup_cons.1 hnd).1
      split at h
      · simp at h
      · rename_i cont mvt1 closure1 hvis
        have key : ABQConsistent V mvt.reuseSize mvt1.env ∧
            Protected V (V.pending mvt1.env) mvt1.env ∧ (V.pending mvt1.env).Nodup ∧
            mvt1.reuseSize = mvt.reuseSize := by
          unfold MVTRefillVisitor at hvis
          split at hvis
          · simp only [Option.some.injEq, Prod.mk.injEq] at hvis
            obtain ⟨_, rfl, _⟩ := hvis
            exact ⟨hc2, hp2, hnd2, rfl⟩
          · rename_i hbig
            rw [Option.map_eq_some'] at hvis
            obtain ⟨pr, hpr, hpe2⟩ := hvis
            simp only [Prod.mk.injEq] at hpe2
            obtain ⟨_, rfl, _⟩ := hpe2
            obtain ⟨k1, k2, k3, k4⟩ := (freeSpace_fuel C f).1 _ _ _
              (V.pending (W.landIterNext mvt.env).2) hpr hre hc2 hp2
              (by rw [nl]; exact hhead.1) (by simpa using hbig)
              (by rw [nq]; exact hhead.2) hnotin
            simp only at k1 k2 k3 k4
            refine ⟨k1, ?_, ?_, k4⟩
            · rw [k3]; exact k2
            · rw [k3]; exact hnd2
        obtain ⟨k1, k2, k3, k4⟩ := key
        split at h
        · rw [← k4] at k1
          obtain ⟨i1, i2⟩ := ih mvt1 r h (by rw [k4]; exact hre) k1 k2 k3
          rw [k4] at i1 i2
          exact ⟨i1, i2⟩
        · simp only [Option.some.injEq] at h
          subst h
          exact ⟨k1, k4⟩

theorem refill_kept {E : Type} {W : World E} {V : FreeSpaceView E}
    (C : FreeSpaceContract W V) (fuel : Nat) (mvt mvt1 : MVT E)
    (h : MVTRefillABQIfEmpty W fuel mvt = some mvt1) (hre : 0 < mvt.reuseSize)
    (hc : ABQConsistent V mvt.reuseSize mvt.env) :
    ABQConsistent V mvt.reuseSize mvt1.env ∧ mvt1.reuseSize = mvt.reuseSize := by
  unfold MVTRefillABQIfEmpty at h
  split at h
  · rename_i hcond
    rw [Option.map_eq_some'] at h
    obtain ⟨r, hr, rfl⟩ := h
    unfold LandIterate at hr
    obtain ⟨bl, bq, bnd, bmem⟩ := C.iterBegin mvt.env
    have hempty := C.isEmpty mvt.env hcond.2
    have hp0 : Protected V (V.pending (W.landIterBegin mvt.env)) (W.landIterBegin mvt.env) :=
      fun p hp => ⟨by rw [bl]; exact bmem p hp, by rw [bq, hempty]; exact List.not_mem_nil p⟩
    have key := refillLoop_kept C fuel fuel _ r hr (show 0 < mvt.reuseSize from hre)
      (show ABQConsistent V mvt.reuseSize (W.landIterBegin mvt.env) from
        consistent_of_views bl bq hc)
      (show Protected V (V.pending (W.landIterBegin mvt.env)) (W.landIterBegin mvt.env) from
        hp0)
      (show (V.pending (W.landIterBegin mvt.env)).Nodup from bnd)
    exact key
  · simp only [Option.some.injEq] at h
    subst h
    exact ⟨hc, rfl⟩

theorem freeSpace_step {E : Type} {W : World E} {V : FreeSpaceView E}
    (C : FreeSpaceContract W V) {mvt mvt1 : MVT E} (h : FreeSpaceStep W V mvt mvt1)
    (hre : 0 < mvt.reuseSize) (hc : ABQConsistent V mvt.reuseSize mvt.env) :
    ABQConsistent V mvt.reuseSize mvt1.env ∧ mvt1.reuseSize = mvt.reuseSize := by
  cases h
  case insert fuel base limit r hbl h => exact insert_kept C fuel mvt base limit r h hre hc hbl
  case delete fuel base limit r hbl h =>
    obtain ⟨k1, _, _, k4⟩ := (freeSpace_fuel C fuel).2.2 mvt base limit r [] h hre hc
      (fun p hp => absurd hp (List.not_mem_nil p)) hbl
      (fun p hp => absurd hp (List.not_mem_nil p))
    exact ⟨k1, k4⟩
  case reserve fuel range r hin hnq hsz h =>
    obtain ⟨k1, _, _, k4⟩ := (freeSpace_fuel C fuel).1 mvt range r [] h hre hc
      (fun p hp => absurd hp (List.not_mem_nil p)) hin hsz hnq (List.not_mem_nil _)
    exact ⟨k1, k4⟩
  case refill fuel h => exact refill_kept C fuel mvt mvt1 h hre hc

theorem freeSpace_reachable {E : Type} {W : World E} {V : FreeSpaceView E}
    (C : FreeSpaceContract W V) {mvt : MVT E} (h : FreeSpaceReachable W V mvt) :
    0 < mvt.reuseSize ∧ ABQConsistent V mvt.reuseSize mvt.env := by
  induction h with
  | init mvt hre hl hq =>
    refine ⟨hre, ⟨?_, ?_⟩, ?_, ?_⟩
    · intro x hx; rw [hl] at hx; exact absurd hx (List.not_mem_nil x)
    · intro x hx; rw [hl] at hx; exact absurd hx (List.not_mem_nil x)
    · rw [hq]; exact List.Pairwise.nil
    · intro q hq1; rw [hq] at hq1; exact absurd hq1 (List.not_mem_nil q)
  | step _ hs ih =>
    obtain ⟨k1, k2⟩ := freeSpace_step C hs ih.1 ih.2
    rw [← k2] at k1
    exact ⟨by rw [k2]; exact ih.1, k1⟩

/-! ### The list world keeps the contract -/

theorem sampleAbqIterate_filter (v : Range → Bool × Bool) (hv : ∀ r, (v r).2 = true) :
    ∀ l : List Range, sampleAbqIterate v l = l.filter (fun q => !(v q).1) := by
  intro l
  induction l with
  | nil => rfl
  | cons r rs ih =>
    rw [sampleAbqIterate]
    simp only [hv r, if_true, ih, List.filter_cons]
    cases (v r).1 <;> simp

theorem listLandInsert_fail (land : List Range) (r : Range)
    (h : (listLandInsert land r).1 ≠ ResCode.OK) : (listLandInsert land r).2.2 = land := by
  unfold listLandInsert at h ⊢
  split
  · rfl
  · rename_i hn
    rw [if_neg hn] at h
    exact absurd rfl h

theorem listLandInsert_ok {land : List Range} {r : Range} (hL : LandOK land)
    (hr : r.base < r.limit) (h : (listLandInsert land r).1 = ResCode.OK) :
    (listLandInsert land r).2.1.base ≤ r.base ∧ r.limit ≤ (listLandInsert land r).2.1.limit ∧
    (∀ x ∈ land, RangesOverlap x (listLandInsert land r).2.1 = true →
      (listLandInsert land r).2.1.base ≤ x.base ∧
        x.limit ≤ (listLandInsert land r).2.1.limit) ∧
    (∀ x, x ∈ (listLandInsert land r).2.2 ↔
      x = (listLandInsert land r).2.1 ∨
        (x ∈ land ∧ RangesOverlap x (listLandInsert land r).2.1 = false)) := by
  unfold listLandInsert at h ⊢
  by_cases hany : land.any (fun x => RangesOverlap x r) = true
  · rw [if_pos hany] at h
    simp at h
  · rw [if_neg hany]
    simp only
    have hno : ∀ x ∈ land, RangesOverlap x r = false := by
      intro x hx
      by_contra hc
      apply hany
      rw [List.any_eq_true]
      exact ⟨x, hx, by simpa using hc⟩
    have hlo : ∀ l, land.find? (fun x => decide (x.limit = r.base)) = some l →
        l ∈ land ∧ l.limit = r.base := by
      intro l hl
      exact ⟨List.mem_of_find?_eq_some hl, by simpa using List.find?_some hl⟩
    have hhi : ∀ l, land.find? (fun x => decide (x.base = r.limit)) = some l →
        l ∈ land ∧ l.base = r.limit := by
      intro l hl
      exact ⟨List.mem_of_find?_eq_some hl, by simpa using List.find?_some hl⟩
    have hb : ((land.find? (fun x => decide (x.limit = r.base))).map Range.base).getD r.base
        ≤ r.base := by
      cases hf : land.find? (fun x => decide (x.limit = r.base)) with
      | none => simp
      | some l =>
        obtain ⟨h1, h2⟩ := hlo l hf
        have := hL.1 l h1
        simp only [Option.map_some', Option.getD_some]
        omega
    have hl : r.limit ≤
        ((land.find? (fun x => decide (x.base = r.limit))).map Range.limit).getD r.limit := by
      cases hf : land.find? (fun x => decide (x.base = r.limit)) with
      | none => simp
      | some l =>
        obtain ⟨h1, h2⟩ := hhi l hf
        have := hL.1 l h1
        simp only [Option.map_some', Option.getD_some]
        omega
    refine ⟨hb, hl, ?_, ?_⟩
    · intro x hx hov
      have hxr := (overlap_false_iff x r).1 (hno x hx)
      have hxn := hL.1 x hx
      rw [overlap_iff] at hov
      simp only at hov
      rcases hxr with hxr | hxr
      · -- `x` lies above `r`: it is the upper neighbour
        cases hf : land.find? (fun x => decide (x.base = r.limit)) with
        | none =>
          rw [hf] at hov
          simp only [Option.map_none', Option.getD_none] at hov
          omega
        | some l =>
          obtain ⟨h1, h2⟩ := hhi l hf
          rw [hf] at hov
          simp only [Option.map_some', Option.getD_some] at hov ⊢
          have hln := hL.1 l h1
          have hxl : x = l := by
            rcases hL.2 x hx l h1 with h | h
            · exact h
            · have := (overlap_false_iff x l).1 h
              omega
          subst hxl
          exact ⟨by omega, Nat.le_refl _⟩
      · cases hf : land.find? (fun x => decide (x.limit = r.base)) with
        | none =>
          rw [hf] at hov
          simp only [Option.map_none', Option.getD_none] at hov
          omega
        | some l =>
          obtain ⟨h1, h2⟩ := hlo l hf
          rw [hf] at hov
          simp only [Option.map_some', Option.getD_some] at hov ⊢
          have hln := hL.1 l h1
          have hxl : x = l := by
            rcases hL.2 x hx l h1 with h | h
            · exact h
            · have := (overlap_false_iff x l).1 h
              omega
          subst hxl
          exact ⟨Nat.le_refl _, by omega⟩
    · intro x
      simp only [List.mem_cons, List.mem_filter, Bool.not_eq_true']

theorem listLandDelete_fail (land : List Range) (r : Range)
    (h : (listLandDelete land r).1 ≠ ResCode.OK) : (listLandDelete land r).2.2 = land := by
  unfold listLandDelete at h ⊢
  split
  · rfl
  · rename_i old hf
    rw [hf] at h
    exact absurd rfl h

theorem listLandDelete_ok {land : List Range} {r : Range}
    (h : (listLandDelete land r).1 = ResCode.OK) :
    (listLandDelete land r).2.1 ∈ land ∧
    (listLandDelete land r).2.1.base ≤ r.base ∧ r.limit ≤ (listLandDelete land r).2.1.limit ∧
    (∀ x, x ∈ (listLandDelete land r).2.2 ↔
      (x ∈ land ∧ x ≠ (listLandDelete land r).2.1) ∨
      (x = ⟨(listLandDelete land r).2.1.base, r.base⟩ ∧
        (listLandDelete land r).2.1.base < r.base) ∨
      (x = ⟨r.limit, (listLandDelete land r).2.1.limit⟩ ∧
        r.limit < (listLandDelete land r).2.1.limit)) := by
  unfold listLandDelete at h ⊢
  cases hf : land.find? (fun x => decide (x.base ≤ r.base) && decide (r.limit ≤ x.limit)) with
  | none =>
    rw [hf] at h
    simp at h
  | some old =>
    simp only
    have h1 := List.mem_of_find?_eq_some hf
    have h2 := List.find?_some hf
    simp only [Bool.and_eq_true, decide_eq_true_eq] at h2
    refine ⟨h1, h2.1, h2.2, ?_⟩
    intro x
    simp only [List.mem_append, List.mem_filter, decide_eq_true_eq, leftFrag, rightFrag]
    constructor
    · rintro ((h | h) | h)
      · exact Or.inl h
      · split at h
        · rename_i hlt
          rw [List.mem_singleton] at h
          exact Or.inr (Or.inl ⟨h, hlt⟩)
        · exact absurd h (List.not_mem_nil x)
      · split at h
        · rename_i hlt
          rw [List.mem_singleton] at h
          exact Or.inr (Or.inr ⟨h, hlt⟩)
        · exact absurd h (List.not_mem_nil x)
    · rintro (h | ⟨h, hlt⟩ | ⟨h, hlt⟩)
      · exact Or.inl (Or.inl h)
      · left; right
        rw [if_pos hlt, List.mem_singleton]
        exact h
      · right
        rw [if_pos hlt, List.mem_singleton]
        exact h

theorem listWorld_contract : FreeSpaceContract listWorld listView where
  segInside := by
    intro e a s h
    have := List.find?_some h
    simpa using this
  segFree := fun _ _ => ⟨rfl, rfl, rfl⟩
  pushOK := by
    intro e r h
    simp only [listWorld, listView] at h ⊢
    split at h
    · rename_i hlt
      rw [if_pos hlt]
    · simp at h
  pushFull := by
    intro e r h
    simp only [listWorld, listView] at h ⊢
    split at h
    · simp at h
    · rename_i hlt
      rw [if_neg hlt]
  pushFrame := by
    intro e r
    simp only [listWorld, listView]
    split <;> exact ⟨rfl, rfl⟩
  peek := by
    intro e r h
    exact List.mem_of_mem_head? h
  isEmpty := by
    intro e h
    exact List.isEmpty_iff.1 h
  iterate := by
    intro e v hv
    exact ⟨sampleAbqIterate_filter v hv e.abq, rfl, rfl⟩
  insertFail := by
    intro e r h
    exact ⟨listLandInsert_fail e.land r h, rfl⟩
  insertOK := by
    intro e r hL hr h
    obtain ⟨h1, h2, h3, h4⟩ := @listLandInsert_ok e.land r hL hr h
    exact ⟨h1, h2, h3, h4, rfl⟩
  deleteFail := by
    intro e r h
    exact ⟨listLandDelete_fail e.land r h, rfl, rfl⟩
  deleteOK := by
    intro e r _ _ h
    obtain ⟨h1, h2, h3, h4⟩ := @listLandDelete_ok e.land r h
    exact ⟨h1, h2, h3, h4, rfl, rfl⟩
  iterBegin := by
    intro e
    refine ⟨rfl, rfl, List.nodup_dedup e.land, ?_⟩
    intro p hp
    exact List.mem_dedup.1 hp
  iterNext := by
    intro e
    simp only [listWorld, listView]
    cases hi : e.iter with
    | nil => exact ⟨rfl, rfl, fun r h => by simp at h⟩
    | cons x xs =>
      refine ⟨rfl, rfl, ?_⟩
      intro r h
      simp only [Option.some.injEq] at h
      rw [h]

theorem insert_purges_then_pushes {E : Type} {W : World E} {V : FreeSpaceView E}
    (C : FreeSpaceContract W V) (fuel : Nat) (mvt : MVT E) (base limit : Nat)
    (hbl : base < limit) (hL : LandOK (V.land mvt.env))
    (hok : (W.landInsert mvt.env ⟨base, limit⟩).1 = ResCode.OK)
    (hbig : RangeSize (W.landInsert mvt.env ⟨base, limit⟩).2.1 ≥ mvt.reuseSize)
    (hpush : (W.abqPush
      (W.abqIterate (W.landInsert mvt.env ⟨base, limit⟩).2.2
        (MVTDeleteOverlapping (W.landInsert mvt.env ⟨base, limit⟩).2.1))
      (W.landInsert mvt.env ⟨base, limit⟩).2.1).1 = true) :
    ∃ mvt1, MVTInsert W (fuel + 1) mvt base limit = some (ResCode.OK, mvt1) ∧
      V.abq mvt1.env =
        (V.abq mvt.env).filter
          (fun q => !RangesOverlap q (W.landInsert mvt.env ⟨base, limit⟩).2.1) ++
        [(W.landInsert mvt.env ⟨base, limit⟩).2.1] := by
  obtain ⟨_, _, _, _, hq0⟩ := C.insertOK mvt.env ⟨base, limit⟩ hL hbl hok
  obtain ⟨hq1, _, _⟩ := C.iterate (W.landInsert mvt.env ⟨base, limit⟩).2.2
    (MVTDeleteOverlapping (W.landInsert mvt.env ⟨base, limit⟩).2.1) (fun _ => rfl)
  have hq2 := C.pushOK _ _ hpush
  refine ⟨{ mvt with
      env := (W.abqPush
        (W.abqIterate (W.landInsert mvt.env ⟨base, limit⟩).2.2
          (MVTDeleteOverlapping (W.landInsert mvt.env ⟨base, limit⟩).2.1))
        (W.landInsert mvt.env ⟨base, limit⟩).2.1).2 }, ?_, ?_⟩
  rotate_left
  · show V.abq (W.abqPush _ _).2 = _
    rw [hq2, hq1, hq0]
    rfl
  · unfold MVTInsert
    simp only
    rw [if_neg (by rw [hok]; exact fun h => h rfl), if_pos hbig, MVTReserve]
    simp only
    rw [if_pos hpush]
    rfl

theorem delete_purges_old {E : Type} {W : World E} {V : FreeSpaceView E}
    (C : FreeSpaceContract W V) (fuel : Nat) (mvt : MVT E) (base limit : Nat)
    (hbl : base < limit) (hL : LandOK (V.land mvt.env))
    (hok : (W.landDelete mvt.env ⟨base, limit⟩).1 = ResCode.OK)
    (hbig : RangeSize (W.landDelete mvt.env ⟨base, limit⟩).2.1 ≥ mvt.reuseSize)
    (hleft : RangeSize ⟨(W.landDelete mvt.env ⟨base, limit⟩).2.1.base, base⟩ < mvt.reuseSize)
    (hright : RangeSize ⟨limit, (W.landDelete mvt.env ⟨base, limit⟩).2.1.limit⟩
      < mvt.reuseSize) :
    ∃ mvt1, MVTDelete W (fuel + 1) mvt base limit = some (ResCode.OK, mvt1) ∧
      V.abq mvt1.env =
        (V.abq mvt.env).filter
          (fun q => !RangesOverlap q (W.landDelete mvt.env ⟨base, limit⟩).2.1) := by
  obtain ⟨_, _, _, _, hq0, _⟩ := C.deleteOK mvt.env ⟨base, limit⟩ hL hbl hok
  obtain ⟨hq1, _, _⟩ := C.iterate (W.landDelete mvt.env ⟨base, limit⟩).2.2
    (MVTDeleteOverlapping (W.landDelete mvt.env ⟨base, limit⟩).2.1) (fun _ => rfl)
  refine ⟨{ mvt with
      env := W.abqIterate (W.landDelete mvt.env ⟨base, limit⟩).2.2
        (MVTDeleteOverlapping (W.landDelete mvt.env ⟨base, limit⟩).2.1) }, ?_, ?_⟩
  rotate_left
  · show V.abq (W.abqIterate _ _) = _
    rw [hq1, hq0]
    rfl
  · rw [MVTDelete]
    simp only
    rw [if_neg (by rw [hok]; exact fun h => h rfl), if_pos hbig,
      if_neg (Nat.not_le.2 hleft)]
    simp only
    rw [if_neg (Nat.not_le.2 hright)]
    rfl

/-- C34 (ABQ consistency under free-space updates): let the land, the queue
and `SegOfAddr` behave as `FreeSpaceContract` says.  In every pool reached from
a pool with an empty land and an empty queue by `MVTInsert`, `MVTDelete`,
`MVTReserve` and `MVTRefillABQIfEmpty`, no two ranges of the queue overlap, and
every range of the queue has at least `reuseSize` bytes and is a range that
the land stores.  An insert whose coalesced range has at least `reuseSize`
bytes leaves on the queue the ranges that do not overlap the coalesced range,
and behind them the coalesced range, when the queue takes it at once; a delete
from a stored range of at least `reuseSize` bytes whose fragments on both sides
are shorter than `reuseSize` leaves on the queue the ranges that do not overlap
that stored range. -/
theorem abq_consistent_with_land {E : Type} (W : World E) (V : FreeSpaceView E)
    (C : FreeSpaceContract W V) :
    (∀ mvt : MVT E, FreeSpaceReachable W V mvt →
      (V.abq mvt.env).Pairwise (fun a b => RangesOverlap a b = false) ∧
      ∀ q ∈ V.abq mvt.env, mvt.reuseSize ≤ RangeSize q ∧ q ∈ V.land mvt.env) ∧
    (∀ (fuel : Nat) (mvt : MVT E) (base limit : Nat), base < limit →
      LandOK (V.land mvt.env) →
      (W.landInsert mvt.env ⟨base, limit⟩).1 = ResCode.OK →
      RangeSize (W.landInsert mvt.env ⟨base, limit⟩).2.1 ≥ mvt.reuseSize →
      (W.abqPush
        (W.abqIterate (W.landInsert mvt.env ⟨base, limit⟩).2.2
          (MVTDeleteOverlapping (W.landInsert mvt.env ⟨base, limit⟩).2.1))
        (W.landInsert mvt.env ⟨base, limit⟩).2.1).1 = true →
      ∃ mvt1, MVTInsert W (fuel + 1) mvt base limit = some (ResCode.OK, mvt1) ∧
        V.abq mvt1.env =
          (V.abq mvt.env).filter
            (fun q => !RangesOverlap q (W.landInsert mvt.env ⟨base, limit⟩).2.1) ++
          [(W.landInsert mvt.env ⟨base, limit⟩).2.1]) ∧
    (∀ (fuel : Nat) (mvt : MVT E) (base limit : Nat), base < limit →
      LandOK (V.land mvt.env) →
      (W.landDelete mvt.env ⟨base, limit⟩).1 = ResCode.OK →
      RangeSize (W.landDelete mvt.env ⟨base, limit⟩).2.1 ≥ mvt.reuseSize →
      RangeSize ⟨(W.landDelete mvt.env ⟨base, limit⟩).2.1.base, base⟩ < mvt.reuseSize →
      RangeSize ⟨limit, (W.landDelete mvt.env ⟨base, limit⟩).2.1.limit⟩ < mvt.reuseSize →
      ∃ mvt1, MVTDelete W (fuel + 1) mvt base limit = some (ResCode.OK, mvt1) ∧
        V.abq mvt1.env =
          (V.abq mvt.env).filter
            (fun q => !RangesOverlap q (W.landDelete mvt.env ⟨base, limit⟩).2.1)) := by
  refine ⟨?_, ?_, ?_⟩
  · intro mvt h
    obtain ⟨_, _, hpair, hQ⟩ := freeSpace_reachable C h
    exact ⟨hpair, fun q hq => ⟨(hQ q hq).2, (hQ q hq).1⟩⟩
  · intro fuel mvt base limit hbl hL hok hbig hpush
    exact insert_purges_then_pushes C fuel mvt base limit hbl hL hok hbig hpush
  · intro fuel mvt base limit hbl hL hok hbig hleft hright
    exact delete_purges_old C fuel mvt base limit hbl hL hok hbig hleft hright

theorem listPool_insert3 :
    MVTInsert listWorld 3 listPool 65536 73728 =
      some (ResCode.OK, listPoolWith 49152 36864 14745 listSegs [⟨65536, 73728⟩]
        [⟨65536, 73728⟩]) ∧
    MVTInsert listWorld 3
        (listPoolWith 49152 36864 14745 listSegs [⟨65536, 73728⟩] [⟨65536, 73728⟩])
        77824 86016 =
      some (ResCode.OK, listPoolWith 49152 36864 14745 listSegs
        [⟨77824, 86016⟩, ⟨65536, 73728⟩] [⟨65536, 73728⟩, ⟨77824, 86016⟩]) ∧
    MVTInsert listWorld 3
        (listPoolWith 49152 36864 14745 listSegs [⟨77824, 86016⟩, ⟨65536, 73728⟩]
          [⟨65536, 73728⟩, ⟨77824, 86016⟩])
        90112 98304 =
      some (ResCode.OK, listPoolFull) :=
  ⟨rfl, rfl, rfl⟩

theorem listPool_insert_full :
    MVTInsert listWorld 5 listPoolFull 102400 110592 = some (ResCode.OK, listPoolReturned) :=
  rfl

theorem listPool_insert_join :
    MVTInsert listWorld 5 listPoolReturned 73728 77824 = some (ResCode.OK, listPoolJoined) :=
  rfl

/-- Witness for C34: in the list world the free ranges `[65536, 73728)`,
`[77824, 86016)` and `[90112, 98304)` are inserted and fill the queue of depth
3; the insertion of `[102400, 110592)` returns the segments of the oldest range
of the queue to the arena; the insertion of `[73728, 77824)` joins it with
`[77824, 86016)`, whose entry is purged before the joined range is pushed. -/
theorem abq_consistent_with_land_witness :
    listView.abq listPoolJoined.env =
      [⟨90112, 98304⟩, ⟨102400, 110592⟩, ⟨73728, 86016⟩] ∧
    (listView.abq listPoolJoined.env).Pairwise (fun a b => RangesOverlap a b = false) ∧
    ∀ q ∈ listView.abq listPoolJoined.env,
      listPoolJoined.reuseSize ≤ RangeSize q ∧ q ∈ listView.land listPoolJoined.env :=
  ⟨rfl,
    (abq_consistent_with_land listWorld listView listWorld_contract).1 listPoolJoined
      (FreeSpaceReachable.step
        (FreeSpaceReachable.step
          (FreeSpaceReachable.step
            (FreeSpaceReachable.step
              (FreeSpaceReachable.step
                (FreeSpaceReachable.init listPool (by decide) rfl rfl)
                (FreeSpaceStep.insert 3 listPool 65536 73728 _ (by decide)
                  listPool_insert3.1))
              (FreeSpaceStep.insert 3 _ 77824 86016 _ (by decide) listPool_insert3.2.1))
            (FreeSpaceStep.insert 3 _ 90112 98304 _ (by decide) listPool_insert3.2.2))
          (FreeSpaceStep.insert 5 listPoolFull 102400 110592 _ (by decide)
            listPool_insert_full))
        (FreeSpaceStep.insert 5 listPoolReturned 73728 77824 _ (by decide)
          listPool_insert_join))⟩

end MPS
